import Mathlib

/-!
# POJ solutions: suffix arrays, Fenwick trees, union-find and segment tree

A shallow embedding of the functions of the solutions 1182, 1990, 2777, 3277, 3294, 3321
and 3415 of the repository, and the properties proved of them.
-/

namespace Poj

/-- One global `int` (or `char`) array of the program: a cell for every index. -/
abbrev Arr := Nat → Nat

/-- The array after `a[i] = v`. -/
def setAt (a : Arr) (i v : Nat) : Arr := fun k => if k = i then v else a k

/-- The loop `for (i = lo; i < lo + cnt; i++) body`. -/
def forUp {σ : Type} (lo : Nat) : Nat → (Nat → σ → σ) → σ → σ
  | 0, _, s => s
  | k + 1, body, s => body (lo + k) (forUp lo k body s)

/-- The loop `for (i = cnt - 1; i >= 0; i--) body`. -/
def forDown {σ : Type} : Nat → (Nat → σ → σ) → σ → σ
  | 0, _, s => s
  | k + 1, body, s => forDown k body (body k s)

/-- The global buffers of the suffix array API (3294.c lines 76-86, 3415.c lines 42-52). -/
structure Mem where
  suffix : Arr
  rank : Arr
  height : Arr
  fst_buf : Arr
  snd_buf : Arr
  bucket : Arr

/-- The loop `for (i = 0; i < range; i++) bucket[i] = 0`. -/
def zeroBucket (range : Nat) (bucket : Arr) : Arr :=
  forUp 0 range (fun i b => setAt b i 0) bucket

/-- The loop `for (i = 1; i < range; i++) bucket[i] += bucket[i-1]`. -/
def sumBucket (range : Nat) (bucket : Arr) : Arr :=
  forUp 1 (range - 1) (fun i b => setAt b i (b i + b (i - 1))) bucket

/-- The loop `for (i = len-1; i >= 0; i--) suffix[--bucket[key[item[i]]]] = item[i]`,
on the pair `(bucket, suffix)`. -/
def placeAll (len : Nat) (key item : Arr) (bs : Arr × Arr) : Arr × Arr :=
  forDown len (fun i bs =>
    (setAt bs.1 (key (item i)) (bs.1 (key (item i)) - 1),
     setAt bs.2 (bs.1 (key (item i)) - 1) (item i))) bs

/-- Lines 105-115 of 3294.c: the first key is the character, and `suffix` is
bucket-sorted on it. The result is `(fst_key, bucket, suffix)`. -/
def firstSort (str : Arr) (len range : Nat) (fst_key bucket suffix : Arr) :
    Arr × Arr × Arr :=
  let b0 := zeroBucket range bucket
  let fb := forUp 0 len (fun i (fb : Arr × Arr) =>
    (setAt fb.1 i (str i), setAt fb.2 (str i) (fb.2 (str i) + 1))) (fst_key, b0)
  let b2 := sumBucket range fb.2
  let bs := placeAll len fb.1 (fun i => i) (b2, suffix)
  (fb.1, bs.1, bs.2)

/-- The locals of `init_suffix_array` during the doubling loop, together with
the arrays its two pointers refer to. `swapped` tells that `fst_key` points to
`snd_buf`. -/
structure Keys where
  suffix : Arr
  bucket : Arr
  fst_key : Arr
  snd_key : Arr
  swapped : Bool
  p : Nat
  range : Nat

/-- Lines 124-132: `snd_key` lists the offsets by their second key. The result
is `(snd_key, p)`. -/
def fillSnd (len j : Nat) (suffix snd_key : Arr) : Arr × Nat :=
  let s1 := forUp (len - j) j (fun i (sp : Arr × Nat) => (setAt sp.1 sp.2 i, sp.2 + 1))
    (snd_key, 0)
  forUp 0 len (fun i (sp : Arr × Nat) =>
    if j ≤ suffix i then (setAt sp.1 sp.2 (suffix i - j), sp.2 + 1) else sp) s1

/-- Lines 135-138: the bucket sort on the first key of the offsets listed in
`snd_key`. The result is `(bucket, suffix)`. -/
def keySort (len range : Nat) (fst_key snd_key bucket suffix : Arr) : Arr × Arr :=
  let b0 := zeroBucket range bucket
  let b1 := forUp 0 len (fun i b => setAt b (fst_key (snd_key i)) (b (fst_key (snd_key i)) + 1)) b0
  let b2 := sumBucket range b1
  placeAll len fst_key snd_key (b2, suffix)

/-- Lines 141-148: after the pointer swap `old` is the former first key and
`new` the buffer that receives the new one. The result is `(fst_key, p)`. -/
def rerank (len j : Nat) (suffix old new : Arr) : Arr × Nat :=
  forUp 1 (len - 1) (fun i (fp : Arr × Nat) =>
    if old (suffix i) = old (suffix (i - 1)) ∧ old (suffix i + j) = old (suffix (i - 1) + j)
    then (setAt fp.1 (suffix i) (fp.2 - 1), fp.2)
    else (setAt fp.1 (suffix i) fp.2, fp.2 + 1)) (setAt new (suffix 0) 0, 1)

/-- One pass of the doubling loop body, lines 124-151, with step `j`. -/
def doublingStep (len j : Nat) (k : Keys) : Keys :=
  let sp := fillSnd len j k.suffix k.snd_key
  let bs := keySort len k.range k.fst_key sp.1 k.bucket k.suffix
  let fp := rerank len j bs.2 k.fst_key sp.1
  { suffix := bs.2, bucket := bs.1, fst_key := fp.1, snd_key := k.fst_key,
    swapped := !k.swapped, p := fp.2, range := fp.2 }

/-- The loop `for (j = 1; p < len; j *= 2)` of lines 123-152. The first argument
bounds the number of passes; `none` stands for a run that exceeds it or that
starts a pass with `len - j` negative. -/
def doubling (len : Nat) : Nat → Nat → Keys → Option Keys
  | 0, _, k => if k.p < len then none else some k
  | fuel + 1, j, k =>
    if k.p < len then
      if j ≤ len then doubling len fuel (2 * j) (doublingStep len j k) else none
    else some k

/-- The inner loop of line 159, `for (...; str[i+p] == str[j+p]; p++) ;`. The
first argument bounds the number of tests; `none` stands for a run that exceeds it. -/
def matchLen (str : Arr) (i j : Nat) : Nat → Nat → Option Nat
  | 0, _ => none
  | fuel + 1, p => if str (i + p) = str (j + p) then matchLen str i j fuel (p + 1) else some p

/-- Lines 156-160: the height loop, on the pair `(height, p)`. `none` stands for
a run that reads `suffix[-1]` or whose inner loop leaves the buffer of `cap` cells. -/
def heightLoop (cap : Nat) (str suffix rank : Arr) (len : Nat) (height : Arr) :
    Option (Arr × Nat) :=
  forUp 0 (len - 1) (fun i st =>
    st.bind (fun (hp : Arr × Nat) =>
      if rank i = 0 then none
      else (matchLen str i (suffix (rank i - 1)) cap (hp.2 - 1)).map
        (fun p => (setAt hp.1 (rank i) p, p)))) (some (height, 0))

/-- The function `init_suffix_array(str, len, range)` of 3294.c (lines 96-161)
and of 3415.c (lines 62-127), acting on the global buffers. `cap` is `ARR_SIZE`. -/
def init_suffix_array (cap : Nat) (str : Arr) (len range : Nat) (m : Mem) : Option Mem :=
  let f := firstSort str len range m.fst_buf m.bucket m.suffix
  (doubling len len 1
    { suffix := f.2.2, bucket := f.2.1, fst_key := f.1, snd_key := m.snd_buf,
      swapped := false, p := 1, range := range }).bind (fun k =>
    let rank := forUp 1 (len - 1) (fun i r => setAt r (k.suffix i) i) m.rank
    (heightLoop cap str k.suffix rank len m.height).map (fun hp =>
      { suffix := k.suffix, rank := rank, height := hp.1,
        fst_buf := if k.swapped then k.snd_key else k.fst_key,
        snd_buf := if k.swapped then k.fst_key else k.snd_key,
        bucket := k.bucket }))


/-- The array that holds the list `l` from index 0 on and zero elsewhere. -/
def ofList (l : List Nat) : Arr := fun i => l.getD i 0

/-- The buffers of a program that has just started: all zero. -/
def zeroMem : Mem := ⟨fun _ => 0, fun _ => 0, fun _ => 0, fun _ => 0, fun _ => 0, fun _ => 0⟩

/-- The extended text: the character plus one inside `[0, n)`, zero from `n` on. -/
def ext (str : Arr) (n i : Nat) : Nat := if i < n then str i + 1 else 0

/-- The `j` characters of the extended text from offset `a` on. -/
def keyOf (str : Arr) (n j a : Nat) : List Nat := (List.range j).map (fun k => ext str n (a + k))

/-- The suffix of `str[0..n)` that starts at offset `a`. -/
def sufList (str : Arr) (n a : Nat) : List Nat := (List.range (n - a)).map (fun k => str (a + k))

/-- The brute-force length of the longest common prefix of two sequences. -/
def lcp : List Nat → List Nat → Nat
  | x :: xs, y :: ys => if x = y then lcp xs ys + 1 else 0
  | _, _ => 0

/-- `f` maps `[0, n)` into itself without repetition. -/
def PermOn (n : Nat) (f : Arr) : Prop :=
  (∀ i, i < n → f i < n) ∧ (∀ i i', i < n → i' < n → f i = f i' → i = i')

namespace P3294

/-- The constant `MAX_N` of 3294.c. -/
def MAX_N : Nat := 101

/-- The constant `MAX_LEN` of 3294.c. -/
def MAX_LEN : Nat := 1001

/-- The constant `ARR_SIZE` of 3294.c. -/
def ARR_SIZE : Nat := MAX_N * MAX_LEN

/-- The globals of 3294.c: the suffix array buffers, `belong`, `n`, `str_len` and `str`. -/
structure Prog where
  mem : Mem
  belong : Arr
  n : Nat
  str_len : Nat
  str : Arr

/-- A program that has just started: every global is zero. -/
def start : Prog := ⟨zeroMem, fun _ => 0, 0, 0, fun _ => 0⟩

/-- Lines 287-295 of `main`: the characters of input string `i` (their codes) are copied
to `str`, on the triple `(belong, str, str_len)`. -/
def copyString (i : Nat) : List Nat → Arr × Arr × Nat → Arr × Arr × Nat
  | [], s => s
  | c :: cs, s => copyString i cs (setAt s.1 s.2.2 i, setAt s.2.1 s.2.2 (c - 97 + 1), s.2.2 + 1)

/-- Lines 283-300 of `main`: the loop over the input strings, from string `i` on. -/
def readStrings : Nat → List (List Nat) → Arr × Arr × Nat → Arr × Arr × Nat
  | _, [], s => s
  | i, t :: ts, s =>
    readStrings (i + 1) ts
      ((copyString i t s).1, setAt (copyString i t s).2.1 (copyString i t s).2.2 (27 + i),
        (copyString i t s).2.2 + 1)

/-- Lines 282-304 of `main`: one test case is read and the suffix array built. -/
def load (strs : List (List Nat)) (g : Prog) : Option Prog :=
  let s := readStrings 0 strs (g.belong, g.str, 0)
  let str := setAt s.2.1 (s.2.2 - 1) 0
  (init_suffix_array ARR_SIZE str s.2.2 127 g.mem).map (fun m =>
    { mem := m, belong := s.1, n := strs.length, str_len := s.2.2, str := str })

/-- Lines 198-205 (and 240-247): the two suffixes of index `i` are marked, on the pair
`(visited, match_cnt)`. -/
def visit (g : Prog) (i : Nat) (vm : Arr × Nat) : Arr × Nat :=
  let v1 : Arr × Nat :=
    if vm.1 (g.belong (g.mem.suffix i)) = 0
    then (setAt vm.1 (g.belong (g.mem.suffix i)) 1, vm.2 + 1) else vm
  if v1.1 (g.belong (g.mem.suffix (i - 1))) = 0
  then (setAt v1.1 (g.belong (g.mem.suffix (i - 1))) 1, v1.2 + 1) else v1

/-- The loop of `check` (lines 182-218) from index `i` on, with `k` passes left. -/
def checkLoop (g : Prog) (len : Nat) : Nat → Nat → Arr × Nat → Nat
  | 0, _, _ => 0
  | k + 1, i, vm =>
    if len ≤ g.mem.height i then checkLoop g len k (i + 1) (visit g i vm)
    else if g.n / 2 < vm.2 then 1
    else checkLoop g len k (i + 1) (fun _ => 0, 0)

/-- The function `check(len)` of 3294.c, lines 175-221. -/
def check (g : Prog) (len : Nat) : Nat :=
  checkLoop g len (g.str_len - 2) 2 (fun _ => 0, 0)

/-- The line that `print` writes at lines 257-259. -/
def line (g : Prog) (len match_base : Nat) : List Nat :=
  (List.range len).map (fun i => g.str (match_base + i) + 97 - 1)

/-- The loop of `print` (lines 233-267) from index `i` on, with `k` passes left; `mb` is
`match_base` and `out` the lines written so far. -/
def printLoop (g : Prog) (len : Nat) : Nat → Nat → Arr × Nat → Nat → List (List Nat) →
    List (List Nat)
  | 0, _, _, _, out => out
  | k + 1, i, vm, mb, out =>
    if len ≤ g.mem.height i then
      printLoop g len k (i + 1) (visit g i vm) (g.mem.suffix i) out
    else
      printLoop g len k (i + 1) (fun _ => 0, 0) mb
        (if g.n / 2 < vm.2 then out ++ [line g len mb] else out)

/-- The function `print(len)` of 3294.c, lines 226-269, as the list of the lines it
writes. `mb0` is what the uninitialised `match_base` holds. -/
def print (g : Prog) (len mb0 : Nat) : List (List Nat) :=
  printLoop g len (g.str_len - 1) 2 (fun _ => 0, 0) mb0 []

/-- The binary search of lines 308-313, with `fuel` passes left; `none` stands for a
search that needs more. -/
def search (g : Prog) : Nat → Nat → Nat → Option Nat
  | 0, l, r => if l < r then none else some l
  | fuel + 1, l, r =>
    if l < r then
      if check g ((l + r + 1) / 2) ≠ 0 then search g fuel ((l + r + 1) / 2) r
      else search g fuel l ((l + r + 1) / 2 - 1)
    else some l

/-- The value of `l` after the binary search of `main`. -/
def longest (g : Prog) : Option Nat := search g MAX_LEN 0 MAX_LEN

end P3294

namespace P3415

/-- The constant `ARR_SIZE` of 3415.c. -/
def ARR_SIZE : Nat := 200002

/-- The globals of 3415.c: the suffix array buffers, `len_of_A`, `str_len` and `str`. -/
structure Prog where
  mem : Mem
  len_of_A : Nat
  str_len : Nat
  str : Arr

/-- A program that has just started: the globals are zero and `main` has set
`str_len = 1`. -/
def start : Prog := ⟨zeroMem, 0, 1, fun _ => 0⟩

/-- The copy loops of lines 285-287 and 296-298, on the pair `(str, str_len)`. -/
def copyBytes : List Nat → Arr × Nat → Arr × Nat
  | [], s => s
  | c :: cs, s => copyBytes cs (setAt s.1 s.2 c, s.2 + 1)

/-- Lines 284-302 and 308 of `main`: one test case is read and the suffix array built;
`str_len` is kept as `init_suffix_array` received it. -/
def load (a b : List Nat) (g : Prog) : Option Prog :=
  let s1 := copyBytes a (g.str, 1)
  let s3 := copyBytes b (setAt s1.1 s1.2 64, s1.2 + 1)
  let str := setAt s3.1 s3.2 0
  (init_suffix_array ARR_SIZE str (s3.2 + 1) 127 g.mem).map (fun m =>
    { mem := m, len_of_A := s1.2 - 1, str_len := s3.2 + 1, str := str })

/-- The loop of lines 210-216 (and 252-255): the layers not lower than `h` are popped
from the stack, top first, on the pair `(substr_num, layer_num)`. A layer is
`(cnt, height)`. -/
def popLayers (h : Nat) : List (Nat × Nat) → Int × Nat → List (Nat × Nat) × Int × Nat
  | [], sl => ([], sl)
  | top :: rest, sl =>
    if h ≤ top.2 then popLayers h rest (sl.1 - (top.1 : Int) * ((top.2 : Int) - (h : Int)), sl.2 + top.1)
    else (top :: rest, sl)

/-- One pass of a loop of `solve` at index `i` (lines 174-235, and 243-268 with the
tests exchanged): `opens` tells whether `suffix[i-1]` adds a layer and `counts`
whether `suffix[i]` adds to the answer. The state is `(stack, substr_num, ans)`. -/
def solveStep (g : Prog) (len : Nat) (opens counts : Nat → Bool) (i : Nat)
    (s : List (Nat × Nat) × Int × Int) : List (Nat × Nat) × Int × Int :=
  if len ≤ g.mem.height i then
    let sl0 : Int × Nat :=
      if opens (g.mem.suffix (i - 1)) then
        (s.2.1 + ((g.mem.height i : Int) - (len : Int) + 1), 1)
      else (s.2.1, 0)
    let r := popLayers (g.mem.height i) s.1 sl0
    ((r.2.2, g.mem.height i) :: r.1, r.2.1,
      if counts (g.mem.suffix i) then s.2.2 + r.2.1 else s.2.2)
  else ([], 0, s.2.2)

/-- The function `solve(len)` of 3415.c, lines 158-272, with exact integers. -/
def solve (g : Prog) (len : Nat) : Int :=
  let s1 := forUp 3 (g.str_len - 3)
    (solveStep g len (fun x => decide (g.len_of_A + 1 < x)) (fun x => decide (x ≤ g.len_of_A)))
    ([], 0, 0)
  (forUp 3 (g.str_len - 3)
    (solveStep g len (fun x => decide (x ≤ g.len_of_A)) (fun x => decide (g.len_of_A + 1 < x)))
    ([], 0, s1.2.2)).2.2

end P3415

/-- The length of the longest common prefix of the suffix of `a` from place `i` and the
suffix of `b` from place `j`. -/
def lcpAt (a b : List Nat) (i j : Nat) : Nat := lcp (a.drop i) (b.drop j)

/-- The brute-force double loop over all pairs of a suffix of `a` and a suffix of `b` that
adds, for each pair, the number of common prefix lengths from `K` on:
`max(0, LCP - K + 1)`. -/
def lengthSum (a b : List Nat) (K : Nat) : Nat :=
  ((List.range a.length).map (fun i =>
    ((List.range b.length).map (fun j => lcpAt a b i j + 1 - K)).sum)).sum

/-- The brute-force double loop over all pairs of a suffix of `a` and a suffix of `b` that
counts the pairs whose longest common prefix has length at least `K`. -/
def pairCount (a b : List Nat) (K : Nat) : Nat :=
  ((List.range a.length).map (fun i =>
    ((List.range b.length).map (fun j => if K ≤ lcpAt a b i j then 1 else 0)).sum)).sum

/-- The slot a stable bucket sort gives item `i` among `len` items with keys `κ`:
the items with a smaller key, then the earlier items with the same key. -/
def sortPos (κ : Arr) (len i : Nat) : Nat :=
  Nat.count (fun i' => κ i' < κ i) len + Nat.count (fun i' => κ i' = κ i) i

/-- The first key orders the offsets as their keys of length `j` do. -/
def RankOK (str : Arr) (n j : Nat) (fk : Arr) : Prop :=
  ∀ a b, a < n → b < n → (fk a < fk b ↔ keyOf str n j a < keyOf str n j b)

/-- The offsets are listed in non-decreasing order of their keys of length `j`. -/
def SortedBy (str : Arr) (n j : Nat) (sfx : Arr) : Prop :=
  ∀ i i', i < i' → i' < n → keyOf str n j (sfx i) ≤ keyOf str n j (sfx i')

/-- The offsets are listed in increasing order of their keys of length `j`. -/
def StrictBy (str : Arr) (n j : Nat) (sfx : Arr) : Prop :=
  ∀ i i', i < i' → i' < n → keyOf str n j (sfx i) < keyOf str n j (sfx i')

/-- The test of lines 145-146 at index `t`. -/
def sameKey (j : Nat) (sfx old : Arr) (t : Nat) : Prop :=
  old (sfx t) = old (sfx (t - 1)) ∧ old (sfx t + j) = old (sfx (t - 1) + j)

instance (j : Nat) (sfx old : Arr) (t : Nat) : Decidable (sameKey j sfx old t) := by
  unfold sameKey
  exact inferInstance

/-- The rank that the loop of lines 142-148 gives the offset at index `i`. -/
def newRank (j : Nat) (sfx old : Arr) (i : Nat) : Nat :=
  Nat.count (fun t => t ≠ 0 ∧ ¬ sameKey j sfx old t) (i + 1)

/-- The suffixes at offsets `p` and `q` have `L` characters each and agree on them. -/
def Common (str : Arr) (n L p q : Nat) : Prop :=
  ∀ k, k < L → p + k < n ∧ q + k < n ∧ str (p + k) = str (q + k)

/-- What holds at the head of the doubling loop with step `j`. -/
def DInv (str : Arr) (n j : Nat) (k : Keys) : Prop :=
  PermOn n k.suffix ∧ SortedBy str n j k.suffix ∧ RankOK str n j k.fst_key ∧
  (∀ a, a < n → k.fst_key a < k.range) ∧ 0 < j ∧ (k.p < n → j < n) ∧
  (n ≤ k.p → StrictBy str n j k.suffix)

namespace P3294

/-- The input of one test case as `main` accepts it: between 1 and `MAX_N` strings, each
of 1 to `MAX_LEN - 1` lowercase letters, given by their character codes. -/
def Valid (strs : List (List Nat)) : Prop :=
  strs ≠ [] ∧ strs.length ≤ MAX_N ∧
    ∀ s, s ∈ strs → s ≠ [] ∧ s.length < MAX_LEN ∧ ∀ c, c ∈ s → 97 ≤ c ∧ c ≤ 122

instance (strs : List (List Nat)) : Decidable (Valid strs) := by
  unfold Valid
  exact inferInstance

/-- The offset in `str` of the first character of input string `t`. -/
def off (strs : List (List Nat)) (t : Nat) : Nat :=
  ((strs.take t).map (fun s => s.length + 1)).sum

/-- The character of input string `t` at place `x`. -/
def charAt (strs : List (List Nat)) (t x : Nat) : Nat := (strs.getD t []).getD x 0

/-- The input string that owns the suffix at index `t` of `suffix`. -/
def owner (g : Prog) (t : Nat) : Nat := g.belong (g.mem.suffix t)

/-- The owners met by the passes `s, ..., i - 1` of the loop of `check`: those of the
indices `s - 1, ..., i - 1`. -/
def owners (g : Prog) (s i : Nat) : Finset Nat :=
  if s < i then (Finset.Ico (s - 1) i).image (owner g) else ∅

/-- The pair `(visited, match_cnt)` marks exactly the set `S`. -/
def Marks (vm : Arr × Nat) (S : Finset Nat) : Prop :=
  (∀ a, vm.1 a = if a ∈ S then 1 else 0) ∧ vm.2 = S.card

/-- Some stretch of indices whose heights are at least `len` ends inside the loop of
`check`, and its owners are more than half of the input strings. -/
def Quorum (g : Prog) (len : Nat) : Prop :=
  ∃ i0 i2, 2 ≤ i0 ∧ i0 < i2 ∧ i2 < g.str_len ∧
    (∀ t, i0 ≤ t → t < i2 → len ≤ g.mem.height t) ∧ g.mem.height i2 < len ∧
    g.n / 2 < (owners g i0 i2).card

/-- The text spells the string `w` (given by its character codes) from offset `p` on. -/
def Spells (g : Prog) (w : List Nat) (p : Nat) : Prop :=
  ∀ k, k < w.length → p + k < g.str_len ∧ g.str (p + k) = w.getD k 0 - 97 + 1

/-- The number of input strings in which `w` occurs as a substring. -/
def occurrences (strs : List (List Nat)) (w : List Nat) : Nat :=
  strs.countP (fun s => decide (w <:+: s))

/-- A stretch of heights of at least `len`, starting at index `s` or later, ends at index
`c` and its owners are more than half of the input strings. -/
def Closes (g : Prog) (len s c : Nat) : Prop :=
  g.mem.height c < len ∧ ∃ i0, s ≤ i0 ∧ i0 < c ∧
    (∀ t, i0 ≤ t → t < c → len ≤ g.mem.height t) ∧ g.n / 2 < (owners g i0 c).card

/-- What `main` has built from the input `strs` when it calls `check`: the text with its
owners and separators, the sorted permutation of its offsets and the heights. -/
structure Loaded (strs : List (List Nat)) (g : Prog) : Prop where
  n_eq : g.n = strs.length
  len_eq : g.str_len = off strs strs.length
  letter : ∀ t x, t < strs.length → x < (strs.getD t []).length →
    g.str (off strs t + x) = charAt strs t x - 97 + 1 ∧ g.belong (off strs t + x) = t
  sep : ∀ t, t + 1 < strs.length → g.str (off strs t + (strs.getD t []).length) = 27 + t
  last : g.str (g.str_len - 1) = 0
  perm : PermOn g.str_len g.mem.suffix
  strict : ∃ J, StrictBy g.str g.str_len J g.mem.suffix
  first : g.mem.suffix 0 = g.str_len - 1
  height : ∀ i, 1 ≤ i → i < g.str_len →
    g.mem.height i = lcp (sufList g.str g.str_len (g.mem.suffix i))
      (sufList g.str g.str_len (g.mem.suffix (i - 1)))

end P3294

namespace P3294

/-- Lines 315-320 of `main`: the lines written for one test case, the line `?` when the
search ended with `l = 0` and the lines of `print(l)` otherwise, then the empty line of
`putchar('\n')`. `none` stands for a search that does not end; `mb0` is what the
uninitialised `match_base` of `print` holds. -/
def report (g : Prog) (mb0 : Nat) : Option (List (List Nat)) :=
  (longest g).map (fun l => (if l = 0 then [[63]] else print g l mb0) ++ [[]])

end P3294

namespace P3415

/-- The values of a 32-bit `int`. -/
def inInt (x : Int) : Prop := -2147483648 ≤ x ∧ x ≤ 2147483647

instance (x : Int) : Decidable (inInt x) := by
  unfold inInt
  exact inferInstance

/-- The loop of lines 210-216 with the product of line 213 evaluated in `int`, as the
types of `cnt` and `height` make it: `none` stands for a product outside the range of
`int`. -/
def popLayersInt (h : Nat) :
    List (Nat × Nat) → Int × Nat → Option (List (Nat × Nat) × Int × Nat)
  | [], sl => some ([], sl)
  | top :: rest, sl =>
    if h ≤ top.2 then
      if inInt ((top.1 : Int) * ((top.2 : Int) - (h : Int))) then
        popLayersInt h rest (sl.1 - (top.1 : Int) * ((top.2 : Int) - (h : Int)), sl.2 + top.1)
      else none
    else some (top :: rest, sl)

/-- One pass of a loop of `solve` at index `i`, with the product of line 213 (and 253)
evaluated in `int`. -/
def solveStepInt (g : Prog) (len : Nat) (opens counts : Nat → Bool) (i : Nat)
    (s : List (Nat × Nat) × Int × Int) : Option (List (Nat × Nat) × Int × Int) :=
  if len ≤ g.mem.height i then
    let sl0 : Int × Nat :=
      if opens (g.mem.suffix (i - 1)) then
        (s.2.1 + ((g.mem.height i : Int) - (len : Int) + 1), 1)
      else (s.2.1, 0)
    (popLayersInt (g.mem.height i) s.1 sl0).map (fun r =>
      ((r.2.2, g.mem.height i) :: r.1, r.2.1,
        if counts (g.mem.suffix i) then s.2.2 + r.2.1 else s.2.2))
  else some ([], 0, s.2.2)

/-- The function `solve(len)` of 3415.c with the products of lines 213 and 253 evaluated in
`int`: `none` stands for a run in which one of them leaves the range of `int`. -/
def solveInt (g : Prog) (len : Nat) : Option Int :=
  (forUp 3 (g.str_len - 3)
    (fun i s => s.bind (solveStepInt g len (fun x => decide (g.len_of_A + 1 < x))
      (fun x => decide (x ≤ g.len_of_A)) i))
    (some ([], 0, 0))).bind (fun s1 =>
  (forUp 3 (g.str_len - 3)
    (fun i s => s.bind (solveStepInt g len (fun x => decide (x ≤ g.len_of_A))
      (fun x => decide (g.len_of_A + 1 < x)) i))
    (some ([], 0, s1.2.2))).map (fun s2 => s2.2.2))

end P3415

/-- The inner loop of line 159 with every read checked against the text: `none` also
stands for a test that reads `str` at an index from `len` on. -/
def matchLenIn (str : Arr) (len i j : Nat) : Nat → Nat → Option Nat
  | 0, _ => none
  | fuel + 1, p =>
    if i + p < len ∧ j + p < len then
      (if str (i + p) = str (j + p) then matchLenIn str len i j fuel (p + 1) else some p)
    else none

/-- Lines 156-160 with the reads of `str` checked: `none` stands for a run that reads
`suffix[-1]`, reads `str` at an index from `len` on, or exceeds `cap` tests. -/
def heightLoopIn (cap : Nat) (str suffix rank : Arr) (len : Nat) (height : Arr) :
    Option (Arr × Nat) :=
  forUp 0 (len - 1) (fun i st =>
    st.bind (fun (hp : Arr × Nat) =>
      if rank i = 0 then none
      else (matchLenIn str len i (suffix (rank i - 1)) cap (hp.2 - 1)).map
        (fun p => (setAt hp.1 (rank i) p, p)))) (some (height, 0))

namespace P3321

/-- The constant `MAX_N` of 3321.cc, the number of cells of `binary_indexed_tree`. -/
def MAX_N : Int := 100001

/-- The macro `LST(x)` of 3321.cc, line 28: `(x) & (-(x))`. -/
def LST (x : Int) : Int := Int.land x (-x)

/-- The values of a 32-bit `int`. -/
def inInt (x : Int) : Prop := -2147483648 ≤ x ∧ x ≤ 2147483647

instance (x : Int) : Decidable (inInt x) := by
  unfold inInt
  exact inferInstance

/-- The function `bit_update(pos, range, x)` of 3321.cc, lines 66-74, on the array
`binary_indexed_tree`, with `fuel` passes of the loop left. `none` stands for a run that
needs more passes, writes outside the array or leaves the range of `int`. -/
def bit_update : Nat → Int → Int → Int → (Int → Int) → Option (Int → Int)
  | 0, pos, range, _, tree => if pos ≤ range then none else some tree
  | fuel + 1, pos, range, x, tree =>
    if pos ≤ range then
      if (0 ≤ pos ∧ pos < MAX_N) ∧ inInt (tree pos + x) ∧ inInt (pos + LST pos) then
        bit_update fuel (pos + LST pos) range x
          (fun q => if q = pos then tree pos + x else tree q)
      else none
    else some tree

/-- The loop of `bit_query`, lines 83-86, on the pair `(pos, sum)`, with `fuel` passes
left. `none` stands for a run that needs more passes, reads outside the array or leaves the
range of `int`. -/
def queryLoop (tree : Int → Int) : Nat → Int → Int → Option Int
  | 0, pos, sum => if 0 < pos then none else some sum
  | fuel + 1, pos, sum =>
    if 0 < pos then
      if pos < MAX_N ∧ inInt (sum + tree pos) ∧ inInt (pos - LST pos) then
        queryLoop tree fuel (pos - LST pos) (sum + tree pos)
      else none
    else some sum

/-- The function `bit_query(pos)` of 3321.cc, lines 78-89. -/
def bit_query (tree : Int → Int) (fuel : Nat) (pos : Int) : Option Int :=
  queryLoop tree fuel pos 0

/-- A sequence of calls `bit_update(pos, range, x)`, one for every pair `(pos, x)` of the
list, as `main` makes them at lines 111 and 128. -/
def updateAll (fuel : Nat) (range : Int) : List (Int × Int) → (Int → Int) →
    Option (Int → Int)
  | [], tree => some tree
  | u :: us, tree => (bit_update fuel u.1 range u.2 tree).bind (updateAll fuel range us)

end P3321

/-- Lines 141-148 with the reads of the second keys checked: the keys at `suffix[i] + j`
and `suffix[i-1] + j` are read only when the first keys agree (the `&&` of line 145), and
`none` stands for such a read at an index from `len` on. -/
def rerankIn (len j : Nat) (suffix old new : Arr) : Option (Arr × Nat) :=
  forUp 1 (len - 1) (fun i st =>
    st.bind (fun (fp : Arr × Nat) =>
      if old (suffix i) = old (suffix (i - 1)) then
        if suffix i + j < len ∧ suffix (i - 1) + j < len then
          (if old (suffix i + j) = old (suffix (i - 1) + j)
            then some (setAt fp.1 (suffix i) (fp.2 - 1), fp.2)
            else some (setAt fp.1 (suffix i) fp.2, fp.2 + 1))
        else none
      else some (setAt fp.1 (suffix i) fp.2, fp.2 + 1))) (some (setAt new (suffix 0) 0, 1))

namespace P1990

/-- The constant `MAX_N` of 1990.c, the number of cells of the arrays `num_smaller_x` and
`sum_smaller_x`. -/
def MAX_N : Int := 20000

/-- The macro `LST(x)` of 1990.c, line 50: `(x) & (-(x))`. -/
def LST (x : Int) : Int := Int.land x (-x)

/-- The function `bit_update(bit, pos, range, x)` of 1990.c, lines 54-60, on an array of
`MAX_N` cells, with exact integers and `fuel` passes of the loop left. `none` stands for a
run that needs more passes or that writes a cell outside `[0, MAX_N)`. -/
def bit_update : Nat → (Int → Int) → Int → Int → Int → Option (Int → Int)
  | 0, bit, pos, range, _ => if pos ≤ range then none else some bit
  | fuel + 1, bit, pos, range, x =>
    if pos ≤ range then
      if 0 ≤ pos ∧ pos < MAX_N then
        bit_update fuel (fun q => if q = pos then bit pos + x else bit q) (pos + LST pos) range x
      else none
    else some bit

/-- The loop of `bit_query`, lines 67-70, on the pair `(pos, sum)`, with `fuel` passes
left. `none` stands for a run that needs more passes or that reads a cell outside
`[0, MAX_N)`. -/
def queryLoop (bit : Int → Int) : Nat → Int → Int → Option Int
  | 0, pos, sum => if 0 < pos then none else some sum
  | fuel + 1, pos, sum =>
    if 0 < pos then
      if pos < MAX_N then queryLoop bit fuel (pos - LST pos) (sum + bit pos)
      else none
    else some sum

/-- The function `bit_query(bit, pos)` of 1990.c, lines 64-73. -/
def bit_query (fuel : Nat) (bit : Int → Int) (pos : Int) : Option Int :=
  queryLoop bit fuel pos 0

end P1990

namespace P3277

/-- The function `unique(first, last)` of 3277.c, lines 44-53, on the array that the two
pointers point into, with the pointers as indices. The result is the array and the
pointer returned; `none` stands for a call with `last` before `first`. -/
def unique (a : Nat → Int) (first last : Nat) : Option ((Nat → Int) × Nat) :=
  if first = last then some (a, last)
  else if last < first then none
  else
    let s := forUp (first + 1) (last - first - 1) (fun i (s : (Nat → Int) × Nat) =>
      if s.1 s.2 = s.1 i then s
      else (fun k => if k = s.2 + 1 then s.1 i else s.1 k, s.2 + 1)) (a, first)
    some (s.1, s.2 + 1)

end P3277

namespace P1182

/-- The constant `MAXARRAY` of 1182.c, the number of cells of `parent` and
`relation_with_root`. -/
def MAXARRAY : Nat := 65536

/-- The values of a 32-bit `int`. -/
def inInt (x : Int) : Prop := -2147483648 ≤ x ∧ x ≤ 2147483647

instance (x : Int) : Decidable (inInt x) := by
  unfold inInt
  exact inferInstance

/-- The globals of 1182.c: the arrays `parent` and `relation_with_root`. -/
structure Sets where
  parent : Arr
  relation_with_root : Nat → Int

/-- The globals when the program starts: all zero. -/
def start : Sets := ⟨fun _ => 0, fun _ => 0⟩

/-- Lines 85-88 of `main`: every animal below `N` is made a set of its own. -/
def init (N : Nat) (s : Sets) : Sets :=
  forUp 0 N (fun i (t : Sets) =>
    { parent := setAt t.parent i i,
      relation_with_root := fun k => if k = i then 0 else t.relation_with_root k }) s

/-- The function `find_update(x)` of 1182.c, lines 34-67, with `fuel` nested calls left;
the result is the value returned and the globals. The `%` of C is `Int.tmod`. `none`
stands for a run that needs more nested calls, that indexes the arrays from `MAXARRAY` on,
or whose sum of line 64 leaves the range of `int`. -/
def find_update : Nat → Nat → Sets → Option (Nat × Sets)
  | 0, _, _ => none
  | fuel + 1, x, s =>
    if MAXARRAY ≤ x then none
    else if x = s.parent x then some (x, s)
    else
      (find_update fuel (s.parent x) s).bind (fun (rs : Nat × Sets) =>
        if inInt (rs.2.relation_with_root x + rs.2.relation_with_root (s.parent x)) then
          some (rs.1,
            { parent := setAt rs.2.parent x rs.1,
              relation_with_root := fun k =>
                if k = x then
                  Int.tmod (rs.2.relation_with_root x + rs.2.relation_with_root (s.parent x)) 3
                else rs.2.relation_with_root k })
        else none)

/-- The function `is_predator(a, b)` of 1182.c, lines 75-77. -/
def is_predator (s : Sets) (a b : Nat) : Bool :=
  decide (Int.tmod (s.relation_with_root a + 1) 3 = s.relation_with_root b)

/-- Lines 109-141 of `main`: the statement `(ope, x, y)` is judged or taken for true. The
result is the globals and the number added to `lie_times`. -/
def statement (fuel : Nat) (ope : Int) (x y : Nat) (s : Sets) : Option (Sets × Nat) :=
  (find_update fuel x s).bind (fun (rx : Nat × Sets) =>
    (find_update fuel y rx.2).bind (fun (ry : Nat × Sets) =>
      if rx.1 = ry.1 then
        some (ry.2,
          (if ope = 1 ∧ ry.2.relation_with_root x ≠ ry.2.relation_with_root y then 1 else 0)
            + (if ope = 2 ∧ is_predator ry.2 x y = false then 1 else 0))
      else
        some ({ parent := setAt ry.2.parent ry.1 rx.1,
                relation_with_root := fun k =>
                  if k = ry.1 then
                    Int.tmod (ry.2.relation_with_root x - ry.2.relation_with_root y + ope + 2) 3
                  else ry.2.relation_with_root k }, 0)))

end P1182

namespace P2777

/-- The constant `MAX_N` of 2777.c; the arrays `seg_tree` and `dirty` have `MAX_N * 4`
cells. -/
def MAX_N : Nat := 100002

/-- The globals of 2777.c: the arrays `seg_tree` and `dirty`. -/
structure Tree where
  seg_tree : Arr
  dirty : Arr

/-- The function `merge(a, b)` of 2777.c, lines 56-58: `a | b`. -/
def merge (a b : Nat) : Nat := a ||| b

/-- The function `init_tree(root, l, r)` of 2777.c, lines 61-81, with `fuel` nested calls
left. `none` stands for a run that needs more nested calls or that indexes the arrays from
`MAX_N * 4` on. -/
def init_tree : Nat → Nat → Nat → Nat → Tree → Option Tree
  | 0, _, _, _, _ => none
  | fuel + 1, root, l, r, t =>
    if MAX_N * 4 ≤ root then none
    else if l = r then
      some { seg_tree := setAt t.seg_tree root 2, dirty := setAt t.dirty root 0 }
    else
      (init_tree fuel (root * 2) l ((l + r) / 2)
          { seg_tree := t.seg_tree, dirty := setAt t.dirty root 0 }).bind (fun t1 =>
        (init_tree fuel (root * 2 + 1) ((l + r) / 2 + 1) r t1).bind (fun t2 =>
          if MAX_N * 4 ≤ root * 2 + 1 then none
          else some { seg_tree := setAt t2.seg_tree root
                        (merge (t2.seg_tree (root * 2)) (t2.seg_tree (root * 2 + 1))),
                      dirty := t2.dirty }))

/-- The function `push_down(root)` of 2777.c, lines 85-101. `none` stands for a run that
indexes the arrays from `MAX_N * 4` on. -/
def push_down (root : Nat) (t : Tree) : Option Tree :=
  if MAX_N * 4 ≤ root then none
  else if t.dirty root ≠ 0 then
    if MAX_N * 4 ≤ root * 2 + 1 then none
    else
      some { seg_tree := setAt (setAt t.seg_tree (root * 2 + 1) (t.dirty root)) (root * 2)
               (t.dirty root),
             dirty := setAt (setAt (setAt t.dirty (root * 2 + 1) (t.dirty root)) (root * 2)
               (t.dirty root)) root 0 }
  else some t

/-- The function `update_tree(l_up, r_up, l_trav, r_trav, root, val)` of 2777.c, lines
110-132, with `fuel` nested calls left. -/
def update_tree : Nat → Nat → Nat → Nat → Nat → Nat → Nat → Tree → Option Tree
  | 0, _, _, _, _, _, _, _ => none
  | fuel + 1, l_up, r_up, l_trav, r_trav, root, val, t =>
    if MAX_N * 4 ≤ root then none
    else if l_up ≤ l_trav ∧ r_trav ≤ r_up then
      some { seg_tree := setAt t.seg_tree root val, dirty := setAt t.dirty root val }
    else
      (push_down root t).bind (fun t1 =>
        (if l_up ≤ (l_trav + r_trav) / 2
          then update_tree fuel l_up r_up l_trav ((l_trav + r_trav) / 2) (root * 2) val t1
          else some t1).bind (fun t2 =>
          (if (l_trav + r_trav) / 2 < r_up
            then update_tree fuel l_up r_up ((l_trav + r_trav) / 2 + 1) r_trav (root * 2 + 1)
              val t2
            else some t2).bind (fun t3 =>
            if MAX_N * 4 ≤ root * 2 + 1 then none
            else some { seg_tree := setAt t3.seg_tree root
                          (merge (t3.seg_tree (root * 2)) (t3.seg_tree (root * 2 + 1))),
                        dirty := t3.dirty })))

/-- The function `query_tree(l_query, r_query, l_trav, r_trav, root)` of 2777.c, lines
140-159, with `fuel` nested calls left; the result is the value returned and the
globals. -/
def query_tree : Nat → Nat → Nat → Nat → Nat → Nat → Tree → Option (Nat × Tree)
  | 0, _, _, _, _, _, _ => none
  | fuel + 1, l_query, r_query, l_trav, r_trav, root, t =>
    if MAX_N * 4 ≤ root then none
    else if l_query ≤ l_trav ∧ r_trav ≤ r_query then some (t.seg_tree root, t)
    else
      (push_down root t).bind (fun t1 =>
        (if l_query ≤ (l_trav + r_trav) / 2
          then (query_tree fuel l_query r_query l_trav ((l_trav + r_trav) / 2) (root * 2)
            t1).map (fun p => (merge 0 p.1, p.2))
          else some (0, t1)).bind (fun p1 =>
          if (l_trav + r_trav) / 2 < r_query
          then (query_tree fuel l_query r_query ((l_trav + r_trav) / 2 + 1) r_trav
            (root * 2 + 1) p1.2).map (fun p => (merge p1.1 p.1, p.2))
          else some p1))

/-- The loop of `bitcnt`, lines 167-170, on the pair `(x, cnt)` for `x >= 0`, with `fuel`
passes left. -/
def bitcntLoop : Nat → Nat → Nat → Option Nat
  | 0, x, cnt => if x ≠ 0 then none else some cnt
  | fuel + 1, x, cnt =>
    if x ≠ 0 then bitcntLoop fuel (x >>> 1) (if x &&& 1 ≠ 0 then cnt + 1 else cnt)
    else some cnt

/-- The function `bitcnt(x)` of 2777.c, lines 165-173, for `x >= 0`. -/
def bitcnt (fuel x : Nat) : Option Nat := bitcntLoop fuel x 0

/-- The globals at program start: zero-initialised arrays. -/
def start : Tree := ⟨fun _ => 0, fun _ => 0⟩

/-- One pass of the loop of `main`, lines 187-200, for the operation `(isP, l, r, color)`:
a query `P l r` gives the number printed, a paint `C l r color` gives nothing to print.
`none` also stands for a shift `1<<color` with `color` past 30. -/
def operation (fuel L : Nat) (op : Bool × Nat × Nat × Nat) (t : Tree) :
    Option (Option Nat × Tree) :=
  let l := if op.2.2.1 < op.2.1 then op.2.2.1 else op.2.1
  let r := if op.2.2.1 < op.2.1 then op.2.1 else op.2.2.1
  if op.1 then
    (query_tree fuel l r 1 L 1 t).bind (fun p =>
      (bitcnt fuel p.1).map (fun n => (some n, p.2)))
  else if 30 < op.2.2.2 then none
  else (update_tree fuel l r 1 L 1 (1 <<< op.2.2.2) t).map (fun t1 => (none, t1))

/-- The loop of `main`, lines 186-201, over the list of operations read: the numbers
printed and the globals at the end. -/
def operations (fuel L : Nat) : List (Bool × Nat × Nat × Nat) → Tree → Option (List Nat × Tree)
  | [], t => some ([], t)
  | op :: ops, t =>
    (operation fuel L op t).bind (fun p =>
      (operations fuel L ops p.2).map (fun q =>
        ((match p.1 with | some n => [n] | none => []) ++ q.1, q.2)))

/-- The function `main` of 2777.c, lines 175-204, on the input `L` and the list of
operations: the numbers printed and the globals at the end. -/
def main (fuel L : Nat) (ops : List (Bool × Nat × Nat × Nat)) : Option (List Nat × Tree) :=
  (init_tree fuel 1 1 L start).bind (operations fuel L ops)

end P2777

namespace P3415

/-- The code of a letter, `A`-`Z` or `a`-`z`. -/
def isLetter (c : Nat) : Prop := (65 ≤ c ∧ c ≤ 90) ∨ (97 ≤ c ∧ c ≤ 122)

instance (c : Nat) : Decidable (isLetter c) := by
  unfold isLetter
  exact inferInstance

/-- The inputs of one test case that `main` reads without leaving its buffers: two
non-empty strings of letters that fit `tmp_str`, whose concatenation fits `str`. -/
def Valid (a b : List Nat) : Prop :=
  a ≠ [] ∧ b ≠ [] ∧ (∀ c ∈ a, isLetter c) ∧ (∀ c ∈ b, isLetter c) ∧
  a.length < ARR_SIZE / 2 ∧ b.length < ARR_SIZE / 2 ∧ a.length + b.length + 3 ≤ ARR_SIZE

instance (a b : List Nat) : Decidable (Valid a b) := by
  unfold Valid
  exact inferInstance

/-- The text that `main` builds of the strings `a` and `b` when `str[0]` is zero. -/
def text (a b : List Nat) : List Nat := 0 :: (a ++ 64 :: (b ++ [0]))

/-- The least of `H (t + 1), ..., H (t + 1 + d)`. -/
def lowest (H : Arr) (t : Nat) : Nat → Nat
  | 0 => H (t + 1)
  | d + 1 => min (lowest H t d) (H (t + d + 2))

/-- The sum of `f` over the layers of a stack, every layer taken `cnt` times. -/
def weight (f : Nat → Int) (st : List (Nat × Nat)) : Int :=
  (st.map (fun l => (l.1 : Int) * f l.2)).sum

/-- The heights of a stack fall from the top down. -/
def Falling (st : List (Nat × Nat)) : Prop := st.Pairwise (fun x y => y.2 < x.2)

/-- The sum of `f` over the least heights between the index `t + 2` and the index
`cnt + 2`, for the indices `t + 2` from 2 on that open a layer and whose least height is
`K` at least. -/
def openSum (g : Prog) (K : Nat) (opens : Nat → Bool) (cnt : Nat) (f : Nat → Int) : Int :=
  ∑ t in Finset.range cnt,
    if opens (g.mem.suffix (t + 2)) = true ∧ K ≤ lowest g.mem.height (t + 2) (cnt - 1 - t)
    then f (lowest g.mem.height (t + 2) (cnt - 1 - t)) else 0

/-- The number of common lengths from `K` on of the suffixes at the offsets `p` and `q`. -/
def pairVal (g : Prog) (K p q : Nat) : Int :=
  ((lcp (sufList g.str g.str_len p) (sufList g.str g.str_len q) + 1 - K : Nat) : Int)

/-- The term of an offset `p` inside the first string and an offset `q` inside the
second one; zero for the other pairs of offsets. -/
def crossPos (g : Prog) (K p q : Nat) : Int :=
  if (1 ≤ p ∧ p ≤ g.len_of_A) ∧ (g.len_of_A + 2 ≤ q ∧ q + 1 < g.str_len)
  then pairVal g K p q else 0

/-- The term of the suffixes at the indices `x` and `y` of the sorted order. -/
def cross (g : Prog) (K x y : Nat) : Int :=
  crossPos g K (g.mem.suffix x) (g.mem.suffix y)

/-- What `main` has built after the first test case. -/
structure Built (a b : List Nat) (g : Prog) : Prop where
  len_eq : g.str_len = a.length + b.length + 3
  lenA : g.len_of_A = a.length
  str_eq : g.str = ofList (text a b)
  perm : PermOn g.str_len g.mem.suffix
  strict : ∃ J, StrictBy g.str g.str_len J g.mem.suffix
  first : g.mem.suffix 0 = g.str_len - 1
  height : ∀ i, 1 ≤ i → i < g.str_len →
    g.mem.height i = lcp (sufList g.str g.str_len (g.mem.suffix i))
      (sufList g.str g.str_len (g.mem.suffix (i - 1)))

end P3415

namespace P3415

/-- The offset `p` lies inside the first string. -/
def inA (g : Prog) (p : Nat) : Prop := 1 ≤ p ∧ p ≤ g.len_of_A

/-- The offset `p` lies inside the second string. -/
def inB (g : Prog) (p : Nat) : Prop := g.len_of_A + 2 ≤ p ∧ p + 1 < g.str_len

instance (g : Prog) (p : Nat) : Decidable (inA g p) := by
  unfold inA
  exact inferInstance

instance (g : Prog) (p : Nat) : Decidable (inB g p) := by
  unfold inB
  exact inferInstance

/-- The term of the indices `y < x` of the sorted order: `max(0, m - K + 1)` where `m` is
the least of `height[y + 1], ..., height[x]`. -/
def span (g : Prog) (K y x : Nat) : Int :=
  ((lowest g.mem.height y (x - y - 1) + 1 - K : Nat) : Int)

/-- The number of the indices `t` of `[lo, e)` whose predecessor `suffix[t - 1]` passes
the test `opens` of a loop of `solve`. -/
def opened (g : Prog) (opens : Nat → Bool) (lo e : Nat) : Nat :=
  ((Finset.Ico lo e).filter (fun t => opens (g.mem.suffix (t - 1)) = true)).card

/-- The layers of a stack, listed from the top down, split the indices `[s, e)` into
consecutive blocks: the layer of the block `[lo, e)` holds in `cnt` the number of the
indices of its block whose predecessor opens a layer, and in `height` the least of
`height[lo], ..., height[i]`. -/
def Layered (g : Prog) (opens : Nat → Bool) (i s : Nat) : Nat → List (Nat × Nat) → Prop
  | e, [] => e = s
  | e, top :: rest => ∃ lo, s ≤ lo ∧ lo < e ∧ Layered g opens i s lo rest ∧
      top.1 = opened g opens lo e ∧ top.2 = lowest g.mem.height (lo - 1) (i - lo)

end P3415

namespace P3321

/-- The sum of `x` over the pairs `(pos, x)` of the list with `lo < pos <= hi`. -/
def rangeSum (us : List (Int × Int)) (lo hi : Int) : Int :=
  ((us.filter (fun u => decide (lo < u.1 ∧ u.1 ≤ hi))).map (fun u => u.2)).sum

/-- The sum of `x` over the pairs `(pos, x)` of the list with `pos <= hi`. -/
def sumUpTo (us : List (Int × Int)) (hi : Int) : Int :=
  ((us.filter (fun u => decide (u.1 ≤ hi))).map (fun u => u.2)).sum

/-- The sum of the sizes `|x|` of the pairs `(pos, x)` of the list. -/
def totalSize (us : List (Int × Int)) : Nat := (us.map (fun u => u.2.natAbs)).sum

end P3321

/-- The locals of `init_suffix_array` when the doubling loop is entered, after the first
sort of lines 105-118. -/
def startKeys (str : Arr) (len range : Nat) (m : Mem) : Keys :=
  { suffix := (firstSort str len range m.fst_buf m.bucket m.suffix).2.2,
    bucket := (firstSort str len range m.fst_buf m.bucket m.suffix).2.1,
    fst_key := (firstSort str len range m.fst_buf m.bucket m.suffix).1,
    snd_key := m.snd_buf, swapped := false, p := 1, range := range }

/-- The locals of `init_suffix_array` after `t` passes of the doubling loop; pass number
`t` (from 0) has the step `j = 2 ^ t`. -/
def roundState (str : Arr) (len range : Nat) (m : Mem) : Nat → Keys
  | 0 => startKeys str len range m
  | t + 1 => doublingStep len (2 ^ t) (roundState str len range m t)

namespace P3277

/-- The cells `first, ..., last - 1` of an array, as a list. -/
def slice (a : Nat → Int) (first last : Nat) : List Int :=
  (List.range (last - first)).map (fun i => a (first + i))

end P3277

namespace P1182

/-- The node reached from `y` by `d` steps along `parent`. -/
def climb (parent : Arr) : Nat → Nat → Nat
  | 0, y => y
  | d + 1, y => climb parent d (parent y)

/-- The sum of `relation_with_root` over the first `d` nodes of the path from `y` along
`parent`. -/
def pathSum (s : Sets) : Nat → Nat → Int
  | 0, _ => 0
  | d + 1, y => s.relation_with_root y + pathSum s d (s.parent y)

/-- The path from `y` along `parent` ends at the root `q`, and the relation values along
it, composed, give `c` modulo 3. -/
def Reach (s : Sets) (y q : Nat) (c : Int) : Prop :=
  ∃ d, climb s.parent d y = q ∧ s.parent q = q ∧ pathSum s d y % 3 = c

/-- The globals after `parent[x] = p` and `relation_with_root[x] = v`. -/
def assign (s : Sets) (x p : Nat) (v : Int) : Sets :=
  { parent := setAt s.parent x p,
    relation_with_root := fun k => if k = x then v else s.relation_with_root k }

/-- The arrays hold a forest with relations as `main` keeps them: every node of the arrays
has its parent in the arrays and a relation value 0, 1 or 2, a root has the value 0
(`SAME`), and the path from every node ends at a root. -/
def WF (s : Sets) : Prop :=
  ∀ y, y < MAXARRAY → s.parent y < MAXARRAY ∧
    (0 ≤ s.relation_with_root y ∧ s.relation_with_root y ≤ 2) ∧
    (s.parent y = y → s.relation_with_root y = 0) ∧
    ∃ d, s.parent (climb s.parent d y) = climb s.parent d y

/-- A forest with the chain 2, 1, 0: node 2 hangs below node 1 with the relation 1, node 1
below the root 0 with the relation 2, and every other node is a root. -/
def chainOfThree : Sets :=
  ⟨fun k => if k = 2 then 1 else if k = 1 then 0 else k,
   fun k => if k = 2 then 1 else if k = 1 then 2 else 0⟩

end P1182

namespace P2777

/-- Node `j` lies in the subtree of node `i` of the heap-shaped tree. -/
def desc (i j : Nat) : Prop := ∃ k, j / 2 ^ k = i

/-- The bitwise OR of `col l, ..., col (l + n - 1)`. -/
def orFrom (col : Nat → Nat) (l : Nat) : Nat → Nat
  | 0 => 0
  | n + 1 => orFrom col l n ||| col (l + n)

/-- The bitwise OR of `col x` over the cells `x` of `[l, r]`. -/
def orRange (col : Nat → Nat) (l r : Nat) : Nat := orFrom col l (r + 1 - l)

/-- Node `i` for the segment `[l, r]` represents the cell values `col`: either the node
carries a pending value that all its cells have, or it is a clean leaf holding its cell's
value, or it is a clean inner node over two represented halves holding the OR of its
children. -/
inductive Rep (t : Tree) (col : Nat → Nat) : Nat → Nat → Nat → Prop
  | pending (i l r : Nat) : l ≤ r → t.dirty i ≠ 0 → t.seg_tree i = t.dirty i →
      (∀ x, l ≤ x → x ≤ r → col x = t.dirty i) → Rep t col i l r
  | leaf (i l : Nat) : t.dirty i = 0 → t.seg_tree i = col l → Rep t col i l l
  | node (i l r : Nat) : l < r → t.dirty i = 0 →
      Rep t col (i * 2) l ((l + r) / 2) → Rep t col (i * 2 + 1) ((l + r) / 2 + 1) r →
      t.seg_tree i = t.seg_tree (i * 2) ||| t.seg_tree (i * 2 + 1) → Rep t col i l r

/-- Node `i` for the segment `[l, r]` leaves room for its subtree inside the arrays. -/
def Fits (i l r : Nat) : Prop := i < MAX_N * 4 ∧ (r - l) * (i + 1) ≤ 2 * MAX_N - 2

/-- The cell values after painting `[lu, ru]` with the value `val`. -/
def paint (col : Nat → Nat) (lu ru val : Nat) : Nat → Nat :=
  fun x => if lu ≤ x ∧ x ≤ ru then val else col x

/-- The colour of every cell after the operations of the list: the colour of the last
paint covering the cell, colour 1 at the start; queries change nothing. -/
def colourAfter : List (Bool × Nat × Nat × Nat) → (Nat → Nat) → Nat → Nat
  | [], c => c
  | op :: ops, c =>
    colourAfter ops (if op.1 then c
      else fun x => if (op.2.1 ≤ x ∧ x ≤ op.2.2.1) ∨ (op.2.2.1 ≤ x ∧ x ≤ op.2.1)
        then op.2.2.2 else c x)

/-- The number of distinct colours among the cells of `[l, r]`. -/
def distinct (c : Nat → Nat) (l r : Nat) : Nat := ((Finset.Icc l r).image c).card

/-- The answers to the queries of the list, each the number of distinct colours in its
range at its time. -/
def answers : List (Bool × Nat × Nat × Nat) → (Nat → Nat) → List Nat
  | [], _ => []
  | op :: ops, c =>
    if op.1 then
      distinct c (min op.2.1 op.2.2.1) (max op.2.1 op.2.2.1) :: answers ops c
    else answers ops (fun x => if (op.2.1 ≤ x ∧ x ≤ op.2.2.1) ∨ (op.2.2.1 ≤ x ∧ x ≤ op.2.1)
        then op.2.2.2 else c x)

/-- The number of bits below place `n` set in `x`. -/
def bitsBelow (n x : Nat) : Nat := ((Finset.range n).filter (fun k => x.testBit k)).card

end P2777

namespace P3415

/-- The layers of a stack split the indices `[s, e)` into consecutive blocks as in
`Layered`, and the height of every layer is also the height at the last index of its
block. -/
def Tight (g : Prog) (opens : Nat → Bool) (i s : Nat) : Nat → List (Nat × Nat) → Prop
  | e, [] => e = s
  | e, top :: rest => ∃ lo, s ≤ lo ∧ lo < e ∧ Tight g opens i s lo rest ∧
      top.1 = opened g opens lo e ∧ top.2 = lowest g.mem.height (lo - 1) (i - lo) ∧
      top.2 = g.mem.height (e - 1)

end P3415

theorem setAt_same (a : Arr) (i v : Nat) : setAt a i v i = v := by
  simp [setAt]

theorem setAt_other (a : Arr) (i v k : Nat) (h : k ≠ i) : setAt a i v k = a k := by
  simp [setAt, h]

theorem forUp_succ {σ : Type} (lo k : Nat) (body : Nat → σ → σ) (s : σ) :
    forUp lo (k + 1) body s = body (lo + k) (forUp lo k body s) := rfl

/-- Invariant rule for the ascending loop. -/
theorem forUp_inv {σ : Type} (P : Nat → σ → Prop) (lo cnt : Nat) (body : Nat → σ → σ) (s : σ)
    (h0 : P 0 s) (hstep : ∀ k t, k < cnt → P k t → P (k + 1) (body (lo + k) t)) :
    P cnt (forUp lo cnt body s) := by
  induction cnt with
  | zero => exact h0
  | succ k ih =>
    rw [forUp_succ]
    exact hstep k _ (Nat.lt_succ_self k)
      (ih (fun k' t hk' hp => hstep k' t (Nat.lt_succ_of_lt hk') hp))

/-- Invariant rule for the descending loop: `P k` holds once the indices `k, k+1, ...` are done. -/
theorem forDown_inv {σ : Type} (P : Nat → σ → Prop) (cnt : Nat) (body : Nat → σ → σ) (s : σ)
    (h0 : P cnt s) (hstep : ∀ k t, k < cnt → P (k + 1) t → P k (body k t)) :
    P 0 (forDown cnt body s) := by
  induction cnt generalizing s with
  | zero => exact h0
  | succ k ih =>
    show P 0 (forDown k body (body k s))
    exact ih _ (hstep k s (Nat.lt_succ_self k) h0)
      (fun k' t hk' hp => hstep k' t (Nat.lt_succ_of_lt hk') hp)

/-- A map of `[0, n)` into itself without repetition reaches every index. -/
theorem PermOn.surj {n : Nat} {f : Arr} (h : PermOn n f) (a : Nat) (ha : a < n) :
    ∃ i, i < n ∧ f i = a := by
  have himg : (Finset.range n).image f = Finset.range n := by
    apply Finset.eq_of_subset_of_card_le
    · intro x hx
      rcases Finset.mem_image.1 hx with ⟨i, hi, rfl⟩
      exact Finset.mem_range.2 (h.1 i (Finset.mem_range.1 hi))
    · rw [Finset.card_image_of_injOn]
      intro i hi i' hi' e
      exact h.2 i i' (Finset.mem_range.1 (Finset.mem_coe.1 hi))
        (Finset.mem_range.1 (Finset.mem_coe.1 hi')) e
  have : a ∈ (Finset.range n).image f := by
    rw [himg]; exact Finset.mem_range.2 ha
  rcases Finset.mem_image.1 this with ⟨i, hi, e⟩
  exact ⟨i, Finset.mem_range.1 hi, e⟩

/-- Counting along a permutation of `[0, n)` gives the same number. -/
theorem PermOn.count_comp {n : Nat} {f : Arr} (h : PermOn n f) (P : Nat → Prop)
    [DecidablePred P] : Nat.count (fun i => P (f i)) n = Nat.count P n := by
  rw [Nat.count_eq_card_filter_range, Nat.count_eq_card_filter_range]
  apply Finset.card_bij (fun i _ => f i)
  · intro i hi
    rw [Finset.mem_filter, Finset.mem_range] at hi ⊢
    exact ⟨h.1 i hi.1, hi.2⟩
  · intro i hi i' hi' e
    rw [Finset.mem_filter, Finset.mem_range] at hi hi'
    exact h.2 i i' hi.1 hi'.1 e
  · intro a ha
    rw [Finset.mem_filter, Finset.mem_range] at ha
    rcases h.surj a ha.1 with ⟨i, hi, e⟩
    refine ⟨i, ?_, e⟩
    rw [Finset.mem_filter, Finset.mem_range]
    exact ⟨hi, by rw [e]; exact ha.2⟩

theorem count_ge_range (n j : Nat) (h : j ≤ n) : Nat.count (fun a => j ≤ a) n = n - j := by
  induction n with
  | zero => simp
  | succ m ih =>
    rw [Nat.count_succ]
    by_cases hj : j ≤ m
    · rw [ih hj, if_pos hj]; omega
    · have : j = m + 1 := by omega
      subst this
      rw [if_neg hj]
      have : Nat.count (fun a => m + 1 ≤ a) m = 0 := by
        rw [Nat.count_eq_card_filter_range]
        rw [Finset.card_eq_zero, Finset.filter_eq_empty_iff]
        intro x hx
        have := Finset.mem_range.1 hx
        omega
      omega

/-- A permutation of `[0, n)` seen as a list is a rearrangement of `0, ..., n-1`. -/
theorem PermOn.perm_range {n : Nat} {f : Arr} (h : PermOn n f) :
    List.Perm ((List.range n).map f) (List.range n) := by
  apply (List.perm_ext_iff_of_nodup ?_ (List.nodup_range n)).2
  · intro a
    rw [List.mem_map, List.mem_range]
    constructor
    · rintro ⟨i, hi, rfl⟩
      exact h.1 i (List.mem_range.1 hi)
    · intro ha
      rcases h.surj a ha with ⟨i, hi, e⟩
      exact ⟨i, List.mem_range.2 hi, e⟩
  · apply List.Nodup.map_on _ (List.nodup_range n)
    intro i hi i' hi' e
    exact h.2 i i' (List.mem_range.1 hi) (List.mem_range.1 hi') e

theorem count_split (p q r : Nat → Prop) [DecidablePred p] [DecidablePred q] [DecidablePred r]
    (n : Nat) (h : ∀ i, r i ↔ p i ∨ q i) (hd : ∀ i, ¬(p i ∧ q i)) :
    Nat.count r n = Nat.count p n + Nat.count q n := by
  induction n with
  | zero => simp
  | succ m ih =>
    rw [Nat.count_succ, Nat.count_succ, Nat.count_succ, ih]
    have h1 := h m
    have h2 := hd m
    by_cases hp : p m <;> by_cases hq : q m <;> by_cases hr : r m <;>
      simp [hp, hq, hr] at h1 h2 ⊢ <;> omega

theorem count_le_eq (κ : Arr) (c n : Nat) :
    Nat.count (fun i => κ i ≤ c) n
      = Nat.count (fun i => κ i < c) n + Nat.count (fun i => κ i = c) n :=
  count_split _ _ _ n (fun i => by omega) (fun i => by omega)

theorem count_lt_succ (κ : Arr) (c n : Nat) :
    Nat.count (fun i => κ i < c + 1) n = Nat.count (fun i => κ i ≤ c) n := by
  congr 1
  funext i
  exact propext (by omega)

theorem count_pred_le (p q : Nat → Prop) [DecidablePred p] [DecidablePred q] (n : Nat)
    (h : ∀ i, i < n → p i → q i) : Nat.count p n ≤ Nat.count q n := by
  induction n with
  | zero => simp
  | succ m ih =>
    rw [Nat.count_succ, Nat.count_succ]
    have := ih (fun i hi => h i (Nat.lt_succ_of_lt hi))
    have h1 := h m (Nat.lt_succ_self m)
    by_cases hp : p m <;> by_cases hq : q m <;> simp [hp, hq] at h1 ⊢ <;> omega

theorem count_le_self (p : Nat → Prop) [DecidablePred p] (n : Nat) : Nat.count p n ≤ n := by
  induction n with
  | zero => simp
  | succ m ih =>
    rw [Nat.count_succ]
    split <;> omega

theorem count_mono_len (p : Nat → Prop) [DecidablePred p] {m n : Nat} (h : m ≤ n) :
    Nat.count p m ≤ Nat.count p n :=
  Nat.count_monotone p h

theorem count_lt_of_mem (p : Nat → Prop) [DecidablePred p] {m n : Nat} (h : m < n) (hp : p m) :
    Nat.count p m < Nat.count p n := by
  have h1 : Nat.count p (m + 1) = Nat.count p m + 1 := by
    rw [Nat.count_succ, if_pos hp]
  have h2 := count_mono_len p (show m + 1 ≤ n from h)
  omega

/-- The slot of an item lies below the number of items. -/
theorem sortPos_lt (κ : Arr) (len i : Nat) (hi : i < len) : sortPos κ len i < len := by
  unfold sortPos
  have h1 := count_le_eq κ (κ i) len
  have h2 := count_le_self (fun i' => κ i' ≤ κ i) len
  have h3 := count_lt_of_mem (fun i' => κ i' = κ i) hi rfl
  omega

theorem sortPos_lt_of_key_lt (κ : Arr) (len i i' : Nat) (hi : i < len) (h : κ i < κ i') :
    sortPos κ len i < sortPos κ len i' := by
  unfold sortPos
  have h1 := count_le_eq κ (κ i) len
  have h3 := count_lt_of_mem (fun t => κ t = κ i) hi rfl
  have h4 : Nat.count (fun t => κ t ≤ κ i) len ≤ Nat.count (fun t => κ t < κ i') len :=
    count_pred_le _ _ len (fun t _ ht => Nat.lt_of_le_of_lt ht h)
  omega

theorem sortPos_lt_of_key_eq (κ : Arr) (len i i' : Nat) (hii : i < i') (h : κ i = κ i') :
    sortPos κ len i < sortPos κ len i' := by
  unfold sortPos
  rw [h]
  have h3 := count_lt_of_mem (fun t => κ t = κ i') hii h
  omega

/-- The slots order the items by key first and by index second. -/
theorem sortPos_lt_iff (κ : Arr) (len i i' : Nat) (hi : i < len) (hi' : i' < len) :
    sortPos κ len i < sortPos κ len i' ↔ κ i < κ i' ∨ (κ i = κ i' ∧ i < i') := by
  constructor
  · intro h
    rcases Nat.lt_trichotomy (κ i) (κ i') with hk | hk | hk
    · exact Or.inl hk
    · rcases Nat.lt_trichotomy i i' with hL | hL | hL
      · exact Or.inr ⟨hk, hL⟩
      · subst hL; exact absurd h (Nat.lt_irrefl _)
      · have := sortPos_lt_of_key_eq κ len i' i hL hk.symm
        omega
    · have := sortPos_lt_of_key_lt κ len i' i hi' hk
      omega
  · rintro (h | ⟨h, hL⟩)
    · exact sortPos_lt_of_key_lt κ len i i' hi h
    · exact sortPos_lt_of_key_eq κ len i i' hL h

theorem sortPos_permOn (κ : Arr) (len : Nat) : PermOn len (sortPos κ len) := by
  refine ⟨fun i hi => sortPos_lt κ len i hi, ?_⟩
  intro i i' hi hi' e
  rcases Nat.lt_trichotomy (κ i) (κ i') with hk | hk | hk
  · have := sortPos_lt_of_key_lt κ len i i' hi hk; omega
  · rcases Nat.lt_trichotomy i i' with hL | hL | hL
    · have := sortPos_lt_of_key_eq κ len i i' hL hk; omega
    · exact hL
    · have := sortPos_lt_of_key_eq κ len i' i hL hk.symm; omega
  · have := sortPos_lt_of_key_lt κ len i' i hi' hk; omega

theorem zeroBucket_spec (range : Nat) (b : Arr) (c : Nat) :
    zeroBucket range b c = if c < range then 0 else b c := by
  unfold zeroBucket
  refine forUp_inv (fun k t => t c = if c < k then 0 else b c) 0 range _ b (by simp) ?_
  intro k t _ ht
  simp only [Nat.zero_add]
  by_cases hc : c = k
  · subst hc; simp [setAt_same]
  · rw [setAt_other _ _ _ _ hc, ht]
    by_cases h1 : c < k
    · simp [h1, Nat.lt_succ_of_lt h1]
    · have : ¬ c < k + 1 := by omega
      simp [h1, this]

/-- The counting loop `for (i = 0; i < len; i++) ++bucket[κ(i)]`. -/
theorem countLoop_spec (κ : Arr) (len : Nat) (b : Arr) (c : Nat) :
    forUp 0 len (fun i t => setAt t (κ i) (t (κ i) + 1)) b c
      = b c + Nat.count (fun i => κ i = c) len := by
  refine forUp_inv (fun k t => t c = b c + Nat.count (fun i => κ i = c) k) 0 len _ b (by simp) ?_
  intro k t _ ht
  simp only [Nat.zero_add]
  rw [Nat.count_succ]
  by_cases hc : κ k = c
  · rw [if_pos hc, ← hc, setAt_same, hc, ht]; omega
  · rw [if_neg hc, setAt_other _ _ _ _ (Ne.symm hc), ht]; rfl

theorem sumBucket_spec (κ : Arr) (len range : Nat) (b : Arr)
    (hb : ∀ c, c < range → b c = Nat.count (fun i => κ i = c) len) (c : Nat) (hc : c < range) :
    sumBucket range b c = Nat.count (fun i => κ i ≤ c) len := by
  unfold sumBucket
  have key : ∀ c, c < range →
      forUp 1 (range - 1) (fun i t => setAt t i (t i + t (i - 1))) b c
        = if c ≤ range - 1 then Nat.count (fun i => κ i ≤ c) len else b c := by
    refine forUp_inv (fun k (t : Arr) => ∀ c, c < range →
      t c = if c ≤ k then Nat.count (fun i => κ i ≤ c) len else b c) 1 (range - 1) _ b ?_ ?_
    · intro c hc
      by_cases h0 : c ≤ 0
      · have : c = 0 := by omega
        subst this
        rw [if_pos h0, hb 0 hc]
        congr 1; funext i; exact propext (by omega)
      · rw [if_neg h0]
    · intro k t hk ht c hc
      by_cases hck : c = 1 + k
      · subst hck
        rw [setAt_same, if_pos (by omega)]
        have e1 := ht (1 + k) hc
        rw [if_neg (by omega)] at e1
        have e2 := ht (1 + k - 1) (by omega)
        rw [if_pos (by omega)] at e2
        rw [e1, e2, hb _ hc]
        have e3 : 1 + k - 1 = k := by omega
        rw [e3]
        have e4 := count_le_eq κ (1 + k) len
        have e5 := count_lt_succ κ k len
        have e6 : 1 + k = k + 1 := by omega
        rw [e6] at e4 ⊢
        omega
      · rw [setAt_other _ _ _ _ hck, ht c hc]
        by_cases h1 : c ≤ k
        · rw [if_pos h1, if_pos (by omega)]
        · rw [if_neg h1, if_neg (by omega)]
  have hle : c ≤ range - 1 := by omega
  have := key c hc
  rw [if_pos hle] at this
  exact this

/-- The placement loop puts every item into its slot and touches no other cell of `suffix`. -/
theorem placeAll_spec (len range : Nat) (key item b sfx : Arr)
    (hb : ∀ c, c < range → b c = Nat.count (fun i => key (item i) ≤ c) len)
    (hk : ∀ i, i < len → key (item i) < range) :
    (∀ i, i < len → (placeAll len key item (b, sfx)).2 (sortPos (fun i => key (item i)) len i)
        = item i) ∧
    (∀ q, len ≤ q → (placeAll len key item (b, sfx)).2 q = sfx q) := by
  unfold placeAll
  have main := forDown_inv (fun m (t : Arr × Arr) =>
      (∀ c, c < range → t.1 c = Nat.count (fun i => key (item i) < c) len
          + Nat.count (fun i => key (item i) = c) m) ∧
      (∀ i, m ≤ i → i < len → t.2 (sortPos (fun i => key (item i)) len i) = item i) ∧
      (∀ q, len ≤ q → t.2 q = sfx q)) len
      (fun i bs =>
        (setAt bs.1 (key (item i)) (bs.1 (key (item i)) - 1),
         setAt bs.2 (bs.1 (key (item i)) - 1) (item i))) (b, sfx) ?_ ?_
  · exact ⟨fun i hi => main.2.1 i (Nat.zero_le i) hi, main.2.2⟩
  · refine ⟨?_, ?_, ?_⟩
    · intro c hc
      show b c = _
      rw [hb c hc]
      exact count_le_eq (fun i => key (item i)) c len
    · intro i h1 h2; omega
    · intro q _; rfl
  · rintro k ⟨t1, t2⟩ hklen ⟨h1, h2, h3⟩
    simp only at h1 h2 h3
    have hkey := hk k hklen
    have e1 := h1 _ hkey
    have e2 : Nat.count (fun i => key (item i) = key (item k)) (k + 1)
        = Nat.count (fun i => key (item i) = key (item k)) k + 1 := by
      rw [Nat.count_succ, if_pos rfl]
    have e3 : t1 (key (item k)) - 1 = sortPos (fun i => key (item i)) len k := by
      unfold sortPos
      simp only at e1 ⊢
      omega
    refine ⟨?_, ?_, ?_⟩
    · intro c hc
      show setAt t1 (key (item k)) (t1 (key (item k)) - 1) c = _
      by_cases hck : c = key (item k)
      · subst hck
        rw [setAt_same]
        simp only at e1
        omega
      · rw [setAt_other _ _ _ _ hck, h1 c hc, Nat.count_succ, if_neg (Ne.symm hck)]
        rfl
    · intro i hki hi
      show setAt t2 (t1 (key (item k)) - 1) (item k) _ = _
      rw [e3]
      by_cases hik : i = k
      · subst hik; rw [setAt_same]
      · rw [setAt_other]
        · exact h2 i (by omega) hi
        · intro e
          exact hik ((sortPos_permOn (fun i => key (item i)) len).2 i k hi hklen e)
    · intro q hq
      show setAt t2 (t1 (key (item k)) - 1) (item k) q = _
      rw [e3, setAt_other]
      · exact h3 q hq
      · have := sortPos_lt (fun i => key (item i)) len k hklen
        omega

theorem cons_lt_cons_iff (a b : Nat) (l l' : List Nat) :
    (a :: l) < (b :: l') ↔ a < b ∨ (a = b ∧ l < l') := by
  show List.Lex (· < ·) (a :: l) (b :: l') ↔ a < b ∨ (a = b ∧ List.Lex (· < ·) l l')
  constructor
  · intro h
    cases h with
    | cons h => exact Or.inr ⟨rfl, h⟩
    | rel h => exact Or.inl h
  · rintro (h | ⟨rfl, h⟩)
    · exact List.Lex.rel h
    · exact List.Lex.cons h

/-- With first parts of equal length the order of two concatenations is the order of the pairs. -/
theorem append_lt_append_iff (x x' y y' : List Nat) (h : x.length = x'.length) :
    x ++ y < x' ++ y' ↔ x < x' ∨ (x = x' ∧ y < y') := by
  induction x generalizing x' with
  | nil =>
    cases x' with
    | nil => simp
    | cons b t => simp at h
  | cons a s ih =>
    cases x' with
    | nil => simp at h
    | cons b t =>
      have hl : s.length = t.length := by simpa using h
      rw [List.cons_append, List.cons_append, cons_lt_cons_iff, cons_lt_cons_iff, ih t hl]
      constructor
      · rintro (h1 | ⟨h1, h2 | ⟨h2, h3⟩⟩)
        · exact Or.inl (Or.inl h1)
        · exact Or.inl (Or.inr ⟨h1, h2⟩)
        · exact Or.inr ⟨by rw [h1, h2], h3⟩
      · rintro ((h1 | ⟨h1, h2⟩) | ⟨h1, h2⟩)
        · exact Or.inl h1
        · exact Or.inr ⟨h1, Or.inl h2⟩
        · injection h1 with e1 e2
          exact Or.inr ⟨e1, Or.inr ⟨e2, h2⟩⟩

theorem length_keyOf (str : Arr) (n j a : Nat) : (keyOf str n j a).length = j := by
  simp [keyOf]

theorem keyOf_add (str : Arr) (n j j' a : Nat) :
    keyOf str n (j + j') a = keyOf str n j a ++ keyOf str n j' (a + j) := by
  unfold keyOf
  rw [List.range_add, List.map_append, List.map_map]
  congr 1
  apply List.map_congr_left
  intro k _
  simp [Nat.add_assoc]

theorem keyOf_succ (str : Arr) (n j a : Nat) :
    keyOf str n (j + 1) a = keyOf str n j a ++ [ext str n (a + j)] := by
  rw [keyOf_add]
  rfl

theorem keyOf_one_add (str : Arr) (n j a : Nat) :
    keyOf str n (1 + j) a = ext str n a :: keyOf str n j (a + 1) := by
  rw [keyOf_add]
  rfl

/-- Two keys agree exactly when the extended text agrees on the `j` places. -/
theorem keyOf_eq_iff (str : Arr) (n j a b : Nat) :
    keyOf str n j a = keyOf str n j b ↔ ∀ k, k < j → ext str n (a + k) = ext str n (b + k) := by
  induction j with
  | zero => simp [keyOf]
  | succ j ih =>
    rw [keyOf_succ, keyOf_succ]
    constructor
    · intro h k hk
      have h2 := List.append_inj h (by rw [length_keyOf, length_keyOf])
      rcases Nat.lt_succ_iff_lt_or_eq.1 hk with h3 | h3
      · exact (ih.1 h2.1) k h3
      · subst h3
        simpa using h2.2
    · intro h
      rw [ih.2 (fun k hk => h k (Nat.lt_succ_of_lt hk)), h j (Nat.lt_succ_self j)]

theorem keyOf_eq_of_le (str : Arr) (n j j' a b : Nat) (hj : j ≤ j')
    (h : keyOf str n j' a = keyOf str n j' b) : keyOf str n j a = keyOf str n j b := by
  rw [keyOf_eq_iff] at h ⊢
  exact fun k hk => h k (Nat.lt_of_lt_of_le hk hj)

/-- The order of the doubled keys is the order of the pairs of keys. -/
theorem keyOf_double_lt (str : Arr) (n j j' a b : Nat) :
    keyOf str n (j + j') a < keyOf str n (j + j') b ↔
      keyOf str n j a < keyOf str n j b ∨
      (keyOf str n j a = keyOf str n j b ∧ keyOf str n j' (a + j) < keyOf str n j' (b + j)) := by
  rw [keyOf_add, keyOf_add]
  exact append_lt_append_iff _ _ _ _ (by rw [length_keyOf, length_keyOf])

theorem keyOf_double_eq (str : Arr) (n j j' a b : Nat) :
    keyOf str n (j + j') a = keyOf str n (j + j') b ↔
      keyOf str n j a = keyOf str n j b ∧ keyOf str n j' (a + j) = keyOf str n j' (b + j) := by
  rw [keyOf_add, keyOf_add]
  constructor
  · intro h
    exact List.append_inj h (by rw [length_keyOf, length_keyOf])
  · rintro ⟨h1, h2⟩
    rw [h1, h2]

theorem keyOf_double_le (str : Arr) (n j j' a b : Nat) :
    keyOf str n (j + j') a ≤ keyOf str n (j + j') b ↔
      keyOf str n j a < keyOf str n j b ∨
      (keyOf str n j a = keyOf str n j b ∧ keyOf str n j' (a + j) ≤ keyOf str n j' (b + j)) := by
  rw [le_iff_lt_or_eq, keyOf_double_lt, keyOf_double_eq, le_iff_lt_or_eq]
  tauto

/-- Past the end of the text every key is the least one. -/
theorem keyOf_past_le (str : Arr) (n j a b : Nat) (ha : n ≤ a) :
    keyOf str n j a ≤ keyOf str n j b := by
  induction j generalizing a b with
  | zero => simp [keyOf]
  | succ j ih =>
    have e : j + 1 = 1 + j := Nat.add_comm j 1
    rw [e, keyOf_one_add, keyOf_one_add, le_iff_lt_or_eq, cons_lt_cons_iff]
    have h0 : ext str n a = 0 := by
      unfold ext
      rw [if_neg (by omega)]
    rcases Nat.eq_zero_or_pos (ext str n b) with hb | hb
    · rcases le_iff_lt_or_eq.1 (ih (a + 1) (b + 1) (by omega)) with h | h
      · exact Or.inl (Or.inr ⟨by rw [h0, hb], h⟩)
      · exact Or.inr (by rw [h0, hb, h])
    · exact Or.inl (Or.inl (by rw [h0]; exact hb))

theorem keyOf_lt_of_le (str : Arr) (n j j' a b : Nat) (hj : j ≤ j')
    (h : keyOf str n j a < keyOf str n j b) : keyOf str n j' a < keyOf str n j' b := by
  obtain ⟨d, rfl⟩ := Nat.exists_eq_add_of_le hj
  rw [keyOf_double_lt]
  exact Or.inl h

/-- With the last character below all others, two distinct offsets whose keys of
length `j` agree both have a second key inside the text. -/
theorem keyOf_eq_inside (str : Arr) (n j a b : Nat)
    (hU : ∀ i, i + 1 < n → str (n - 1) < str i) (ha : a < n) (_ : b < n) (hab : a ≠ b)
    (h : keyOf str n j a = keyOf str n j b) : a + j < n := by
  by_contra hcon
  rw [keyOf_eq_iff] at h
  have hk := h (n - 1 - a) (by omega)
  have e1 : a + (n - 1 - a) = n - 1 := by omega
  rw [e1] at hk
  unfold ext at hk
  rw [if_pos (by omega)] at hk
  by_cases h2 : b + (n - 1 - a) < n
  · rw [if_pos h2] at hk
    have := hU (b + (n - 1 - a)) (by omega)
    omega
  · rw [if_neg h2] at hk
    omega

/-- A map that reaches every index of `[0, n)` from `[0, n)` is a permutation. -/
theorem permOn_of_surj {n : Nat} {f : Arr} (h : ∀ a, a < n → ∃ q, q < n ∧ f q = a) :
    PermOn n f := by
  have hsub : Finset.range n ⊆ (Finset.range n).image f := by
    intro a ha
    rcases h a (Finset.mem_range.1 ha) with ⟨q, hq, e⟩
    exact Finset.mem_image.2 ⟨q, Finset.mem_range.2 hq, e⟩
  have hcard : ((Finset.range n).image f).card = (Finset.range n).card := by
    apply Nat.le_antisymm Finset.card_image_le
    exact Finset.card_le_card hsub
  have himg : Finset.range n = (Finset.range n).image f :=
    Finset.eq_of_subset_of_card_le hsub (Nat.le_of_eq hcard)
  constructor
  · intro i hi
    have : f i ∈ (Finset.range n).image f :=
      Finset.mem_image.2 ⟨i, Finset.mem_range.2 hi, rfl⟩
    rw [← himg] at this
    exact Finset.mem_range.1 this
  · intro i i' hi hi' e
    have hinj := Finset.card_image_iff.1 hcard
    exact hinj (Finset.mem_coe.2 (Finset.mem_range.2 hi))
      (Finset.mem_coe.2 (Finset.mem_range.2 hi')) e

theorem exists_count_eq (P : Nat → Prop) [DecidablePred P] (n t : Nat)
    (h : t < Nat.count P n) : ∃ i, i < n ∧ P i ∧ Nat.count P i = t := by
  induction n with
  | zero => simp at h
  | succ m ih =>
    rw [Nat.count_succ] at h
    by_cases h1 : t < Nat.count P m
    · rcases ih h1 with ⟨i, hi, hp, e⟩
      exact ⟨i, Nat.lt_succ_of_lt hi, hp, e⟩
    · by_cases hp : P m
      · rw [if_pos hp] at h
        exact ⟨m, Nat.lt_succ_self m, hp, by omega⟩
      · rw [if_neg hp] at h
        omega

/-- The first loop of `fillSnd`: the offsets without a second key, in order. -/
theorem fillSnd_head (len j : Nat) (sk : Arr) :
    (forUp (len - j) j (fun i (sp : Arr × Nat) => (setAt sp.1 sp.2 i, sp.2 + 1)) (sk, 0)).2 = j ∧
    ∀ q, q < j →
      (forUp (len - j) j (fun i (sp : Arr × Nat) => (setAt sp.1 sp.2 i, sp.2 + 1)) (sk, 0)).1 q
        = len - j + q := by
  refine forUp_inv (fun k (t : Arr × Nat) => t.2 = k ∧ ∀ q, q < k → t.1 q = len - j + q)
    (len - j) j _ (sk, 0) ⟨rfl, fun q hq => absurd hq (Nat.not_lt_zero q)⟩ ?_
  rintro k ⟨t1, t2⟩ _ ⟨h1, h2⟩
  simp only at h1 h2
  subst h1
  refine ⟨rfl, ?_⟩
  intro q hq
  show setAt t1 t2 (len - j + t2) q = _
  by_cases e : q = t2
  · subst e; rw [setAt_same]
  · rw [setAt_other _ _ _ _ e]
    exact h2 q (by omega)

/-- What `fillSnd` leaves in `snd_key`. -/
theorem fillSnd_spec (len j : Nat) (sfx sk : Arr) :
    (fillSnd len j sfx sk).2 = j + Nat.count (fun i => j ≤ sfx i) len ∧
    (∀ q, q < j → (fillSnd len j sfx sk).1 q = len - j + q) ∧
    (∀ i, i < len → j ≤ sfx i →
      (fillSnd len j sfx sk).1 (j + Nat.count (fun i => j ≤ sfx i) i) = sfx i - j) := by
  unfold fillSnd
  have hh := fillSnd_head len j sk
  generalize forUp (len - j) j (fun i (sp : Arr × Nat) => (setAt sp.1 sp.2 i, sp.2 + 1)) (sk, 0)
    = s1 at hh
  obtain ⟨s11, s12⟩ := s1
  simp only at hh
  obtain ⟨hh1, hh2⟩ := hh
  subst hh1
  refine forUp_inv (fun m (t : Arr × Nat) =>
      t.2 = s12 + Nat.count (fun i => s12 ≤ sfx i) m ∧
      (∀ q, q < s12 → t.1 q = len - s12 + q) ∧
      (∀ i, i < m → s12 ≤ sfx i →
        t.1 (s12 + Nat.count (fun i => s12 ≤ sfx i) i) = sfx i - s12))
    0 len _ (s11, s12) ⟨by simp, hh2, fun i hi => absurd hi (Nat.not_lt_zero i)⟩ ?_
  rintro m ⟨t1, t2⟩ _ ⟨h1, h2, h3⟩
  simp only at h1 h2 h3
  simp only [Nat.zero_add]
  by_cases hm : s12 ≤ sfx m
  · rw [if_pos hm]
    refine ⟨?_, ?_, ?_⟩
    · show t2 + 1 = _
      rw [Nat.count_succ, if_pos hm, h1]; omega
    · intro q hq
      show setAt t1 t2 (sfx m - s12) q = _
      rw [setAt_other _ _ _ _ (by omega)]
      exact h2 q hq
    · intro i hi hi2
      show setAt t1 t2 (sfx m - s12) _ = _
      rw [h1]
      by_cases e : i = m
      · subst e; rw [setAt_same]
      · have hlt : i < m := by omega
        have := count_lt_of_mem (fun i => s12 ≤ sfx i) hlt hi2
        rw [setAt_other _ _ _ _ (by omega)]
        exact h3 i hlt hi2
  · rw [if_neg hm]
    refine ⟨?_, h2, ?_⟩
    · show t2 = _
      rw [Nat.count_succ, if_neg hm, h1]; rfl
    · intro i hi hi2
      have hlt : i < m := by
        rcases Nat.lt_succ_iff_lt_or_eq.1 hi with h | h
        · exact h
        · subst h; exact absurd hi2 hm
      exact h3 i hlt hi2

/-- After `fillSnd` the array `snd_key` lists every offset once, in the order of the
second keys, and `p` is `len`. -/
theorem fillSnd_sorted (str : Arr) (len j : Nat) (sfx sk : Arr) (hj : j ≤ len)
    (hp : PermOn len sfx) (hs : SortedBy str len j sfx) :
    (fillSnd len j sfx sk).2 = len ∧ PermOn len (fillSnd len j sfx sk).1 ∧
    ∀ q q', q < q' → q' < len →
      keyOf str len j ((fillSnd len j sfx sk).1 q + j)
        ≤ keyOf str len j ((fillSnd len j sfx sk).1 q' + j) := by
  obtain ⟨h1, h2, h3⟩ := fillSnd_spec len j sfx sk
  have hc : Nat.count (fun i => j ≤ sfx i) len = len - j := by
    rw [hp.count_comp (fun a => j ≤ a), count_ge_range len j hj]
  refine ⟨by rw [h1, hc]; omega, ?_, ?_⟩
  · apply permOn_of_surj
    intro a ha
    by_cases h : len - j ≤ a
    · exact ⟨a - (len - j), by omega, by rw [h2 _ (by omega)]; omega⟩
    · rcases hp.surj (a + j) (by omega) with ⟨i, hi, e⟩
      have hji : j ≤ sfx i := by omega
      have := count_lt_of_mem (fun i => j ≤ sfx i) hi hji
      exact ⟨j + Nat.count (fun i => j ≤ sfx i) i, by omega, by rw [h3 i hi hji]; omega⟩
  · intro q q' hqq hq'
    by_cases hq : q < j
    · apply keyOf_past_le
      rw [h2 q hq]; omega
    · rcases exists_count_eq (fun i => j ≤ sfx i) len (q - j) (by omega) with ⟨i, hi, hpi, ei⟩
      rcases exists_count_eq (fun i => j ≤ sfx i) len (q' - j) (by omega) with ⟨i', hi', hpi', ei'⟩
      have e1 : q = j + Nat.count (fun i => j ≤ sfx i) i := by omega
      have e2 : q' = j + Nat.count (fun i => j ≤ sfx i) i' := by omega
      have hii : i < i' := by
        by_contra hcon
        have := count_mono_len (fun i => j ≤ sfx i) (Nat.le_of_not_lt hcon)
        omega
      rw [e1, e2, h3 i hi hpi, h3 i' hi' hpi']
      have e3 : sfx i - j + j = sfx i := by omega
      have e4 : sfx i' - j + j = sfx i' := by omega
      rw [e3, e4]
      exact hs i i' hii hi'

/-- What the bucket sort of lines 135-138 leaves in `suffix`. -/
theorem keySort_spec (len range : Nat) (fk sk b sfx : Arr)
    (hk : ∀ i, i < len → fk (sk i) < range) :
    (∀ i, i < len → (keySort len range fk sk b sfx).2 (sortPos (fun i => fk (sk i)) len i)
        = sk i) ∧
    (∀ q, len ≤ q → (keySort len range fk sk b sfx).2 q = sfx q) := by
  unfold keySort
  apply placeAll_spec len range fk sk _ sfx _ hk
  intro c hc
  apply sumBucket_spec (fun i => fk (sk i)) len range _ _ c hc
  intro c hc
  rw [countLoop_spec (fun i => fk (sk i)) len _ c, zeroBucket_spec, if_pos hc, Nat.zero_add]

/-- A placement of a permutation by slots is a permutation, ordered by key and then
by the former index. -/
theorem placed_perm (len : Nat) (κ item sfx : Arr) (hp : PermOn len item)
    (h : ∀ i, i < len → sfx (sortPos κ len i) = item i) :
    PermOn len sfx ∧
    ∀ q q', q < q' → q' < len → ∃ i i', i < len ∧ i' < len ∧ sfx q = item i ∧
      sfx q' = item i' ∧ (κ i < κ i' ∨ (κ i = κ i' ∧ i < i')) := by
  constructor
  · apply permOn_of_surj
    intro a ha
    rcases hp.surj a ha with ⟨i, hi, e⟩
    exact ⟨sortPos κ len i, sortPos_lt κ len i hi, by rw [h i hi, e]⟩
  · intro q q' hqq hq'
    rcases (sortPos_permOn κ len).surj q (by omega) with ⟨i, hi, e⟩
    rcases (sortPos_permOn κ len).surj q' hq' with ⟨i', hi', e'⟩
    refine ⟨i, i', hi, hi', by rw [← e, h i hi], by rw [← e', h i' hi'], ?_⟩
    rw [← e, ← e'] at hqq
    exact (sortPos_lt_iff κ len i i' hi hi').1 hqq

theorem RankOK.eq_iff {str : Arr} {n j : Nat} {fk : Arr} (h : RankOK str n j fk) (a b : Nat)
    (ha : a < n) (hb : b < n) : fk a = fk b ↔ keyOf str n j a = keyOf str n j b := by
  have h1 := h a b ha hb
  have h2 := h b a hb ha
  constructor
  · intro e
    rcases lt_trichotomy (keyOf str n j a) (keyOf str n j b) with h3 | h3 | h3
    · have := h1.2 h3; omega
    · exact h3
    · have := h2.2 h3; omega
  · intro e
    rcases Nat.lt_trichotomy (fk a) (fk b) with h3 | h3 | h3
    · have := h1.1 h3; rw [e] at this; exact absurd this (lt_irrefl _)
    · exact h3
    · have := h2.1 h3; rw [e] at this; exact absurd this (lt_irrefl _)

/-- What the loop of lines 142-148 leaves in the new first key and in `p`. -/
theorem rerank_spec (len j : Nat) (sfx old new : Arr) (hlen : 0 < len) (hp : PermOn len sfx) :
    (rerank len j sfx old new).2 = 1 + newRank j sfx old (len - 1) ∧
    ∀ i, i < len → (rerank len j sfx old new).1 (sfx i) = newRank j sfx old i := by
  unfold rerank
  have h0 : newRank j sfx old 0 = 0 := by
    unfold newRank
    rw [Nat.count_succ]
    simp
  have main := forUp_inv (fun k (t : Arr × Nat) =>
      t.2 = 1 + newRank j sfx old k ∧
      ∀ i, i ≤ k → i < len → t.1 (sfx i) = newRank j sfx old i) 1 (len - 1)
    (fun i (fp : Arr × Nat) =>
      if old (sfx i) = old (sfx (i - 1)) ∧ old (sfx i + j) = old (sfx (i - 1) + j)
      then (setAt fp.1 (sfx i) (fp.2 - 1), fp.2)
      else (setAt fp.1 (sfx i) fp.2, fp.2 + 1)) (setAt new (sfx 0) 0, 1) ?_ ?_
  · exact ⟨main.1, fun i hi => main.2 i (by omega) hi⟩
  · refine ⟨by rw [h0], ?_⟩
    intro i hi _
    have : i = 0 := by omega
    subst this
    show setAt new (sfx 0) 0 (sfx 0) = _
    rw [setAt_same, h0]
  · rintro k ⟨t1, t2⟩ hk ⟨h1, h2⟩
    simp only at h1 h2
    have hstep : newRank j sfx old (k + 1) = newRank j sfx old k
        + (if sameKey j sfx old (1 + k) then 0 else 1) := by
      unfold newRank
      rw [Nat.count_succ]
      have e : k + 1 = 1 + k := Nat.add_comm k 1
      rw [e]
      by_cases hs : sameKey j sfx old (1 + k)
      · rw [if_pos hs, if_neg (by simp [hs])]
      · rw [if_neg hs, if_pos ⟨by omega, hs⟩]
    have hne : ∀ i, i ≤ k → sfx i ≠ sfx (1 + k) := by
      intro i hi e
      have := hp.2 i (1 + k) (by omega) (by omega) e
      omega
    dsimp only
    by_cases hs : sameKey j sfx old (1 + k)
    · rw [if_pos hs] at hstep
      have hs' : old (sfx (1 + k)) = old (sfx (1 + k - 1)) ∧
          old (sfx (1 + k) + j) = old (sfx (1 + k - 1) + j) := hs
      rw [if_pos hs']
      refine ⟨?_, ?_⟩
      · show t2 = _
        rw [hstep, h1]; rfl
      · intro i hi hil
        show setAt t1 (sfx (1 + k)) (t2 - 1) (sfx i) = _
        by_cases e : i = 1 + k
        · subst e
          rw [setAt_same, h1]
          have e2 : 1 + k = k + 1 := Nat.add_comm 1 k
          rw [e2, hstep]
          omega
        · rw [setAt_other _ _ _ _ (hne i (by omega))]
          exact h2 i (by omega) hil
    · rw [if_neg hs] at hstep
      have hs' : ¬ (old (sfx (1 + k)) = old (sfx (1 + k - 1)) ∧
          old (sfx (1 + k) + j) = old (sfx (1 + k - 1) + j)) := hs
      rw [if_neg hs']
      refine ⟨?_, ?_⟩
      · show t2 + 1 = _
        rw [hstep, h1]; omega
      · intro i hi hil
        show setAt t1 (sfx (1 + k)) t2 (sfx i) = _
        by_cases e : i = 1 + k
        · subst e
          rw [setAt_same, h1]
          have e2 : 1 + k = k + 1 := Nat.add_comm 1 k
          rw [e2, hstep]
          omega
        · rw [setAt_other _ _ _ _ (hne i (by omega))]
          exact h2 i (by omega) hil

theorem count_eq_iff_forall (P : Nat → Prop) [DecidablePred P] (m m' : Nat) (h : m ≤ m') :
    Nat.count P m = Nat.count P m' ↔ ∀ t, m ≤ t → t < m' → ¬ P t := by
  induction m' with
  | zero =>
    have : m = 0 := by omega
    subst this
    simp
  | succ d ih =>
    rcases Nat.lt_or_ge m (d + 1) with hlt | hge
    · have hmd : m ≤ d := by omega
      have hmono := count_mono_len P hmd
      rw [Nat.count_succ]
      constructor
      · intro e t ht1 ht2
        by_cases hpd : P d
        · rw [if_pos hpd] at e; omega
        · rw [if_neg hpd] at e
          rcases Nat.lt_succ_iff_lt_or_eq.1 ht2 with h3 | h3
          · exact (ih hmd).1 (by omega) t ht1 h3
          · subst h3; exact hpd
      · intro hall
        have hpd : ¬ P d := hall d hmd (Nat.lt_succ_self d)
        rw [if_neg hpd]
        have := (ih hmd).2 (fun t ht1 ht2 => hall t ht1 (Nat.lt_succ_of_lt ht2))
        omega
    · have : m = d + 1 := by omega
      subst this
      constructor
      · intro _ t ht1 ht2; omega
      · intro _; rfl

theorem newRank_mono (j : Nat) (sfx old : Arr) {i i' : Nat} (h : i ≤ i') :
    newRank j sfx old i ≤ newRank j sfx old i' :=
  count_mono_len _ (by omega)

theorem newRank_zero (j : Nat) (sfx old : Arr) : newRank j sfx old 0 = 0 := by
  unfold newRank
  rw [Nat.count_succ]
  simp

theorem newRank_succ_le (j : Nat) (sfx old : Arr) (i : Nat) :
    newRank j sfx old (i + 1) ≤ newRank j sfx old i + 1 := by
  unfold newRank
  rw [Nat.count_succ]
  split <;> omega

theorem newRank_le (j : Nat) (sfx old : Arr) (i : Nat) : newRank j sfx old i ≤ i := by
  induction i with
  | zero => rw [newRank_zero]
  | succ i ih =>
    have := newRank_succ_le j sfx old i
    omega

theorem newRank_eq_iff (j : Nat) (sfx old : Arr) {i i' : Nat} (h : i ≤ i') :
    newRank j sfx old i = newRank j sfx old i' ↔
      ∀ t, i < t → t ≤ i' → sameKey j sfx old t := by
  unfold newRank
  rw [count_eq_iff_forall _ (i + 1) (i' + 1) (by omega)]
  constructor
  · intro hall t ht1 ht2
    have := hall t (by omega) (by omega)
    by_contra hcon
    exact this ⟨by omega, hcon⟩
  · intro hall t ht1 ht2 hP
    exact hP.2 (hall t (by omega) (by omega))

/-- Along a non-decreasing sequence two entries are equal exactly when all steps between
them are. -/
theorem chain_eq_iff (K : Nat → List Nat) (n : Nat)
    (hK : ∀ i i', i < i' → i' < n → K i ≤ K i') {i i' : Nat} (h : i ≤ i') (hi' : i' < n) :
    K i = K i' ↔ ∀ t, i < t → t ≤ i' → K t = K (t - 1) := by
  constructor
  · intro e t ht1 ht2
    have h1 : K (t - 1) ≤ K t := hK (t - 1) t (by omega) (by omega)
    have h2 : K i ≤ K (t - 1) := by
      rcases Nat.lt_or_ge i (t - 1) with h3 | h3
      · exact hK i (t - 1) h3 (by omega)
      · have : i = t - 1 := by omega
        rw [this]
    have h3 : K t ≤ K i' := by
      rcases Nat.lt_or_ge t i' with h3 | h3
      · exact hK t i' h3 hi'
      · have : t = i' := by omega
        rw [this]
    rw [← e] at h3
    exact le_antisymm (le_trans h3 h2) h1
  · intro hall
    induction i' with
    | zero =>
      have : i = 0 := by omega
      rw [this]
    | succ d ih =>
      rcases Nat.lt_or_ge i (d + 1) with h3 | h3
      · have e1 := hall (d + 1) h3 (Nat.le_refl _)
        have e2 := ih (by omega) (by omega) (fun t ht1 ht2 => hall t ht1 (by omega))
        rw [e2, e1]
        rfl
      · have : i = d + 1 := by omega
        rw [this]

/-- The new ranks order the indices as the keys do, once the test of the loop tells
equal keys apart from different ones. -/
theorem newRank_lt_iff (j : Nat) (sfx old : Arr) (K : Nat → List Nat) (n : Nat)
    (hK : ∀ i i', i < i' → i' < n → K i ≤ K i')
    (hsame : ∀ t, 1 ≤ t → t < n → (sameKey j sfx old t ↔ K t = K (t - 1)))
    (i i' : Nat) (hi : i < n) (hi' : i' < n) :
    newRank j sfx old i < newRank j sfx old i' ↔ K i < K i' := by
  rcases Nat.lt_or_ge i i' with h | h
  · have hle := hK i i' h hi'
    have hmono := newRank_mono j sfx old (Nat.le_of_lt h)
    have e1 := newRank_eq_iff j sfx old (Nat.le_of_lt h)
    have e2 := chain_eq_iff K n hK (Nat.le_of_lt h) hi'
    have e3 : newRank j sfx old i = newRank j sfx old i' ↔ K i = K i' := by
      rw [e1, e2]
      constructor
      · intro hall t ht1 ht2
        exact (hsame t (by omega) (by omega)).1 (hall t ht1 ht2)
      · intro hall t ht1 ht2
        exact (hsame t (by omega) (by omega)).2 (hall t ht1 ht2)
    constructor
    · intro hlt
      rcases lt_or_eq_of_le hle with h4 | h4
      · exact h4
      · have := e3.2 h4; omega
    · intro hlt
      rcases Nat.lt_or_ge (newRank j sfx old i) (newRank j sfx old i') with h4 | h4
      · exact h4
      · have h5 : newRank j sfx old i = newRank j sfx old i' := by omega
        have := e3.1 h5
        rw [this] at hlt
        exact absurd hlt (lt_irrefl _)
  · have hmono := newRank_mono j sfx old h
    have hle : K i' ≤ K i := by
      rcases Nat.lt_or_ge i' i with h3 | h3
      · exact hK i' i h3 hi
      · have : i' = i := by omega
        rw [this]
    constructor
    · intro hlt; omega
    · intro hlt
      exact absurd (lt_of_lt_of_le hlt hle) (lt_irrefl _)

/-- When the last rank is `n - 1` every step of the sequence is a change. -/
theorem newRank_full (j : Nat) (sfx old : Arr) (n : Nat) (hn : 0 < n)
    (h : n ≤ 1 + newRank j sfx old (n - 1)) (i : Nat) (hi : i < n) :
    newRank j sfx old i = i := by
  have h1 := newRank_le j sfx old i
  have key : ∀ d, i + d < n → newRank j sfx old (i + d) ≤ newRank j sfx old i + d := by
    intro d
    induction d with
    | zero => intro _; exact Nat.le_refl _
    | succ d ih =>
      intro hd
      have := ih (by omega)
      have h2 := newRank_succ_le j sfx old (i + d)
      have e : i + (d + 1) = i + d + 1 := rfl
      rw [e]
      omega
  have h3 := key (n - 1 - i) (by omega)
  have e : i + (n - 1 - i) = n - 1 := by omega
  rw [e] at h3
  omega

/-- Two distinct offsets have different keys from length `n` on. -/
theorem keyOf_eq_short (str : Arr) (n J a b : Nat) (ha : a < n) (hb : b < n) (hab : a ≠ b)
    (h : keyOf str n J a = keyOf str n J b) : J < n := by
  by_contra hcon
  rw [keyOf_eq_iff] at h
  rcases Nat.lt_or_ge a b with hlt | hge
  · have := h (n - b) (by omega)
    unfold ext at this
    rw [if_pos (by omega), if_neg (by omega)] at this
    omega
  · have := h (n - a) (by omega)
    unfold ext at this
    rw [if_neg (by omega), if_pos (by omega)] at this
    omega

/-- One pass of the doubling loop keeps the loop invariant, with the step doubled. -/
theorem doublingStep_inv (str : Arr) (n j : Nat) (k : Keys) (h : DInv str n j k)
    (hp : k.p < n)
    (hcmp : ∀ a b, a < n → b < n → a ≠ b → keyOf str n j a = keyOf str n j b →
      (k.fst_key (a + j) = k.fst_key (b + j) ↔
        keyOf str n j (a + j) = keyOf str n j (b + j))) :
    DInv str n (2 * j) (doublingStep n j k) := by
  obtain ⟨hperm, hsorted, hrank, hrange, hj0, hjn, _⟩ := h
  have hj : j < n := hjn hp
  have hn : 0 < n := by omega
  obtain ⟨_, hskp, hsks⟩ := fillSnd_sorted str n j k.suffix k.snd_key (Nat.le_of_lt hj)
    hperm hsorted
  generalize hsk : (fillSnd n j k.suffix k.snd_key).1 = sk at hskp hsks
  have hk : ∀ i, i < n → k.fst_key (sk i) < k.range := fun i hi => hrange _ (hskp.1 i hi)
  obtain ⟨hplace, _⟩ := keySort_spec n k.range k.fst_key sk k.bucket k.suffix hk
  generalize hsfx : (keySort n k.range k.fst_key sk k.bucket k.suffix).2 = sfx at hplace
  obtain ⟨hperm', hord⟩ := placed_perm n (fun i => k.fst_key (sk i)) sk sfx hskp hplace
  have e2 : 2 * j = j + j := Nat.two_mul j
  have hsorted' : SortedBy str n (j + j) sfx := by
    intro q q' hqq hq'
    obtain ⟨i, i', hi, hi', e, e', hor⟩ := hord q q' hqq hq'
    rw [e, e', keyOf_double_le]
    rcases hor with h1 | ⟨h1, h2⟩
    · exact Or.inl ((hrank _ _ (hskp.1 i hi) (hskp.1 i' hi')).1 h1)
    · exact Or.inr ⟨(hrank.eq_iff _ _ (hskp.1 i hi) (hskp.1 i' hi')).1 h1, hsks i i' h2 hi'⟩
  obtain ⟨hrp, hrf⟩ := rerank_spec n j sfx k.fst_key sk hn hperm'
  have hsame : ∀ t, 1 ≤ t → t < n →
      (sameKey j sfx k.fst_key t ↔
        keyOf str n (j + j) (sfx t) = keyOf str n (j + j) (sfx (t - 1))) := by
    intro t ht1 ht2
    have ha := hperm'.1 t ht2
    have hb := hperm'.1 (t - 1) (by omega)
    have hne : sfx t ≠ sfx (t - 1) := by
      intro e
      have := hperm'.2 t (t - 1) ht2 (by omega) e
      omega
    unfold sameKey
    rw [keyOf_double_eq, hrank.eq_iff _ _ ha hb]
    constructor
    · rintro ⟨h1, h2⟩
      exact ⟨h1, (hcmp _ _ ha hb hne h1).1 h2⟩
    · rintro ⟨h1, h2⟩
      exact ⟨h1, (hcmp _ _ ha hb hne h1).2 h2⟩
  have hlt := newRank_lt_iff j sfx k.fst_key (fun i => keyOf str n (j + j) (sfx i)) n
    hsorted' hsame
  have f1 : (doublingStep n j k).suffix = sfx := by
    show (keySort n k.range k.fst_key (fillSnd n j k.suffix k.snd_key).1 k.bucket k.suffix).2
      = sfx
    rw [hsk, hsfx]
  have f2 : (doublingStep n j k).fst_key = (rerank n j sfx k.fst_key sk).1 := by
    show (rerank n j
      (keySort n k.range k.fst_key (fillSnd n j k.suffix k.snd_key).1 k.bucket k.suffix).2
      k.fst_key (fillSnd n j k.suffix k.snd_key).1).1 = _
    rw [hsk, hsfx]
  have f3 : (doublingStep n j k).p = (rerank n j sfx k.fst_key sk).2 := by
    show (rerank n j
      (keySort n k.range k.fst_key (fillSnd n j k.suffix k.snd_key).1 k.bucket k.suffix).2
      k.fst_key (fillSnd n j k.suffix k.snd_key).1).2 = _
    rw [hsk, hsfx]
  have f4 : (doublingStep n j k).range = (rerank n j sfx k.fst_key sk).2 := f3
  rw [e2]
  unfold DInv
  rw [f1, f2, f3, f4, hrp]
  refine ⟨hperm', hsorted', ?_, ?_, by omega, ?_, ?_⟩
  · intro a b ha hb
    obtain ⟨i, hi, rfl⟩ := hperm'.surj a ha
    obtain ⟨i', hi', rfl⟩ := hperm'.surj b hb
    rw [hrf i hi, hrf i' hi']
    exact hlt i i' hi hi'
  · intro a ha
    obtain ⟨i, hi, rfl⟩ := hperm'.surj a ha
    rw [hrf i hi]
    have := newRank_mono j sfx k.fst_key (show i ≤ n - 1 by omega)
    omega
  · intro hlt'
    have hex : ∃ t, 1 ≤ t ∧ t < n ∧ sameKey j sfx k.fst_key t := by
      by_contra hcon
      have hall : ∀ t, 0 < t → t ≤ n - 1 → ¬ sameKey j sfx k.fst_key t := by
        intro t ht1 ht2 hs
        exact hcon ⟨t, ht1, by omega, hs⟩
      have key : ∀ d, d ≤ n - 1 → newRank j sfx k.fst_key d = d := by
        intro d
        induction d with
        | zero => intro _; exact newRank_zero _ _ _
        | succ d ih =>
          intro hd
          have h1 := ih (by omega)
          have h2 : newRank j sfx k.fst_key d ≠ newRank j sfx k.fst_key (d + 1) := by
            intro e
            have := (newRank_eq_iff j sfx k.fst_key (show d ≤ d + 1 by omega)).1 e (d + 1)
              (Nat.lt_succ_self d) (Nat.le_refl _)
            exact hall (d + 1) (Nat.succ_pos d) hd this
          have h3 := newRank_mono j sfx k.fst_key (show d ≤ d + 1 by omega)
          have h4 := newRank_succ_le j sfx k.fst_key d
          omega
      have := key (n - 1) (Nat.le_refl _)
      omega
    obtain ⟨t, ht1, ht2, hs⟩ := hex
    have hkk := (hsame t ht1 ht2).1 hs
    have hne : sfx t ≠ sfx (t - 1) := by
      intro e
      have := hperm'.2 t (t - 1) ht2 (by omega) e
      omega
    exact keyOf_eq_short str n (j + j) _ _ (hperm'.1 t ht2) (hperm'.1 (t - 1) (by omega)) hne hkk
  · intro hge i i' hii hi'
    have hfull := newRank_full j sfx k.fst_key n hn hge
    have := (hlt i i' (by omega) hi').1 (by rw [hfull i (by omega), hfull i' hi']; exact hii)
    exact this

theorem count_congr (p q : Nat → Prop) [DecidablePred p] [DecidablePred q] (n : Nat)
    (h : ∀ i, i < n → (p i ↔ q i)) : Nat.count p n = Nat.count q n :=
  Nat.le_antisymm (count_pred_le p q n (fun i hi => (h i hi).1))
    (count_pred_le q p n (fun i hi => (h i hi).2))

theorem keyOf_one (str : Arr) (n a : Nat) : keyOf str n 1 a = [ext str n a] := rfl

theorem singleton_lt_iff (x y : Nat) : [x] < [y] ↔ x < y := by
  rw [cons_lt_cons_iff]
  constructor
  · rintro (h | ⟨_, h⟩)
    · exact h
    · exact absurd h (List.Lex.not_nil_right _ _)
  · intro h; exact Or.inl h

/-- The loop of lines 108-111: the first key is the text, and the buckets count it. -/
theorem firstLoop_spec (str : Arr) (len : Nat) (fk b : Arr) :
    (∀ i, (forUp 0 len (fun i (fb : Arr × Arr) =>
        (setAt fb.1 i (str i), setAt fb.2 (str i) (fb.2 (str i) + 1))) (fk, b)).1 i
        = if i < len then str i else fk i) ∧
    (∀ c, (forUp 0 len (fun i (fb : Arr × Arr) =>
        (setAt fb.1 i (str i), setAt fb.2 (str i) (fb.2 (str i) + 1))) (fk, b)).2 c
        = b c + Nat.count (fun i => str i = c) len) := by
  refine forUp_inv (fun k (t : Arr × Arr) =>
      (∀ i, t.1 i = if i < k then str i else fk i) ∧
      (∀ c, t.2 c = b c + Nat.count (fun i => str i = c) k)) 0 len _ (fk, b)
    ⟨fun i => by simp, fun c => by simp⟩ ?_
  rintro k ⟨t1, t2⟩ _ ⟨h1, h2⟩
  simp only at h1 h2
  simp only [Nat.zero_add]
  constructor
  · intro i
    show setAt t1 k (str k) i = _
    by_cases e : i = k
    · subst e; rw [setAt_same, if_pos (Nat.lt_succ_self i)]
    · rw [setAt_other _ _ _ _ e, h1 i]
      by_cases h3 : i < k
      · rw [if_pos h3, if_pos (by omega)]
      · rw [if_neg h3, if_neg (by omega)]
  · intro c
    show setAt t2 (str k) (t2 (str k) + 1) c = _
    rw [Nat.count_succ]
    by_cases e : str k = c
    · rw [if_pos e, ← e, setAt_same, h2]; omega
    · rw [if_neg e, setAt_other _ _ _ _ (Ne.symm e), h2]; rfl

/-- After lines 105-115 the first key is the text, `suffix` lists every offset once in
the order of the first characters, and the state is that of the head of the loop. -/
theorem firstSort_inv (str : Arr) (n range : Nat) (fk b sfx sk : Arr) (sw : Bool)
    (hr : ∀ i, i < n → str i < range) :
    DInv str n 1
      { suffix := (firstSort str n range fk b sfx).2.2,
        bucket := (firstSort str n range fk b sfx).2.1,
        fst_key := (firstSort str n range fk b sfx).1, snd_key := sk,
        swapped := sw, p := 1, range := range } := by
  obtain ⟨hf1, hf2⟩ := firstLoop_spec str n fk (zeroBucket range b)
  have hfk : ∀ i, i < n → (firstSort str n range fk b sfx).1 i = str i := by
    intro i hi
    show (forUp 0 n (fun i (fb : Arr × Arr) =>
        (setAt fb.1 i (str i), setAt fb.2 (str i) (fb.2 (str i) + 1)))
        (fk, zeroBucket range b)).1 i = _
    rw [hf1 i, if_pos hi]
  generalize hg : (forUp 0 n (fun i (fb : Arr × Arr) =>
        (setAt fb.1 i (str i), setAt fb.2 (str i) (fb.2 (str i) + 1)))
        (fk, zeroBucket range b)) = fb at hf1 hf2
  have hplace := placeAll_spec n range fb.1 (fun i => i) (sumBucket range fb.2) sfx
    (by
      intro c hc
      rw [sumBucket_spec str n range fb.2 (fun c hc => by
        rw [hf2 c, zeroBucket_spec, if_pos hc, Nat.zero_add]) c hc]
      exact count_congr _ _ n (fun i hi => by rw [hf1 i, if_pos hi]))
    (fun i hi => by rw [hf1 i, if_pos hi]; exact hr i hi)
  have hsfx : (firstSort str n range fk b sfx).2.2
      = (placeAll n fb.1 (fun i => i) (sumBucket range fb.2, sfx)).2 := by
    unfold firstSort
    simp only [hg]
  have hfst : (firstSort str n range fk b sfx).1 = fb.1 := by
    unfold firstSort
    simp only [hg]
  obtain ⟨hperm, hord⟩ := placed_perm n (fun i => fb.1 i) (fun i => i)
    (placeAll n fb.1 (fun i => i) (sumBucket range fb.2, sfx)).2
    ⟨fun i hi => hi, fun i i' _ _ e => e⟩ hplace.1
  have hext : ∀ a, a < n → ext str n a = fb.1 a + 1 := by
    intro a ha
    unfold ext
    rw [if_pos ha, hf1 a, if_pos ha]
  unfold DInv
  simp only
  rw [hsfx, hfst]
  refine ⟨hperm, ?_, ?_, ?_, Nat.one_pos, fun h => h, ?_⟩
  · intro q q' hqq hq'
    obtain ⟨i, i', hi, hi', e, e', hor⟩ := hord q q' hqq hq'
    rw [e, e', keyOf_one, keyOf_one, hext i hi, hext i' hi', le_iff_lt_or_eq, singleton_lt_iff]
    rcases hor with h1 | ⟨h1, _⟩
    · exact Or.inl (by omega)
    · exact Or.inr (by rw [h1])
  · intro a b' ha hb
    rw [keyOf_one, keyOf_one, hext a ha, hext b' hb, singleton_lt_iff]
    omega
  · intro a ha
    rw [hf1 a, if_pos ha]
    exact hr a ha
  · intro h i i' hii hi'
    omega

/-- The doubling loop ends, with `suffix` a permutation in strictly increasing order of
keys, when from step `j` on two distinct offsets with equal keys have their second keys
inside the text. -/
theorem doubling_spec (str : Arr) (n : Nat) :
    ∀ fuel j k, DInv str n j k → n ≤ fuel + j →
      (∀ J a b, j ≤ J → a < n → b < n → a ≠ b → keyOf str n J a = keyOf str n J b →
        a + J < n) →
      ∃ k', doubling n fuel j k = some k' ∧ PermOn n k'.suffix ∧
        ∃ J, StrictBy str n J k'.suffix := by
  intro fuel
  induction fuel with
  | zero =>
    intro j k h hf _
    have hp : ¬ k.p < n := by
      intro hp
      have := h.2.2.2.2.2.1 hp
      omega
    refine ⟨k, ?_, h.1, j, h.2.2.2.2.2.2 (by omega)⟩
    unfold doubling
    rw [if_neg hp]
  | succ fuel ih =>
    intro j k h hf hin
    by_cases hp : k.p < n
    · have hj := h.2.2.2.2.2.1 hp
      have hstep := doublingStep_inv str n j k h hp (by
        intro a b ha hb hab e
        have h1 := hin j a b (Nat.le_refl j) ha hb hab e
        have h2 := hin j b a (Nat.le_refl j) hb ha (Ne.symm hab) e.symm
        exact h.2.2.1.eq_iff _ _ h1 h2)
      obtain ⟨k', e, hk'⟩ := ih (2 * j) _ hstep (by have := h.2.2.2.2.1; omega)
        (fun J a b hJ => hin J a b (by omega))
      refine ⟨k', ?_, hk'⟩
      unfold doubling
      rw [if_pos hp, if_pos (Nat.le_of_lt hj)]
      exact e
    · refine ⟨k, ?_, h.1, j, h.2.2.2.2.2.2 (by omega)⟩
      unfold doubling
      rw [if_neg hp]

theorem sufList_cons (str : Arr) (n a : Nat) (ha : a < n) :
    sufList str n a = str a :: sufList str n (a + 1) := by
  unfold sufList
  have e : n - a = 1 + (n - (a + 1)) := by omega
  rw [e, List.range_add, List.map_append, List.map_map]
  have e1 : List.map (fun k => str (a + k)) (List.range 1) = [str a] := rfl
  rw [e1]
  show str a :: _ = _
  congr 1
  apply List.map_congr_left
  intro k _
  show str (a + (1 + k)) = str (a + 1 + k)
  rw [Nat.add_assoc]

theorem sufList_nil (str : Arr) (n a : Nat) (ha : n ≤ a) : sufList str n a = [] := by
  unfold sufList
  have e : n - a = 0 := by omega
  rw [e]
  rfl

theorem ext_pos_iff (str : Arr) (n a : Nat) : 0 < ext str n a ↔ a < n := by
  unfold ext
  by_cases h : a < n
  · rw [if_pos h]; exact ⟨fun _ => h, fun _ => Nat.succ_pos _⟩
  · rw [if_neg h]; exact ⟨fun h0 => absurd h0 (Nat.lt_irrefl 0), fun h1 => absurd h1 h⟩

theorem ext_inside (str : Arr) (n a : Nat) (ha : a < n) : ext str n a = str a + 1 := by
  unfold ext
  rw [if_pos ha]

theorem ext_past (str : Arr) (n a : Nat) (ha : n ≤ a) : ext str n a = 0 := by
  unfold ext
  rw [if_neg (by omega)]

/-- The order of the keys is the lexicographic order of the suffixes. -/
theorem sufList_lt_of_keyOf_lt (str : Arr) (n J : Nat) :
    ∀ a b, keyOf str n J a < keyOf str n J b → sufList str n a < sufList str n b := by
  induction J with
  | zero =>
    intro a b h
    exact absurd h (lt_irrefl _)
  | succ J ih =>
    intro a b h
    have e : J + 1 = 1 + J := Nat.add_comm J 1
    rw [e, keyOf_one_add, keyOf_one_add, cons_lt_cons_iff] at h
    rcases h with h | ⟨h1, h2⟩
    · have hb : b < n := (ext_pos_iff str n b).1 (by omega)
      rw [sufList_cons str n b hb]
      by_cases ha : a < n
      · rw [sufList_cons str n a ha, cons_lt_cons_iff]
        rw [ext_inside str n a ha, ext_inside str n b hb] at h
        exact Or.inl (by omega)
      · rw [sufList_nil str n a (by omega)]
        exact List.Lex.nil
    · by_cases ha : a < n
      · have hb : b < n := (ext_pos_iff str n b).1 (by
          rw [← h1]; exact (ext_pos_iff str n a).2 ha)
        rw [sufList_cons str n a ha, sufList_cons str n b hb, cons_lt_cons_iff]
        rw [ext_inside str n a ha, ext_inside str n b hb] at h1
        exact Or.inr ⟨by omega, ih _ _ h2⟩
      · have hb : ¬ b < n := by
          intro hb
          have := (ext_pos_iff str n b).2 hb
          rw [ext_past str n a (by omega)] at h1
          omega
        have := keyOf_past_le str n J (b + 1) (a + 1) (by omega)
        exact absurd (lt_of_lt_of_le h2 this) (lt_irrefl _)

/-- The first place where the extended text differs from two offsets on is the
brute-force length of the longest common prefix of the two suffixes. -/
theorem lcp_of_keyOf (str : Arr) (n p : Nat) :
    ∀ a b, keyOf str n p a = keyOf str n p b → ext str n (a + p) ≠ ext str n (b + p) →
      lcp (sufList str n a) (sufList str n b) = p := by
  induction p with
  | zero =>
    intro a b _ hne
    by_cases ha : a < n
    · by_cases hb : b < n
      · rw [sufList_cons str n a ha, sufList_cons str n b hb]
        rw [Nat.add_zero, Nat.add_zero, ext_inside str n a ha, ext_inside str n b hb] at hne
        unfold lcp
        rw [if_neg (by omega)]
      · rw [sufList_nil str n b (by omega), sufList_cons str n a ha]
        rfl
    · rw [sufList_nil str n a (by omega)]
      rfl
  | succ p ih =>
    intro a b h hne
    have e : p + 1 = 1 + p := Nat.add_comm p 1
    rw [e, keyOf_one_add, keyOf_one_add] at h
    injection h with h1 h2
    have e2 : ∀ x, x + (p + 1) = x + 1 + p := fun x => by omega
    rw [e2 a, e2 b] at hne
    by_cases ha : a < n
    · have hb : b < n := (ext_pos_iff str n b).1 (by
        rw [← h1]; exact (ext_pos_iff str n a).2 ha)
      rw [sufList_cons str n a ha, sufList_cons str n b hb]
      rw [ext_inside str n a ha, ext_inside str n b hb] at h1
      unfold lcp
      rw [if_pos (by omega), ih _ _ h2 hne]
    · have hb : ¬ b < n := by
        intro hb
        have := (ext_pos_iff str n b).2 hb
        rw [ext_past str n a (by omega)] at h1
        omega
      rw [ext_past str n _ (by omega), ext_past str n _ (by omega)] at hne
      exact absurd rfl hne

theorem StrictBy.mono_len {str : Arr} {n J : Nat} {sfx : Arr} (h : StrictBy str n J sfx)
    {J' : Nat} (hJ : J ≤ J') : StrictBy str n J' sfx :=
  fun i i' hii hi' => keyOf_lt_of_le str n J J' _ _ hJ (h i i' hii hi')

/-- A strictly increasing list of offsets is non-decreasing in the keys of every length. -/
theorem StrictBy.le_any {str : Arr} {n J : Nat} {sfx : Arr} (h : StrictBy str n J sfx)
    (q i i' : Nat) (hii : i ≤ i') (hi' : i' < n) :
    keyOf str n q (sfx i) ≤ keyOf str n q (sfx i') := by
  rcases Nat.lt_or_ge i i' with hlt | hge
  · by_contra hcon
    have h1 := lt_of_not_ge hcon
    have h2 := keyOf_lt_of_le str n q (q + J) _ _ (Nat.le_add_right q J) h1
    have h3 := (h.mono_len (Nat.le_add_left J q)) i i' hlt hi'
    exact absurd (lt_trans h2 h3) (lt_irrefl _)
  · have : i = i' := by omega
    rw [this]

theorem StrictBy.sufList_lt {str : Arr} {n J : Nat} {sfx : Arr} (h : StrictBy str n J sfx)
    (i i' : Nat) (hii : i < i') (hi' : i' < n) :
    sufList str n (sfx i) < sufList str n (sfx i') :=
  sufList_lt_of_keyOf_lt str n J _ _ (h i i' hii hi')

/-- The inner loop of line 159 stops at the first place where the two suffixes differ. -/
theorem matchLen_spec (str : Arr) (n i j : Nat) (hi : i < n) (hj : j < n) (hij : i ≠ j)
    (hraw : ∀ q, keyOf str n q i = keyOf str n q j →
      (str (i + q) = str (j + q) ↔ ext str n (i + q) = ext str n (j + q))) :
    ∀ fuel p, keyOf str n p i = keyOf str n p j → n ≤ fuel + p →
      ∃ p', matchLen str i j fuel p = some p' ∧ keyOf str n p' i = keyOf str n p' j ∧
        ext str n (i + p') ≠ ext str n (j + p') := by
  intro fuel
  induction fuel with
  | zero =>
    intro p h hf
    have := keyOf_eq_short str n p i j hi hj hij h
    omega
  | succ fuel ih =>
    intro p h hf
    unfold matchLen
    by_cases e : str (i + p) = str (j + p)
    · rw [if_pos e]
      have e' := (hraw p h).1 e
      exact ih (p + 1) (by rw [keyOf_succ, keyOf_succ, h, e']) (by omega)
    · rw [if_neg e]
      exact ⟨p, rfl, h, fun e' => e ((hraw p h).2 e')⟩

/-- The loop of line 155 writes the index of every offset but the first. -/
theorem rankLoop_spec (n : Nat) (sfx r0 : Arr) (hp : PermOn n sfx) :
    (∀ i, 1 ≤ i → i < n → forUp 1 (n - 1) (fun i r => setAt r (sfx i) i) r0 (sfx i) = i) ∧
    (∀ a, (∀ i, 1 ≤ i → i < n → sfx i ≠ a) →
      forUp 1 (n - 1) (fun i r => setAt r (sfx i) i) r0 a = r0 a) := by
  have main := forUp_inv (fun k (r : Arr) =>
      (∀ i, 1 ≤ i → i ≤ k → i < n → r (sfx i) = i) ∧
      (∀ a, (∀ i, 1 ≤ i → i ≤ k → i < n → sfx i ≠ a) → r a = r0 a)) 1 (n - 1)
    (fun i r => setAt r (sfx i) i) r0 ?_ ?_
  · exact ⟨fun i h1 h2 => main.1 i h1 (by omega) h2,
      fun a ha => main.2 a (fun i h1 _ h3 => ha i h1 h3)⟩
  · exact ⟨fun i h1 h2 _ => by omega, fun a _ => rfl⟩
  · rintro k r hk ⟨h1, h2⟩
    constructor
    · intro i hi1 hi2 hi3
      show setAt r (sfx (1 + k)) (1 + k) (sfx i) = i
      by_cases e : i = 1 + k
      · subst e; rw [setAt_same]
      · rw [setAt_other]
        · exact h1 i hi1 (by omega) hi3
        · intro e2
          exact e (hp.2 i (1 + k) hi3 (by omega) e2)
    · intro a ha
      show setAt r (sfx (1 + k)) (1 + k) a = r0 a
      rw [setAt_other]
      · exact h2 a (fun i hi1 hi2 hi3 => ha i hi1 (by omega) hi3)
      · exact Ne.symm (ha (1 + k) (by omega) (by omega) (by omega))

/-- Kasai's bound: what matched at offset `k`, less one character, matches at offset
`k + 1` against its predecessor in sorted order. -/
theorem kasai_step (str : Arr) (n J : Nat) (sfx rank : Arr) (hperm : PermOn n sfx)
    (hstrict : StrictBy str n J sfx)
    (hF : ∀ a, a + 1 < n → 1 ≤ rank a ∧ rank a < n ∧ sfx (rank a) = a)
    (k : Nat) (hk : k + 2 < n) (p : Nat)
    (h : keyOf str n p k = keyOf str n p (sfx (rank k - 1))) :
    keyOf str n (p - 1) (k + 1) = keyOf str n (p - 1) (sfx (rank (k + 1) - 1)) := by
  cases p with
  | zero => rfl
  | succ q =>
    show keyOf str n q (k + 1) = keyOf str n q (sfx (rank (k + 1) - 1))
    obtain ⟨hk1, hk2, hk3⟩ := hF k (by omega)
    obtain ⟨hc1, hc2, hc3⟩ := hF (k + 1) (by omega)
    have e : q + 1 = 1 + q := Nat.add_comm q 1
    rw [e, keyOf_one_add, keyOf_one_add] at h
    injection h with h1 h2
    have hlt := hstrict (rank k - 1) (rank k) (by omega) hk2
    rw [hk3] at hlt
    have hlt2 := keyOf_lt_of_le str n J (1 + J) _ _ (Nat.le_add_left J 1) hlt
    rw [keyOf_one_add, keyOf_one_add, cons_lt_cons_iff] at hlt2
    have hlt3 : keyOf str n J (sfx (rank k - 1) + 1) < keyOf str n J (k + 1) := by
      rcases hlt2 with h3 | ⟨_, h3⟩
      · rw [h1] at h3; exact absurd h3 (lt_irrefl _)
      · exact h3
    have hup : keyOf str n q (sfx (rank (k + 1) - 1)) ≤ keyOf str n q (k + 1) := by
      have := hstrict.le_any q (rank (k + 1) - 1) (rank (k + 1)) (by omega) hc2
      rw [hc3] at this
      exact this
    have hlow : keyOf str n q (sfx (rank k - 1) + 1) ≤ keyOf str n q (sfx (rank (k + 1) - 1)) := by
      by_cases hb : sfx (rank k - 1) + 1 < n
      · obtain ⟨i1, hi1, ei1⟩ := hperm.surj _ hb
        have hii : i1 < rank (k + 1) := by
          by_contra hcon
          have := hstrict.le_any J (rank (k + 1)) i1 (by omega) hi1
          rw [hc3, ei1] at this
          exact absurd (lt_of_lt_of_le hlt3 this) (lt_irrefl _)
        have := hstrict.le_any q i1 (rank (k + 1) - 1) (by omega) (by omega)
        rw [ei1] at this
        exact this
      · exact keyOf_past_le str n q _ _ (by omega)
    rw [← h2] at hlow
    exact le_antisymm hlow hup

/-- Every offset but the last has its index, from 1 on, in `rank`. -/
theorem rank_of_offset (n : Nat) (sfx rank : Arr) (hperm : PermOn n sfx)
    (hs0 : sfx 0 = n - 1) (hrank : ∀ i, 1 ≤ i → i < n → rank (sfx i) = i) :
    ∀ a, a + 1 < n → 1 ≤ rank a ∧ rank a < n ∧ sfx (rank a) = a := by
  intro a ha
  obtain ⟨i, hi, e⟩ := hperm.surj a (by omega)
  have hi0 : i ≠ 0 := by
    intro h0'
    rw [h0', hs0] at e
    omega
  have := hrank i (by omega) hi
  rw [e] at this
  rw [this]
  exact ⟨by omega, hi, e⟩

/-- What holds after `K` passes of the height loop of lines 156-160. -/
theorem heightLoop_inv (cap : Nat) (str : Arr) (n J : Nat) (sfx rank h0 : Arr)
    (hcap : n ≤ cap) (hperm : PermOn n sfx) (hstrict : StrictBy str n J sfx)
    (hs0 : sfx 0 = n - 1) (hrank : ∀ i, 1 ≤ i → i < n → rank (sfx i) = i)
    (hraw : ∀ a b q, a < n → b < n → a ≠ b → keyOf str n q a = keyOf str n q b →
      (str (a + q) = str (b + q) ↔ ext str n (a + q) = ext str n (b + q)))
    (K : Nat) (hK : K ≤ n - 1) :
    ∃ h p, forUp 0 K
        (fun i st =>
      st.bind (fun (hp : Arr × Nat) =>
        if rank i = 0 then none
        else (matchLen str i (sfx (rank i - 1)) cap (hp.2 - 1)).map
          (fun p => (setAt hp.1 (rank i) p, p)))) (some (h0, 0)) = some (h, p) ∧
      (∀ a, a < K → h (rank a)
        = lcp (sufList str n a) (sufList str n (sfx (rank a - 1)))) ∧
      (K + 1 < n → keyOf str n (p - 1) K = keyOf str n (p - 1) (sfx (rank K - 1))) ∧
      (∀ i, (i = 0 ∨ n ≤ i) → h i = h0 i) := by
  have hF := rank_of_offset n sfx rank hperm hs0 hrank
  refine forUp_inv (fun k (st : Option (Arr × Nat)) =>
      ∃ h p, st = some (h, p) ∧
        (∀ a, a < k → h (rank a)
          = lcp (sufList str n a) (sufList str n (sfx (rank a - 1)))) ∧
        (k + 1 < n → keyOf str n (p - 1) k = keyOf str n (p - 1) (sfx (rank k - 1))) ∧
        (∀ i, (i = 0 ∨ n ≤ i) → h i = h0 i)) 0 K
    (fun i st =>
      st.bind (fun (hp : Arr × Nat) =>
        if rank i = 0 then none
        else (matchLen str i (sfx (rank i - 1)) cap (hp.2 - 1)).map
          (fun p => (setAt hp.1 (rank i) p, p)))) (some (h0, 0)) ?_ ?_
  · exact ⟨h0, 0, rfl, fun a ha => absurd ha (Nat.not_lt_zero a), fun _ => rfl, fun _ _ => rfl⟩
  · rintro k st hk ⟨h, p, rfl, hA, hB, hC⟩
    simp only [Nat.zero_add] at hB ⊢
    rw [Option.some_bind]
    obtain ⟨hk1, hk2, hk3⟩ := hF k (by omega)
    dsimp only
    rw [if_neg (show ¬ rank k = 0 by omega)]
    have hbn : sfx (rank k - 1) < n := hperm.1 _ (by omega)
    have hbk : k ≠ sfx (rank k - 1) := by
      intro e
      rw [← hk3] at e
      have := hperm.2 (rank k) (rank (sfx (rank k)) - 1) hk2 (by rw [hk3]; omega) e
      rw [hk3] at this
      omega
    obtain ⟨p', e1, e2, e3⟩ := matchLen_spec str n k (sfx (rank k - 1)) (by omega) hbn hbk
      (fun q hq => hraw _ _ q (by omega) hbn hbk hq) cap (p - 1) (hB (by omega)) (by omega)
    rw [e1]
    refine ⟨setAt h (rank k) p', p', rfl, ?_, ?_, ?_⟩
    · intro a ha
      by_cases e : a = k
      · subst e
        rw [setAt_same]
        exact (lcp_of_keyOf str n p' _ _ e2 e3).symm
      · obtain ⟨ha1, ha2, ha3⟩ := hF a (by omega)
        rw [setAt_other]
        · exact hA a (by omega)
        · intro e4
          rw [e4, hk3] at ha3
          exact e ha3.symm
    · intro hk'
      exact kasai_step str n J sfx rank hperm hstrict hF k (by omega) p' e2
    · intro i hi
      rw [setAt_other _ _ _ _ (by omega)]
      exact hC i hi

/-- The height loop of lines 156-160 ends and leaves in `height[i]`, for every index
from 1 on, the longest common prefix of the suffixes at indices `i` and `i - 1`. -/
theorem heightLoop_spec (cap : Nat) (str : Arr) (n J : Nat) (sfx rank h0 : Arr)
    (hcap : n ≤ cap) (hperm : PermOn n sfx) (hstrict : StrictBy str n J sfx)
    (hs0 : sfx 0 = n - 1) (hrank : ∀ i, 1 ≤ i → i < n → rank (sfx i) = i)
    (hraw : ∀ a b q, a < n → b < n → a ≠ b → keyOf str n q a = keyOf str n q b →
      (str (a + q) = str (b + q) ↔ ext str n (a + q) = ext str n (b + q))) :
    ∃ h p, heightLoop cap str sfx rank n h0 = some (h, p) ∧
      (∀ i, 1 ≤ i → i < n →
        h i = lcp (sufList str n (sfx i)) (sufList str n (sfx (i - 1)))) ∧
      (∀ i, (i = 0 ∨ n ≤ i) → h i = h0 i) := by
  have main := heightLoop_inv cap str n J sfx rank h0 hcap hperm hstrict hs0 hrank hraw
    (n - 1) (Nat.le_refl _)
  unfold heightLoop
  · obtain ⟨h, p, e, hA, _, hC⟩ := main
    refine ⟨h, p, e, ?_, hC⟩
    intro i hi1 hi2
    have ha : sfx i + 1 < n := by
      have h1 := hperm.1 i hi2
      have h2 : sfx i ≠ n - 1 := by
        intro e2
        rw [← hs0] at e2
        have := hperm.2 i 0 hi2 (by omega) e2
        omega
      omega
    have := hA (sfx i) (by omega)
    rw [hrank i hi1 hi2] at this
    exact this

/-- With the last character below all others the offset of the last character has the
least key of every length. -/
theorem keyOf_last_le (str : Arr) (n q a : Nat) (hn : 0 < n)
    (hU : ∀ i, i < n - 1 → str (n - 1) < str i) (ha : a < n) :
    keyOf str n q (n - 1) ≤ keyOf str n q a := by
  cases q with
  | zero => exact le_refl _
  | succ q =>
    by_cases e : a = n - 1
    · rw [e]
    · have e1 : q + 1 = 1 + q := Nat.add_comm q 1
      rw [e1, keyOf_one_add, keyOf_one_add, le_iff_lt_or_eq, cons_lt_cons_iff]
      rw [ext_inside str n (n - 1) (by omega), ext_inside str n a ha]
      have := hU a (by omega)
      exact Or.inl (Or.inl (by omega))

/-- A strictly sorted permutation starts with the offset of the last character. -/
theorem first_is_last (str : Arr) (n J : Nat) (sfx : Arr) (hn : 0 < n)
    (hU : ∀ i, i < n - 1 → str (n - 1) < str i) (hperm : PermOn n sfx)
    (hstrict : StrictBy str n J sfx) : sfx 0 = n - 1 := by
  obtain ⟨i, hi, e⟩ := hperm.surj (n - 1) (by omega)
  by_contra hcon
  have hi0 : 0 < i := by
    rcases Nat.eq_zero_or_pos i with h | h
    · rw [h] at e; exact absurd e hcon
    · exact h
  have h1 := hstrict 0 i hi0 hi
  rw [e] at h1
  have h2 := keyOf_last_le str n J (sfx 0) hn hU (hperm.1 0 hn)
  exact absurd (lt_of_lt_of_le h1 h2) (lt_irrefl _)

/-- What `init_suffix_array` leaves in the buffers when the last character of the text is
below all others: it returns, `suffix` is the sorted permutation of the offsets, `rank`
holds the index of every offset but the last, and `height` the adjacent common prefixes. -/
theorem init_spec (cap : Nat) (str : Arr) (n range : Nat) (m : Mem) (hn : 0 < n)
    (hcap : n ≤ cap) (hr : ∀ i, i < n → str i < range)
    (hU : ∀ i, i < n - 1 → str (n - 1) < str i) :
    ∃ m', init_suffix_array cap str n range m = some m' ∧ PermOn n m'.suffix ∧
      (∃ J, StrictBy str n J m'.suffix) ∧ m'.suffix 0 = n - 1 ∧
      (∀ i, 1 ≤ i → i < n → m'.rank (m'.suffix i) = i) ∧
      (∀ a, (a = n - 1 ∨ n ≤ a) → m'.rank a = m.rank a) ∧
      (∀ i, 1 ≤ i → i < n →
        m'.height i = lcp (sufList str n (m'.suffix i)) (sufList str n (m'.suffix (i - 1)))) ∧
      (∀ i, (i = 0 ∨ n ≤ i) → m'.height i = m.height i) := by
  have hU' : ∀ i, i + 1 < n → str (n - 1) < str i := fun i hi => hU i (by omega)
  have hinv := firstSort_inv str n range m.fst_buf m.bucket m.suffix m.snd_buf false hr
  obtain ⟨k, ek, hperm, J, hstrict⟩ := doubling_spec str n n 1 _ hinv (by omega)
    (fun J a b _ ha hb hab e => keyOf_eq_inside str n J a b hU' ha hb hab e)
  have hs0 := first_is_last str n J k.suffix hn hU hperm hstrict
  obtain ⟨hr1, hr2⟩ := rankLoop_spec n k.suffix m.rank hperm
  obtain ⟨h, p, eh, hh1, hh2⟩ := heightLoop_spec cap str n J k.suffix
    (forUp 1 (n - 1) (fun i r => setAt r (k.suffix i) i) m.rank) m.height hcap hperm hstrict
    hs0 hr1 (by
      intro a b q ha hb hab e
      have h1 := keyOf_eq_inside str n q a b hU' ha hb hab e
      have h2 := keyOf_eq_inside str n q b a hU' hb ha (Ne.symm hab) e.symm
      rw [ext_inside str n _ h1, ext_inside str n _ h2]
      omega)
  refine ⟨{ suffix := k.suffix,
             rank := forUp 1 (n - 1) (fun i r => setAt r (k.suffix i) i) m.rank,
             height := h,
             fst_buf := if k.swapped then k.snd_key else k.fst_key,
             snd_buf := if k.swapped then k.fst_key else k.snd_key,
             bucket := k.bucket }, ?_, ?_⟩
  · unfold init_suffix_array
    simp only [ek, Option.some_bind, eh, Option.map_some']
  · refine ⟨hperm, ⟨J, hstrict⟩, hs0, hr1, ?_, hh1, hh2⟩
    intro a ha
    apply hr2
    intro i hi1 hi2 e
    rcases ha with ha | ha
    · rw [ha, ← hs0] at e
      have := hperm.2 i 0 hi2 hn e
      omega
    · have := hperm.1 i hi2
      omega

/-- C1: for a non-empty text with values below `range` whose last character is strictly
below every other, `init_suffix_array` returns and the suffix at `suffix[i]` is
lexicographically strictly smaller than the suffix at `suffix[j]` whenever `i < j < len`. -/
theorem init_suffix_array_sorted (cap : Nat) (str : Arr) (len range : Nat) (m : Mem)
    (hlen : 0 < len) (hcap : len ≤ cap) (hrange : ∀ i, i < len → str i < range)
    (hlast : ∀ i, i < len - 1 → str (len - 1) < str i) :
    ∃ m', init_suffix_array cap str len range m = some m' ∧
      ∀ i j, i < j → j < len →
        sufList str len (m'.suffix i) < sufList str len (m'.suffix j) := by
  obtain ⟨m', e, _, ⟨J, hs⟩, _⟩ := init_spec cap str len range m hlen hcap hrange hlast
  exact ⟨m', e, fun i j hij hj => hs.sufList_lt i j hij hj⟩

theorem init_suffix_array_sorted_witness :
    (0 < 4 ∧ ∀ i, i < 4 - 1 → ofList [2, 1, 2, 0] (4 - 1) < ofList [2, 1, 2, 0] i) ∧
    ∃ m', init_suffix_array 101101 (ofList [2, 1, 2, 0]) 4 127 zeroMem = some m' ∧
      ∀ i j, i < j → j < 4 →
        sufList (ofList [2, 1, 2, 0]) 4 (m'.suffix i)
          < sufList (ofList [2, 1, 2, 0]) 4 (m'.suffix j) :=
  ⟨⟨by decide, by decide⟩,
    init_suffix_array_sorted 101101 (ofList [2, 1, 2, 0]) 4 127 zeroMem (by decide) (by decide)
      (by decide) (by decide)⟩

/-- C2: for a non-empty text with values below `range` whose last character is strictly
below every other, the array `suffix[0..len)` that `init_suffix_array` produces is a
rearrangement of the offsets `0, ..., len - 1`. -/
theorem init_suffix_array_perm (cap : Nat) (str : Arr) (len range : Nat) (m : Mem)
    (hlen : 0 < len) (hcap : len ≤ cap) (hrange : ∀ i, i < len → str i < range)
    (hlast : ∀ i, i < len - 1 → str (len - 1) < str i) :
    ∃ m', init_suffix_array cap str len range m = some m' ∧
      List.Perm ((List.range len).map m'.suffix) (List.range len) := by
  obtain ⟨m', e, hp, _⟩ := init_spec cap str len range m hlen hcap hrange hlast
  exact ⟨m', e, hp.perm_range⟩

theorem init_suffix_array_perm_witness :
    (0 < 4 ∧ ∀ i, i < 4 - 1 → ofList [2, 1, 2, 0] (4 - 1) < ofList [2, 1, 2, 0] i) ∧
    ∃ m', init_suffix_array 101101 (ofList [2, 1, 2, 0]) 4 127 zeroMem = some m' ∧
      List.Perm ((List.range 4).map m'.suffix) (List.range 4) :=
  ⟨⟨by decide, by decide⟩,
    init_suffix_array_perm 101101 (ofList [2, 1, 2, 0]) 4 127 zeroMem (by decide) (by decide)
      (by decide) (by decide)⟩

/-- C4: for a text with values below `range` whose last character is strictly below every
other, `init_suffix_array` returns and `height[i]` is the brute-force length of the longest
common prefix of the suffixes at `suffix[i]` and `suffix[i-1]`, for every `i` in `[1, len)`. -/
theorem init_suffix_array_height (cap : Nat) (str : Arr) (len range : Nat) (m : Mem)
    (hlen : 0 < len) (hcap : len ≤ cap) (hrange : ∀ i, i < len → str i < range)
    (hlast : ∀ i, i < len - 1 → str (len - 1) < str i) :
    ∃ m', init_suffix_array cap str len range m = some m' ∧
      ∀ i, 1 ≤ i → i < len →
        m'.height i
          = lcp (sufList str len (m'.suffix i)) (sufList str len (m'.suffix (i - 1))) := by
  obtain ⟨m', e, _, _, _, _, _, hh, _⟩ := init_spec cap str len range m hlen hcap hrange hlast
  exact ⟨m', e, hh⟩

theorem init_suffix_array_height_witness :
    (0 < 4 ∧ ∀ i, i < 4 - 1 → ofList [2, 1, 2, 0] (4 - 1) < ofList [2, 1, 2, 0] i) ∧
    ∃ m', init_suffix_array 101101 (ofList [2, 1, 2, 0]) 4 127 zeroMem = some m' ∧
      ∀ i, 1 ≤ i → i < 4 →
        m'.height i = lcp (sufList (ofList [2, 1, 2, 0]) 4 (m'.suffix i))
          (sufList (ofList [2, 1, 2, 0]) 4 (m'.suffix (i - 1))) :=
  ⟨⟨by decide, by decide⟩,
    init_suffix_array_height 101101 (ofList [2, 1, 2, 0]) 4 127 zeroMem (by decide) (by decide)
      (by decide) (by decide)⟩

namespace P3294

theorem marks_empty : Marks (fun _ => 0, 0) ∅ := by
  constructor
  · intro a; simp
  · simp

theorem marks_insert (vm : Arr × Nat) (S : Finset Nat) (b : Nat) (h : Marks vm S) :
    Marks (if vm.1 b = 0 then (setAt vm.1 b 1, vm.2 + 1) else vm) (insert b S) := by
  obtain ⟨h1, h2⟩ := h
  by_cases hb : b ∈ S
  · have : vm.1 b ≠ 0 := by rw [h1 b, if_pos hb]; exact Nat.one_ne_zero
    rw [if_neg this, Finset.insert_eq_of_mem hb]
    exact ⟨h1, h2⟩
  · have : vm.1 b = 0 := by rw [h1 b, if_neg hb]
    rw [if_pos this]
    constructor
    · intro a
      show setAt vm.1 b 1 a = _
      by_cases e : a = b
      · subst e; rw [setAt_same, if_pos (Finset.mem_insert_self _ _)]
      · rw [setAt_other _ _ _ _ e, h1 a]
        by_cases ha : a ∈ S
        · rw [if_pos ha, if_pos (Finset.mem_insert_of_mem ha)]
        · rw [if_neg ha, if_neg]
          intro hc
          rcases Finset.mem_insert.1 hc with h3 | h3
          · exact e h3
          · exact ha h3
    · show vm.2 + 1 = _
      rw [Finset.card_insert_of_not_mem hb, h2]

theorem visit_marks (g : Prog) (i : Nat) (vm : Arr × Nat) (S : Finset Nat) (h : Marks vm S) :
    Marks (visit g i vm) (insert (owner g (i - 1)) (insert (owner g i) S)) := by
  unfold visit
  exact marks_insert _ _ _ (marks_insert vm S _ h)

theorem owners_succ (g : Prog) (s i : Nat) (hs : 1 ≤ s) (hsi : s ≤ i) :
    owners g s (i + 1) = insert (owner g (i - 1)) (insert (owner g i) (owners g s i)) := by
  unfold owners
  rw [if_pos (by omega)]
  have e : Finset.Ico (s - 1) (i + 1) = insert i (Finset.Ico (s - 1) i) := by
    ext x
    simp only [Finset.mem_Ico, Finset.mem_insert]
    omega
  rw [e, Finset.image_insert]
  by_cases h : s < i
  · rw [if_pos h]
    have hm : owner g (i - 1) ∈ insert (owner g i) ((Finset.Ico (s - 1) i).image (owner g)) := by
      apply Finset.mem_insert_of_mem
      exact Finset.mem_image.2 ⟨i - 1, Finset.mem_Ico.2 ⟨by omega, by omega⟩, rfl⟩
    rw [Finset.insert_eq_of_mem hm]
  · rw [if_neg h]
    have e2 : s = i := by omega
    subst e2
    have e3 : Finset.Ico (s - 1) s = {s - 1} := by
      ext x
      simp only [Finset.mem_Ico, Finset.mem_singleton]
      omega
    rw [e3, Finset.image_singleton]
    ext x
    simp only [Finset.mem_insert, Finset.mem_singleton, Finset.not_mem_empty, or_false]
    tauto

theorem owners_subset (g : Prog) (s i0 i2 i : Nat) (hs : 1 ≤ s) (h0 : s ≤ i0) (h2 : i2 ≤ i) :
    owners g i0 i2 ⊆ owners g s i := by
  unfold owners
  by_cases h : i0 < i2
  · rw [if_pos h, if_pos (by omega)]
    apply Finset.image_subset_image
    intro x hx
    rw [Finset.mem_Ico] at hx ⊢
    omega
  · rw [if_neg h]
    exact Finset.empty_subset _

theorem checkLoop_cases (g : Prog) (len : Nat) :
    ∀ k i vm, checkLoop g len k i vm = 0 ∨ checkLoop g len k i vm = 1 := by
  intro k
  induction k with
  | zero => intro i vm; exact Or.inl rfl
  | succ k ih =>
    intro i vm
    unfold checkLoop
    by_cases h : len ≤ g.mem.height i
    · rw [if_pos h]; exact ih _ _
    · rw [if_neg h]
      by_cases h2 : g.n / 2 < vm.2
      · rw [if_pos h2]; exact Or.inr rfl
      · rw [if_neg h2]; exact ih _ _

/-- The loop of `check` answers 1 exactly when a stretch that starts at the current run
or later qualifies. -/
theorem checkLoop_iff (g : Prog) (len : Nat) :
    ∀ k i vm s, 2 ≤ s → s ≤ i → i + k = g.str_len →
      (∀ t, s ≤ t → t < i → len ≤ g.mem.height t) → Marks vm (owners g s i) →
      (checkLoop g len k i vm = 1 ↔
        ∃ i0 i2, s ≤ i0 ∧ i0 < i2 ∧ i ≤ i2 ∧ i2 < g.str_len ∧
          (∀ t, i0 ≤ t → t < i2 → len ≤ g.mem.height t) ∧ g.mem.height i2 < len ∧
          g.n / 2 < (owners g i0 i2).card) := by
  intro k
  induction k with
  | zero =>
    intro i vm s _ _ hik _ _
    constructor
    · intro h; exact absurd h (by unfold checkLoop; exact Nat.zero_ne_one)
    · rintro ⟨i0, i2, _, _, h3, h4, _⟩
      omega
  | succ k ih =>
    intro i vm s hs hsi hik hrun hm
    unfold checkLoop
    by_cases h : len ≤ g.mem.height i
    · rw [if_pos h]
      have hm' : Marks (visit g i vm) (owners g s (i + 1)) := by
        rw [owners_succ g s i (by omega) hsi]
        exact visit_marks g i vm _ hm
      rw [ih (i + 1) (visit g i vm) s hs (by omega) (by omega) (by
        intro t ht1 ht2
        rcases Nat.lt_succ_iff_lt_or_eq.1 ht2 with h3 | h3
        · exact hrun t ht1 h3
        · rw [h3]; exact h) hm']
      constructor
      · rintro ⟨i0, i2, h1, h2, h3, h4, h5, h6, h7⟩
        exact ⟨i0, i2, h1, h2, by omega, h4, h5, h6, h7⟩
      · rintro ⟨i0, i2, h1, h2, h3, h4, h5, h6, h7⟩
        refine ⟨i0, i2, h1, h2, ?_, h4, h5, h6, h7⟩
        by_contra hcon
        have : i2 = i := by omega
        rw [this] at h6
        omega
    · rw [if_neg h]
      by_cases h2 : g.n / 2 < vm.2
      · rw [if_pos h2]
        refine ⟨fun _ => ?_, fun _ => rfl⟩
        have hsi' : s < i := by
          by_contra hcon
          have e : owners g s i = ∅ := by
            unfold owners
            rw [if_neg hcon]
          rw [hm.2, e, Finset.card_empty] at h2
          omega
        refine ⟨s, i, Nat.le_refl s, hsi', Nat.le_refl i, by omega, hrun, by omega, ?_⟩
        rw [← hm.2]
        exact h2
      · rw [if_neg h2]
        have hm' : Marks (fun _ => 0, 0) (owners g (i + 1) (i + 1)) := by
          have e : owners g (i + 1) (i + 1) = ∅ := by
            unfold owners
            rw [if_neg (Nat.lt_irrefl _)]
          rw [e]
          exact marks_empty
        rw [ih (i + 1) (fun _ => 0, 0) (i + 1) (by omega) (Nat.le_refl _) (by omega)
          (by intro t ht1 ht2; omega) hm']
        constructor
        · rintro ⟨i0, i2, h1, h3, h4, h5, h6, h7, h8⟩
          exact ⟨i0, i2, by omega, h3, by omega, h5, h6, h7, h8⟩
        · rintro ⟨i0, i2, h1, h3, h4, h5, h6, h7, h8⟩
          have hne : i2 ≠ i := by
            intro e
            rw [e] at h8
            have hsub := Finset.card_le_card (owners_subset g s i0 i i (by omega) h1 (Nat.le_refl i))
            rw [← hm.2] at hsub
            omega
          have hi0 : i < i0 := by
            by_contra hcon
            have := h6 i (by omega) (by omega)
            exact h this
          exact ⟨i0, i2, by omega, h3, by omega, h5, h6, h7, h8⟩

/-- The function `check` answers 1 exactly when some stretch qualifies, and 0 otherwise. -/
theorem check_iff (g : Prog) (len : Nat) (hlen : 2 ≤ g.str_len) :
    check g len = 1 ↔ Quorum g len := by
  unfold check Quorum
  rw [checkLoop_iff g len (g.str_len - 2) 2 (fun _ => 0, 0) 2 (Nat.le_refl 2) (Nat.le_refl 2)
    (by omega) (by intro t h1 h2; omega) (by
      have e : owners g 2 2 = ∅ := by
        unfold owners
        rw [if_neg (Nat.lt_irrefl _)]
      rw [e]
      exact marks_empty)]
  constructor
  · rintro ⟨i0, i2, h1, h2, _, h4, h5, h6, h7⟩
    exact ⟨i0, i2, h1, h2, h4, h5, h6, h7⟩
  · rintro ⟨i0, i2, h1, h2, h4, h5, h6, h7⟩
    exact ⟨i0, i2, h1, h2, by omega, h4, h5, h6, h7⟩

theorem check_cases (g : Prog) (len : Nat) : check g len = 0 ∨ check g len = 1 :=
  checkLoop_cases g len _ _ _

end P3294

namespace P3294

theorem off_zero (strs : List (List Nat)) : off strs 0 = 0 := rfl

theorem off_cons_succ (s : List Nat) (strs : List (List Nat)) (t : Nat) :
    off (s :: strs) (t + 1) = s.length + 1 + off strs t := by
  unfold off
  simp

theorem off_succ (strs : List (List Nat)) (t : Nat) (ht : t < strs.length) :
    off strs (t + 1) = off strs t + (strs.getD t []).length + 1 := by
  induction strs generalizing t with
  | nil => simp at ht
  | cons s strs ih =>
    cases t with
    | zero =>
      rw [off_cons_succ, off_zero, off_zero]
      simp
    | succ t =>
      rw [off_cons_succ, off_cons_succ, ih t (by simpa using ht)]
      simp only [List.getD_cons_succ]
      omega

/-- What the copy loop of lines 287-295 writes. -/
theorem copyString_spec (i : Nat) (cs : List Nat) :
    ∀ (b s : Arr) (len : Nat),
      (copyString i cs (b, s, len)).2.2 = len + cs.length ∧
      (∀ p, (p < len ∨ len + cs.length ≤ p) →
        (copyString i cs (b, s, len)).1 p = b p ∧ (copyString i cs (b, s, len)).2.1 p = s p) ∧
      (∀ x, x < cs.length →
        (copyString i cs (b, s, len)).1 (len + x) = i ∧
        (copyString i cs (b, s, len)).2.1 (len + x) = cs.getD x 0 - 97 + 1) := by
  induction cs with
  | nil =>
    intro b s len
    refine ⟨rfl, fun p _ => ⟨rfl, rfl⟩, ?_⟩
    intro x hx
    simp at hx
  | cons c cs ih =>
    intro b s len
    obtain ⟨h1, h2, h3⟩ := ih (setAt b len i) (setAt s len (c - 97 + 1)) (len + 1)
    have e : copyString i (c :: cs) (b, s, len)
        = copyString i cs (setAt b len i, setAt s len (c - 97 + 1), len + 1) := rfl
    rw [e]
    refine ⟨by rw [h1]; simp only [List.length_cons]; omega, ?_, ?_⟩
    · intro p hp
      simp only [List.length_cons] at hp
      obtain ⟨e1, e2⟩ := h2 p (by omega)
      rw [e1, e2, setAt_other _ _ _ _ (by omega), setAt_other _ _ _ _ (by omega)]
      exact ⟨rfl, rfl⟩
    · intro x hx
      cases x with
      | zero =>
        obtain ⟨e1, e2⟩ := h2 len (Or.inl (Nat.lt_succ_self len))
        simp only [Nat.add_zero]
        rw [e1, e2, setAt_same, setAt_same]
        exact ⟨rfl, rfl⟩
      | succ x =>
        have hx' : x < cs.length := by simpa using hx
        obtain ⟨e1, e2⟩ := h3 x hx'
        have e3 : len + (x + 1) = len + 1 + x := by omega
        rw [e3, e1, e2]
        exact ⟨rfl, rfl⟩

/-- What the loop of lines 283-300 writes: every input string at its offset, owned by its
index, and its separator behind it. -/
theorem readStrings_spec (strs : List (List Nat)) :
    ∀ (i : Nat) (b s : Arr) (len : Nat),
      (readStrings i strs (b, s, len)).2.2 = len + off strs strs.length ∧
      (∀ p, (p < len ∨ len + off strs strs.length ≤ p) →
        (readStrings i strs (b, s, len)).1 p = b p ∧
        (readStrings i strs (b, s, len)).2.1 p = s p) ∧
      (∀ t x, t < strs.length → x < (strs.getD t []).length →
        (readStrings i strs (b, s, len)).1 (len + off strs t + x) = i + t ∧
        (readStrings i strs (b, s, len)).2.1 (len + off strs t + x)
          = charAt strs t x - 97 + 1) ∧
      (∀ t, t < strs.length →
        (readStrings i strs (b, s, len)).2.1 (len + off strs t + (strs.getD t []).length)
          = 27 + (i + t)) := by
  induction strs with
  | nil =>
    intro i b s len
    refine ⟨rfl, fun p _ => ⟨rfl, rfl⟩, ?_, ?_⟩
    · intro t x ht; simp at ht
    · intro t ht; simp at ht
  | cons c strs ih =>
    intro i b s len
    obtain ⟨c1, c2, c3⟩ := copyString_spec i c b s len
    generalize hcp : copyString i c (b, s, len) = cp at c1 c2 c3
    obtain ⟨h1, h2, h3, h4⟩ := ih (i + 1) cp.1 (setAt cp.2.1 cp.2.2 (27 + i)) (cp.2.2 + 1)
    have e : readStrings i (c :: strs) (b, s, len)
        = readStrings (i + 1) strs (cp.1, setAt cp.2.1 cp.2.2 (27 + i), cp.2.2 + 1) := by
      show readStrings (i + 1) strs
        ((copyString i c (b, s, len)).1,
          setAt (copyString i c (b, s, len)).2.1 (copyString i c (b, s, len)).2.2 (27 + i),
          (copyString i c (b, s, len)).2.2 + 1) = _
      rw [hcp]
    rw [e]
    have elen : (c :: strs).length = strs.length + 1 := rfl
    have eoff : off (c :: strs) (strs.length + 1) = c.length + 1 + off strs strs.length :=
      off_cons_succ c strs strs.length
    refine ⟨by rw [h1, elen, eoff, c1]; omega, ?_, ?_, ?_⟩
    · intro p hp
      rw [elen, eoff] at hp
      obtain ⟨e1, e2⟩ := h2 p (by rw [c1]; omega)
      obtain ⟨e3, e4⟩ := c2 p (by omega)
      rw [e1, e2, setAt_other _ _ _ _ (by rw [c1]; omega), e3, e4]
      exact ⟨rfl, rfl⟩
    · intro t x ht hx
      cases t with
      | zero =>
        have hx' : x < c.length := by simpa using hx
        simp only [off_zero, Nat.add_zero]
        obtain ⟨e1, e2⟩ := h2 (len + x) (Or.inl (by rw [c1]; omega))
        obtain ⟨e3, e4⟩ := c3 x hx'
        rw [e1, e2, setAt_other _ _ _ _ (by rw [c1]; omega), e3, e4]
        exact ⟨rfl, rfl⟩
      | succ t =>
        have ht' : t < strs.length := by simpa using ht
        have hx' : x < (strs.getD t []).length := by simpa using hx
        obtain ⟨e1, e2⟩ := h3 t x ht' hx'
        have e3 : len + off (c :: strs) (t + 1) + x = cp.2.2 + 1 + off strs t + x := by
          rw [off_cons_succ, c1]; omega
        rw [e3, e1, e2]
        refine ⟨by omega, ?_⟩
        unfold charAt
        simp
    · intro t ht
      cases t with
      | zero =>
        have e0 : ((c :: strs).getD 0 []).length = c.length := by simp
        rw [e0]
        simp only [off_zero, Nat.add_zero]
        obtain ⟨_, e2⟩ := h2 (len + c.length) (Or.inl (by rw [c1]; omega))
        rw [e2, ← c1, setAt_same]
      | succ t =>
        have ht' : t < strs.length := by simpa using ht
        have e1 := h4 t ht'
        have e0 : ((c :: strs).getD (t + 1) []).length = (strs.getD t []).length := by simp
        have e3 : len + off (c :: strs) (t + 1) + ((c :: strs).getD (t + 1) []).length
            = cp.2.2 + 1 + off strs t + (strs.getD t []).length := by
          rw [off_cons_succ, c1, e0]; omega
        rw [e3, e1]
        omega

end P3294

namespace P3294

theorem getD_mem_of_lt {α : Type} (l : List α) (d : α) (t : Nat) (h : t < l.length) :
    l.getD t d ∈ l := by
  rw [List.getD_eq_getElem l d h]
  exact List.getElem_mem h

theorem off_le_succ (strs : List (List Nat)) (t : Nat) : off strs t ≤ off strs (t + 1) := by
  by_cases h : t < strs.length
  · rw [off_succ strs t h]; omega
  · unfold off
    rw [List.take_of_length_le (by omega), List.take_of_length_le (by omega)]

theorem off_mono (strs : List (List Nat)) {t t' : Nat} (h : t ≤ t') :
    off strs t ≤ off strs t' := by
  induction t' with
  | zero =>
    have : t = 0 := by omega
    rw [this]
  | succ d ih =>
    rcases Nat.lt_or_ge t (d + 1) with h1 | h1
    · exact Nat.le_trans (ih (by omega)) (off_le_succ strs d)
    · have : t = d + 1 := by omega
      rw [this]

theorem off_le_mul (strs : List (List Nat)) (M : Nat)
    (h : ∀ s, s ∈ strs → s.length + 1 ≤ M) (t : Nat) (ht : t ≤ strs.length) :
    off strs t ≤ t * M := by
  induction t with
  | zero => rw [off_zero]; omega
  | succ d ih =>
    have h1 := ih (by omega)
    rw [off_succ strs d (by omega)]
    have h2 := h _ (getD_mem_of_lt strs [] d (by omega))
    rw [Nat.succ_mul]
    omega

/-- Every offset below `off strs m` lies in the block of one input string: among its
characters or on its separator. -/
theorem block_of (strs : List (List Nat)) (m : Nat) (hm : m ≤ strs.length) (p : Nat)
    (hp : p < off strs m) :
    ∃ t, t < m ∧ off strs t ≤ p ∧ p ≤ off strs t + (strs.getD t []).length := by
  induction m with
  | zero => rw [off_zero] at hp; omega
  | succ d ih =>
    by_cases h : p < off strs d
    · obtain ⟨t, h1, h2, h3⟩ := ih (by omega) h
      exact ⟨t, by omega, h2, h3⟩
    · rw [off_succ strs d (by omega)] at hp
      exact ⟨d, by omega, by omega, by omega⟩

theorem valid_string (strs : List (List Nat)) (hv : Valid strs) (t : Nat)
    (ht : t < strs.length) :
    1 ≤ (strs.getD t []).length ∧ (strs.getD t []).length < MAX_LEN := by
  obtain ⟨h1, h2, _⟩ := hv.2.2 _ (getD_mem_of_lt strs [] t ht)
  exact ⟨List.length_pos.2 h1, h2⟩

theorem valid_char (strs : List (List Nat)) (hv : Valid strs) (t x : Nat)
    (ht : t < strs.length) (hx : x < (strs.getD t []).length) :
    97 ≤ charAt strs t x ∧ charAt strs t x ≤ 122 := by
  obtain ⟨_, _, h3⟩ := hv.2.2 _ (getD_mem_of_lt strs [] t ht)
  exact h3 _ (getD_mem_of_lt _ 0 x hx)

theorem valid_length (strs : List (List Nat)) (hv : Valid strs) :
    2 ≤ off strs strs.length ∧ off strs strs.length ≤ ARR_SIZE := by
  have hn : 0 < strs.length := List.length_pos.2 hv.1
  constructor
  · have h1 := off_mono strs (show 1 ≤ strs.length by omega)
    rw [off_succ strs 0 hn, off_zero] at h1
    have := (valid_string strs hv 0 hn).1
    omega
  · have h1 := off_le_mul strs MAX_LEN (fun s hs => by
      have := (hv.2.2 s hs).2.1
      omega) strs.length (Nat.le_refl _)
    have h2 : strs.length * MAX_LEN ≤ MAX_N * MAX_LEN := Nat.mul_le_mul_right _ hv.2.1
    exact Nat.le_trans h1 h2

/-- On a valid input `load` returns, whatever the globals held, and leaves the text, its
owners, the sorted suffixes and the heights. -/
theorem load_spec (strs : List (List Nat)) (g0 : Prog) (hv : Valid strs) :
    ∃ g, load strs g0 = some g ∧ Loaded strs g := by
  have hn : 0 < strs.length := List.length_pos.2 hv.1
  obtain ⟨hN2, hNcap⟩ := valid_length strs hv
  obtain ⟨r1, _, r3, r4⟩ := readStrings_spec strs 0 g0.belong g0.str 0
  generalize hrs : readStrings 0 strs (g0.belong, g0.str, 0) = rs at r1 r3 r4
  simp only [Nat.zero_add] at r1 r3 r4
  have hlastpos : off strs strs.length - 1
      = off strs (strs.length - 1) + (strs.getD (strs.length - 1) []).length := by
    have := off_succ strs (strs.length - 1) (by omega)
    have e : strs.length - 1 + 1 = strs.length := by omega
    rw [e] at this
    omega
  have hletter : ∀ t x, t < strs.length → x < (strs.getD t []).length →
      setAt rs.2.1 (rs.2.2 - 1) 0 (off strs t + x) = charAt strs t x - 97 + 1 ∧
      rs.1 (off strs t + x) = t := by
    intro t x ht hx
    have h1 := off_succ strs t ht
    have h2 := off_mono strs (show t + 1 ≤ strs.length by omega)
    rw [setAt_other _ _ _ _ (by rw [r1]; omega)]
    obtain ⟨e1, e2⟩ := r3 t x ht hx
    exact ⟨e2, e1⟩
  have hsep : ∀ t, t + 1 < strs.length →
      setAt rs.2.1 (rs.2.2 - 1) 0 (off strs t + (strs.getD t []).length) = 27 + t := by
    intro t ht
    have h1 := off_succ strs t (by omega)
    have h2 := off_mono strs (show t + 1 ≤ strs.length - 1 by omega)
    rw [setAt_other _ _ _ _ (by rw [r1]; omega)]
    exact r4 t (by omega)
  have hlast : setAt rs.2.1 (rs.2.2 - 1) 0 (rs.2.2 - 1) = 0 := setAt_same _ _ _
  have hval : ∀ p, p < rs.2.2 - 1 →
      0 < setAt rs.2.1 (rs.2.2 - 1) 0 p ∧ setAt rs.2.1 (rs.2.2 - 1) 0 p < 127 := by
    intro p hp
    obtain ⟨t, ht, h1, h2⟩ := block_of strs strs.length (Nat.le_refl _) p (by rw [r1] at hp; omega)
    rcases Nat.lt_or_ge p (off strs t + (strs.getD t []).length) with h3 | h3
    · have e : p = off strs t + (p - off strs t) := by omega
      obtain ⟨e1, _⟩ := hletter t (p - off strs t) ht (by omega)
      rw [← e] at e1
      have := valid_char strs hv t (p - off strs t) ht (by omega)
      rw [e1]
      omega
    · have e : p = off strs t + (strs.getD t []).length := by omega
      have ht' : t + 1 < strs.length := by
        by_contra hcon
        have : t = strs.length - 1 := by omega
        rw [this] at e
        rw [r1] at hp
        omega
      rw [e, hsep t ht']
      have := hv.2.1
      unfold MAX_N at this
      omega
  obtain ⟨m', em, hperm, hstrict, hfirst, _, _, hheight, _⟩ :=
    init_spec ARR_SIZE (setAt rs.2.1 (rs.2.2 - 1) 0) rs.2.2 127 g0.mem (by rw [r1]; omega)
      (by rw [r1]; exact hNcap)
      (by
        intro i hi
        rcases Nat.lt_or_ge i (rs.2.2 - 1) with h | h
        · exact (hval i h).2
        · have : i = rs.2.2 - 1 := by omega
          rw [this, hlast]
          omega)
      (by
        intro i hi
        rw [hlast]
        exact (hval i hi).1)
  refine ⟨{ mem := m', belong := rs.1, n := strs.length, str_len := rs.2.2,
            str := setAt rs.2.1 (rs.2.2 - 1) 0 }, ?_, ?_⟩
  · unfold load
    simp only [hrs, em, Option.map_some']
  · exact
      { n_eq := rfl
        len_eq := r1
        letter := hletter
        sep := hsep
        last := hlast
        perm := hperm
        strict := hstrict
        first := hfirst
        height := hheight }

end P3294

theorem Common.symm {str : Arr} {n L p q : Nat} (h : Common str n L p q) :
    Common str n L q p :=
  fun k hk => ⟨(h k hk).2.1, (h k hk).1, (h k hk).2.2.symm⟩

theorem Common.trans {str : Arr} {n L p q r : Nat} (h1 : Common str n L p q)
    (h2 : Common str n L q r) : Common str n L p r :=
  fun k hk => ⟨(h1 k hk).1, (h2 k hk).2.1, (h1 k hk).2.2.trans (h2 k hk).2.2⟩

theorem Common.shorter {str : Arr} {n L L' p q : Nat} (h : Common str n L p q) (hL : L' ≤ L) :
    Common str n L' p q :=
  fun k hk => h k (Nat.lt_of_lt_of_le hk hL)

theorem Common.refl_of {str : Arr} {n L p q : Nat} (h : Common str n L p q) :
    Common str n L p p :=
  fun k hk => ⟨(h k hk).1, (h k hk).1, rfl⟩

/-- The brute-force common prefix is at least `L` exactly when the two suffixes have `L`
characters and agree on them. -/
theorem lcp_ge_iff (str : Arr) (n L : Nat) :
    ∀ p q, L ≤ lcp (sufList str n p) (sufList str n q) ↔ Common str n L p q := by
  induction L with
  | zero =>
    intro p q
    exact ⟨fun _ k hk => absurd hk (Nat.not_lt_zero k), fun _ => Nat.zero_le _⟩
  | succ L ih =>
    intro p q
    by_cases hp : p < n
    · by_cases hq : q < n
      · rw [sufList_cons str n p hp, sufList_cons str n q hq]
        unfold lcp
        by_cases e : str p = str q
        · rw [if_pos e, Nat.succ_le_succ_iff, ih (p + 1) (q + 1)]
          constructor
          · intro h k hk
            cases k with
            | zero => exact ⟨hp, hq, e⟩
            | succ k =>
              have := h k (by omega)
              have e1 : p + (k + 1) = p + 1 + k := by omega
              have e2 : q + (k + 1) = q + 1 + k := by omega
              rw [e1, e2]
              exact this
          · intro h k hk
            have := h (k + 1) (by omega)
            have e1 : p + (k + 1) = p + 1 + k := by omega
            have e2 : q + (k + 1) = q + 1 + k := by omega
            rw [e1, e2] at this
            exact this
        · rw [if_neg e]
          constructor
          · intro h; omega
          · intro h
            exact absurd (h 0 (Nat.succ_pos L)).2.2 e
      · rw [sufList_nil str n q (by omega), sufList_cons str n p hp]
        constructor
        · intro h
          have : lcp (str p :: sufList str n (p + 1)) [] = 0 := rfl
          omega
        · intro h
          exact absurd (h 0 (Nat.succ_pos L)).2.1 hq
    · rw [sufList_nil str n p (by omega)]
      constructor
      · intro h
        have : lcp [] (sufList str n q) = 0 := rfl
        omega
      · intro h
        exact absurd (h 0 (Nat.succ_pos L)).1 hp

/-- Agreement on `L` characters is equality of the keys of length `L` together with the
first suffix having `L` characters. -/
theorem common_iff_key (str : Arr) (n L p q : Nat) :
    Common str n L p q ↔ keyOf str n L p = keyOf str n L q ∧ ∀ k, k < L → p + k < n := by
  rw [keyOf_eq_iff]
  constructor
  · intro h
    refine ⟨fun k hk => ?_, fun k hk => (h k hk).1⟩
    obtain ⟨h1, h2, h3⟩ := h k hk
    rw [ext_inside str n _ h1, ext_inside str n _ h2, h3]
  · rintro ⟨h1, h2⟩ k hk
    have hp := h2 k hk
    have e := h1 k hk
    rw [ext_inside str n _ hp] at e
    have hq : q + k < n := (ext_pos_iff str n (q + k)).1 (by rw [← e]; exact Nat.succ_pos _)
    rw [ext_inside str n _ hq] at e
    exact ⟨hp, hq, by omega⟩

/-- In sorted order, what two suffixes have in common they have in common with every
suffix between them. -/
theorem common_between (str : Arr) (n J : Nat) (sfx : Arr) (hs : StrictBy str n J sfx)
    (L u t v : Nat) (hut : u ≤ t) (htv : t ≤ v) (hv : v < n)
    (h : Common str n L (sfx u) (sfx v)) :
    Common str n L (sfx u) (sfx t) := by
  obtain ⟨h1, h2⟩ := (common_iff_key str n L _ _).1 h
  rw [common_iff_key]
  refine ⟨?_, h2⟩
  have h3 := hs.le_any L u t hut (by omega)
  have h4 := hs.le_any L t v htv hv
  rw [← h1] at h4
  exact le_antisymm h3 h4

/-- Heights of at least `L` at the indices `u + 1, ..., v` mean that all the suffixes at
the indices `u, ..., v` agree on `L` characters. -/
theorem common_of_heights (str : Arr) (n L : Nat) (sfx height : Arr)
    (hh : ∀ i, 1 ≤ i → i < n →
      height i = lcp (sufList str n (sfx i)) (sufList str n (sfx (i - 1))))
    (u v : Nat) (huv : u < v) (hv : v < n)
    (h : ∀ t, u < t → t ≤ v → L ≤ height t) :
    ∀ t, u ≤ t → t ≤ v → Common str n L (sfx u) (sfx t) := by
  intro t
  induction t with
  | zero =>
    intro h1 _
    have : u = 0 := by omega
    rw [this]
    have h2 := h 1 (by omega) (by omega)
    rw [hh 1 (Nat.le_refl 1) (by omega), lcp_ge_iff] at h2
    exact h2.symm.refl_of
  | succ d ih =>
    intro h1 h2
    rcases Nat.lt_or_ge u (d + 1) with h3 | h3
    · have h4 := h (d + 1) h3 h2
      rw [hh (d + 1) (by omega) (by omega), lcp_ge_iff] at h4
      exact (ih (by omega) (by omega)).trans h4.symm
    · have e : u = d + 1 := by omega
      have h4 := h (u + 1) (by omega) (by omega)
      rw [hh (u + 1) (by omega) (by omega), lcp_ge_iff] at h4
      rw [← e]
      have e2 : u + 1 - 1 = u := by omega
      rw [e2] at h4
      exact h4.symm.refl_of

/-- Two suffixes that agree on `L` characters have heights of at least `L` at all the
indices between them. -/
theorem heights_of_common (str : Arr) (n J L : Nat) (sfx height : Arr)
    (hs : StrictBy str n J sfx)
    (hh : ∀ i, 1 ≤ i → i < n →
      height i = lcp (sufList str n (sfx i)) (sufList str n (sfx (i - 1))))
    (u v : Nat) (hv : v < n) (h : Common str n L (sfx u) (sfx v))
    (t : Nat) (hut : u < t) (htv : t ≤ v) : L ≤ height t := by
  rw [hh t (by omega) (by omega), lcp_ge_iff]
  have h1 := common_between str n J sfx hs L u t v (by omega) htv hv h
  have h2 := common_between str n J sfx hs L u (t - 1) v (by omega) (by omega) hv h
  exact h1.symm.trans h2

/-- The first index from `a` on where the array drops below `L`. -/
theorem first_drop (h : Arr) (L a b : Nat) (hab : a ≤ b) (hb : h b < L) :
    ∃ c, a ≤ c ∧ c ≤ b ∧ h c < L ∧ ∀ t, a ≤ t → t < c → L ≤ h t := by
  induction b with
  | zero =>
    exact ⟨0, by omega, Nat.le_refl 0, hb, fun t h1 h2 => absurd h2 (Nat.not_lt_zero t)⟩
  | succ d ih =>
    rcases Nat.lt_or_ge a (d + 1) with h1 | h1
    · by_cases h2 : ∃ t, a ≤ t ∧ t ≤ d ∧ h t < L
      · obtain ⟨t, ht1, ht2, ht3⟩ := h2
        have key : ∀ m, m ≤ d → h m < L → a ≤ m →
            ∃ c, a ≤ c ∧ c ≤ m ∧ h c < L ∧ ∀ t, a ≤ t → t < c → L ≤ h t := by
          intro m
          induction m using Nat.strong_induction_on with
          | _ m ihm =>
            intro hm1 hm2 hm3
            by_cases h3 : ∃ t, a ≤ t ∧ t < m ∧ h t < L
            · obtain ⟨t', ht1', ht2', ht3'⟩ := h3
              obtain ⟨c, hc1, hc2, hc3, hc4⟩ := ihm t' ht2' (by omega) ht3' ht1'
              exact ⟨c, hc1, by omega, hc3, hc4⟩
            · refine ⟨m, hm3, Nat.le_refl m, hm2, ?_⟩
              intro t' h4 h5
              by_contra hcon
              exact h3 ⟨t', h4, h5, by omega⟩
        obtain ⟨c, hc1, hc2, hc3, hc4⟩ := key t ht2 ht3 ht1
        exact ⟨c, hc1, by omega, hc3, hc4⟩
      · refine ⟨d + 1, by omega, Nat.le_refl _, hb, ?_⟩
        intro t h3 h4
        by_contra hcon
        exact h2 ⟨t, h3, by omega, by omega⟩
    · have e : a = d + 1 := by omega
      exact ⟨d + 1, by omega, Nat.le_refl _, hb, fun t h3 h4 => by omega⟩

namespace P3294

theorem Loaded.len_ge {strs : List (List Nat)} {g : Prog} (h : Loaded strs g)
    (hv : Valid strs) : 2 ≤ g.str_len ∧ 0 < strs.length := by
  rw [h.len_eq]
  exact ⟨(valid_length strs hv).1, List.length_pos.2 hv.1⟩

/-- Every offset of the text holds a letter of an input string, a separator, or the final
zero. -/
theorem Loaded.value {strs : List (List Nat)} {g : Prog} (h : Loaded strs g)
    (hv : Valid strs) (p : Nat) (hp : p < g.str_len) :
    (∃ t x, t < strs.length ∧ x < (strs.getD t []).length ∧ p = off strs t + x ∧
      1 ≤ g.str p ∧ g.str p ≤ 26 ∧ g.belong p = t ∧ g.str p = charAt strs t x - 97 + 1 ∧
      97 ≤ charAt strs t x) ∨
    (∃ t, t + 1 < strs.length ∧ p = off strs t + (strs.getD t []).length ∧
      g.str p = 27 + t) ∨
    (p = g.str_len - 1 ∧ g.str p = 0) := by
  rw [h.len_eq] at hp
  obtain ⟨t, ht, h1, h2⟩ := block_of strs strs.length (Nat.le_refl _) p hp
  rcases Nat.lt_or_ge p (off strs t + (strs.getD t []).length) with h3 | h3
  · left
    have e : p = off strs t + (p - off strs t) := by omega
    obtain ⟨e1, e2⟩ := h.letter t (p - off strs t) ht (by omega)
    rw [← e] at e1 e2
    have := valid_char strs hv t (p - off strs t) ht (by omega)
    exact ⟨t, p - off strs t, ht, by omega, e, by omega, by omega, e2, e1, this.1⟩
  · have e : p = off strs t + (strs.getD t []).length := by omega
    by_cases ht' : t + 1 < strs.length
    · right; left
      exact ⟨t, ht', e, by rw [e]; exact h.sep t ht'⟩
    · right; right
      have et : t = strs.length - 1 := by omega
      have h4 := off_succ strs t ht
      have e5 : t + 1 = strs.length := by omega
      rw [e5] at h4
      have e6 : p = g.str_len - 1 := by rw [h.len_eq]; omega
      exact ⟨e6, by rw [e6]; exact h.last⟩

/-- An offset whose character is above all others comes last in sorted order. -/
theorem last_is_max (str : Arr) (n J : Nat) (sfx : Arr) (pm : Nat) (hpm : pm < n)
    (hmax : ∀ p, p < n → p ≠ pm → str p < str pm) (hperm : PermOn n sfx)
    (hstrict : StrictBy str n J sfx) : sfx (n - 1) = pm := by
  obtain ⟨i, hi, e⟩ := hperm.surj pm hpm
  by_contra hcon
  have hi' : i < n - 1 := by
    rcases Nat.lt_or_ge i (n - 1) with h | h
    · exact h
    · have : i = n - 1 := by omega
      rw [this] at e
      exact absurd e hcon
  have h1 := hstrict i (n - 1) hi' (by omega)
  rw [e] at h1
  have h2 : keyOf str n 1 (sfx (n - 1)) < keyOf str n 1 pm := by
    have hlt := hperm.1 (n - 1) (by omega)
    rw [keyOf_one, keyOf_one, singleton_lt_iff, ext_inside str n _ hlt, ext_inside str n _ hpm]
    have := hmax _ hlt hcon
    omega
  have hJ : 1 ≤ J := by
    rcases Nat.eq_zero_or_pos J with h | h
    · rw [h] at h1
      exact absurd h1 (lt_irrefl _)
    · exact h
  have h3 := keyOf_lt_of_le str n 1 J _ _ hJ h2
  exact absurd (lt_trans h1 h3) (lt_irrefl _)

/-- With at least two input strings the last height is zero: the last suffix in sorted
order starts with the largest separator, which occurs once. -/
theorem Loaded.last_height {strs : List (List Nat)} {g : Prog} (h : Loaded strs g)
    (hv : Valid strs) (hn : 2 ≤ strs.length) : g.mem.height (g.str_len - 1) = 0 := by
  obtain ⟨hN, _⟩ := h.len_ge hv
  obtain ⟨J, hs⟩ := h.strict
  have hpmN : off strs (strs.length - 2) + (strs.getD (strs.length - 2) []).length
      < g.str_len := by
    rw [h.len_eq]
    have h1 := off_succ strs (strs.length - 2) (by omega)
    have h2 := off_mono strs (show strs.length - 2 + 1 ≤ strs.length by omega)
    have h3 := off_succ strs (strs.length - 1) (by omega)
    have e1 : strs.length - 2 + 1 = strs.length - 1 := by omega
    have e2 : strs.length - 1 + 1 = strs.length := by omega
    rw [e1] at h1
    rw [e2] at h3
    omega
  have hpmv := h.sep (strs.length - 2) (by omega)
  have hmax : ∀ p, p < g.str_len →
      p ≠ off strs (strs.length - 2) + (strs.getD (strs.length - 2) []).length →
      g.str p < g.str (off strs (strs.length - 2) + (strs.getD (strs.length - 2) []).length) := by
    intro p hp hne
    rw [hpmv]
    rcases h.value hv p hp with ⟨t, x, _, _, _, _, h2, _⟩ | ⟨t, ht, e, e2⟩ | ⟨_, e⟩
    · omega
    · rw [e2]
      have : t ≠ strs.length - 2 := by
        intro et
        rw [et] at e
        exact hne e
      omega
    · rw [e]; omega
  have hlast := last_is_max g.str g.str_len J g.mem.suffix _ hpmN hmax h.perm hs
  rw [h.height (g.str_len - 1) (by omega) (by omega)]
  by_contra hcon
  have h1 : 1 ≤ lcp (sufList g.str g.str_len (g.mem.suffix (g.str_len - 1)))
      (sufList g.str g.str_len (g.mem.suffix (g.str_len - 1 - 1))) := by omega
  rw [lcp_ge_iff] at h1
  obtain ⟨_, h3, h4⟩ := h1 0 Nat.one_pos
  rw [Nat.add_zero] at h3 h4
  rw [Nat.add_zero, hlast] at h4
  have hne : g.mem.suffix (g.str_len - 1 - 1)
      ≠ off strs (strs.length - 2) + (strs.getD (strs.length - 2) []).length := by
    intro e
    rw [← hlast] at e
    have := h.perm.2 _ _ (by omega) (by omega) e
    omega
  have := hmax _ h3 hne
  omega

/-- A stretch that qualifies for `len` qualifies for a smaller length once a later height
drops below that length. -/
theorem quorum_mono_of_drop (g : Prog) (L L' : Nat) (hL : L' ≤ L) (hq : Quorum g L)
    (hdrop : ∀ i2, i2 < g.str_len → ∃ c, i2 ≤ c ∧ c < g.str_len ∧ g.mem.height c < L') :
    Quorum g L' := by
  obtain ⟨i0, i2, h1, h2, h3, h4, h5, h6⟩ := hq
  obtain ⟨c0, hc1, hc2, hc3⟩ := hdrop i2 h3
  obtain ⟨c, hc4, hc5, hc6, hc7⟩ := first_drop g.mem.height L' i2 c0 hc1 hc3
  refine ⟨i0, c, h1, by omega, by omega, ?_, hc6, ?_⟩
  · intro t ht1 ht2
    rcases Nat.lt_or_ge t i2 with h7 | h7
    · exact Nat.le_trans hL (h4 t ht1 h7)
    · exact hc7 t h7 ht2
  · exact Nat.lt_of_lt_of_le h6
      (Finset.card_le_card (owners_subset g i0 i0 i2 c (by omega) (Nat.le_refl _) hc4))

end P3294

theorem singleton_le_iff (x y : Nat) : [x] ≤ [y] ↔ x ≤ y := by
  rw [le_iff_lt_or_eq, singleton_lt_iff]
  constructor
  · rintro (h | h)
    · omega
    · injection h with h1 _
      omega
  · intro h
    rcases Nat.lt_or_ge x y with h1 | h1
    · exact Or.inl h1
    · exact Or.inr (by rw [show x = y by omega])

/-- Two suffixes in sorted order that agree on exactly `hh` characters: the later one has a
larger character at place `hh`. -/
theorem next_char_lt (str : Arr) (n J : Nat) (sfx : Arr) (hs : StrictBy str n J sfx)
    (i hh : Nat) (hi : i < n) (hi1 : 1 ≤ i)
    (hc : Common str n hh (sfx i) (sfx (i - 1)))
    (hnc : ¬ Common str n (hh + 1) (sfx i) (sfx (i - 1)))
    (hin : sfx (i - 1) + hh < n) :
    sfx i + hh < n ∧ str (sfx (i - 1) + hh) < str (sfx i + hh) := by
  have hle := hs.le_any (hh + 1) (i - 1) i (by omega) hi
  rw [keyOf_double_le] at hle
  have hk := ((common_iff_key str n hh _ _).1 hc).1
  have h1 : keyOf str n 1 (sfx (i - 1) + hh) ≤ keyOf str n 1 (sfx i + hh) := by
    rcases hle with h | ⟨_, h⟩
    · rw [hk] at h; exact absurd h (lt_irrefl _)
    · exact h
  rw [keyOf_one, keyOf_one, singleton_le_iff, ext_inside str n _ hin] at h1
  have hz : sfx i + hh < n := (ext_pos_iff str n _).1 (by omega)
  rw [ext_inside str n _ hz] at h1
  refine ⟨hz, ?_⟩
  rcases Nat.lt_or_ge (str (sfx (i - 1) + hh)) (str (sfx i + hh)) with h2 | h2
  · exact h2
  · exfalso
    apply hnc
    intro k hk'
    rcases Nat.lt_succ_iff_lt_or_eq.1 hk' with h3 | h3
    · exact hc k h3
    · rw [h3]
      exact ⟨hz, hin, by omega⟩

/-- When every stretch of heights of at least `L'` that starts runs to the end of the
array, no stretch of heights of at least `L > L'` is followed by a drop below `L`. -/
theorem no_open_tail (str : Arr) (n J : Nat) (sfx height : Arr) (hperm : PermOn n sfx)
    (hs : StrictBy str n J sfx)
    (hh : ∀ i, 1 ≤ i → i < n →
      height i = lcp (sufList str n (sfx i)) (sufList str n (sfx (i - 1))))
    (hfirst : sfx 0 = n - 1) (hzero : str (n - 1) = 0)
    (hpos : ∀ p, p < n - 1 → 0 < str p)
    (L L' : Nat) (hL' : 1 ≤ L') (hLL : L' < L)
    (hA : ∀ t, 2 ≤ t → t < n → L' ≤ height t → ∀ t', t ≤ t' → t' < n → L' ≤ height t')
    (i0 i2 : Nat) (h0 : 2 ≤ i0) (h02 : i0 < i2) (h2 : i2 < n)
    (hrunL : ∀ t, i0 ≤ t → t < i2 → L ≤ height t) (hdrop : height i2 < L) : False := by
  have hfinal : ∀ t, i0 ≤ t → t < n → L' ≤ height t :=
    hA i0 h0 (by omega) (Nat.le_trans (Nat.le_of_lt hLL) (hrunL i0 (Nat.le_refl _) h02))
  have hseg := common_of_heights str n L' sfx height hh (i0 - 1) (n - 1) (by omega) (by omega)
    (fun t ht1 ht2 => hfinal t (by omega) (by omega))
  have hrun := common_of_heights str n L sfx height hh (i0 - 1) (i2 - 1) (by omega) (by omega)
    (fun t ht1 ht2 => hrunL t (by omega) (by omega))
  have hab : Common str n L (sfx (i0 - 1)) (sfx i0) := by
    have := hrun i0 (by omega) (by omega)
    exact this
  have hne : sfx (i0 - 1) ≠ sfx i0 := by
    intro e
    have := hperm.2 _ _ (by omega) (by omega) e
    omega
  -- every shift of the first suffix of the stretch lies in the final segment
  have hF1 : ∀ s, s ≤ L - L' → Common str n L' (sfx (i0 - 1)) (sfx (i0 - 1) + s) := by
    intro s hs1
    have hsh : Common str n L' (sfx (i0 - 1) + s) (sfx i0 + s) := by
      intro k hk
      obtain ⟨e1, e2, e3⟩ := hab (s + k) (by omega)
      refine ⟨by omega, by omega, ?_⟩
      rw [Nat.add_assoc, Nat.add_assoc]
      exact e3
    obtain ⟨ha, hb, _⟩ := hsh 0 (by omega)
    rw [Nat.add_zero] at ha hb
    obtain ⟨u, hu, eu⟩ := hperm.surj _ ha
    obtain ⟨v, hv, ev⟩ := hperm.surj _ hb
    have huv : u ≠ v := by
      intro e
      rw [e, ev] at eu
      omega
    have key : ∀ lo hi, lo < hi → hi < n → Common str n L' (sfx lo) (sfx hi) →
        Common str n L' (sfx (i0 - 1)) (sfx lo) := by
      intro lo hi hlh hhi hc
      have hhts := heights_of_common str n J L' sfx height hs hh lo hi hhi hc
      have hlo : 1 ≤ lo := by
        rcases Nat.eq_zero_or_pos lo with h3 | h3
        · exfalso
          rw [h3, hfirst] at hc
          obtain ⟨_, e2, e3⟩ := hc 0 (by omega)
          rw [Nat.add_zero] at e2 e3
          rw [Nat.add_zero, hzero] at e3
          have e4 : sfx hi = n - 1 := by
            by_contra hcon
            have := hpos (sfx hi) (by omega)
            omega
          rw [← hfirst] at e4
          have := hperm.2 _ _ hhi (by omega) e4
          omega
        · exact h3
      have htail : ∀ t, lo < t → t < n → L' ≤ height t := by
        intro t ht1 ht2
        rcases Nat.lt_or_ge hi t with h3 | h3
        · exact hA hi (by omega) hhi (hhts hi hlh (Nat.le_refl _)) t (by omega) ht2
        · exact hhts t ht1 h3
      rcases Nat.lt_or_ge lo (i0 - 1) with h3 | h3
      · have := common_of_heights str n L' sfx height hh lo (n - 1) (by omega) (by omega)
          (fun t ht1 ht2 => htail t ht1 (by omega))
        exact (this (i0 - 1) (by omega) (by omega)).symm
      · exact hseg lo h3 (by omega)
    rcases Nat.lt_or_ge u v with h3 | h3
    · have := key u v h3 hv (by rw [eu, ev]; exact hsh)
      rw [eu] at this
      exact this
    · have := key v u (by omega) hu (by rw [eu, ev]; exact hsh.symm)
      rw [ev] at this
      exact this.trans hsh.symm
  -- hence the first `L` characters of that suffix are one and the same letter
  have hstep : ∀ k, k ≤ L' → str (sfx (i0 - 1) + k) = str (sfx (i0 - 1)) := by
    intro k
    induction k with
    | zero => intro _; rfl
    | succ k ih =>
      intro hk
      obtain ⟨_, _, e3⟩ := hF1 1 (by omega) k (by omega)
      have e4 : sfx (i0 - 1) + 1 + k = sfx (i0 - 1) + (k + 1) := by omega
      rw [e4] at e3
      rw [← e3]
      exact ih (by omega)
  have hall : ∀ m, m < L → str (sfx (i0 - 1) + m) = str (sfx (i0 - 1)) := by
    intro m hm
    rcases Nat.lt_or_ge m L' with h3 | h3
    · exact hstep m (by omega)
    · obtain ⟨_, _, e3⟩ := hF1 (m - (L' - 1)) (by omega) (L' - 1) (by omega)
      have e4 : sfx (i0 - 1) + (m - (L' - 1)) + (L' - 1) = sfx (i0 - 1) + m := by omega
      rw [e4] at e3
      rw [← e3]
      exact hstep (L' - 1) (by omega)
  -- the suffix after the stretch has a larger letter, which starts a suffix of its own
  have hy : Common str n L (sfx (i0 - 1)) (sfx (i2 - 1)) := hrun (i2 - 1) (by omega) (by omega)
  have hv1 : L' ≤ height i2 := hfinal i2 (by omega) h2
  have hc : Common str n (height i2) (sfx i2) (sfx (i2 - 1)) := by
    rw [← lcp_ge_iff, ← hh i2 (by omega) h2]
  have hnc : ¬ Common str n (height i2 + 1) (sfx i2) (sfx (i2 - 1)) := by
    rw [← lcp_ge_iff, ← hh i2 (by omega) h2]
    omega
  obtain ⟨_, hin, e5⟩ := hy (height i2) hdrop
  obtain ⟨hz, hlt⟩ := next_char_lt str n J sfx hs i2 (height i2) h2 (by omega) hc hnc hin
  rw [← e5, hall (height i2) hdrop] at hlt
  obtain ⟨u', hu', eu'⟩ := hperm.surj _ hz
  have hge : i0 - 1 ≤ u' := by
    by_contra hcon
    have := hs.le_any 1 u' (i0 - 1) (by omega) (by omega)
    rw [eu', keyOf_one, keyOf_one, singleton_le_iff, ext_inside str n _ hz,
      ext_inside str n _ (hperm.1 _ (by omega))] at this
    omega
  obtain ⟨_, _, e6⟩ := hseg u' hge (by omega) 0 (by omega)
  rw [Nat.add_zero, Nat.add_zero, eu'] at e6
  omega

namespace P3294

theorem Loaded.pos {strs : List (List Nat)} {g : Prog} (h : Loaded strs g) (hv : Valid strs)
    (p : Nat) (hp : p < g.str_len - 1) : 0 < g.str p := by
  rcases h.value hv p (by omega) with ⟨t, x, _, _, _, h1, _⟩ | ⟨t, _, _, e⟩ | ⟨e, _⟩
  · omega
  · rw [e]; omega
  · omega

/-- On a valid input, a length that qualifies makes every smaller positive length
qualify. -/
theorem quorum_mono (strs : List (List Nat)) (g : Prog) (hv : Valid strs)
    (h : Loaded strs g) (L L' : Nat) (hL' : 1 ≤ L') (hLL : L' < L) (hq : Quorum g L) :
    Quorum g L' := by
  obtain ⟨hN, hn⟩ := h.len_ge hv
  rcases Nat.lt_or_ge strs.length 2 with h1 | h1
  · by_contra hnq
    have hn2 : g.n / 2 = 0 := by
      rw [h.n_eq]
      have : strs.length = 1 := by omega
      rw [this]
    have hA : ∀ t, 2 ≤ t → t < g.str_len → L' ≤ g.mem.height t →
        ∀ t', t ≤ t' → t' < g.str_len → L' ≤ g.mem.height t' := by
      intro t ht1 ht2 ht3 t' ht4 ht5
      by_contra hcon
      obtain ⟨c, hc1, hc2, hc3, hc4⟩ := first_drop g.mem.height L' t t' ht4 (by omega)
      have htc : t < c := by
        rcases Nat.lt_or_ge t c with h3 | h3
        · exact h3
        · have : c = t := by omega
          rw [this] at hc3
          omega
      apply hnq
      refine ⟨t, c, ht1, htc, by omega, hc4, hc3, ?_⟩
      rw [hn2]
      apply Finset.card_pos.2
      refine ⟨owner g (t - 1), ?_⟩
      unfold owners
      rw [if_pos htc]
      exact Finset.mem_image.2 ⟨t - 1, Finset.mem_Ico.2 ⟨Nat.le_refl _, by omega⟩, rfl⟩
    obtain ⟨J, hs⟩ := h.strict
    obtain ⟨i0, i2, q1, q2, q3, q4, q5, _⟩ := hq
    exact no_open_tail g.str g.str_len J g.mem.suffix g.mem.height h.perm hs h.height h.first
      h.last (h.pos hv) L L' hL' hLL hA i0 i2 q1 q2 q3 q4 q5
  · apply quorum_mono_of_drop g L L' (Nat.le_of_lt hLL) hq
    intro i2 hi2
    refine ⟨g.str_len - 1, by omega, by omega, ?_⟩
    rw [h.last_height hv h1]
    omega

/-- The binary search of `main` ends on the largest length that `check` accepts, or on 0,
when `check` is monotone on the positive lengths. -/
theorem search_spec (g : Prog) (M : Nat)
    (hmono : ∀ L L', 1 ≤ L' → L' < L → check g L = 1 → check g L' = 1) :
    ∀ fuel l r, l ≤ r → r ≤ fuel + l → r ≤ M → (l = 0 ∨ check g l = 1) →
      (∀ L, r < L → L ≤ M → check g L = 0) →
      ∃ res, search g fuel l r = some res ∧ res ≤ M ∧ (res = 0 ∨ check g res = 1) ∧
        ∀ L, res < L → L ≤ M → check g L = 0 := by
  intro fuel
  induction fuel with
  | zero =>
    intro l r h1 h2 h3 h4 h5
    have e : l = r := by omega
    refine ⟨l, ?_, by omega, h4, by rw [e]; exact h5⟩
    unfold search
    rw [if_neg (by omega)]
  | succ fuel ih =>
    intro l r h1 h2 h3 h4 h5
    unfold search
    by_cases hlr : l < r
    · rw [if_pos hlr]
      have hm1 : l < (l + r + 1) / 2 := by omega
      have hm2 : (l + r + 1) / 2 ≤ r := by omega
      by_cases hc : check g ((l + r + 1) / 2) ≠ 0
      · rw [if_pos hc]
        have hc1 : check g ((l + r + 1) / 2) = 1 := by
          rcases check_cases g ((l + r + 1) / 2) with h6 | h6
          · exact absurd h6 hc
          · exact h6
        exact ih _ r hm2 (by omega) h3 (Or.inr hc1) h5
      · rw [if_neg hc]
        have hc0 : check g ((l + r + 1) / 2) = 0 := by
          by_contra h6
          exact hc h6
        apply ih l _ (by omega) (by omega) (by omega) h4
        intro L hL1 hL2
        rcases Nat.lt_or_ge r L with h6 | h6
        · exact h5 L h6 hL2
        · rcases Nat.lt_or_ge ((l + r + 1) / 2) L with h7 | h7
          · rcases check_cases g L with h8 | h8
            · exact h8
            · have := hmono L ((l + r + 1) / 2) (by omega) h7 h8
              omega
          · have : L = (l + r + 1) / 2 := by omega
            rw [this]
            exact hc0
    · rw [if_neg hlr]
      have e : l = r := by omega
      exact ⟨l, rfl, by omega, h4, by rw [e]; exact h5⟩

/-- After a valid input is loaded, a length for which `check` returns 1 makes it return 1
for every smaller positive length. -/
theorem Loaded.check_mono {strs : List (List Nat)} {g : Prog} (h : Loaded strs g)
    (hv : Valid strs) (L L' : Nat) (h1 : 1 ≤ L') (h2 : L' < L) (h3 : check g L = 1) :
    check g L' = 1 := by
  obtain ⟨hN, _⟩ := h.len_ge hv
  rw [check_iff g L hN] at h3
  rw [check_iff g L' hN]
  exact quorum_mono strs g hv h L L' h1 h2 h3

/-- C9, as amended: on every valid input `main` builds the suffix array, and every length
`L` for which `check(L)` returns 1 makes `check(L')` return 1 for every `L'` with
`1 <= L' < L`. -/
theorem check_monotone (strs : List (List Nat)) (g0 : Prog) (hv : Valid strs) :
    ∃ g, load strs g0 = some g ∧
      ∀ L L', 1 ≤ L' → L' < L → check g L = 1 → check g L' = 1 := by
  obtain ⟨g, e, h⟩ := load_spec strs g0 hv
  exact ⟨g, e, fun L L' h1 h2 h3 => h.check_mono hv L L' h1 h2 h3⟩

theorem check_monotone_witness :
    Valid [[97, 98], [98]] ∧
    ∃ g, load [[97, 98], [98]] start = some g ∧
      ∀ L L', 1 ≤ L' → L' < L → check g L = 1 → check g L' = 1 :=
  ⟨by decide, check_monotone [[97, 98], [98]] start (by decide)⟩

/-- C10: on every valid input the binary search of `main` ends, with `l` the largest
length in `[1, MAX_LEN]` for which `check` returns 1, or with `l = 0` when `check` returns
0 for every length in `[1, MAX_LEN]`. -/
theorem search_longest (strs : List (List Nat)) (g0 : Prog) (hv : Valid strs) :
    ∃ g l, load strs g0 = some g ∧ longest g = some l ∧
      ((1 ≤ l ∧ l ≤ MAX_LEN ∧ check g l = 1 ∧
          ∀ L, l < L → L ≤ MAX_LEN → check g L = 0) ∨
        (l = 0 ∧ ∀ L, 1 ≤ L → L ≤ MAX_LEN → check g L = 0)) := by
  obtain ⟨g, e, hl⟩ := load_spec strs g0 hv
  have hmono := fun L L' h1 h2 h3 => hl.check_mono hv L L' h1 h2 h3
  obtain ⟨l, e2, h1, h2, h3⟩ := search_spec g MAX_LEN hmono MAX_LEN 0 MAX_LEN
    (Nat.zero_le _) (Nat.le_refl _) (Nat.le_refl _) (Or.inl rfl)
    (fun L hL1 hL2 => by omega)
  refine ⟨g, l, e, e2, ?_⟩
  rcases Nat.eq_zero_or_pos l with h4 | h4
  · right
    refine ⟨h4, ?_⟩
    intro L hL1 hL2
    exact h3 L (by omega) hL2
  · left
    refine ⟨h4, h1, ?_, h3⟩
    rcases h2 with h5 | h5
    · omega
    · exact h5

theorem search_longest_witness :
    Valid [[97, 98], [98]] ∧
    ∃ g l, load [[97, 98], [98]] start = some g ∧ longest g = some l ∧
      ((1 ≤ l ∧ l ≤ MAX_LEN ∧ check g l = 1 ∧
          ∀ L, l < L → L ≤ MAX_LEN → check g L = 0) ∨
        (l = 0 ∧ ∀ L, 1 ≤ L → L ≤ MAX_LEN → check g L = 0)) :=
  ⟨by decide, search_longest [[97, 98], [98]] start (by decide)⟩

end P3294

namespace P3294

/-- A substring of a list, by places. -/
theorem infix_iff_places (w l : List Nat) :
    w <:+: l ↔ ∃ x, x + w.length ≤ l.length ∧ ∀ k, k < w.length → l.getD (x + k) 0 = w.getD k 0 := by
  constructor
  · rintro ⟨s, t, rfl⟩
    refine ⟨s.length, by simp only [List.length_append]; omega, ?_⟩
    intro k hk
    rw [List.append_assoc, List.getD_append_right _ _ _ _ (by omega)]
    have e : s.length + k - s.length = k := by omega
    rw [e, List.getD_append _ _ _ _ hk]
  · rintro ⟨x, hx, h⟩
    have e : w = (l.drop x).take w.length := by
      apply List.ext_getElem
      · rw [List.length_take, List.length_drop]; omega
      · intro k h1 h2
        rw [List.getElem_take, List.getElem_drop]
        have := h k h1
        rw [List.getD_eq_getElem _ _ (by omega), List.getD_eq_getElem _ _ h1] at this
        exact this.symm
    rw [e]
    exact (List.take_prefix _ _).isInfix.trans (List.drop_suffix _ _).isInfix

theorem countP_eq_count (p : List Nat → Bool) (strs : List (List Nat)) :
    strs.countP p = Nat.count (fun u => p (strs.getD u []) = true) strs.length := by
  induction strs with
  | nil => simp
  | cons s l ih =>
    rw [List.countP_cons, List.length_cons, Nat.count_succ', ih]
    simp only [List.getD_cons_succ, List.getD_cons_zero]

/-- The number of input strings in which `w` occurs, as a number of indices. -/
theorem occurrences_eq_card (strs : List (List Nat)) (w : List Nat) :
    occurrences strs w
      = ((Finset.range strs.length).filter (fun u => w <:+: strs.getD u [])).card := by
  unfold occurrences
  rw [countP_eq_count, Nat.count_eq_card_filter_range]
  congr 1
  ext u
  simp

/-- A character that stands at two offsets of the text is a letter. -/
theorem Loaded.letter_of_twice {strs : List (List Nat)} {g : Prog} (h : Loaded strs g)
    (hv : Valid strs) (p q : Nat) (hp : p < g.str_len) (hq : q < g.str_len) (hpq : p ≠ q)
    (e : g.str p = g.str q) : 1 ≤ g.str p ∧ g.str p ≤ 26 := by
  rcases h.value hv p hp with ⟨_, _, _, _, _, h1, h2, _⟩ | ⟨t, _, e1, e2⟩ | ⟨e1, e2⟩
  · exact ⟨h1, h2⟩
  · exfalso
    rcases h.value hv q hq with ⟨_, _, _, _, _, h1, h2, _⟩ | ⟨t', _, e3, e4⟩ | ⟨e3, e4⟩
    · omega
    · have : t = t' := by omega
      rw [this] at e1
      rw [← e3] at e1
      exact hpq e1
    · omega
  · exfalso
    rcases h.value hv q hq with ⟨_, _, _, _, _, h1, h2, _⟩ | ⟨t', _, e3, e4⟩ | ⟨e3, e4⟩
    · omega
    · omega
    · omega

/-- An occurrence of `w` in input string `t` is an offset of the text that spells `w` and
is owned by `t`. -/
theorem Loaded.spells_of_infix {strs : List (List Nat)} {g : Prog} (h : Loaded strs g)
    (w : List Nat) (t : Nat) (ht : t < strs.length) (hw : w <:+: strs.getD t []) (hw1 : w ≠ []) :
    ∃ p, p < g.str_len ∧ g.belong p = t ∧ Spells g w p := by
  obtain ⟨x, hx, hk⟩ := (infix_iff_places w _).1 hw
  have hwl : 0 < w.length := List.length_pos.2 hw1
  have h1 := off_succ strs t ht
  have h2 := off_mono strs (show t + 1 ≤ strs.length by omega)
  refine ⟨off strs t + x, by rw [h.len_eq]; omega, (h.letter t x ht (by omega)).2, ?_⟩
  intro k hk'
  refine ⟨by rw [h.len_eq]; omega, ?_⟩
  rw [Nat.add_assoc, (h.letter t (x + k) ht (by omega)).1]
  unfold charAt
  rw [hk k hk']

/-- An offset that spells a non-empty string of lowercase letters lies in an input string,
its owner, in which the string occurs. -/
theorem Loaded.infix_of_spells {strs : List (List Nat)} {g : Prog} (h : Loaded strs g)
    (hv : Valid strs) (w : List Nat) (p : Nat) (hw1 : w ≠ [])
    (hlow : ∀ k, k < w.length → 97 ≤ w.getD k 0 ∧ w.getD k 0 ≤ 122) (hs : Spells g w p) :
    g.belong p < strs.length ∧ w <:+: strs.getD (g.belong p) [] := by
  have hwl : 0 < w.length := List.length_pos.2 hw1
  obtain ⟨hp, e0⟩ := hs 0 hwl
  rw [Nat.add_zero] at hp e0
  have hl0 := hlow 0 hwl
  rcases h.value hv p hp with ⟨t, x, ht, hx, ep, _, _, eb, _, _⟩ | ⟨t, _, _, e2⟩ | ⟨_, e2⟩
  · rw [eb]
    refine ⟨ht, ?_⟩
    have hstay : ∀ k, k < w.length → x + k < (strs.getD t []).length := by
      intro k
      induction k with
      | zero => intro _; exact hx
      | succ k ih =>
        intro hk
        have h1 := ih (by omega)
        by_contra hcon
        have e3 : x + (k + 1) = (strs.getD t []).length := by omega
        obtain ⟨hp2, e4⟩ := hs (k + 1) hk
        have hl := hlow (k + 1) hk
        have e5 : p + (k + 1) = off strs t + (strs.getD t []).length := by omega
        rw [e5] at e4 hp2
        by_cases ht' : t + 1 < strs.length
        · rw [h.sep t ht'] at e4
          omega
        · have e6 : off strs t + (strs.getD t []).length = g.str_len - 1 := by
            have h4 := off_succ strs t ht
            have e7 : t + 1 = strs.length := by omega
            rw [e7] at h4
            rw [h.len_eq]
            omega
          rw [e6, h.last] at e4
          omega
    rw [infix_iff_places]
    refine ⟨x, ?_, ?_⟩
    · have := hstay (w.length - 1) (by omega)
      omega
    · intro k hk
      obtain ⟨_, e4⟩ := hs k hk
      have e5 : p + k = off strs t + (x + k) := by omega
      rw [e5, (h.letter t (x + k) ht (hstay k hk)).1] at e4
      have hc := valid_char strs hv t (x + k) ht (hstay k hk)
      have hl := hlow k hk
      unfold charAt at e4 hc
      omega
  · omega
  · omega

end P3294

namespace P3294

/-- The string of length `L` that the text holds from offset `a` on, as character codes. -/
theorem word_getD (g : Prog) (a L k : Nat) (hk : k < L) :
    ((List.range L).map (fun k => g.str (a + k) + 96)).getD k 0 = g.str (a + k) + 96 := by
  rw [List.getD_eq_getElem _ _ (by simpa using hk)]
  simp

/-- The suffixes of a stretch with heights of at least `L >= 1` all spell one string of
`L` lowercase letters. -/
theorem Loaded.run_spells {strs : List (List Nat)} {g : Prog} (h : Loaded strs g)
    (hv : Valid strs) (L i0 i2 : Nat) (_ : 1 ≤ L) (h0 : 1 ≤ i0) (h02 : i0 < i2)
    (h2 : i2 ≤ g.str_len) (hrun : ∀ t, i0 ≤ t → t < i2 → L ≤ g.mem.height t) :
    ∃ w : List Nat, w.length = L ∧
      (∀ k, k < w.length → 97 ≤ w.getD k 0 ∧ w.getD k 0 ≤ 122) ∧
      w = line g L (g.mem.suffix (i0 - 1)) ∧
      ∀ t, i0 - 1 ≤ t → t < i2 → Spells g w (g.mem.suffix t) := by
  have hc := common_of_heights g.str g.str_len L g.mem.suffix g.mem.height h.height
    (i0 - 1) (i2 - 1) (by omega) (by omega) (fun t ht1 ht2 => hrun t (by omega) (by omega))
  have hne : g.mem.suffix (i0 - 1) ≠ g.mem.suffix i0 := by
    intro e
    have := h.perm.2 _ _ (by omega) (by omega) e
    omega
  have hlet : ∀ k, k < L → 1 ≤ g.str (g.mem.suffix (i0 - 1) + k) ∧
      g.str (g.mem.suffix (i0 - 1) + k) ≤ 26 := by
    intro k hk
    obtain ⟨e1, e2, e3⟩ := hc i0 (by omega) (by omega) k hk
    exact h.letter_of_twice hv _ _ e1 e2 (by omega) e3
  refine ⟨(List.range L).map (fun k => g.str (g.mem.suffix (i0 - 1) + k) + 96), by simp, ?_, ?_, ?_⟩
  · intro k hk
    have hk' : k < L := by simpa using hk
    rw [word_getD g _ L k hk']
    have := hlet k hk'
    omega
  · unfold line
    apply List.map_congr_left
    intro k hk
    have := hlet k (List.mem_range.1 hk)
    omega
  · intro t ht1 ht2 k hk
    have hk' : k < L := by simpa using hk
    obtain ⟨_, e2, e3⟩ := hc t ht1 (by omega) k hk'
    refine ⟨e2, ?_⟩
    rw [word_getD g _ L k hk', ← e3]
    have := hlet k hk'
    omega

/-- A length that qualifies is the length of a string that occurs in more than half of
the input strings. -/
theorem quorum_word (strs : List (List Nat)) (g : Prog) (hv : Valid strs)
    (h : Loaded strs g) (L : Nat) (hL : 1 ≤ L) (hq : Quorum g L) :
    ∃ w : List Nat, w.length = L ∧ strs.length / 2 < occurrences strs w := by
  obtain ⟨i0, i2, q1, q2, q3, q4, _, q6⟩ := hq
  obtain ⟨w, hw1, hw2, _, hw3⟩ := h.run_spells hv L i0 i2 hL (by omega) q2 (by omega) q4
  refine ⟨w, hw1, ?_⟩
  rw [h.n_eq] at q6
  apply Nat.lt_of_lt_of_le q6
  rw [occurrences_eq_card]
  apply Finset.card_le_card
  intro u hu
  unfold owners at hu
  rw [if_pos q2] at hu
  obtain ⟨t, ht, rfl⟩ := Finset.mem_image.1 hu
  rw [Finset.mem_Ico] at ht
  have hne : w ≠ [] := by
    intro e
    rw [e] at hw1
    simp at hw1
    omega
  obtain ⟨h1, h2⟩ := h.infix_of_spells hv w _ hne hw2 (hw3 t ht.1 ht.2)
  rw [Finset.mem_filter, Finset.mem_range]
  exact ⟨h1, h2⟩

/-- Two offsets that spell the same string agree on its length. -/
theorem spells_common (g : Prog) (w : List Nat) (p q : Nat) (hp : Spells g w p)
    (hq : Spells g w q) : Common g.str g.str_len w.length p q :=
  fun k hk => ⟨(hp k hk).1, (hq k hk).1, (hp k hk).2.trans (hq k hk).2.symm⟩

/-- A string that occurs in some input string is made of lowercase letters. -/
theorem valid_infix (strs : List (List Nat)) (hv : Valid strs) (w : List Nat) (u : Nat)
    (hu : u < strs.length) (hw : w <:+: strs.getD u []) (k : Nat) (hk : k < w.length) :
    97 ≤ w.getD k 0 ∧ w.getD k 0 ≤ 122 := by
  obtain ⟨x, hx, hxk⟩ := (infix_iff_places w _).1 hw
  rw [← hxk k hk]
  exact valid_char strs hv u (x + k) hu (by omega)

/-- With at least two input strings, a non-empty string that occurs in more than half of
them is spelled by the suffixes of a stretch that qualifies. -/
theorem word_run (strs : List (List Nat)) (g : Prog) (hv : Valid strs)
    (h : Loaded strs g) (hn : 2 ≤ strs.length) (w : List Nat) (hL : 1 ≤ w.length)
    (hocc : strs.length / 2 < occurrences strs w) :
    ∃ i0 c, 2 ≤ i0 ∧ i0 < c ∧ c < g.str_len ∧
      (∀ t, i0 ≤ t → t < c → w.length ≤ g.mem.height t) ∧ g.mem.height c < w.length ∧
      g.n / 2 < (owners g i0 c).card ∧ Spells g w (g.mem.suffix (i0 - 1)) := by
  classical
  obtain ⟨hN, _⟩ := h.len_ge hv
  obtain ⟨J, hs⟩ := h.strict
  rw [occurrences_eq_card] at hocc
  have hwne : w ≠ [] := by
    intro e
    rw [e] at hL
    simp at hL
  have hS : ∀ u, u ∈ (Finset.range strs.length).filter (fun u => w <:+: strs.getD u []) →
      ∃ t, t < g.str_len ∧ Spells g w (g.mem.suffix t) ∧ owner g t = u := by
    intro u hu
    rw [Finset.mem_filter, Finset.mem_range] at hu
    obtain ⟨p, hp, hb, hsp⟩ := h.spells_of_infix w u hu.1 hu.2 hwne
    obtain ⟨t, ht, e⟩ := h.perm.surj p hp
    refine ⟨t, ht, by rw [e]; exact hsp, ?_⟩
    unfold owner
    rw [e, hb]
  have hcard2 : 1 < ((Finset.range strs.length).filter
      (fun u => w <:+: strs.getD u [])).card := by omega
  obtain ⟨u1, hu1, u2, hu2, hu12⟩ := Finset.one_lt_card.1 hcard2
  obtain ⟨t1, ht1, hsp1, ho1⟩ := hS u1 hu1
  obtain ⟨t2, ht2, hsp2, ho2⟩ := hS u2 hu2
  have ht12 : t1 ≠ t2 := by
    intro e
    rw [e, ho2] at ho1
    exact hu12 ho1.symm
  have hT1 : t1 ∈ (Finset.range g.str_len).filter (fun t => Spells g w (g.mem.suffix t)) :=
    Finset.mem_filter.2 ⟨Finset.mem_range.2 ht1, hsp1⟩
  have hT2 : t2 ∈ (Finset.range g.str_len).filter (fun t => Spells g w (g.mem.suffix t)) :=
    Finset.mem_filter.2 ⟨Finset.mem_range.2 ht2, hsp2⟩
  have hTne : ((Finset.range g.str_len).filter
      (fun t => Spells g w (g.mem.suffix t))).Nonempty := ⟨t1, hT1⟩
  obtain ⟨hlo1, hlo2⟩ := Finset.mem_filter.1 (Finset.min'_mem _ hTne)
  obtain ⟨hhi1, hhi2⟩ := Finset.mem_filter.1 (Finset.max'_mem _ hTne)
  generalize hlo : Finset.min' _ hTne = lo at hlo1 hlo2
  generalize hhi : Finset.max' _ hTne = hi at hhi1 hhi2
  rw [Finset.mem_range] at hlo1 hhi1
  have hmin : ∀ t, t ∈ (Finset.range g.str_len).filter
      (fun t => Spells g w (g.mem.suffix t)) → lo ≤ t := by
    intro t ht
    rw [← hlo]
    exact Finset.min'_le _ t ht
  have hmax : ∀ t, t ∈ (Finset.range g.str_len).filter
      (fun t => Spells g w (g.mem.suffix t)) → t ≤ hi := by
    intro t ht
    rw [← hhi]
    exact Finset.le_max' _ t ht
  have hlohi : lo < hi := by
    have a1 := hmin t1 hT1
    have a2 := hmin t2 hT2
    have a3 := hmax t1 hT1
    have a4 := hmax t2 hT2
    omega
  have hcom := spells_common g w _ _ hlo2 hhi2
  have hhts := heights_of_common g.str g.str_len J w.length g.mem.suffix g.mem.height hs
    h.height lo hi hhi1 hcom
  have hlo0 : 1 ≤ lo := by
    rcases Nat.eq_zero_or_pos lo with e | e
    · exfalso
      rw [e, h.first] at hlo2
      obtain ⟨_, e2⟩ := hlo2 0 hL
      rw [Nat.add_zero, h.last] at e2
      omega
    · exact e
  have hlast := h.last_height hv hn
  have hhiN : hi < g.str_len - 1 := by
    rcases Nat.lt_or_ge hi (g.str_len - 1) with e | e
    · exact e
    · exfalso
      have e2 : hi = g.str_len - 1 := by omega
      have := hhts hi hlohi (Nat.le_refl _)
      rw [e2, hlast] at this
      omega
  obtain ⟨c, hc1, hc2, hc3, hc4⟩ := first_drop g.mem.height w.length (hi + 1) (g.str_len - 1)
    (by omega) (by rw [hlast]; omega)
  refine ⟨lo + 1, c, by omega, by omega, by omega, ?_, hc3, ?_, hlo2⟩
  · intro t ht1' ht2'
    rcases Nat.lt_or_ge hi t with e | e
    · exact hc4 t (by omega) ht2'
    · exact hhts t (by omega) e
  · rw [h.n_eq]
    apply Nat.lt_of_lt_of_le hocc
    apply Finset.card_le_card
    intro u hu
    obtain ⟨t, ht, hsp, ho⟩ := hS u hu
    have hT : t ∈ (Finset.range g.str_len).filter (fun t => Spells g w (g.mem.suffix t)) :=
      Finset.mem_filter.2 ⟨Finset.mem_range.2 ht, hsp⟩
    have a1 := hmin t hT
    have a2 := hmax t hT
    unfold owners
    rw [if_pos (by omega)]
    exact Finset.mem_image.2 ⟨t, Finset.mem_Ico.2 ⟨by omega, by omega⟩, ho⟩

/-- After a valid input of at least two strings is loaded, `check(len)` returns 1 for
`len >= 1` exactly when some string of length `len` occurs in more than `n / 2` of the
input strings. -/
theorem Loaded.check_spec {strs : List (List Nat)} {g : Prog} (h : Loaded strs g)
    (hv : Valid strs) (hn : 2 ≤ strs.length) (len : Nat) (hlen : 1 ≤ len) :
    check g len = 1 ↔
      ∃ w : List Nat, w.length = len ∧ strs.length / 2 < occurrences strs w := by
  rw [check_iff g len (h.len_ge hv).1]
  constructor
  · exact quorum_word strs g hv h len hlen
  · rintro ⟨w, rfl, hocc⟩
    obtain ⟨i0, c, h1, h2, h3, h4, h5, h6, _⟩ := word_run strs g hv h hn w hlen hocc
    exact ⟨i0, c, h1, h2, h3, h4, h5, h6⟩

/-- C7: for every valid input of at least two strings and every `len >= 1`, `check(len)`
returns 1 if and only if some string of length `len` occurs as a substring in strictly
more than `n / 2` of the input strings. -/
theorem check_iff_majority (strs : List (List Nat)) (g0 : Prog) (hv : Valid strs)
    (hn : 2 ≤ strs.length) :
    ∃ g, load strs g0 = some g ∧
      ∀ len, 1 ≤ len →
        (check g len = 1 ↔
          ∃ w : List Nat, w.length = len ∧ strs.length / 2 < occurrences strs w) := by
  obtain ⟨g, e, h⟩ := load_spec strs g0 hv
  exact ⟨g, e, fun len hlen => h.check_spec hv hn len hlen⟩

theorem check_iff_majority_witness :
    (Valid [[97, 98], [98]] ∧ 2 ≤ [[97, 98], [98]].length) ∧
    ∃ g, load [[97, 98], [98]] start = some g ∧
      ∀ len, 1 ≤ len →
        (check g len = 1 ↔
          ∃ w : List Nat, w.length = len ∧
            [[97, 98], [98]].length / 2 < occurrences [[97, 98], [98]] w) :=
  ⟨⟨by decide, by decide⟩, check_iff_majority [[97, 98], [98]] start (by decide) (by decide)⟩

end P3294

namespace P3294

/-- The loop of `print` appends one line for every index at which a qualifying stretch
ends, in increasing order of the indices. -/
theorem printLoop_order (g : Prog) (len : Nat) :
    ∀ k i vm mb out s, 2 ≤ s → s ≤ i →
      (∀ t, s ≤ t → t < i → len ≤ g.mem.height t) → Marks vm (owners g s i) →
      (s < i → mb = g.mem.suffix (i - 1)) →
      ∃ cs : List Nat,
        printLoop g len k i vm mb out
          = out ++ cs.map (fun c => line g len (g.mem.suffix (c - 1))) ∧
        cs.Pairwise (fun c c' => c < c') ∧
        ∀ c, c ∈ cs ↔ (i ≤ c ∧ c < i + k ∧ Closes g len s c) := by
  intro k
  induction k with
  | zero =>
    intro i vm mb out s _ _ _ _ _
    refine ⟨[], by simp [printLoop], List.Pairwise.nil, ?_⟩
    intro c
    constructor
    · intro h; simp at h
    · rintro ⟨h1, h2, _⟩; omega
  | succ k ih =>
    intro i vm mb out s hs hsi hrun hm hmb
    unfold printLoop
    by_cases h : len ≤ g.mem.height i
    · rw [if_pos h]
      have hm' : Marks (visit g i vm) (owners g s (i + 1)) := by
        rw [owners_succ g s i (by omega) hsi]
        exact visit_marks g i vm _ hm
      obtain ⟨cs, e, hnd, hmem⟩ := ih (i + 1) (visit g i vm) (g.mem.suffix i) out s hs
        (by omega) (by
          intro t ht1 ht2
          rcases Nat.lt_succ_iff_lt_or_eq.1 ht2 with h3 | h3
          · exact hrun t ht1 h3
          · rw [h3]; exact h) hm' (fun _ => rfl)
      refine ⟨cs, e, hnd, ?_⟩
      intro c
      rw [hmem c]
      constructor
      · rintro ⟨h1, h2, h3⟩
        exact ⟨by omega, by omega, h3⟩
      · rintro ⟨h1, h2, h3⟩
        refine ⟨?_, by omega, h3⟩
        by_contra hcon
        have : c = i := by omega
        rw [this] at h3
        have := h3.1
        omega
    · rw [if_neg h]
      have hm' : Marks (fun _ => 0, 0) (owners g (i + 1) (i + 1)) := by
        have e : owners g (i + 1) (i + 1) = ∅ := by
          unfold owners
          rw [if_neg (Nat.lt_irrefl _)]
        rw [e]
        exact marks_empty
      have hshift : ∀ c, i < c → (Closes g len (i + 1) c ↔ Closes g len s c) := by
        intro c hc
        constructor
        · rintro ⟨h1, i0, h2, h3, h4, h5⟩
          exact ⟨h1, i0, by omega, h3, h4, h5⟩
        · rintro ⟨h1, i0, h2, h3, h4, h5⟩
          refine ⟨h1, i0, ?_, h3, h4, h5⟩
          by_contra hcon
          exact h (h4 i (by omega) hc)
      by_cases h2 : g.n / 2 < vm.2
      · rw [if_pos h2]
        have hsi' : s < i := by
          by_contra hcon
          have e : owners g s i = ∅ := by
            unfold owners
            rw [if_neg hcon]
          rw [hm.2, e, Finset.card_empty] at h2
          omega
        obtain ⟨cs, e, hnd, hmem⟩ := ih (i + 1) (fun _ => 0, 0) mb (out ++ [line g len mb])
          (i + 1) (by omega) (Nat.le_refl _) (by intro t ht1 ht2; omega) hm'
          (fun hlt => absurd hlt (Nat.lt_irrefl _))
        refine ⟨i :: cs, ?_, ?_, ?_⟩
        · rw [e, hmb hsi']
          simp
        · rw [List.pairwise_cons]
          refine ⟨?_, hnd⟩
          intro c hc
          have := ((hmem c).1 hc).1
          omega
        · intro c
          rw [List.mem_cons, hmem c]
          constructor
          · rintro (h3 | ⟨h3, h4, h5⟩)
            · rw [h3]
              refine ⟨Nat.le_refl _, by omega, by omega, s, Nat.le_refl _, hsi', hrun, ?_⟩
              rw [← hm.2]
              exact h2
            · exact ⟨by omega, by omega, (hshift c (by omega)).1 h5⟩
          · rintro ⟨h3, h4, h5⟩
            rcases Nat.lt_or_ge i c with h6 | h6
            · exact Or.inr ⟨by omega, by omega, (hshift c h6).2 h5⟩
            · exact Or.inl (by omega)
      · rw [if_neg h2]
        obtain ⟨cs, e, hnd, hmem⟩ := ih (i + 1) (fun _ => 0, 0) mb out
          (i + 1) (by omega) (Nat.le_refl _) (by intro t ht1 ht2; omega) hm'
          (fun hlt => absurd hlt (Nat.lt_irrefl _))
        refine ⟨cs, e, hnd, ?_⟩
        intro c
        rw [hmem c]
        constructor
        · rintro ⟨h3, h4, h5⟩
          exact ⟨by omega, by omega, (hshift c (by omega)).1 h5⟩
        · rintro ⟨h3, h4, h5⟩
          rcases Nat.lt_or_ge i c with h6 | h6
          · exact ⟨by omega, by omega, (hshift c h6).2 h5⟩
          · exfalso
            have e2 : c = i := by omega
            rw [e2] at h5
            obtain ⟨_, i0, h7, h8, _, h9⟩ := h5
            have hsub := Finset.card_le_card
              (owners_subset g s i0 i i (by omega) h7 (Nat.le_refl i))
            rw [← hm.2] at hsub
            omega

/-- The loop of `print` appends one line for every index at which a qualifying stretch
ends, every index once. -/
theorem printLoop_spec (g : Prog) (len : Nat) :
    ∀ k i vm mb out s, 2 ≤ s → s ≤ i →
      (∀ t, s ≤ t → t < i → len ≤ g.mem.height t) → Marks vm (owners g s i) →
      (s < i → mb = g.mem.suffix (i - 1)) →
      ∃ cs : List Nat,
        printLoop g len k i vm mb out
          = out ++ cs.map (fun c => line g len (g.mem.suffix (c - 1))) ∧
        cs.Nodup ∧ ∀ c, c ∈ cs ↔ (i ≤ c ∧ c < i + k ∧ Closes g len s c) := by
  intro k i vm mb out s h1 h2 h3 h4 h5
  obtain ⟨cs, e, hp, hmem⟩ := printLoop_order g len k i vm mb out s h1 h2 h3 h4 h5
  exact ⟨cs, e, hp.imp (fun h => Nat.ne_of_lt h), hmem⟩

theorem spells_of_common (g : Prog) (w : List Nat) (p q : Nat) (hp : Spells g w p)
    (hc : Common g.str g.str_len w.length p q) : Spells g w q :=
  fun k hk => ⟨(hc k hk).2.1, by rw [← (hc k hk).2.2]; exact (hp k hk).2⟩

/-- The line written for an offset that spells a string of lowercase letters is that
string. -/
theorem line_of_spells (g : Prog) (w : List Nat) (p : Nat)
    (hlow : ∀ k, k < w.length → 97 ≤ w.getD k 0 ∧ w.getD k 0 ≤ 122) (hs : Spells g w p) :
    line g w.length p = w := by
  unfold line
  apply List.ext_getElem
  · simp
  · intro k h1 h2
    rw [List.getElem_map, List.getElem_range]
    have hk : k < w.length := h2
    have e := (hs k hk).2
    have hl := hlow k hk
    rw [List.getD_eq_getElem _ _ hk] at e hl
    omega

/-- The string spelled at the end of a qualifying stretch occurs in more than half of the
input strings. -/
theorem run_word (strs : List (List Nat)) (g : Prog) (hv : Valid strs) (h : Loaded strs g)
    (L i0 c : Nat) (hL : 1 ≤ L) (h0 : 2 ≤ i0) (h0c : i0 < c) (hc : c ≤ g.str_len)
    (hrun : ∀ t, i0 ≤ t → t < c → L ≤ g.mem.height t)
    (hcard : g.n / 2 < (owners g i0 c).card) :
    (line g L (g.mem.suffix (c - 1))).length = L ∧
      strs.length / 2 < occurrences strs (line g L (g.mem.suffix (c - 1))) ∧
      Spells g (line g L (g.mem.suffix (c - 1))) (g.mem.suffix (c - 1)) := by
  obtain ⟨w, hw1, hw2, _, hw3⟩ := h.run_spells hv L i0 c hL (by omega) h0c hc hrun
  have e : line g L (g.mem.suffix (c - 1)) = w := by
    rw [← hw1]
    exact line_of_spells g w _ hw2 (hw3 (c - 1) (by omega) (by omega))
  rw [e]
  refine ⟨hw1, ?_, hw3 (c - 1) (by omega) (by omega)⟩
  rw [h.n_eq] at hcard
  apply Nat.lt_of_lt_of_le hcard
  rw [occurrences_eq_card]
  apply Finset.card_le_card
  intro u hu
  unfold owners at hu
  rw [if_pos h0c] at hu
  obtain ⟨t, ht, rfl⟩ := Finset.mem_image.1 hu
  rw [Finset.mem_Ico] at ht
  have hne : w ≠ [] := by
    intro e2
    rw [e2] at hw1
    simp at hw1
    omega
  obtain ⟨h1, h2⟩ := h.infix_of_spells hv w _ hne hw2 (hw3 t ht.1 ht.2)
  rw [Finset.mem_filter, Finset.mem_range]
  exact ⟨h1, h2⟩

/-- After a valid input of at least two strings is loaded, the lines that `print(len)`
writes for `len >= 1` are exactly the strings of length `len` that occur in more than
`n / 2` of the input strings, each written once, whatever `match_base` held. -/
theorem Loaded.print_spec {strs : List (List Nat)} {g : Prog} (h : Loaded strs g)
    (hv : Valid strs) (hn : 2 ≤ strs.length) (len mb0 : Nat) (hlen : 1 ≤ len) :
    (print g len mb0).Nodup ∧
    ∀ w, w ∈ print g len mb0 ↔
      (w.length = len ∧ strs.length / 2 < occurrences strs w) := by
  obtain ⟨hN, _⟩ := h.len_ge hv
  obtain ⟨J, hs⟩ := h.strict
  have hlast := h.last_height hv hn
  obtain ⟨cs, ecs, hnd, hmem⟩ := printLoop_spec g len (g.str_len - 1) 2 (fun _ => 0, 0) mb0 []
    2 (Nat.le_refl 2) (Nat.le_refl 2) (by intro t h1 h2; omega) (by
      have e2 : owners g 2 2 = ∅ := by
        unfold owners
        rw [if_neg (Nat.lt_irrefl _)]
      rw [e2]
      exact marks_empty) (fun hlt => absurd hlt (Nat.lt_irrefl _))
  have hprint : print g len mb0 = cs.map (fun c => line g len (g.mem.suffix (c - 1))) := by
    unfold print
    rw [ecs, List.nil_append]
  have hcl : ∀ c, c ∈ cs → 2 ≤ c ∧ c < g.str_len ∧ Closes g len 2 c := by
    intro c hc
    obtain ⟨h1, h2, h3⟩ := (hmem c).1 hc
    refine ⟨h1, ?_, h3⟩
    by_contra hcon
    have e2 : c = g.str_len := by omega
    obtain ⟨_, i0, h4, h5, h6, _⟩ := h3
    have := h6 (g.str_len - 1) (by omega) (by omega)
    rw [hlast] at this
    omega
  have hword : ∀ c, c ∈ cs →
      (line g len (g.mem.suffix (c - 1))).length = len ∧
      strs.length / 2 < occurrences strs (line g len (g.mem.suffix (c - 1))) ∧
      Spells g (line g len (g.mem.suffix (c - 1))) (g.mem.suffix (c - 1)) := by
    intro c hc
    obtain ⟨h1, h2, _, i0, h4, h5, h6, h7⟩ := hcl c hc
    exact run_word strs g hv h len i0 c hlen h4 h5 (by omega) h6 h7
  rw [hprint]
  constructor
  · apply List.Nodup.map_on _ hnd
    intro c hc c' hc' e2
    by_contra hne
    obtain ⟨l1, _, sp1⟩ := hword c hc
    obtain ⟨l2, _, sp2⟩ := hword c' hc'
    obtain ⟨a1, a2, a3, _⟩ := hcl c hc
    obtain ⟨b1, b2, b3, _⟩ := hcl c' hc'
    have key : ∀ x y, x < y → y < g.str_len → 2 ≤ x → g.mem.height x < len →
        (line g len (g.mem.suffix (x - 1))).length = len →
        Spells g (line g len (g.mem.suffix (x - 1))) (g.mem.suffix (x - 1)) →
        Spells g (line g len (g.mem.suffix (x - 1))) (g.mem.suffix (y - 1)) → False := by
      intro x y hxy hy hx hhx hl spx spy
      have hcom := spells_common g _ _ _ spx spy
      rw [hl] at hcom
      have := heights_of_common g.str g.str_len J len g.mem.suffix g.mem.height hs h.height
        (x - 1) (y - 1) (by omega) hcom x (by omega) (by omega)
      omega
    rcases Nat.lt_or_ge c c' with h3 | h3
    · exact key c c' h3 b2 a1 a3 l1 sp1 (by rw [e2]; exact sp2)
    · exact key c' c (by omega) a2 b1 b3 l2 sp2 (by rw [← e2]; exact sp1)
  · intro w
    rw [List.mem_map]
    constructor
    · rintro ⟨c, hc, rfl⟩
      obtain ⟨l1, l2, _⟩ := hword c hc
      exact ⟨l1, l2⟩
    · rintro ⟨rfl, hocc⟩
      obtain ⟨i0, c, h1, h2, h3, h4, h5, h6, h7⟩ := word_run strs g hv h hn w hlen hocc
      refine ⟨c, (hmem c).2 ⟨by omega, by omega, h5, i0, h1, h2, h4, h6⟩, ?_⟩
      have hcom := common_of_heights g.str g.str_len w.length g.mem.suffix g.mem.height
        h.height (i0 - 1) (c - 1) (by omega) (by omega)
        (fun t ht1 ht2 => h4 t (by omega) (by omega)) (c - 1) (by omega) (Nat.le_refl _)
      have hsp := spells_of_common g w _ _ h7 hcom
      obtain ⟨u, hu⟩ : ∃ u, u < strs.length ∧ w <:+: strs.getD u [] := by
        rw [occurrences_eq_card] at hocc
        have hpos : 0 < ((Finset.range strs.length).filter
            (fun u => w <:+: strs.getD u [])).card := by omega
        obtain ⟨u, hu⟩ := Finset.card_pos.1 hpos
        rw [Finset.mem_filter, Finset.mem_range] at hu
        exact ⟨u, hu⟩
      exact line_of_spells g w _ (fun k hk => valid_infix strs hv w u hu.1 hu.2 k hk) hsp

/-- C8: for every valid input of at least two strings and every `len >= 1`, the lines
that `print(len)` writes are exactly the strings of length `len` that occur as a substring
in strictly more than `n / 2` of the input strings, each written once. -/
theorem print_lines (strs : List (List Nat)) (g0 : Prog) (hv : Valid strs)
    (hn : 2 ≤ strs.length) :
    ∃ g, load strs g0 = some g ∧
      ∀ len mb0, 1 ≤ len →
        (print g len mb0).Nodup ∧
        ∀ w, w ∈ print g len mb0 ↔
          (w.length = len ∧ strs.length / 2 < occurrences strs w) := by
  obtain ⟨g, e, h⟩ := load_spec strs g0 hv
  exact ⟨g, e, fun len mb0 hlen => h.print_spec hv hn len mb0 hlen⟩

theorem print_lines_witness :
    (Valid [[97, 98], [98]] ∧ 2 ≤ [[97, 98], [98]].length) ∧
    ∃ g, load [[97, 98], [98]] start = some g ∧
      ∀ len mb0, 1 ≤ len →
        (print g len mb0).Nodup ∧
        ∀ w, w ∈ print g len mb0 ↔
          (w.length = len ∧ [[97, 98], [98]].length / 2 < occurrences [[97, 98], [98]] w) :=
  ⟨⟨by decide, by decide⟩, print_lines [[97, 98], [98]] start (by decide) (by decide)⟩

end P3294

/-- The doubling loop ends in sorted order when the first pass compares its second keys
as the text does and, from step 2 on, equal keys have their second keys inside the text. -/
theorem doubling_from_one (str : Arr) (n : Nat) (k : Keys) (hn : 0 < n) (h : DInv str n 1 k)
    (h1 : ∀ a b, a < n → b < n → a ≠ b → keyOf str n 1 a = keyOf str n 1 b →
      (k.fst_key (a + 1) = k.fst_key (b + 1) ↔
        keyOf str n 1 (a + 1) = keyOf str n 1 (b + 1)))
    (hin : ∀ J a b, 2 ≤ J → a < n → b < n → a ≠ b → keyOf str n J a = keyOf str n J b →
      a + J < n) :
    ∃ k', doubling n n 1 k = some k' ∧ PermOn n k'.suffix ∧
      ∃ J, StrictBy str n J k'.suffix := by
  obtain ⟨f, rfl⟩ : ∃ f, n = f + 1 := ⟨n - 1, by omega⟩
  by_cases hp : k.p < f + 1
  · have hstep := doublingStep_inv str (f + 1) 1 k h hp h1
    obtain ⟨k', e, hk'⟩ := doubling_spec str (f + 1) f (2 * 1) _ hstep (by omega)
      (fun J a b hJ => hin J a b (by omega))
    refine ⟨k', ?_, hk'⟩
    unfold doubling
    rw [if_pos hp, if_pos (by omega)]
    exact e
  · refine ⟨k, ?_, h.1, 1, h.2.2.2.2.2.2 (by omega)⟩
    unfold doubling
    rw [if_neg hp]

/-- A strictly sorted permutation starts with the offset whose keys are the least. -/
theorem first_of_min (str : Arr) (n J : Nat) (sfx : Arr) (hn : 0 < n)
    (hmin : ∀ q a, a < n → keyOf str n q (n - 1) ≤ keyOf str n q a) (hperm : PermOn n sfx)
    (hstrict : StrictBy str n J sfx) : sfx 0 = n - 1 := by
  obtain ⟨i, hi, e⟩ := hperm.surj (n - 1) (by omega)
  by_contra hcon
  have hi0 : 0 < i := by
    rcases Nat.eq_zero_or_pos i with h | h
    · rw [h] at e; exact absurd e hcon
    · exact h
  have h1 := hstrict 0 i hi0 hi
  rw [e] at h1
  have h2 := hmin J (sfx 0) (hperm.1 0 hn)
  exact absurd (lt_of_lt_of_le h1 h2) (lt_irrefl _)

/-- What `init_suffix_array` leaves in the buffers for a text that may hold its last
character twice, under the conditions that the proof of the sort needs of the text and of
the cell of `fst_buf` past the end. -/
theorem init_general (cap : Nat) (str : Arr) (n range : Nat) (m : Mem) (hn : 0 < n)
    (hcap : n ≤ cap) (hr : ∀ i, i < n → str i < range)
    (h1 : ∀ a b, a < n → b < n → a ≠ b → str a = str b →
      ((if a + 1 < n then str (a + 1) else m.fst_buf (a + 1))
          = (if b + 1 < n then str (b + 1) else m.fst_buf (b + 1)) ↔
        ext str n (a + 1) = ext str n (b + 1)))
    (hin : ∀ J a b, 2 ≤ J → a < n → b < n → a ≠ b → keyOf str n J a = keyOf str n J b →
      a + J < n)
    (hraw : ∀ a b q, a < n → b < n → a ≠ b → keyOf str n q a = keyOf str n q b →
      (str (a + q) = str (b + q) ↔ ext str n (a + q) = ext str n (b + q)))
    (hmin : ∀ q a, a < n → keyOf str n q (n - 1) ≤ keyOf str n q a) :
    ∃ m', init_suffix_array cap str n range m = some m' ∧ PermOn n m'.suffix ∧
      (∃ J, StrictBy str n J m'.suffix) ∧ m'.suffix 0 = n - 1 ∧
      (∀ i, 1 ≤ i → i < n →
        m'.height i = lcp (sufList str n (m'.suffix i)) (sufList str n (m'.suffix (i - 1)))) := by
  have hinv := firstSort_inv str n range m.fst_buf m.bucket m.suffix m.snd_buf false hr
  have hfk : ∀ i, (firstSort str n range m.fst_buf m.bucket m.suffix).1 i
      = if i < n then str i else m.fst_buf i := by
    intro i
    exact (firstLoop_spec str n m.fst_buf (zeroBucket range m.bucket)).1 i
  obtain ⟨k, ek, hperm, J, hstrict⟩ := doubling_from_one str n _ hn hinv (by
      intro a b ha hb hab e
      show (firstSort str n range m.fst_buf m.bucket m.suffix).1 (a + 1)
        = (firstSort str n range m.fst_buf m.bucket m.suffix).1 (b + 1) ↔ _
      rw [hfk, hfk, keyOf_one, keyOf_one]
      rw [keyOf_one, keyOf_one, ext_inside str n a ha, ext_inside str n b hb] at e
      have e' : str a = str b := by
        have := List.head_eq_of_cons_eq e
        omega
      rw [h1 a b ha hb hab e']
      constructor
      · intro h; rw [h]
      · intro h; exact List.head_eq_of_cons_eq h) hin
  have hs0 := first_of_min str n J k.suffix hn hmin hperm hstrict
  obtain ⟨hr1, _⟩ := rankLoop_spec n k.suffix m.rank hperm
  obtain ⟨h, p, eh, hh1, _⟩ := heightLoop_spec cap str n J k.suffix
    (forUp 1 (n - 1) (fun i r => setAt r (k.suffix i) i) m.rank) m.height hcap hperm hstrict
    hs0 hr1 hraw
  refine ⟨{ suffix := k.suffix,
             rank := forUp 1 (n - 1) (fun i r => setAt r (k.suffix i) i) m.rank,
             height := h,
             fst_buf := if k.swapped then k.snd_key else k.fst_key,
             snd_buf := if k.swapped then k.fst_key else k.snd_key,
             bucket := k.bucket }, ?_, hperm, ⟨J, hstrict⟩, hs0, hh1⟩
  unfold init_suffix_array
  simp only [ek, Option.some_bind, eh, Option.map_some']

namespace P3415

theorem setAt_ofList (P : List Nat) (c : Nat) :
    setAt (ofList P) P.length c = ofList (P ++ [c]) := by
  funext k
  unfold setAt ofList
  by_cases e : k = P.length
  · rw [if_pos e, e, List.getD_append_right _ _ _ _ (Nat.le_refl _)]
    simp
  · rw [if_neg e]
    rcases Nat.lt_or_ge k P.length with h | h
    · rw [List.getD_append _ _ _ _ h]
    · rw [List.getD_append_right _ _ _ _ h, List.getD_eq_default _ _ h]
      have : k - P.length = (k - P.length - 1) + 1 := by omega
      rw [this]
      simp

/-- The copy loops append the string to what the text holds. -/
theorem copyBytes_spec (cs : List Nat) :
    ∀ P : List Nat, copyBytes cs (ofList P, P.length) = (ofList (P ++ cs), (P ++ cs).length) := by
  induction cs with
  | nil => intro P; simp [copyBytes]
  | cons c cs ih =>
    intro P
    show copyBytes cs (setAt (ofList P) P.length c, P.length + 1) = _
    rw [setAt_ofList]
    have := ih (P ++ [c])
    rw [List.length_append, List.length_singleton] at this
    rw [this, List.append_assoc, List.singleton_append]

/-- On a program that has just started `main` builds the text `0 a @ b 0` and calls
`init_suffix_array` on it with the buffers all zero. -/
theorem load_start (a b : List Nat) :
    load a b start
      = (init_suffix_array ARR_SIZE (ofList (text a b)) (a.length + b.length + 3) 127
          zeroMem).map (fun m =>
            { mem := m, len_of_A := a.length, str_len := a.length + b.length + 3,
              str := ofList (text a b) }) := by
  have e0 : start.str = ofList [0] := by
    funext p
    unfold ofList start
    cases p with
    | zero => rfl
    | succ p => simp
  unfold load
  have e1 : copyBytes a (start.str, 1) = (ofList ([0] ++ a), ([0] ++ a).length) := by
    rw [e0]
    exact copyBytes_spec a [0]
  simp only [e1]
  have e2 : setAt (ofList ([0] ++ a)) ([0] ++ a).length 64 = ofList ([0] ++ a ++ [64]) :=
    setAt_ofList _ _
  rw [e2]
  have e3 : copyBytes b (ofList ([0] ++ a ++ [64]), ([0] ++ a).length + 1)
      = (ofList ([0] ++ a ++ [64] ++ b), ([0] ++ a ++ [64] ++ b).length) := by
    have := copyBytes_spec b ([0] ++ a ++ [64])
    rw [List.length_append _ [64], List.length_singleton] at this
    exact this
  simp only [e3]
  have e4 : setAt (ofList ([0] ++ a ++ [64] ++ b)) ([0] ++ a ++ [64] ++ b).length 0
      = ofList (text a b) := by
    rw [setAt_ofList]
    simp [text]
  rw [e4]
  have e5 : ([0] ++ a ++ [64] ++ b).length + 1 = a.length + b.length + 3 := by
    simp only [List.length_append, List.length_singleton]
    omega
  have e6 : ([0] ++ a).length - 1 = a.length := by
    simp
  rw [e5, e6]
  rfl

/-- The places of the text: the leading zero, the letters of `a`, the separator, the
letters of `b`, and zeros from the final one on. -/
theorem text_cases (a b : List Nat) (ha : ∀ c ∈ a, isLetter c) (hb : ∀ c ∈ b, isLetter c)
    (p : Nat) :
    (p = 0 ∧ ofList (text a b) p = 0) ∨
    (1 ≤ p ∧ p ≤ a.length ∧ isLetter (ofList (text a b) p)) ∨
    (p = a.length + 1 ∧ ofList (text a b) p = 64) ∨
    (a.length + 2 ≤ p ∧ p ≤ a.length + b.length + 1 ∧ isLetter (ofList (text a b) p)) ∨
    (a.length + b.length + 2 ≤ p ∧ ofList (text a b) p = 0) := by
  unfold ofList text
  cases p with
  | zero => exact Or.inl ⟨rfl, rfl⟩
  | succ p =>
    rw [List.getD_cons_succ]
    rcases Nat.lt_or_ge p a.length with h | h
    · rw [List.getD_append _ _ _ _ h, List.getD_eq_getElem _ _ h]
      exact Or.inr (Or.inl ⟨by omega, by omega, ha _ (List.getElem_mem h)⟩)
    · rw [List.getD_append_right _ _ _ _ h]
      rcases Nat.eq_zero_or_pos (p - a.length) with h2 | h2
      · rw [h2]
        exact Or.inr (Or.inr (Or.inl ⟨by omega, rfl⟩))
      · obtain ⟨q, hq⟩ : ∃ q, p - a.length = q + 1 := ⟨p - a.length - 1, by omega⟩
        rw [hq, List.getD_cons_succ]
        rcases Nat.lt_or_ge q b.length with h3 | h3
        · rw [List.getD_append _ _ _ _ h3, List.getD_eq_getElem _ _ h3]
          exact Or.inr (Or.inr (Or.inr (Or.inl
            ⟨by omega, by omega, hb _ (List.getElem_mem h3)⟩)))
        · rw [List.getD_append_right _ _ _ _ h3]
          refine Or.inr (Or.inr (Or.inr (Or.inr ⟨by omega, ?_⟩)))
          rcases Nat.eq_zero_or_pos (q - b.length) with h4 | h4
          · rw [h4]; rfl
          · obtain ⟨r, hr⟩ : ∃ r, q - b.length = r + 1 := ⟨q - b.length - 1, by omega⟩
            rw [hr]; rfl

theorem text_range (a b : List Nat) (h : Valid a b) (p : Nat) : ofList (text a b) p < 127 := by
  rcases text_cases a b h.2.2.1 h.2.2.2.1 p with h1 | h1 | h1 | h1 | h1
  · rw [h1.2]; omega
  · have := h1.2.2; unfold isLetter at this; omega
  · rw [h1.2]; omega
  · have := h1.2.2; unfold isLetter at this; omega
  · rw [h1.2]; omega

/-- The text holds zero at its two ends only. -/
theorem text_zero (a b : List Nat) (h : Valid a b) (p : Nat)
    (hp : p < a.length + b.length + 3) (hz : ofList (text a b) p = 0) :
    p = 0 ∨ p = a.length + b.length + 2 := by
  rcases text_cases a b h.2.2.1 h.2.2.2.1 p with h1 | h1 | h1 | h1 | h1
  · exact Or.inl h1.1
  · have := h1.2.2; unfold isLetter at this; omega
  · omega
  · have := h1.2.2; unfold isLetter at this; omega
  · exact Or.inr (by omega)

theorem text_past (a b : List Nat) (h : Valid a b) (p : Nat)
    (hp : a.length + b.length + 2 ≤ p) : ofList (text a b) p = 0 := by
  rcases text_cases a b h.2.2.1 h.2.2.2.1 p with h1 | h1 | h1 | h1 | h1
  · omega
  · omega
  · omega
  · omega
  · exact h1.2

theorem text_first (a b : List Nat) : ofList (text a b) 0 = 0 := rfl

theorem text_one (a b : List Nat) (h : Valid a b) : ofList (text a b) 1 ≠ 0 := by
  rcases text_cases a b h.2.2.1 h.2.2.2.1 1 with h1 | h1 | h1 | h1 | h1
  · omega
  · have := h1.2.2; unfold isLetter at this; omega
  · omega
  · omega
  · omega

/-- Two distinct offsets of the text with the same character, one of them the last:
the other is the first. -/
theorem text_twin (a b : List Nat) (h : Valid a b) (p q : Nat)
    (hp : p < a.length + b.length + 3) (hq : q < a.length + b.length + 3) (hpq : p ≠ q)
    (e : ofList (text a b) p = ofList (text a b) q)
    (hend : a.length + b.length + 3 ≤ p + 1) : q = 0 := by
  have hp0 : ofList (text a b) p = 0 := text_past a b h p (by omega)
  rw [hp0] at e
  rcases text_zero a b h q hq e.symm with h1 | h1
  · exact h1
  · omega

/-- The second keys of the first pass are compared as the text, and the loops over the
characters of two suffixes stop as they do in the extended text. -/
theorem text_next (a b : List Nat) (h : Valid a b) (p q : Nat)
    (hp : p < a.length + b.length + 3) (hq : q < a.length + b.length + 3) (hpq : p ≠ q)
    (e : ofList (text a b) p = ofList (text a b) q) :
    (ofList (text a b) (p + 1) = ofList (text a b) (q + 1) ↔
      ext (ofList (text a b)) (a.length + b.length + 3) (p + 1)
        = ext (ofList (text a b)) (a.length + b.length + 3) (q + 1)) := by
  have h1 := text_one a b h
  by_cases hp1 : p + 1 < a.length + b.length + 3
  · by_cases hq1 : q + 1 < a.length + b.length + 3
    · rw [ext_inside _ _ _ hp1, ext_inside _ _ _ hq1]
      omega
    · have hp0 := text_twin a b h q p hq hp (Ne.symm hpq) e.symm (by omega)
      subst hp0
      rw [ext_inside _ _ _ hp1, ext_past _ _ _ (by omega), text_past a b h (q + 1) (by omega)]
      constructor
      · intro h2; exact absurd h2 h1
      · intro h2; omega
  · have hq0 := text_twin a b h p q hp hq hpq e (by omega)
    subst hq0
    rw [ext_past _ _ _ (by omega), ext_inside _ _ _ (by omega),
      text_past a b h (p + 1) (by omega)]
    constructor
    · intro h2; exact absurd h2.symm h1
    · intro h2; omega

/-- From step 2 on two distinct offsets of the text with equal keys have their second
keys inside the text. -/
theorem text_inside (a b : List Nat) (h : Valid a b) (J p q : Nat) (hJ : 2 ≤ J)
    (hp : p < a.length + b.length + 3) (hq : q < a.length + b.length + 3) (hpq : p ≠ q)
    (e : keyOf (ofList (text a b)) (a.length + b.length + 3) J p
      = keyOf (ofList (text a b)) (a.length + b.length + 3) J q) :
    p + J < a.length + b.length + 3 := by
  by_contra hcon
  rw [keyOf_eq_iff] at e
  have hk := e (a.length + b.length + 2 - p) (by omega)
  have e1 : p + (a.length + b.length + 2 - p) = a.length + b.length + 2 := by omega
  rw [e1, ext_inside _ _ _ (by omega), text_past a b h _ (Nat.le_refl _)] at hk
  have hq2 : q + (a.length + b.length + 2 - p) < a.length + b.length + 3 :=
    (ext_pos_iff _ _ _).1 (by rw [← hk]; omega)
  rw [ext_inside _ _ _ hq2] at hk
  rcases text_zero a b h _ hq2 (by omega) with h2 | h2
  · have hq0 : q = 0 := by omega
    have hpl : p = a.length + b.length + 2 := by omega
    have hk1 := e 1 (by omega)
    rw [hq0, hpl, ext_past _ _ _ (by omega), ext_inside _ _ _ (by omega)] at hk1
    omega
  · omega

/-- The loop of line 125 stops on the text where the characters of the two suffixes differ. -/
theorem text_raw (a b : List Nat) (h : Valid a b) (p q c : Nat)
    (hp : p < a.length + b.length + 3) (hq : q < a.length + b.length + 3) (hpq : p ≠ q)
    (e : keyOf (ofList (text a b)) (a.length + b.length + 3) c p
      = keyOf (ofList (text a b)) (a.length + b.length + 3) c q) :
    (ofList (text a b) (p + c) = ofList (text a b) (q + c) ↔
      ext (ofList (text a b)) (a.length + b.length + 3) (p + c)
        = ext (ofList (text a b)) (a.length + b.length + 3) (q + c)) := by
  rcases Nat.lt_or_ge c 2 with hc | hc
  · rcases Nat.eq_zero_or_pos c with h0 | h0
    · subst h0
      rw [Nat.add_zero, Nat.add_zero, ext_inside _ _ _ hp, ext_inside _ _ _ hq]
      omega
    · have hc1 : c = 1 := by omega
      subst hc1
      rw [keyOf_one, keyOf_one, ext_inside _ _ _ hp, ext_inside _ _ _ hq] at e
      have e' : ofList (text a b) p = ofList (text a b) q := by
        have := List.head_eq_of_cons_eq e
        omega
      exact text_next a b h p q hp hq hpq e'
  · have h1 := text_inside a b h c p q hc hp hq hpq e
    have h2 := text_inside a b h c q p hc hq hp (Ne.symm hpq) e.symm
    rw [ext_inside _ _ _ h1, ext_inside _ _ _ h2]
    omega

/-- The offset of the final zero has the least key of every length. -/
theorem text_min (a b : List Nat) (h : Valid a b) (c p : Nat)
    (hp : p < a.length + b.length + 3) :
    keyOf (ofList (text a b)) (a.length + b.length + 3) c (a.length + b.length + 3 - 1)
      ≤ keyOf (ofList (text a b)) (a.length + b.length + 3) c p := by
  cases c with
  | zero => exact le_refl _
  | succ c =>
    by_cases e : p = a.length + b.length + 3 - 1
    · rw [e]
    · have e1 : c + 1 = 1 + c := Nat.add_comm c 1
      rw [e1, keyOf_one_add, keyOf_one_add, le_iff_lt_or_eq, cons_lt_cons_iff]
      rw [ext_inside _ _ (a.length + b.length + 3 - 1) (by omega), ext_inside _ _ p hp,
        text_past a b h _ (by omega)]
      rcases Nat.eq_zero_or_pos (ofList (text a b) p) with hz | hz
      · rcases text_zero a b h p hp hz with h2 | h2
        · have hle := keyOf_past_le (ofList (text a b)) (a.length + b.length + 3) c
            (a.length + b.length + 3 - 1 + 1) (p + 1) (by omega)
          rcases le_iff_lt_or_eq.1 hle with h3 | h3
          · exact Or.inl (Or.inr ⟨by rw [hz], h3⟩)
          · exact Or.inr (by rw [hz, h3])
        · omega
      · exact Or.inl (Or.inl (by omega))

/-- On a program that has just started, `main` builds the sorted suffix array and the
heights of the text of a valid test case. -/
theorem load_built (a b : List Nat) (h : Valid a b) :
    ∃ g, load a b start = some g ∧ Built a b g := by
  obtain ⟨m', e, hperm, hstrict, hfirst, hheight⟩ :=
    init_general ARR_SIZE (ofList (text a b)) (a.length + b.length + 3) 127 zeroMem
      (by omega) h.2.2.2.2.2.2 (fun i _ => text_range a b h i)
      (by
        intro p q hp hq hpq e
        have e1 : ∀ x, (if x < a.length + b.length + 3 then ofList (text a b) x
            else zeroMem.fst_buf x) = ofList (text a b) x := by
          intro x
          by_cases hx : x < a.length + b.length + 3
          · rw [if_pos hx]
          · rw [if_neg hx, text_past a b h x (by omega)]
            rfl
        rw [e1, e1]
        exact text_next a b h p q hp hq hpq e)
      (fun J p q hJ hp hq hpq e => text_inside a b h J p q hJ hp hq hpq e)
      (fun p q c hp hq hpq e => text_raw a b h p q c hp hq hpq e)
      (fun c p hp => text_min a b h c p hp)
  refine ⟨{ mem := m', len_of_A := a.length, str_len := a.length + b.length + 3,
             str := ofList (text a b) }, ?_, ?_⟩
  · rw [load_start, e]
    rfl
  · exact ⟨rfl, rfl, rfl, hperm, hstrict, hfirst, hheight⟩

end P3415

namespace P3415

theorem weight_nil (f : Nat → Int) : weight f [] = 0 := rfl

theorem weight_cons (f : Nat → Int) (x : Nat × Nat) (st : List (Nat × Nat)) :
    weight f (x :: st) = (x.1 : Int) * f x.2 + weight f st := by
  unfold weight
  simp

theorem weight_congr (f g : Nat → Int) (st : List (Nat × Nat))
    (h : ∀ x ∈ st, f x.2 = g x.2) : weight f st = weight g st := by
  induction st with
  | nil => rfl
  | cons x st ih =>
    rw [weight_cons, weight_cons, h x (List.mem_cons_self _ _),
      ih (fun y hy => h y (List.mem_cons_of_mem _ hy))]

theorem weight_lin (f g e : Nat → Int) (st : List (Nat × Nat)) :
    weight (fun v => f v - g v + e v) st = weight f st - weight g st + weight e st := by
  induction st with
  | nil => simp [weight]
  | cons x st ih =>
    rw [weight_cons, weight_cons, weight_cons, weight_cons, ih]
    ring

/-- The loop of lines 210-216 followed by the push of lines 219-221: the layers keep
falling, every layer not lower than `h` is counted at height `h` in the pushed layer, and
`substr_num` loses what the lowered layers had above `h`. -/
theorem popLayers_spec (h : Nat) : ∀ (st : List (Nat × Nat)) (s : Int) (l : Nat), Falling st →
    Falling (((popLayers h st (s, l)).2.2, h) :: (popLayers h st (s, l)).1) ∧
    (∀ f : Nat → Int,
      weight f (((popLayers h st (s, l)).2.2, h) :: (popLayers h st (s, l)).1)
        = (l : Int) * f h + weight (fun v => f (min h v)) st) ∧
    (popLayers h st (s, l)).2.1
      = s - (weight (fun v => (v : Int)) st - weight (fun v => ((min h v : Nat) : Int)) st) := by
  intro st
  induction st with
  | nil =>
    intro s l _
    refine ⟨?_, ?_, ?_⟩
    · show Falling [(l, h)]
      exact List.pairwise_singleton _ _
    · intro f
      show weight f [(l, h)] = _
      rw [weight_cons, weight_nil, weight_nil]
    · show s = _
      rw [weight_nil, weight_nil]
      ring
  | cons top rest ih =>
    intro s l hf
    have hrest : Falling rest := (List.pairwise_cons.1 hf).2
    have htop := (List.pairwise_cons.1 hf).1
    by_cases hle : h ≤ top.2
    · have e : popLayers h (top :: rest) (s, l)
          = popLayers h rest (s - (top.1 : Int) * ((top.2 : Int) - (h : Int)), l + top.1) := by
        simp only [popLayers, if_pos hle]
      rw [e]
      obtain ⟨i1, i2, i3⟩ := ih (s - (top.1 : Int) * ((top.2 : Int) - (h : Int))) (l + top.1)
        hrest
      refine ⟨i1, ?_, ?_⟩
      · intro f
        rw [i2 f, weight_cons, Nat.min_eq_left hle]
        push_cast
        ring
      · rw [i3, weight_cons, weight_cons, Nat.min_eq_left hle]
        ring
    · have e : popLayers h (top :: rest) (s, l) = (top :: rest, s, l) := by
        simp only [popLayers, if_neg hle]
      rw [e]
      have hlow : ∀ x ∈ top :: rest, x.2 < h := by
        intro x hx
        rcases List.mem_cons.1 hx with h1 | h1
        · rw [h1]; omega
        · have := htop x h1; omega
      have hall : ∀ x ∈ top :: rest, min h x.2 = x.2 := fun x hx =>
        Nat.min_eq_right (Nat.le_of_lt (hlow x hx))
      refine ⟨?_, ?_, ?_⟩
      · show Falling ((l, h) :: top :: rest)
        exact List.pairwise_cons.2 ⟨hlow, hf⟩
      · intro f
        show weight f ((l, h) :: top :: rest) = _
        rw [weight_cons]
        congr 1
        exact weight_congr _ _ _ (fun x hx => by rw [hall x hx])
      · show s = _
        rw [weight_congr (fun v => (v : Int)) (fun v => ((min h v : Nat) : Int)) _
          (fun x hx => by
            show ((x.2 : Nat) : Int) = ((min h x.2 : Nat) : Int)
            rw [hall x hx])]
        ring

theorem lowest_le_last (H : Arr) (t d : Nat) : lowest H t d ≤ H (t + d + 1) := by
  cases d with
  | zero => exact Nat.le_refl _
  | succ d => exact Nat.min_le_right _ _

/-- The least height is `L` at least exactly when all the heights it spans are. -/
theorem le_lowest_iff (H : Arr) (t L : Nat) :
    ∀ d, L ≤ lowest H t d ↔ ∀ x, t < x → x ≤ t + d + 1 → L ≤ H x := by
  intro d
  induction d with
  | zero =>
    constructor
    · intro h x h1 h2
      have : x = t + 1 := by omega
      rw [this]
      exact h
    · intro h
      exact h (t + 1) (by omega) (by omega)
  | succ d ih =>
    show L ≤ min (lowest H t d) (H (t + d + 2)) ↔ _
    rw [Nat.le_min, ih]
    constructor
    · rintro ⟨h1, h2⟩ x hx1 hx2
      rcases Nat.lt_or_ge x (t + d + 2) with h3 | h3
      · exact h1 x hx1 (by omega)
      · have : x = t + d + 2 := by omega
        rw [this]
        exact h2
    · intro h
      exact ⟨fun x hx1 hx2 => h x hx1 (by omega), h (t + d + 2) (by omega) (by omega)⟩

/-- A height below `K` empties the sum: every least height that reaches it is below `K`. -/
theorem openSum_reset (g : Prog) (K : Nat) (opens : Nat → Bool) (cnt : Nat) (f : Nat → Int)
    (h : g.mem.height (cnt + 3) < K) : openSum g K opens (cnt + 1) f = 0 := by
  unfold openSum
  apply Finset.sum_eq_zero
  intro t ht
  have ht' := Finset.mem_range.1 ht
  rw [if_neg]
  rintro ⟨_, h2⟩
  have h3 := lowest_le_last g.mem.height (t + 2) (cnt + 1 - 1 - t)
  have e : t + 2 + (cnt + 1 - 1 - t) + 1 = cnt + 3 := by omega
  rw [e] at h3
  omega

/-- A height `K` at least adds the index before it, when that opens a layer, and lowers
the least heights to it. -/
theorem openSum_push (g : Prog) (K : Nat) (opens : Nat → Bool) (cnt : Nat) (f : Nat → Int)
    (h : K ≤ g.mem.height (cnt + 3)) :
    openSum g K opens (cnt + 1) f
      = (if opens (g.mem.suffix (cnt + 2)) = true then f (g.mem.height (cnt + 3)) else 0)
        + openSum g K opens cnt (fun v => f (min (g.mem.height (cnt + 3)) v)) := by
  unfold openSum
  rw [Finset.sum_range_succ, add_comm]
  congr 1
  · have e : cnt + 1 - 1 - cnt = 0 := by omega
    rw [e]
    show (if _ ∧ K ≤ g.mem.height (cnt + 2 + 1) then f (g.mem.height (cnt + 2 + 1)) else 0) = _
    by_cases ho : opens (g.mem.suffix (cnt + 2)) = true
    · rw [if_pos ⟨ho, h⟩, if_pos ho]
    · rw [if_neg (fun hh => ho hh.1), if_neg ho]
  · apply Finset.sum_congr rfl
    intro t ht
    have ht' := Finset.mem_range.1 ht
    have e : cnt + 1 - 1 - t = (cnt - 1 - t) + 1 := by omega
    rw [e]
    have e2 : lowest g.mem.height (t + 2) (cnt - 1 - t + 1)
        = min (g.mem.height (cnt + 3)) (lowest g.mem.height (t + 2) (cnt - 1 - t)) := by
      show min (lowest _ _ _) (g.mem.height (t + 2 + (cnt - 1 - t) + 2)) = _
      have : t + 2 + (cnt - 1 - t) + 2 = cnt + 3 := by omega
      rw [this, Nat.min_comm]
    rw [e2]
    by_cases ho : opens (g.mem.suffix (t + 2)) = true
        ∧ K ≤ lowest g.mem.height (t + 2) (cnt - 1 - t)
    · rw [if_pos ho, if_pos ⟨ho.1, Nat.le_min.2 ⟨h, ho.2⟩⟩]
    · rw [if_neg ho, if_neg]
      rintro ⟨h3, h4⟩
      exact ho ⟨h3, (Nat.le_min.1 h4).2⟩

/-- What holds of the stack, of `substr_num` and of the answer after `cnt` passes of a
loop of `solve`. -/
theorem pass_inv (g : Prog) (K : Nat) (opens counts : Nat → Bool) (ans0 : Int) (cnt : Nat) :
    Falling (forUp 3 cnt (solveStep g K opens counts) ([], 0, ans0)).1 ∧
    (∀ f : Nat → Int,
      weight f (forUp 3 cnt (solveStep g K opens counts) ([], 0, ans0)).1
        = openSum g K opens cnt f) ∧
    (forUp 3 cnt (solveStep g K opens counts) ([], 0, ans0)).2.1
      = openSum g K opens cnt (fun v => (v : Int) - (K : Int) + 1) ∧
    (forUp 3 cnt (solveStep g K opens counts) ([], 0, ans0)).2.2
      = ans0 + ∑ d in Finset.range cnt,
          if counts (g.mem.suffix (d + 3)) = true
          then openSum g K opens (d + 1) (fun v => (v : Int) - (K : Int) + 1) else 0 := by
  have main := forUp_inv (fun k (s : List (Nat × Nat) × Int × Int) =>
      Falling s.1 ∧ (∀ f : Nat → Int, weight f s.1 = openSum g K opens k f) ∧
      s.2.1 = openSum g K opens k (fun v => (v : Int) - (K : Int) + 1) ∧
      s.2.2 = ans0 + ∑ d in Finset.range k,
          if counts (g.mem.suffix (d + 3)) = true
          then openSum g K opens (d + 1) (fun v => (v : Int) - (K : Int) + 1) else 0)
    3 cnt (solveStep g K opens counts) ([], 0, ans0)
    ⟨List.Pairwise.nil, fun f => by simp [weight, openSum], by simp [openSum], by simp⟩ ?_
  · exact main
  · rintro k ⟨st, sub, ans⟩ _ ⟨h1, h2, h3, h4⟩
    simp only at h1 h2 h3 h4
    have e3 : 3 + k = k + 3 := Nat.add_comm 3 k
    rw [e3]
    by_cases hK : K ≤ g.mem.height (k + 3)
    · obtain ⟨i1, i2, i3⟩ := popLayers_spec (g.mem.height (k + 3)) st
        (if opens (g.mem.suffix (k + 2)) = true
          then sub + ((g.mem.height (k + 3) : Int) - (K : Int) + 1) else sub)
        (if opens (g.mem.suffix (k + 2)) = true then 1 else 0) h1
      have estep : solveStep g K opens counts (k + 3) (st, sub, ans)
          = (((popLayers (g.mem.height (k + 3)) st
                (if opens (g.mem.suffix (k + 2)) = true
                  then sub + ((g.mem.height (k + 3) : Int) - (K : Int) + 1) else sub,
                 if opens (g.mem.suffix (k + 2)) = true then 1 else 0)).2.2,
              g.mem.height (k + 3)) ::
              (popLayers (g.mem.height (k + 3)) st
                (if opens (g.mem.suffix (k + 2)) = true
                  then sub + ((g.mem.height (k + 3) : Int) - (K : Int) + 1) else sub,
                 if opens (g.mem.suffix (k + 2)) = true then 1 else 0)).1,
             (popLayers (g.mem.height (k + 3)) st
                (if opens (g.mem.suffix (k + 2)) = true
                  then sub + ((g.mem.height (k + 3) : Int) - (K : Int) + 1) else sub,
                 if opens (g.mem.suffix (k + 2)) = true then 1 else 0)).2.1,
             if counts (g.mem.suffix (k + 3)) = true
             then ans + (popLayers (g.mem.height (k + 3)) st
                (if opens (g.mem.suffix (k + 2)) = true
                  then sub + ((g.mem.height (k + 3) : Int) - (K : Int) + 1) else sub,
                 if opens (g.mem.suffix (k + 2)) = true then 1 else 0)).2.1
             else ans) := by
        unfold solveStep
        rw [if_pos hK]
        have e2 : k + 3 - 1 = k + 2 := by omega
        simp only [e2]
        by_cases ho : opens (g.mem.suffix (k + 2)) = true
        · simp only [ho, if_true]
        · simp only [ho, if_false]
          rfl
      rw [estep]
      generalize hr : popLayers (g.mem.height (k + 3)) st
          (if opens (g.mem.suffix (k + 2)) = true
            then sub + ((g.mem.height (k + 3) : Int) - (K : Int) + 1) else sub,
           if opens (g.mem.suffix (k + 2)) = true then 1 else 0) = r at i1 i2 i3
      have hw : ∀ f : Nat → Int, weight f ((r.2.2, g.mem.height (k + 3)) :: r.1)
          = openSum g K opens (k + 1) f := by
        intro f
        rw [i2 f, openSum_push g K opens k f hK, h2]
        congr 1
        by_cases ho : opens (g.mem.suffix (k + 2)) = true
        · rw [if_pos ho, if_pos ho]; simp
        · rw [if_neg ho, if_neg ho]; simp
      have hsub : r.2.1 = openSum g K opens (k + 1) (fun v => (v : Int) - (K : Int) + 1) := by
        have p := openSum_push g K opens k (fun v => (v : Int) - (K : Int) + 1) hK
        have q := h2 (fun v => ((min (g.mem.height (k + 3)) v : Nat) : Int) - (K : Int) + 1)
        have p' : openSum g K opens (k + 1) (fun v => (v : Int) - (K : Int) + 1)
            = (if opens (g.mem.suffix (k + 2)) = true
                then ((g.mem.height (k + 3) : Nat) : Int) - (K : Int) + 1 else 0)
              + weight (fun v => ((min (g.mem.height (k + 3)) v : Nat) : Int) - (K : Int) + 1)
                  st := by
          rw [p, q]
        have e5 : weight (fun v => ((min (g.mem.height (k + 3)) v : Nat) : Int) - (K : Int) + 1) st
            = weight (fun v => ((v : Int) - (K : Int) + 1) - (v : Int)
                + ((min (g.mem.height (k + 3)) v : Nat) : Int)) st :=
          weight_congr _ _ _ (fun x _ => by ring)
        have hsubw : sub = weight (fun v => (v : Int) - (K : Int) + 1) st := by
          rw [h3, h2]
        rw [i3, p', e5, weight_lin, hsubw]
        by_cases ho : opens (g.mem.suffix (k + 2)) = true
        · rw [if_pos ho, if_pos ho]; ring
        · rw [if_neg ho, if_neg ho]; ring
      refine ⟨i1, hw, hsub, ?_⟩
      show (if counts (g.mem.suffix (k + 3)) = true then ans + r.2.1 else ans) = _
      rw [Finset.sum_range_succ, ← add_assoc, ← h4, ← hsub]
      by_cases hc : counts (g.mem.suffix (k + 3)) = true
      · rw [if_pos hc, if_pos hc]
      · rw [if_neg hc, if_neg hc, add_zero]
    · have estep : solveStep g K opens counts (k + 3) (st, sub, ans) = ([], 0, ans) := by
        unfold solveStep
        rw [if_neg hK]
      rw [estep]
      have hz : ∀ f : Nat → Int, openSum g K opens (k + 1) f = 0 :=
        fun f => openSum_reset g K opens k f (by omega)
      refine ⟨List.Pairwise.nil, fun f => by rw [hz f]; rfl, (hz _).symm, ?_⟩
      show ans = _
      rw [Finset.sum_range_succ, hz, ← add_assoc, ← h4]
      simp

/-- One loop of `solve`: the answer grows, at every index that counts, by the sum over
the earlier indices that open a layer of the common lengths from `K` on. -/
theorem pass_spec (g : Prog) (K : Nat) (opens counts : Nat → Bool) (ans0 : Int) (cnt : Nat) :
    (forUp 3 cnt (solveStep g K opens counts) ([], 0, ans0)).2.2
      = ans0 + ∑ d in Finset.range cnt,
          if counts (g.mem.suffix (d + 3)) = true
          then openSum g K opens (d + 1) (fun v => (v : Int) - (K : Int) + 1) else 0 :=
  (pass_inv g K opens counts ans0 cnt).2.2.2

/-- The answer of `solve` as the sum of its two loops. -/
theorem solve_eq (g : Prog) (K : Nat) :
    solve g K
      = (∑ d in Finset.range (g.str_len - 3),
          if decide (g.mem.suffix (d + 3) ≤ g.len_of_A) = true
          then openSum g K (fun x => decide (g.len_of_A + 1 < x)) (d + 1)
            (fun v => (v : Int) - (K : Int) + 1) else 0)
        + ∑ d in Finset.range (g.str_len - 3),
          if decide (g.len_of_A + 1 < g.mem.suffix (d + 3)) = true
          then openSum g K (fun x => decide (x ≤ g.len_of_A)) (d + 1)
            (fun v => (v : Int) - (K : Int) + 1) else 0 := by
  unfold solve
  simp only
  rw [pass_spec, pass_spec, zero_add]

end P3415

/-- A sum over the indices of a window is the sum over the window. -/
theorem sum_window (F : Nat → Int) (n lo : Nat) :
    ∀ len, lo + len ≤ n →
      (∑ p in Finset.range n, if lo ≤ p ∧ p < lo + len then F p else 0)
        = ∑ i in Finset.range len, F (lo + i) := by
  intro len
  induction len with
  | zero =>
    intro _
    rw [Finset.sum_range_zero]
    apply Finset.sum_eq_zero
    intro p _
    rw [if_neg (by omega)]
  | succ len ih =>
    intro h
    rw [Finset.sum_range_succ, ← ih (by omega)]
    have e : ∀ p ∈ Finset.range n, (if lo ≤ p ∧ p < lo + (len + 1) then F p else 0)
        = (if lo ≤ p ∧ p < lo + len then F p else 0) + (if lo + len = p then F p else 0) := by
      intro p _
      by_cases h1 : lo ≤ p ∧ p < lo + len
      · rw [if_pos h1, if_pos (by omega), if_neg (by omega), add_zero]
      · rw [if_neg h1]
        by_cases h2 : lo + len = p
        · rw [if_pos (by omega), if_pos h2, zero_add]
        · rw [if_neg (by omega), if_neg h2, add_zero]
    rw [Finset.sum_congr rfl e, Finset.sum_add_distrib, Finset.sum_ite_eq,
      if_pos (Finset.mem_range.2 (by omega))]

/-- A sum over the values of a permutation of the indices is the sum over the indices. -/
theorem PermOn.sum_comp {n : Nat} {f : Arr} (h : PermOn n f) (F : Nat → Int) :
    (∑ x in Finset.range n, F (f x)) = ∑ p in Finset.range n, F p := by
  apply Finset.sum_bij (fun x _ => f x)
  · intro x hx
    exact Finset.mem_range.2 (h.1 x (Finset.mem_range.1 hx))
  · intro x hx y hy e
    exact h.2 x y (Finset.mem_range.1 hx) (Finset.mem_range.1 hy) e
  · intro p hp
    obtain ⟨i, hi, e⟩ := h.surj p (Finset.mem_range.1 hp)
    exact ⟨i, Finset.mem_range.2 hi, e⟩
  · intro x _
    rfl

/-- The sum over the pairs of indices with the second below the first, when the terms
are zero for a first index below 3 and for a second below 2. -/
theorem sum_below (G : Nat → Nat → Int) (n : Nat) (hn : 3 ≤ n)
    (hz1 : ∀ x y, x < 3 → G x y = 0) (hz2 : ∀ x y, y < 2 → G x y = 0) :
    (∑ x in Finset.range n, ∑ y in Finset.range n, if y < x then G x y else 0)
      = ∑ d in Finset.range (n - 3), ∑ t in Finset.range (d + 1), G (d + 3) (t + 2) := by
  have inner : ∀ x ∈ Finset.range n,
      (∑ y in Finset.range n, if y < x then G x y else 0)
        = if 3 ≤ x ∧ x < 3 + (n - 3) then ∑ t in Finset.range (x - 2), G x (2 + t) else 0 := by
    intro x hx
    have hx' := Finset.mem_range.1 hx
    by_cases h3 : 3 ≤ x
    · rw [if_pos ⟨h3, by omega⟩, ← sum_window (fun y => G x y) n 2 (x - 2) (by omega)]
      apply Finset.sum_congr rfl
      intro y _
      by_cases h2 : y < 2
      · rw [hz2 x y h2]; simp
      · by_cases h4 : y < x
        · rw [if_pos h4, if_pos (by omega)]
        · rw [if_neg h4, if_neg (by omega)]
    · rw [if_neg (fun hh => h3 hh.1)]
      apply Finset.sum_eq_zero
      intro y _
      rw [hz1 x y (by omega)]
      simp
  rw [Finset.sum_congr rfl inner,
    sum_window (fun x => ∑ t in Finset.range (x - 2), G x (2 + t)) n 3 (n - 3) (by omega)]
  apply Finset.sum_congr rfl
  intro d _
  have e1 : 3 + d - 2 = d + 1 := by omega
  have e2 : 3 + d = d + 3 := Nat.add_comm 3 d
  simp only [e1, e2]
  apply Finset.sum_congr rfl
  intro t _
  rw [Nat.add_comm 2 t]

/-- The sum over all pairs of indices, when the terms on the diagonal and those with a
small index are zero, is the sum of the two triangles. -/
theorem sum_triangles (G : Nat → Nat → Int) (n : Nat) (hn : 3 ≤ n)
    (hd : ∀ x, G x x = 0)
    (hx3 : ∀ x y, x < 3 → G x y = 0) (hy3 : ∀ x y, y < 3 → G x y = 0) :
    (∑ x in Finset.range n, ∑ y in Finset.range n, G x y)
      = (∑ d in Finset.range (n - 3), ∑ t in Finset.range (d + 1), G (d + 3) (t + 2))
        + ∑ d in Finset.range (n - 3), ∑ t in Finset.range (d + 1), G (t + 2) (d + 3) := by
  rw [← sum_below G n hn hx3 (fun x y hy => hy3 x y (by omega)),
    ← sum_below (fun x y => G y x) n hn (fun x y hx => hy3 y x hx)
      (fun x y hy => hx3 y x (by omega))]
  rw [Finset.sum_comm (s := Finset.range n) (t := Finset.range n)
    (f := fun x y => if y < x then G y x else 0)]
  rw [← Finset.sum_add_distrib]
  apply Finset.sum_congr rfl
  intro x _
  rw [← Finset.sum_add_distrib]
  apply Finset.sum_congr rfl
  intro y _
  rcases Nat.lt_trichotomy y x with h | h | h
  · rw [if_pos h, if_neg (by omega), add_zero]
  · rw [h, hd]; simp
  · rw [if_neg (by omega), if_pos h, zero_add]

/-- The sum of a list of values over `0, ..., n - 1`, as a sum over the range. -/
theorem list_sum_range (F : Nat → Nat) (n : Nat) :
    (((List.range n).map F).sum : Int) = ∑ i in Finset.range n, (F i : Int) := by
  induction n with
  | zero => simp
  | succ n ih =>
    rw [List.range_succ, List.map_append, List.sum_append, Finset.sum_range_succ,
      Nat.cast_add, ih]
    simp

theorem lcp_comm : ∀ X Y : List Nat, lcp X Y = lcp Y X := by
  intro X
  induction X with
  | nil => intro Y; cases Y <;> rfl
  | cons x X ih =>
    intro Y
    cases Y with
    | nil => rfl
    | cons y Y =>
      show (if x = y then lcp X Y + 1 else 0) = (if y = x then lcp Y X + 1 else 0)
      by_cases e : x = y
      · rw [if_pos e, if_pos e.symm, ih]
      · rw [if_neg e, if_neg (Ne.symm e)]

/-- The suffixes of a text held as a list are its tails. -/
theorem sufList_ofList (T : List Nat) (p : Nat) :
    sufList (ofList T) T.length p = T.drop p := by
  apply List.ext_getElem
  · simp [sufList]
  · intro k h1 h2
    have h3 : p + k < T.length := by
      simp at h2
      omega
    simp [sufList, ofList, List.getElem?_eq_getElem h3]

namespace P3415

/-- The least height between two indices is the common prefix of their suffixes. -/
theorem Built.lowest_eq {a b : List Nat} {g : Prog} (hb : Built a b g) (t d : Nat)
    (h : t + d + 1 < g.str_len) :
    lowest g.mem.height t d = lcp (sufList g.str g.str_len (g.mem.suffix t))
        (sufList g.str g.str_len (g.mem.suffix (t + d + 1))) := by
  obtain ⟨J, hs⟩ := hb.strict
  apply le_antisymm
  · rw [lcp_ge_iff]
    exact common_of_heights g.str g.str_len _ g.mem.suffix g.mem.height hb.height t (t + d + 1)
      (by omega) h (fun x h1 h2 => (le_lowest_iff g.mem.height t _ d).1 (le_refl _) x h1 h2)
      (t + d + 1) (by omega) (le_refl _)
  · rw [le_lowest_iff]
    intro x h1 h2
    exact heights_of_common g.str g.str_len J _ g.mem.suffix g.mem.height hs hb.height t
      (t + d + 1) h ((lcp_ge_iff g.str g.str_len _ _ _).1 (le_refl _)) x h1 h2

theorem text_low (a b : List Nat) (h : Valid a b) (p : Nat)
    (hp : p < a.length + b.length + 3) (hz : ofList (text a b) p ≤ 64) :
    p = 0 ∨ p = a.length + 1 ∨ p = a.length + b.length + 2 := by
  rcases text_cases a b h.2.2.1 h.2.2.2.1 p with h1 | h1 | h1 | h1 | h1
  · exact Or.inl h1.1
  · have := h1.2.2; unfold isLetter at this; omega
  · exact Or.inr (Or.inl h1.1)
  · have := h1.2.2; unfold isLetter at this; omega
  · exact Or.inr (Or.inr (by omega))

theorem text_sep (a b : List Nat) (h : Valid a b) : ofList (text a b) (a.length + 1) = 64 := by
  rcases text_cases a b h.2.2.1 h.2.2.2.1 (a.length + 1) with h1 | h1 | h1 | h1 | h1
  · omega
  · omega
  · exact h1.2
  · omega
  · omega

/-- An index whose suffix starts with a smaller character comes first. -/
theorem Built.idx_lt {a b : List Nat} {g : Prog} (hb : Built a b g) (x y : Nat)
    (hx : x < g.str_len) (hy : y < g.str_len)
    (h : g.str (g.mem.suffix x) < g.str (g.mem.suffix y)) : x < y := by
  obtain ⟨J, hs⟩ := hb.strict
  by_contra hcon
  rcases Nat.lt_or_ge y x with h1 | h1
  · have h2 := hs.sufList_lt y x h1 hx
    rw [sufList_cons _ _ _ (hb.perm.1 y hy), sufList_cons _ _ _ (hb.perm.1 x hx),
      cons_lt_cons_iff] at h2
    omega
  · have : x = y := by omega
    rw [this] at h
    omega

/-- The sorted order starts with the final zero, the leading zero and the separator. -/
theorem Built.heads {a b : List Nat} {g : Prog} (hv : Valid a b) (hb : Built a b g) :
    g.mem.suffix 1 = 0 ∧ g.mem.suffix 2 = a.length + 1 := by
  have hn := hb.len_eq
  have hperm := hb.perm
  have hstr : ∀ p, g.str p = ofList (text a b) p := fun p => by rw [hb.str_eq]
  obtain ⟨i0, hi0, e0⟩ := hperm.surj 0 (by omega)
  obtain ⟨is, his, es⟩ := hperm.surj (a.length + 1) (by omega)
  have hfirst := hb.first
  have h1 : i0 < is := hb.idx_lt i0 is hi0 his (by
    rw [e0, es, hstr, hstr, text_first, text_sep a b hv]
    omega)
  have hlow : ∀ x, x < g.str_len → x < is →
      g.mem.suffix x = 0 ∨ g.mem.suffix x = a.length + b.length + 2 := by
    intro x hx hxs
    have hle : g.str (g.mem.suffix x) ≤ 64 := by
      by_contra hc
      have := hb.idx_lt is x his hx (by
        rw [es, hstr (a.length + 1), text_sep a b hv]
        omega)
      omega
    rw [hstr] at hle
    rcases text_low a b hv _ (by have := hperm.1 x hx; omega) hle with h2 | h2 | h2
    · exact Or.inl h2
    · have := hperm.2 x is hx his (by rw [h2, es])
      omega
    · exact Or.inr h2
  have h2 : is ≤ 2 := by
    by_contra hc
    have a0 := hlow 0 (by omega) (by omega)
    have a1 := hlow 1 (by omega) (by omega)
    have a2 := hlow 2 (by omega) (by omega)
    have n01 : g.mem.suffix 0 ≠ g.mem.suffix 1 := fun e => by
      have := hperm.2 0 1 (by omega) (by omega) e
      omega
    have n02 : g.mem.suffix 0 ≠ g.mem.suffix 2 := fun e => by
      have := hperm.2 0 2 (by omega) (by omega) e
      omega
    have n12 : g.mem.suffix 1 ≠ g.mem.suffix 2 := fun e => by
      have := hperm.2 1 2 (by omega) (by omega) e
      omega
    omega
  have h0 : i0 ≠ 0 := by
    intro e
    rw [e, hfirst] at e0
    omega
  have e1 : i0 = 1 := by omega
  have e2 : is = 2 := by omega
  rw [e1] at e0
  rw [e2] at es
  exact ⟨e0, es⟩

/-- From index 2 on the tests of `solve` on an offset tell the string it lies in. -/
theorem Built.flags {a b : List Nat} {g : Prog} (hv : Valid a b) (hb : Built a b g) (x : Nat)
    (hx : 2 ≤ x) (hxn : x < g.str_len) :
    (g.mem.suffix x ≤ g.len_of_A ↔ (1 ≤ g.mem.suffix x ∧ g.mem.suffix x ≤ g.len_of_A)) ∧
    (g.len_of_A + 1 < g.mem.suffix x ↔
      (g.len_of_A + 2 ≤ g.mem.suffix x ∧ g.mem.suffix x + 1 < g.str_len)) := by
  have hn := hb.len_eq
  have hperm := hb.perm
  obtain ⟨h1, _⟩ := hb.heads hv
  have hfirst := hb.first
  have hin := hperm.1 x hxn
  have n0 : g.mem.suffix x ≠ g.mem.suffix 0 := fun e => by
    have := hperm.2 x 0 hxn (by omega) e
    omega
  have n1 : g.mem.suffix x ≠ g.mem.suffix 1 := fun e => by
    have := hperm.2 x 1 hxn (by omega) e
    omega
  rw [hfirst] at n0
  rw [h1] at n1
  constructor
  · constructor
    · intro h; exact ⟨by omega, h⟩
    · intro h; exact h.2
  · constructor
    · intro h; exact ⟨by omega, by omega⟩
    · intro h; omega

/-- The indices below 3 hold no offset of either string. -/
theorem Built.cross_low {a b : List Nat} {g : Prog} (hv : Valid a b) (hb : Built a b g)
    (K x y : Nat) (hx : x < 3) : cross g K x y = 0 ∧ cross g K y x = 0 := by
  have hn := hb.len_eq
  have hl := hb.lenA
  obtain ⟨h1, h2⟩ := hb.heads hv
  have hfirst := hb.first
  have hx' : g.mem.suffix x = g.str_len - 1 ∨ g.mem.suffix x = 0
      ∨ g.mem.suffix x = a.length + 1 := by
    rcases (by omega : x = 0 ∨ x = 1 ∨ x = 2) with e | e | e
    · rw [e]; exact Or.inl hfirst
    · rw [e]; exact Or.inr (Or.inl h1)
    · rw [e]; exact Or.inr (Or.inr h2)
  unfold cross crossPos
  constructor
  · rw [if_neg]
    rintro ⟨⟨h3, h4⟩, _⟩
    omega
  · rw [if_neg]
    rintro ⟨_, ⟨h3, h4⟩⟩
    omega

theorem cross_diag (g : Prog) (K x : Nat) : cross g K x x = 0 := by
  unfold cross crossPos
  rw [if_neg]
  rintro ⟨⟨_, h2⟩, ⟨h3, _⟩⟩
  omega

/-- The first loop of `solve` at the index `d + 3`. -/
theorem Built.pass1 {a b : List Nat} {g : Prog} (hv : Valid a b) (hb : Built a b g)
    (K d : Nat) (hd : d + 3 < g.str_len) :
    (if decide (g.mem.suffix (d + 3) ≤ g.len_of_A) = true
      then openSum g K (fun x => decide (g.len_of_A + 1 < x)) (d + 1)
        (fun v => (v : Int) - (K : Int) + 1) else 0)
      = ∑ t in Finset.range (d + 1), cross g K (d + 3) (t + 2) := by
  have fl := hb.flags hv (d + 3) (by omega) hd
  by_cases hc : g.mem.suffix (d + 3) ≤ g.len_of_A
  · rw [if_pos (decide_eq_true hc)]
    unfold openSum
    apply Finset.sum_congr rfl
    intro t ht
    have ht' := Finset.mem_range.1 ht
    have flt := hb.flags hv (t + 2) (by omega) (by omega)
    have el := hb.lowest_eq (t + 2) (d + 1 - 1 - t) (by omega)
    have ei : t + 2 + (d + 1 - 1 - t) + 1 = d + 3 := by omega
    rw [ei] at el
    rw [el]
    unfold cross crossPos pairVal
    rw [lcp_comm (sufList g.str g.str_len (g.mem.suffix (d + 3)))]
    generalize lcp (sufList g.str g.str_len (g.mem.suffix (t + 2)))
      (sufList g.str g.str_len (g.mem.suffix (d + 3))) = L
    dsimp only
    by_cases ho : g.len_of_A + 1 < g.mem.suffix (t + 2)
    · have hB := flt.2.1 ho
      by_cases hK : K ≤ L
      · rw [if_pos ⟨decide_eq_true ho, hK⟩, if_pos ⟨fl.1.1 hc, hB⟩]
        omega
      · rw [if_neg (fun hh => hK hh.2), if_pos ⟨fl.1.1 hc, hB⟩]
        omega
    · rw [if_neg (fun hh => ho (of_decide_eq_true hh.1)), if_neg (fun hh => ho (flt.2.2 hh.2))]
  · rw [if_neg (fun hh => hc (of_decide_eq_true hh))]
    symm
    apply Finset.sum_eq_zero
    intro t _
    unfold cross crossPos
    rw [if_neg (fun hh => hc hh.1.2)]

/-- The second loop of `solve` at the index `d + 3`. -/
theorem Built.pass2 {a b : List Nat} {g : Prog} (hv : Valid a b) (hb : Built a b g)
    (K d : Nat) (hd : d + 3 < g.str_len) :
    (if decide (g.len_of_A + 1 < g.mem.suffix (d + 3)) = true
      then openSum g K (fun x => decide (x ≤ g.len_of_A)) (d + 1)
        (fun v => (v : Int) - (K : Int) + 1) else 0)
      = ∑ t in Finset.range (d + 1), cross g K (t + 2) (d + 3) := by
  have fl := hb.flags hv (d + 3) (by omega) hd
  by_cases hc : g.len_of_A + 1 < g.mem.suffix (d + 3)
  · rw [if_pos (decide_eq_true hc)]
    unfold openSum
    apply Finset.sum_congr rfl
    intro t ht
    have ht' := Finset.mem_range.1 ht
    have flt := hb.flags hv (t + 2) (by omega) (by omega)
    have el := hb.lowest_eq (t + 2) (d + 1 - 1 - t) (by omega)
    have ei : t + 2 + (d + 1 - 1 - t) + 1 = d + 3 := by omega
    rw [ei] at el
    rw [el]
    unfold cross crossPos pairVal
    generalize lcp (sufList g.str g.str_len (g.mem.suffix (t + 2)))
      (sufList g.str g.str_len (g.mem.suffix (d + 3))) = L
    dsimp only
    by_cases ho : g.mem.suffix (t + 2) ≤ g.len_of_A
    · have hA := flt.1.1 ho
      by_cases hK : K ≤ L
      · rw [if_pos ⟨decide_eq_true ho, hK⟩, if_pos ⟨hA, fl.2.1 hc⟩]
        omega
      · rw [if_neg (fun hh => hK hh.2), if_pos ⟨hA, fl.2.1 hc⟩]
        omega
    · rw [if_neg (fun hh => ho (of_decide_eq_true hh.1)), if_neg (fun hh => ho hh.1.2)]
  · rw [if_neg (fun hh => hc (of_decide_eq_true hh))]
    symm
    apply Finset.sum_eq_zero
    intro t _
    unfold cross crossPos
    rw [if_neg (fun hh => hc (fl.2.2 hh.2))]

/-- The answer of `solve` is the sum over all pairs of indices of the sorted order. -/
theorem Built.solve_cross {a b : List Nat} {g : Prog} (hv : Valid a b) (hb : Built a b g)
    (K : Nat) :
    solve g K = ∑ x in Finset.range g.str_len, ∑ y in Finset.range g.str_len, cross g K x y := by
  have hn := hb.len_eq
  rw [solve_eq, sum_triangles (cross g K) g.str_len (by omega) (cross_diag g K)
    (fun x y hx => (hb.cross_low hv K x y hx).1) (fun x y hy => (hb.cross_low hv K y x hy).2)]
  congr 1
  · apply Finset.sum_congr rfl
    intro d hd
    exact hb.pass1 hv K d (by have := Finset.mem_range.1 hd; omega)
  · apply Finset.sum_congr rfl
    intro d hd
    exact hb.pass2 hv K d (by have := Finset.mem_range.1 hd; omega)

/-- The sum over the pairs of indices is the sum over the pairs of an offset of the first
string and an offset of the second. -/
theorem Built.cross_sum {a b : List Nat} {g : Prog} (hb : Built a b g) (K : Nat) :
    (∑ x in Finset.range g.str_len, ∑ y in Finset.range g.str_len, cross g K x y)
      = ∑ i in Finset.range a.length, ∑ j in Finset.range b.length,
          pairVal g K (1 + i) (a.length + 2 + j) := by
  have hn := hb.len_eq
  have hl := hb.lenA
  unfold cross
  have e1 : ∀ x ∈ Finset.range g.str_len,
      (∑ y in Finset.range g.str_len, crossPos g K (g.mem.suffix x) (g.mem.suffix y))
        = ∑ q in Finset.range g.str_len, crossPos g K (g.mem.suffix x) q :=
    fun x _ => hb.perm.sum_comp (fun q => crossPos g K (g.mem.suffix x) q)
  rw [Finset.sum_congr rfl e1,
    hb.perm.sum_comp (fun p => ∑ q in Finset.range g.str_len, crossPos g K p q)]
  have e2 : ∀ p ∈ Finset.range g.str_len,
      (∑ q in Finset.range g.str_len, crossPos g K p q)
        = if 1 ≤ p ∧ p < 1 + a.length
          then ∑ j in Finset.range b.length, pairVal g K p (a.length + 2 + j) else 0 := by
    intro p _
    by_cases hA : 1 ≤ p ∧ p ≤ g.len_of_A
    · rw [if_pos (by omega),
        ← sum_window (fun q => pairVal g K p q) g.str_len (a.length + 2) b.length (by omega)]
      apply Finset.sum_congr rfl
      intro q _
      unfold crossPos
      by_cases hB : g.len_of_A + 2 ≤ q ∧ q + 1 < g.str_len
      · rw [if_pos ⟨hA, hB⟩, if_pos (by omega)]
      · rw [if_neg (fun hh => hB hh.2), if_neg (by omega)]
    · rw [if_neg (by omega)]
      apply Finset.sum_eq_zero
      intro q _
      unfold crossPos
      rw [if_neg (fun hh => hA hh.1)]
  rw [Finset.sum_congr rfl e2,
    sum_window (fun p => ∑ j in Finset.range b.length, pairVal g K p (a.length + 2 + j))
      g.str_len 1 a.length (by omega)]

/-- The separator and the final zero end the common prefix of a suffix of the first
string and a suffix of the second where the strings end. -/
theorem lcp_sep : ∀ (X Y R : List Nat), (∀ c ∈ X, isLetter c) → (∀ c ∈ Y, isLetter c) →
    lcp (X ++ 64 :: R) (Y ++ [0]) = lcp X Y := by
  intro X
  induction X with
  | nil =>
    intro Y R _ hY
    cases Y with
    | nil => rfl
    | cons y Y =>
      have := hY y (List.mem_cons_self _ _)
      unfold isLetter at this
      show (if 64 = y then _ else 0) = 0
      rw [if_neg (by omega)]
  | cons x X ih =>
    intro Y R hX hY
    have hx := hX x (List.mem_cons_self _ _)
    unfold isLetter at hx
    cases Y with
    | nil =>
      show (if x = 0 then _ else 0) = 0
      rw [if_neg (by omega)]
    | cons y Y =>
      show (if x = y then lcp (X ++ 64 :: R) (Y ++ [0]) + 1 else 0)
        = (if x = y then lcp X Y + 1 else 0)
      rw [ih Y R (fun c hc => hX c (List.mem_cons_of_mem _ hc))
        (fun c hc => hY c (List.mem_cons_of_mem _ hc))]

theorem text_length (a b : List Nat) : (text a b).length = a.length + b.length + 3 := by
  simp [text]
  omega

/-- The term of two offsets is that of the two strings. -/
theorem Built.pairVal_eq {a b : List Nat} {g : Prog} (hv : Valid a b) (hb : Built a b g)
    (K i j : Nat) (hi : i < a.length) (hj : j < b.length) :
    pairVal g K (1 + i) (a.length + 2 + j) = ((lcpAt a b i j + 1 - K : Nat) : Int) := by
  unfold pairVal lcpAt
  rw [hb.str_eq, hb.len_eq, ← text_length a b, sufList_ofList, sufList_ofList]
  have e1 : (text a b).drop (1 + i) = a.drop i ++ 64 :: (b ++ [0]) := by
    rw [Nat.add_comm 1 i]
    show (a ++ 64 :: (b ++ [0])).drop i = _
    exact List.drop_append_of_le_length (Nat.le_of_lt hi)
  have e2 : (text a b).drop (a.length + 2 + j) = b.drop j ++ [0] := by
    have e3 : a.length + 2 + j = (a.length + (j + 1)) + 1 := by omega
    rw [e3]
    show (a ++ 64 :: (b ++ [0])).drop (a.length + (j + 1)) = _
    rw [List.drop_append]
    show (b ++ [0]).drop j = _
    exact List.drop_append_of_le_length (Nat.le_of_lt hj)
  rw [e1, e2, lcp_sep _ _ _ (fun c hc => hv.2.2.1 c (List.mem_of_mem_drop hc))
    (fun c hc => hv.2.2.2.1 c (List.mem_of_mem_drop hc))]

/-- The brute-force sum as a sum over the two ranges. -/
theorem lengthSum_eq (a b : List Nat) (K : Nat) :
    (lengthSum a b K : Int)
      = ∑ i in Finset.range a.length, ∑ j in Finset.range b.length,
          ((lcpAt a b i j + 1 - K : Nat) : Int) := by
  unfold lengthSum
  rw [list_sum_range]
  apply Finset.sum_congr rfl
  intro i _
  exact list_sum_range (fun j => lcpAt a b i j + 1 - K) b.length

/-- After the first test case `solve` returns the brute-force sum of the strings. -/
theorem Built.solve_sum {a b : List Nat} {g : Prog} (hv : Valid a b) (hb : Built a b g)
    (K : Nat) : solve g K = (lengthSum a b K : Int) := by
  rw [hb.solve_cross hv K, hb.cross_sum K, lengthSum_eq]
  apply Finset.sum_congr rfl
  intro i hi
  apply Finset.sum_congr rfl
  intro j hj
  exact hb.pairVal_eq hv K i j (Finset.mem_range.1 hi) (Finset.mem_range.1 hj)

end P3415

namespace P3415

/-- C6, amended: on a program that has just started, for all non-empty strings of letters
`a` and `b` that fit the buffers and every `K`, `main` builds the suffix array and
`solve(K)`, computed with exact integers, returns the brute-force double loop over all
pairs of a suffix of `a` and a suffix of `b` that adds, for every pair whose longest common
prefix has length `K` at least, the number `LCP - K + 1` of its common lengths from `K` on. -/
theorem solve_first_case (a b : List Nat) (K : Nat) (h : Valid a b) :
    ∃ g, load a b start = some g ∧ solve g K = (lengthSum a b K : Int) := by
  obtain ⟨g, e, hb⟩ := load_built a b h
  exact ⟨g, e, hb.solve_sum h K⟩

theorem solve_first_case_witness :
    Valid [97, 97] [97, 97] ∧
    ∃ g, load [97, 97] [97, 97] start = some g ∧
      solve g 1 = (lengthSum [97, 97] [97, 97] 1 : Int) :=
  ⟨by decide, solve_first_case [97, 97] [97, 97] 1 (by decide)⟩

end P3415

namespace P3294

/-- C20: the quorum test of `check` and `print` is a strict majority. Where a stretch
ends (the height is below `len`), `check` returns 1 exactly when twice the match count
exceeds the number of strings, and goes on with a cleared record otherwise; `print`
writes its line under the same condition. A match count of exactly half the strings does
not qualify. -/
theorem quorum_strict (g : Prog) (len k i : Nat) (vm : Arr × Nat) (mb : Nat)
    (out : List (List Nat)) (hclose : g.mem.height i < len) :
    (checkLoop g len (k + 1) i vm
      = if g.n < 2 * vm.2 then 1 else checkLoop g len k (i + 1) (fun _ => 0, 0)) ∧
    (printLoop g len (k + 1) i vm mb out
      = printLoop g len k (i + 1) (fun _ => 0, 0) mb
          (if g.n < 2 * vm.2 then out ++ [line g len mb] else out)) ∧
    (g.n = 2 * vm.2 →
      checkLoop g len (k + 1) i vm = checkLoop g len k (i + 1) (fun _ => 0, 0)) := by
  have e : (g.n / 2 < vm.2) ↔ (g.n < 2 * vm.2) := by omega
  have c1 : checkLoop g len (k + 1) i vm
      = if g.n < 2 * vm.2 then 1 else checkLoop g len k (i + 1) (fun _ => 0, 0) := by
    have e0 : checkLoop g len (k + 1) i vm
        = if len ≤ g.mem.height i then checkLoop g len k (i + 1) (visit g i vm)
          else if g.n / 2 < vm.2 then 1 else checkLoop g len k (i + 1) (fun _ => 0, 0) := rfl
    rw [e0, if_neg (by omega)]
    by_cases h : g.n < 2 * vm.2
    · rw [if_pos (e.2 h), if_pos h]
    · rw [if_neg (fun h' => h (e.1 h')), if_neg h]
  refine ⟨c1, ?_, ?_⟩
  · have e0 : printLoop g len (k + 1) i vm mb out
        = if len ≤ g.mem.height i then
            printLoop g len k (i + 1) (visit g i vm) (g.mem.suffix i) out
          else printLoop g len k (i + 1) (fun _ => 0, 0) mb
            (if g.n / 2 < vm.2 then out ++ [line g len mb] else out) := rfl
    rw [e0, if_neg (by omega)]
    by_cases h : g.n < 2 * vm.2
    · rw [if_pos (e.2 h), if_pos h]
    · rw [if_neg (fun h' => h (e.1 h')), if_neg h]
  · intro h
    rw [c1, if_neg (by omega)]

theorem quorum_strict_witness :
    (⟨zeroMem, fun _ => 0, 2, 4, fun _ => 0⟩ : Prog).mem.height 2 < 1 ∧
    (checkLoop ⟨zeroMem, fun _ => 0, 2, 4, fun _ => 0⟩ 1 (0 + 1) 2 (fun _ => 0, 1)
      = if (⟨zeroMem, fun _ => 0, 2, 4, fun _ => 0⟩ : Prog).n
            < 2 * ((fun _ => 0, 1) : Arr × Nat).2 then 1
        else checkLoop ⟨zeroMem, fun _ => 0, 2, 4, fun _ => 0⟩ 1 0 (2 + 1) (fun _ => 0, 0)) ∧
    (printLoop ⟨zeroMem, fun _ => 0, 2, 4, fun _ => 0⟩ 1 (0 + 1) 2 (fun _ => 0, 1) 0 []
      = printLoop ⟨zeroMem, fun _ => 0, 2, 4, fun _ => 0⟩ 1 0 (2 + 1) (fun _ => 0, 0) 0
          (if (⟨zeroMem, fun _ => 0, 2, 4, fun _ => 0⟩ : Prog).n
              < 2 * ((fun _ => 0, 1) : Arr × Nat).2
            then [] ++ [line ⟨zeroMem, fun _ => 0, 2, 4, fun _ => 0⟩ 1 0]
            else [])) ∧
    ((⟨zeroMem, fun _ => 0, 2, 4, fun _ => 0⟩ : Prog).n = 2 * ((fun _ => 0, 1) : Arr × Nat).2 →
      checkLoop ⟨zeroMem, fun _ => 0, 2, 4, fun _ => 0⟩ 1 (0 + 1) 2 (fun _ => 0, 1)
        = checkLoop ⟨zeroMem, fun _ => 0, 2, 4, fun _ => 0⟩ 1 0 (2 + 1) (fun _ => 0, 0)) :=
  ⟨by decide,
    quorum_strict ⟨zeroMem, fun _ => 0, 2, 4, fun _ => 0⟩ 1 0 2 (fun _ => 0, 1) 0 [] (by decide)⟩

/-- Every line that `print` writes is the line of some offset. -/
theorem print_mem_line (g : Prog) (len mb0 : Nat) (w : List Nat)
    (h : w ∈ print g len mb0) : ∃ p, w = line g len p := by
  obtain ⟨cs, ecs, _, _⟩ := printLoop_spec g len (g.str_len - 1) 2 (fun _ => 0, 0) mb0 []
    2 (Nat.le_refl 2) (Nat.le_refl 2) (by intro t h1 h2; omega) (by
      have e2 : owners g 2 2 = ∅ := by
        unfold owners
        rw [if_neg (Nat.lt_irrefl _)]
      rw [e2]
      exact marks_empty) (fun hlt => absurd hlt (Nat.lt_irrefl _))
  unfold print at h
  rw [ecs, List.nil_append, List.mem_map] at h
  obtain ⟨c, _, e⟩ := h
  exact ⟨_, e.symm⟩

/-- The function `print` never writes the line `?`. -/
theorem print_no_marker (g : Prog) (len mb0 : Nat) : [63] ∉ print g len mb0 := by
  intro h
  obtain ⟨p, e⟩ := print_mem_line g len mb0 _ h
  have hl : len = 1 := by
    have := congrArg List.length e
    unfold line at this
    simp at this
    omega
  subst hl
  unfold line at e
  have e1 : List.map (fun i => g.str (p + i) + 97 - 1) (List.range 1)
      = [g.str (p + 0) + 97 - 1] := rfl
  rw [e1] at e
  have := List.head_eq_of_cons_eq e
  omega

/-- What `main` writes when the search ended with `l`. -/
theorem report_cases (g : Prog) (mb0 l : Nat) (h : longest g = some l) :
    ∃ out, report g mb0 = some out ∧ ([63] ∈ out ↔ l = 0) ∧
      (l = 0 → out = [[63], []]) ∧ (l ≠ 0 → 1 ≤ l ∧ out = print g l mb0 ++ [[]]) := by
  refine ⟨(if l = 0 then [[63]] else print g l mb0) ++ [[]], ?_, ?_, ?_, ?_⟩
  · unfold report
    rw [h]
    rfl
  · by_cases h0 : l = 0
    · rw [if_pos h0]
      simp [h0]
    · rw [if_neg h0]
      constructor
      · intro hm
        rcases List.mem_append.1 hm with h1 | h1
        · exact absurd h1 (print_no_marker g l mb0)
        · simp at h1
      · intro h1
        exact absurd h1 h0
  · intro h0
    rw [if_pos h0]
    rfl
  · intro h0
    rw [if_neg h0]
    exact ⟨by omega, rfl⟩

/-- C18: on every valid input the binary search of `main` ends with some `l`, and `main`
writes the line `?` if and only if `l = 0`; in that case it writes nothing else but the
empty line that ends the test case (`print` is not called), and otherwise `l >= 1` and it
writes the lines of `print(l)` and the empty line. -/
theorem marker_iff_zero (strs : List (List Nat)) (g0 : Prog) (hv : Valid strs) :
    ∃ g l, load strs g0 = some g ∧ longest g = some l ∧
      ∀ mb0, ∃ out, report g mb0 = some out ∧ ([63] ∈ out ↔ l = 0) ∧
        (l = 0 → out = [[63], []]) ∧ (l ≠ 0 → 1 ≤ l ∧ out = print g l mb0 ++ [[]]) := by
  obtain ⟨g, e, hl⟩ := load_spec strs g0 hv
  obtain ⟨l, e2, _⟩ := search_spec g MAX_LEN
    (fun L L' h1 h2 h3 => hl.check_mono hv L L' h1 h2 h3) MAX_LEN 0 MAX_LEN
    (Nat.zero_le _) (Nat.le_refl _) (Nat.le_refl _) (Or.inl rfl)
    (fun L hL1 hL2 => by omega)
  exact ⟨g, l, e, e2, fun mb0 => report_cases g mb0 l e2⟩

theorem marker_iff_zero_witness :
    Valid [[97, 98], [98]] ∧
    ∃ g l, load [[97, 98], [98]] start = some g ∧ longest g = some l ∧
      ∀ mb0, ∃ out, report g mb0 = some out ∧ ([63] ∈ out ↔ l = 0) ∧
        (l = 0 → out = [[63], []]) ∧ (l ≠ 0 → 1 ≤ l ∧ out = print g l mb0 ++ [[]]) :=
  ⟨by decide, marker_iff_zero [[97, 98], [98]] start (by decide)⟩

/-- C19, amended: in the text that `main` passes to `init_suffix_array` for a valid input,
the characters of the strings have the values 1 to 26, every string but the last is ended
by the value `27 + t` of its number `t`, above every character and different for every
string, and the last string is ended by 0, below every character. -/
theorem sentinel_values (strs : List (List Nat)) (g0 : Prog) (hv : Valid strs) :
    ∃ g, load strs g0 = some g ∧
      (∀ t x, t < strs.length → x < (strs.getD t []).length →
        1 ≤ g.str (off strs t + x) ∧ g.str (off strs t + x) ≤ 26) ∧
      (∀ t, t + 1 < strs.length →
        g.str (off strs t + (strs.getD t []).length) = 27 + t) ∧
      g.str (off strs (strs.length - 1) + (strs.getD (strs.length - 1) []).length) = 0 := by
  obtain ⟨g, e, hl⟩ := load_spec strs g0 hv
  obtain ⟨_, hn⟩ := hl.len_ge hv
  refine ⟨g, e, ?_, hl.sep, ?_⟩
  · intro t x ht hx
    have h1 := (hl.letter t x ht hx).1
    have h2 := valid_char strs hv t x ht hx
    omega
  · have h1 := off_succ strs (strs.length - 1) (by omega)
    have e1 : strs.length - 1 + 1 = strs.length := by omega
    rw [e1] at h1
    have h2 := hl.last
    rw [hl.len_eq, h1] at h2
    exact h2

theorem sentinel_values_witness :
    Valid [[97, 98], [98]] ∧
    ∃ g, load [[97, 98], [98]] start = some g ∧
      (∀ t x, t < [[97, 98], [98]].length → x < ([[97, 98], [98]].getD t []).length →
        1 ≤ g.str (off [[97, 98], [98]] t + x) ∧ g.str (off [[97, 98], [98]] t + x) ≤ 26) ∧
      (∀ t, t + 1 < [[97, 98], [98]].length →
        g.str (off [[97, 98], [98]] t + ([[97, 98], [98]].getD t []).length) = 27 + t) ∧
      g.str (off [[97, 98], [98]] ([[97, 98], [98]].length - 1)
        + ([[97, 98], [98]].getD ([[97, 98], [98]].length - 1) []).length) = 0 :=
  ⟨by decide, sentinel_values [[97, 98], [98]] start (by decide)⟩

end P3294

namespace P3415

theorem lcp_le_left : ∀ X Y : List Nat, lcp X Y ≤ X.length := by
  intro X
  induction X with
  | nil => intro Y; cases Y <;> exact Nat.le_refl 0
  | cons x X ih =>
    intro Y
    cases Y with
    | nil => exact Nat.zero_le _
    | cons y Y =>
      show (if x = y then lcp X Y + 1 else 0) ≤ X.length + 1
      by_cases e : x = y
      · rw [if_pos e]
        exact Nat.succ_le_succ (ih Y)
      · rw [if_neg e]
        exact Nat.zero_le _

/-- The brute-force sum is zero when `K` exceeds the length of the first string. -/
theorem lengthSum_zero (a b : List Nat) (K : Nat) (hK : a.length < K) :
    lengthSum a b K = 0 := by
  unfold lengthSum
  apply List.sum_eq_zero
  intro x hx
  obtain ⟨i, _, rfl⟩ := List.mem_map.1 hx
  apply List.sum_eq_zero
  intro y hy
  obtain ⟨j, _, rfl⟩ := List.mem_map.1 hy
  have h1 := lcp_le_left (a.drop i) (b.drop j)
  have h2 : (a.drop i).length ≤ a.length := by
    rw [List.length_drop]
    omega
  unfold lcpAt
  omega

/-- On the first test case of a run, `solve(K)` returns 0 when `K` exceeds the length of
the first string. -/
theorem solve_zero_first (a b : List Nat) (K : Nat) (h : Valid a b) (hK : a.length < K) :
    ∃ g, load a b start = some g ∧ solve g K = 0 := by
  obtain ⟨g, e, hb⟩ := load_built a b h
  refine ⟨g, e, ?_⟩
  rw [hb.solve_sum h K, lengthSum_zero a b K hK]
  rfl

/-- C15, amended: for `A = B = aaa` and `K = 1`, on a program that has just started,
`main` builds the suffix array and `solve(1)` returns 14, the number of triples of a place
in `A`, a place in `B` and a length from 1 on at which the two strings agree. -/
theorem solve_aaa :
    ∃ g, load [97, 97, 97] [97, 97, 97] start = some g ∧ solve g 1 = 14 := by
  obtain ⟨g, e, hb⟩ := load_built [97, 97, 97] [97, 97, 97] (by decide)
  refine ⟨g, e, ?_⟩
  rw [hb.solve_sum (by decide) 1]
  decide

/-- C15 fails: for `A = B = aaa` and `K = 1`, on a program that has just started,
`solve(1)` is 14, while the pairs of suffixes with a common prefix of length at least 1
are 9. -/
theorem solve_aaa_pairs :
    (load [97, 97, 97] [97, 97, 97] start).map (fun g => solve g 1) = some 14 ∧
      pairCount [97, 97, 97] [97, 97, 97] 1 = 9 := by
  obtain ⟨g, e, hb⟩ := load_built [97, 97, 97] [97, 97, 97] (by decide)
  refine ⟨?_, by decide⟩
  rw [e, Option.map_some', hb.solve_sum (by decide) 1]
  decide

end P3415

/-- Two permutations of the offsets that list the suffixes in increasing order are the
same. -/
theorem strict_unique (str : Arr) (n J J' : Nat) (f g : Arr) (hf : PermOn n f)
    (hg : PermOn n g) (sf : StrictBy str n J f) (sg : StrictBy str n J' g) :
    ∀ i, i < n → f i = g i := by
  intro i
  induction i using Nat.strong_induction_on with
  | _ i ih =>
    intro hi
    obtain ⟨j, hj, ej⟩ := hg.surj (f i) (hf.1 i hi)
    obtain ⟨k, hk, ek⟩ := hf.surj (g i) (hg.1 i hi)
    by_contra hne
    have hji : ¬ j < i := by
      intro h
      have h1 := ih j h hj
      rw [ej] at h1
      have := hf.2 j i hj hi h1
      omega
    have hki : ¬ k < i := by
      intro h
      have h1 := ih k h hk
      rw [ek] at h1
      have := hg.2 i k hi hk h1
      omega
    have hj' : i < j := by
      rcases Nat.lt_or_ge i j with h | h
      · exact h
      · have : j = i := by omega
        rw [this] at ej
        exact absurd ej.symm hne
    have hk' : i < k := by
      rcases Nat.lt_or_ge i k with h | h
      · exact h
      · have : k = i := by omega
        rw [this] at ek
        exact absurd ek hne
    have h1 := sf.sufList_lt i k hk' hk
    have h2 := sg.sufList_lt i j hj' hj
    rw [ek] at h1
    rw [ej] at h2
    exact absurd h1 (lt_asymm h2)

/-- C11 fails in `rank`: for a non-empty text with values below `range` whose last
character is strictly below every other, two calls of `init_suffix_array` that start from
buffers with different values in the cell `rank[len - 1]` both return and leave different
values in that cell, the cell of the offset `suffix[0]`, which lies in `[0, len)`;
`suffix[0..len)`, the other cells of `rank[0..len)` and `height[1..len)` are the same. -/
theorem init_keeps_rank_cell (cap : Nat) (str : Arr) (len range : Nat) (m1 m2 : Mem)
    (hlen : 0 < len) (hcap : len ≤ cap) (hrange : ∀ i, i < len → str i < range)
    (hlast : ∀ i, i < len - 1 → str (len - 1) < str i)
    (hdiff : m1.rank (len - 1) ≠ m2.rank (len - 1)) :
    ∃ r1 r2, init_suffix_array cap str len range m1 = some r1 ∧
      init_suffix_array cap str len range m2 = some r2 ∧
      r1.suffix 0 = len - 1 ∧ r1.rank (len - 1) ≠ r2.rank (len - 1) ∧
      (∀ i, i < len → r1.suffix i = r2.suffix i) ∧
      (∀ a, a + 1 < len → r1.rank a = r2.rank a) ∧
      (∀ i, 1 ≤ i → i < len → r1.height i = r2.height i) := by
  obtain ⟨r1, e1, p1, ⟨J1, s1⟩, f1, k1, o1, h1, _⟩ :=
    init_spec cap str len range m1 hlen hcap hrange hlast
  obtain ⟨r2, e2, p2, ⟨J2, s2⟩, f2, k2, o2, h2, _⟩ :=
    init_spec cap str len range m2 hlen hcap hrange hlast
  have hsuf := strict_unique str len J1 J2 r1.suffix r2.suffix p1 p2 s1 s2
  refine ⟨r1, r2, e1, e2, f1, ?_, hsuf, ?_, ?_⟩
  · rw [o1 (len - 1) (Or.inl rfl), o2 (len - 1) (Or.inl rfl)]
    exact hdiff
  · intro a ha
    obtain ⟨i, hi, e⟩ := p1.surj a (by omega)
    have hi0 : 1 ≤ i := by
      rcases Nat.eq_zero_or_pos i with h | h
      · rw [h, f1] at e
        omega
      · exact h
    have e' : r2.suffix i = a := by rw [← hsuf i hi, e]
    have q1 := k1 i hi0 hi
    have q2 := k2 i hi0 hi
    rw [e] at q1
    rw [e'] at q2
    rw [q1, q2]
  · intro i hi1 hi2
    rw [h1 i hi1 hi2, h2 i hi1 hi2, hsuf i hi2, hsuf (i - 1) (by omega)]

theorem init_keeps_rank_cell_witness :
    (0 < 4 ∧ (∀ i, i < 4 - 1 → ofList [2, 1, 2, 0] (4 - 1) < ofList [2, 1, 2, 0] i) ∧
      zeroMem.rank (4 - 1) ≠ ({ zeroMem with rank := fun _ => 5 } : Mem).rank (4 - 1)) ∧
    ∃ r1 r2, init_suffix_array 101101 (ofList [2, 1, 2, 0]) 4 127 zeroMem = some r1 ∧
      init_suffix_array 101101 (ofList [2, 1, 2, 0]) 4 127
        ({ zeroMem with rank := fun _ => 5 } : Mem) = some r2 ∧
      r1.suffix 0 = 4 - 1 ∧ r1.rank (4 - 1) ≠ r2.rank (4 - 1) ∧
      (∀ i, i < 4 → r1.suffix i = r2.suffix i) ∧
      (∀ a, a + 1 < 4 → r1.rank a = r2.rank a) ∧
      (∀ i, 1 ≤ i → i < 4 → r1.height i = r2.height i) :=
  ⟨⟨by decide, by decide, by decide⟩,
    init_keeps_rank_cell 101101 (ofList [2, 1, 2, 0]) 4 127 zeroMem
      ({ zeroMem with rank := fun _ => 5 } : Mem) (by decide) (by decide) (by decide)
      (by decide) (by decide)⟩

namespace P3415

/-- A run of the loop of lines 210-216 in which every product fits `int` is the run with
exact integers. -/
theorem popLayersInt_some (h : Nat) : ∀ (st : List (Nat × Nat)) (sl : Int × Nat)
    (r : List (Nat × Nat) × Int × Nat), popLayersInt h st sl = some r →
    r = popLayers h st sl := by
  intro st
  induction st with
  | nil =>
    intro sl r e
    have e' : some (([] : List (Nat × Nat)), sl) = some r := e
    exact (Option.some.inj e').symm
  | cons top rest ih =>
    intro sl r e
    by_cases hle : h ≤ top.2
    · by_cases hin : inInt ((top.1 : Int) * ((top.2 : Int) - (h : Int)))
      · have e1 : popLayersInt h (top :: rest) sl
            = popLayersInt h rest
                (sl.1 - (top.1 : Int) * ((top.2 : Int) - (h : Int)), sl.2 + top.1) := by
          simp only [popLayersInt, if_pos hle, if_pos hin]
        have e2 : popLayers h (top :: rest) sl
            = popLayers h rest
                (sl.1 - (top.1 : Int) * ((top.2 : Int) - (h : Int)), sl.2 + top.1) := by
          simp only [popLayers, if_pos hle]
        rw [e1] at e
        rw [e2]
        exact ih _ r e
      · have e1 : popLayersInt h (top :: rest) sl = none := by
          simp only [popLayersInt, if_pos hle, if_neg hin]
        rw [e1] at e
        exact absurd e (by simp)
    · have e1 : popLayersInt h (top :: rest) sl = some (top :: rest, sl) := by
        simp only [popLayersInt, if_neg hle]
      have e2 : popLayers h (top :: rest) sl = (top :: rest, sl) := by
        simp only [popLayers, if_neg hle]
      rw [e1] at e
      rw [e2]
      exact (Option.some.inj e).symm

theorem solveStepInt_some (g : Prog) (len : Nat) (opens counts : Nat → Bool) (i : Nat)
    (s r : List (Nat × Nat) × Int × Int) (e : solveStepInt g len opens counts i s = some r) :
    r = solveStep g len opens counts i s := by
  unfold solveStepInt at e
  unfold solveStep
  by_cases hK : len ≤ g.mem.height i
  · rw [if_pos hK] at e
    rw [if_pos hK]
    simp only at e
    simp only
    generalize hsl : (if opens (g.mem.suffix (i - 1)) = true
      then (s.2.1 + ((g.mem.height i : Int) - (len : Int) + 1), 1) else (s.2.1, 0)) = sl at e
    cases hp : popLayersInt (g.mem.height i) s.1 sl with
    | none =>
      rw [hp] at e
      exact absurd e (by simp)
    | some r' =>
      rw [hp, Option.map_some'] at e
      have := popLayersInt_some _ _ _ _ hp
      rw [← this]
      exact (Option.some.inj e).symm
  · rw [if_neg hK] at e
    rw [if_neg hK]
    exact (Option.some.inj e).symm

theorem forUp_int_some (g : Prog) (len : Nat) (opens counts : Nat → Bool)
    (s0 : List (Nat × Nat) × Int × Int) :
    ∀ k r, forUp 3 k (fun i s => s.bind (solveStepInt g len opens counts i)) (some s0) = some r →
      r = forUp 3 k (solveStep g len opens counts) s0 := by
  intro k
  induction k with
  | zero =>
    intro r e
    exact (Option.some.inj e).symm
  | succ k ih =>
    intro r e
    rw [forUp_succ] at e
    rw [forUp_succ]
    cases hp : forUp 3 k (fun i s => s.bind (solveStepInt g len opens counts i)) (some s0) with
    | none =>
      rw [hp] at e
      exact absurd e (by simp)
    | some r' =>
      rw [hp, Option.some_bind] at e
      rw [← ih r' hp]
      exact solveStepInt_some g len opens counts _ r' r e

/-- When no product of `solve` leaves the range of `int`, the result is that of the exact
integers. -/
theorem solveInt_some (g : Prog) (len : Nat) (v : Int) (e : solveInt g len = some v) :
    v = solve g len := by
  unfold solveInt at e
  unfold solve
  cases h1 : forUp 3 (g.str_len - 3)
      (fun i s => s.bind (solveStepInt g len (fun x => decide (g.len_of_A + 1 < x))
        (fun x => decide (x ≤ g.len_of_A)) i)) (some ([], 0, 0)) with
  | none =>
    rw [h1] at e
    exact absurd e (by simp)
  | some s1 =>
    rw [h1, Option.some_bind] at e
    have q1 := forUp_int_some g len _ _ _ _ _ h1
    cases h2 : forUp 3 (g.str_len - 3)
        (fun i s => s.bind (solveStepInt g len (fun x => decide (x ≤ g.len_of_A))
          (fun x => decide (g.len_of_A + 1 < x)) i)) (some ([], 0, s1.2.2)) with
    | none =>
      rw [h2] at e
      exact absurd e (by simp)
    | some s2 =>
      rw [h2, Option.map_some'] at e
      have q2 := forUp_int_some g len _ _ _ _ _ h2
      simp only
      rw [← q1, ← q2]
      exact (Option.some.inj e).symm

end P3415

namespace P3294

/-- A string that occurs in some input string is a prefix of a tail of one of them. -/
theorem occ_pos_mem (strs : List (List Nat)) (w : List Nat) (h : 0 < occurrences strs w) :
    ∃ s ∈ strs, ∃ t ∈ s.tails, w ∈ t.inits := by
  unfold occurrences at h
  obtain ⟨s, hs, hw⟩ := List.countP_pos_iff.1 h
  have hw' : w <:+: s := of_decide_eq_true hw
  obtain ⟨t, h1, h2⟩ := List.infix_iff_prefix_suffix.1 hw'
  exact ⟨s, hs, t, (List.mem_tails _ _).2 h2, (List.mem_inits _ _).2 h1⟩

/-- The search ends with `m` when `check` accepts `m` and refuses `m + 1`, and is
monotone. -/
theorem longest_eq (g : Prog)
    (hmono : ∀ L L', 1 ≤ L' → L' < L → check g L = 1 → check g L' = 1) (m : Nat)
    (hm : m < MAX_LEN) (h1 : check g m = 1) (h0 : check g (m + 1) ≠ 1) :
    longest g = some m := by
  obtain ⟨l, e, hl, h2, h3⟩ := search_spec g MAX_LEN hmono MAX_LEN 0 MAX_LEN
    (Nat.zero_le _) (Nat.le_refl _) (Nat.le_refl _) (Or.inl rfl)
    (fun L hL1 hL2 => by omega)
  have hge : m ≤ l := by
    by_contra hcon
    have := h3 m (by omega) (by omega)
    omega
  have hle : l ≤ m := by
    by_contra hcon
    have hl1 : check g l = 1 := by
      rcases h2 with h | h
      · omega
      · exact h
    rcases Nat.lt_or_ge (m + 1) l with h | h
    · exact h0 (hmono l (m + 1) (by omega) h hl1)
    · have : l = m + 1 := by omega
      rw [this] at hl1
      exact h0 hl1
  have : l = m := by omega
  show search g MAX_LEN 0 MAX_LEN = some m
  rw [e, this]

theorem eq_singleton_of_nodup {α : Type} (l : List α) (a : α) (nd : l.Nodup)
    (h : ∀ w, w ∈ l ↔ w = a) : l = [a] := by
  cases l with
  | nil => exact absurd ((h a).2 rfl) (List.not_mem_nil a)
  | cons x t =>
    have hx : x = a := (h x).1 (List.mem_cons_self _ _)
    cases t with
    | nil => rw [hx]
    | cons y t' =>
      have hy : y = a := (h y).1 (List.mem_cons_of_mem _ (List.mem_cons_self _ _))
      have := (List.nodup_cons.1 nd).1
      rw [hx, hy] at this
      exact absurd (List.mem_cons_self _ _) this

/-- C14: for the input strings `abcd` and `cdef`, whatever the globals held before,
`main` builds the suffix array, the binary search ends with the length 2, and `print(2)`
writes the single line `cd`. -/
theorem scenario_abcd_cdef (g0 : Prog) :
    ∃ g, load [[97, 98, 99, 100], [99, 100, 101, 102]] g0 = some g ∧
      longest g = some 2 ∧ ∀ mb0, print g 2 mb0 = [[99, 100]] := by
  have hv : Valid [[97, 98, 99, 100], [99, 100, 101, 102]] := by decide
  have hn : 2 ≤ [[97, 98, 99, 100], [99, 100, 101, 102]].length := by decide
  obtain ⟨g, e, hl⟩ := load_spec _ g0 hv
  have c2 : check g 2 = 1 :=
    (hl.check_spec hv hn 2 (by omega)).2 ⟨[99, 100], rfl, by decide⟩
  have enum3 : ∀ s ∈ [[97, 98, 99, 100], [99, 100, 101, 102]], ∀ t ∈ s.tails, ∀ w ∈ t.inits,
      w.length = 3 →
        ¬ [[97, 98, 99, 100], [99, 100, 101, 102]].length / 2
          < occurrences [[97, 98, 99, 100], [99, 100, 101, 102]] w := by decide
  have enum2 : ∀ s ∈ [[97, 98, 99, 100], [99, 100, 101, 102]], ∀ t ∈ s.tails, ∀ w ∈ t.inits,
      w.length = 2 →
        [[97, 98, 99, 100], [99, 100, 101, 102]].length / 2
          < occurrences [[97, 98, 99, 100], [99, 100, 101, 102]] w → w = [99, 100] := by
    decide
  have c3 : check g (2 + 1) ≠ 1 := by
    intro h
    obtain ⟨w, hw1, hw2⟩ := (hl.check_spec hv hn 3 (by omega)).1 h
    obtain ⟨s, hs, t, ht, hwt⟩ := occ_pos_mem _ w (Nat.lt_of_le_of_lt (Nat.zero_le _) hw2)
    exact enum3 s hs t ht w hwt hw1 hw2
  refine ⟨g, e, ?_, ?_⟩
  · exact longest_eq g (fun L L' h1 h2 h3 => hl.check_mono hv L L' h1 h2 h3) 2 (by decide)
      c2 c3
  · intro mb0
    obtain ⟨nd, hmem⟩ := hl.print_spec hv hn 2 mb0 (by omega)
    apply eq_singleton_of_nodup _ _ nd
    intro w
    rw [hmem w]
    constructor
    · rintro ⟨hw1, hw2⟩
      obtain ⟨s, hs, t, ht, hwt⟩ := occ_pos_mem _ w (Nat.lt_of_le_of_lt (Nat.zero_le _) hw2)
      exact enum2 s hs t ht w hwt hw1 hw2
    · intro hw
      rw [hw]
      exact ⟨rfl, by decide⟩

/-- C16, amended: for the input strings `xy`, `yz` and `zx`, whatever the globals held
before, `check(1)` returns 1, since each of `x`, `y` and `z` occurs in two of the three
strings; the binary search ends with the length 1, and `main` writes no line `?` but the
lines of `print(1)`, which are `x`, `y` and `z`, each once. -/
theorem scenario_xy_yz_zx (g0 : Prog) :
    ∃ g, load [[120, 121], [121, 122], [122, 120]] g0 = some g ∧
      check g 1 = 1 ∧ longest g = some 1 ∧
      ∀ mb0, report g mb0 = some (print g 1 mb0 ++ [[]]) ∧
        [63] ∉ print g 1 mb0 ++ [[]] ∧ (print g 1 mb0).Nodup ∧
        ∀ w, w ∈ print g 1 mb0 ↔ (w = [120] ∨ w = [121] ∨ w = [122]) := by
  have hv : Valid [[120, 121], [121, 122], [122, 120]] := by decide
  have hn : 2 ≤ [[120, 121], [121, 122], [122, 120]].length := by decide
  obtain ⟨g, e, hl⟩ := load_spec _ g0 hv
  have c1 : check g 1 = 1 :=
    (hl.check_spec hv hn 1 (by omega)).2 ⟨[121], rfl, by decide⟩
  have enum2 : ∀ s ∈ [[120, 121], [121, 122], [122, 120]], ∀ t ∈ s.tails, ∀ w ∈ t.inits,
      w.length = 2 →
        ¬ [[120, 121], [121, 122], [122, 120]].length / 2
          < occurrences [[120, 121], [121, 122], [122, 120]] w := by decide
  have enum1 : ∀ s ∈ [[120, 121], [121, 122], [122, 120]], ∀ t ∈ s.tails, ∀ w ∈ t.inits,
      w.length = 1 → (w = [120] ∨ w = [121] ∨ w = [122]) := by decide
  have c2 : check g (1 + 1) ≠ 1 := by
    intro h
    obtain ⟨w, hw1, hw2⟩ := (hl.check_spec hv hn 2 (by omega)).1 h
    obtain ⟨s, hs, t, ht, hwt⟩ := occ_pos_mem _ w (Nat.lt_of_le_of_lt (Nat.zero_le _) hw2)
    exact enum2 s hs t ht w hwt hw1 hw2
  have e1 : longest g = some 1 :=
    longest_eq g (fun L L' h1 h2 h3 => hl.check_mono hv L L' h1 h2 h3) 1 (by decide) c1 c2
  refine ⟨g, e, c1, e1, ?_⟩
  intro mb0
  obtain ⟨out, ho1, ho2, _, ho4⟩ := report_cases g mb0 1 e1
  obtain ⟨_, ho5⟩ := ho4 (by omega)
  rw [ho5] at ho1 ho2
  obtain ⟨nd, hmem⟩ := hl.print_spec hv hn 1 mb0 (by omega)
  refine ⟨ho1, fun hm => absurd (ho2.1 hm) (by omega), nd, ?_⟩
  intro w
  rw [hmem w]
  constructor
  · rintro ⟨hw1, hw2⟩
    obtain ⟨s, hs, t, ht, hwt⟩ := occ_pos_mem _ w (Nat.lt_of_le_of_lt (Nat.zero_le _) hw2)
    exact enum1 s hs t ht w hwt hw1
  · rintro (hw | hw | hw) <;> rw [hw] <;> exact ⟨rfl, by decide⟩

end P3294

/-- Kasai's bound on the heights of two consecutive offsets, for a strictly sorted
permutation with its ranks and true heights. -/
theorem height_next (str : Arr) (n J : Nat) (sfx rank height : Arr) (hperm : PermOn n sfx)
    (hstrict : StrictBy str n J sfx) (hs0 : sfx 0 = n - 1)
    (hrank : ∀ i, 1 ≤ i → i < n → rank (sfx i) = i)
    (hh : ∀ i, 1 ≤ i → i < n →
      height i = lcp (sufList str n (sfx i)) (sufList str n (sfx (i - 1))))
    (k : Nat) (hk : k + 2 < n) :
    height (rank k) ≤ height (rank (k + 1)) + 1 := by
  have hF : ∀ a, a + 1 < n → 1 ≤ rank a ∧ rank a < n ∧ sfx (rank a) = a := by
    intro a ha
    obtain ⟨i, hi, e⟩ := hperm.surj a (by omega)
    have hi0 : i ≠ 0 := by
      intro h0'
      rw [h0', hs0] at e
      omega
    have := hrank i (by omega) hi
    rw [e] at this
    rw [this]
    exact ⟨by omega, hi, e⟩
  obtain ⟨a1, a2, a3⟩ := hF k (by omega)
  obtain ⟨b1, b2, b3⟩ := hF (k + 1) (by omega)
  have hc : Common str n (height (rank k)) k (sfx (rank k - 1)) := by
    have := (lcp_ge_iff str n (height (rank k)) (sfx (rank k)) (sfx (rank k - 1))).1
      (by rw [hh (rank k) a1 a2])
    rw [a3] at this
    exact this
  obtain ⟨e1, e2⟩ := (common_iff_key str n _ _ _).1 hc
  have e3 := kasai_step str n J sfx rank hperm hstrict hF k hk _ e1
  have hc' : Common str n (height (rank k) - 1) (k + 1) (sfx (rank (k + 1) - 1)) := by
    rw [common_iff_key]
    refine ⟨e3, ?_⟩
    intro k' hk'
    have := e2 (k' + 1) (by omega)
    omega
  have := (lcp_ge_iff str n _ _ _).2 hc'
  rw [hh (rank (k + 1)) b1 b2, b3]
  omega

/-- C21: for a non-empty text with values below `range` whose last character is strictly
below every other, `init_suffix_array` returns and the arrays it builds satisfy
`height[rank[i+1]] >= height[rank[i]] - 1` for every offset `i` with `i + 1 <= len - 2`. -/
theorem height_drops_by_one (cap : Nat) (str : Arr) (len range : Nat) (m : Mem)
    (hlen : 0 < len) (hcap : len ≤ cap) (hrange : ∀ i, i < len → str i < range)
    (hlast : ∀ i, i < len - 1 → str (len - 1) < str i) :
    ∃ m', init_suffix_array cap str len range m = some m' ∧
      ∀ i, i + 3 ≤ len → m'.height (m'.rank i) ≤ m'.height (m'.rank (i + 1)) + 1 := by
  obtain ⟨m', e, hperm, ⟨J, hs⟩, hs0, hr, _, hh, _⟩ :=
    init_spec cap str len range m hlen hcap hrange hlast
  exact ⟨m', e, fun i hi =>
    height_next str len J m'.suffix m'.rank m'.height hperm hs hs0 hr hh i (by omega)⟩

theorem height_drops_by_one_witness :
    (0 < 4 ∧ ∀ i, i < 4 - 1 → ofList [2, 1, 2, 0] (4 - 1) < ofList [2, 1, 2, 0] i) ∧
    ∃ m', init_suffix_array 101101 (ofList [2, 1, 2, 0]) 4 127 zeroMem = some m' ∧
      ∀ i, i + 3 ≤ 4 → m'.height (m'.rank i) ≤ m'.height (m'.rank (i + 1)) + 1 :=
  ⟨⟨by decide, by decide⟩,
    height_drops_by_one 101101 (ofList [2, 1, 2, 0]) 4 127 zeroMem (by decide) (by decide)
      (by decide) (by decide)⟩

/-- C22: in both loops of `solve`, after every pass, the heights of the layers of the
stack (listed from the top down) fall strictly, that is, they rise strictly from the
bottom of the stack to its top; for every content of the arrays, every `len_of_A` and
every `K`. -/
theorem stack_heights_rise (g : P3415.Prog) (K cnt : Nat) :
    List.Pairwise (fun x y : Nat × Nat => y.2 < x.2)
      (forUp 3 cnt
        (P3415.solveStep g K (fun x => decide (g.len_of_A + 1 < x))
          (fun x => decide (x ≤ g.len_of_A))) ([], 0, 0)).1 ∧
    List.Pairwise (fun x y : Nat × Nat => y.2 < x.2)
      (forUp 3 cnt
        (P3415.solveStep g K (fun x => decide (x ≤ g.len_of_A))
          (fun x => decide (g.len_of_A + 1 < x)))
        ([], 0, (forUp 3 (g.str_len - 3)
          (P3415.solveStep g K (fun x => decide (g.len_of_A + 1 < x))
            (fun x => decide (x ≤ g.len_of_A))) ([], 0, 0)).2.2)).1 :=
  ⟨(P3415.pass_inv g K _ _ 0 cnt).1, (P3415.pass_inv g K _ _ _ cnt).1⟩

/-- The number of ranks that a pass of the doubling loop assigns is at most the length. -/
theorem doublingStep_p_le (str : Arr) (n j : Nat) (k : Keys) (h : DInv str n j k)
    (hp : k.p < n)
    (hcmp : ∀ a b, a < n → b < n → a ≠ b → keyOf str n j a = keyOf str n j b →
      (k.fst_key (a + j) = k.fst_key (b + j) ↔
        keyOf str n j (a + j) = keyOf str n j (b + j))) :
    (doublingStep n j k).p ≤ n := by
  have h2 := doublingStep_inv str n j k h hp hcmp
  have hn : 0 < n := by omega
  have e : (doublingStep n j k).p
      = (rerank n j (doublingStep n j k).suffix k.fst_key
          (fillSnd n j k.suffix k.snd_key).1).2 := rfl
  rw [e, (rerank_spec n j _ k.fst_key _ hn h2.1).1]
  have := newRank_le j (doublingStep n j k).suffix k.fst_key (n - 1)
  omega

/-- More passes allowed do not change the result of the doubling loop. -/
theorem doubling_more (n : Nat) : ∀ fuel j k r, doubling n fuel j k = some r →
    doubling n (fuel + 1) j k = some r := by
  intro fuel
  induction fuel with
  | zero =>
    intro j k r e
    unfold doubling at e
    by_cases hp : k.p < n
    · rw [if_pos hp] at e
      exact absurd e (by simp)
    · rw [if_neg hp] at e
      unfold doubling
      rw [if_neg hp]
      exact e
  | succ fuel ih =>
    intro j k r e
    rw [doubling] at e
    rw [doubling]
    by_cases hp : k.p < n
    · rw [if_pos hp] at e
      rw [if_pos hp]
      by_cases hj : j ≤ n
      · rw [if_pos hj] at e
        rw [if_pos hj]
        exact ih _ _ _ e
      · rw [if_neg hj] at e
        exact absurd e (by simp)
    · rw [if_neg hp] at e
      rw [if_neg hp]
      exact e

theorem doubling_more_le (n : Nat) (fuel fuel' j : Nat) (k r : Keys) (hf : fuel ≤ fuel')
    (e : doubling n fuel j k = some r) : doubling n fuel' j k = some r := by
  obtain ⟨d, rfl⟩ := Nat.exists_eq_add_of_le hf
  induction d with
  | zero => exact e
  | succ d ih => exact doubling_more n _ j k r (ih (Nat.le_add_right _ _))

/-- The doubling loop ends within `fuel` passes when `j * 2 ^ fuel` reaches the length,
with as many ranks as offsets. -/
theorem doubling_log (str : Arr) (n : Nat) :
    ∀ fuel j k, DInv str n j k → k.p ≤ n → n ≤ j * 2 ^ fuel →
      (∀ J a b, j ≤ J → a < n → b < n → a ≠ b → keyOf str n J a = keyOf str n J b →
        a + J < n) →
      ∃ k', doubling n fuel j k = some k' ∧ k'.p = n := by
  intro fuel
  induction fuel with
  | zero =>
    intro j k h hle hf _
    have hp : ¬ k.p < n := by
      intro hp
      have := h.2.2.2.2.2.1 hp
      omega
    refine ⟨k, ?_, by omega⟩
    unfold doubling
    rw [if_neg hp]
  | succ fuel ih =>
    intro j k h hle hf hin
    by_cases hp : k.p < n
    · have hj := h.2.2.2.2.2.1 hp
      have hcmp : ∀ a b, a < n → b < n → a ≠ b → keyOf str n j a = keyOf str n j b →
          (k.fst_key (a + j) = k.fst_key (b + j) ↔
            keyOf str n j (a + j) = keyOf str n j (b + j)) := by
        intro a b ha hb hab e
        have h1 := hin j a b (Nat.le_refl j) ha hb hab e
        have h2 := hin j b a (Nat.le_refl j) hb ha (Ne.symm hab) e.symm
        exact h.2.2.1.eq_iff _ _ h1 h2
      have hstep := doublingStep_inv str n j k h hp hcmp
      have hple := doublingStep_p_le str n j k h hp hcmp
      obtain ⟨k', e, hk'⟩ := ih (2 * j) _ hstep hple (by
          rw [pow_succ] at hf
          calc n ≤ j * (2 ^ fuel * 2) := hf
            _ = 2 * j * 2 ^ fuel := by ring)
        (fun J a b hJ => hin J a b (by have := h.2.2.2.2.1; omega))
      refine ⟨k', ?_, hk'⟩
      rw [doubling, if_pos hp, if_pos (Nat.le_of_lt hj)]
      exact e
    · refine ⟨k, ?_, by omega⟩
      rw [doubling, if_neg hp]

/-- C23: for a non-empty text with values below `range` whose last character is strictly
below every other, the doubling loop of `init_suffix_array` ends within
`ceil(log2 len)` passes, hence within `ceil(log2 len) + 1`, with `p = len`; the state it
ends with is the one that `init_suffix_array` goes on with. -/
theorem doubling_rounds (str : Arr) (len range : Nat) (m : Mem)
    (hlen : 0 < len) (hrange : ∀ i, i < len → str i < range)
    (hlast : ∀ i, i < len - 1 → str (len - 1) < str i) :
    ∃ k, k.p = len ∧
      (∀ fuel, Nat.clog 2 len ≤ fuel →
        doubling len fuel 1
          { suffix := (firstSort str len range m.fst_buf m.bucket m.suffix).2.2,
            bucket := (firstSort str len range m.fst_buf m.bucket m.suffix).2.1,
            fst_key := (firstSort str len range m.fst_buf m.bucket m.suffix).1,
            snd_key := m.snd_buf, swapped := false, p := 1, range := range } = some k) ∧
      doubling len len 1
          { suffix := (firstSort str len range m.fst_buf m.bucket m.suffix).2.2,
            bucket := (firstSort str len range m.fst_buf m.bucket m.suffix).2.1,
            fst_key := (firstSort str len range m.fst_buf m.bucket m.suffix).1,
            snd_key := m.snd_buf, swapped := false, p := 1, range := range } = some k := by
  have hU' : ∀ i, i + 1 < len → str (len - 1) < str i := fun i hi => hlast i (by omega)
  have hinv := firstSort_inv str len range m.fst_buf m.bucket m.suffix m.snd_buf false hrange
  obtain ⟨k, e, hk⟩ := doubling_log str len (Nat.clog 2 len) 1 _ hinv hlen
    (by rw [Nat.one_mul]; exact Nat.le_pow_clog (by omega) len)
    (fun J a b _ ha hb hab e => keyOf_eq_inside str len J a b hU' ha hb hab e)
  refine ⟨k, hk, fun fuel hf => doubling_more_le len _ fuel 1 _ k hf e, ?_⟩
  apply doubling_more_le len _ len 1 _ k _ e
  exact (Nat.le_pow_iff_clog_le (by omega)).1 (Nat.le_of_lt (Nat.lt_two_pow len))

theorem doubling_rounds_witness :
    (0 < 4 ∧ ∀ i, i < 4 - 1 → ofList [2, 1, 2, 0] (4 - 1) < ofList [2, 1, 2, 0] i) ∧
    ∃ k, k.p = 4 ∧
      (∀ fuel, Nat.clog 2 4 ≤ fuel →
        doubling 4 fuel 1
          { suffix := (firstSort (ofList [2, 1, 2, 0]) 4 127 zeroMem.fst_buf zeroMem.bucket
              zeroMem.suffix).2.2,
            bucket := (firstSort (ofList [2, 1, 2, 0]) 4 127 zeroMem.fst_buf zeroMem.bucket
              zeroMem.suffix).2.1,
            fst_key := (firstSort (ofList [2, 1, 2, 0]) 4 127 zeroMem.fst_buf zeroMem.bucket
              zeroMem.suffix).1,
            snd_key := zeroMem.snd_buf, swapped := false, p := 1, range := 127 } = some k) ∧
      doubling 4 4 1
          { suffix := (firstSort (ofList [2, 1, 2, 0]) 4 127 zeroMem.fst_buf zeroMem.bucket
              zeroMem.suffix).2.2,
            bucket := (firstSort (ofList [2, 1, 2, 0]) 4 127 zeroMem.fst_buf zeroMem.bucket
              zeroMem.suffix).2.1,
            fst_key := (firstSort (ofList [2, 1, 2, 0]) 4 127 zeroMem.fst_buf zeroMem.bucket
              zeroMem.suffix).1,
            snd_key := zeroMem.snd_buf, swapped := false, p := 1, range := 127 } = some k :=
  ⟨⟨by decide, by decide⟩,
    doubling_rounds (ofList [2, 1, 2, 0]) 4 127 zeroMem (by decide) (by decide) (by decide)⟩

/-- What a pass of the doubling loop does with the offsets that have no second key. -/
theorem round_order (str : Arr) (n j : Nat) (k : Keys) (h : DInv str n j k)
    (hp : k.p < n) :
    (∀ q, q < j → (fillSnd n j k.suffix k.snd_key).1 q = n - j + q) ∧
    (∀ q, j ≤ q → q < n → (fillSnd n j k.suffix k.snd_key).1 q + j < n) ∧
    (∀ x y, x < y → y < n → ∃ i i', i < n ∧ i' < n ∧
      (doublingStep n j k).suffix x = (fillSnd n j k.suffix k.snd_key).1 i ∧
      (doublingStep n j k).suffix y = (fillSnd n j k.suffix k.snd_key).1 i' ∧
      (k.fst_key ((fillSnd n j k.suffix k.snd_key).1 i)
          < k.fst_key ((fillSnd n j k.suffix k.snd_key).1 i') ∨
        (k.fst_key ((fillSnd n j k.suffix k.snd_key).1 i)
          = k.fst_key ((fillSnd n j k.suffix k.snd_key).1 i') ∧ i < i'))) := by
  obtain ⟨hperm, hsorted, _, hrange, _, hjn, _⟩ := h
  have hj : j < n := hjn hp
  obtain ⟨_, hskp, _⟩ := fillSnd_sorted str n j k.suffix k.snd_key (Nat.le_of_lt hj)
    hperm hsorted
  obtain ⟨_, hhead, _⟩ := fillSnd_spec n j k.suffix k.snd_key
  generalize hsk : (fillSnd n j k.suffix k.snd_key).1 = sk at hskp hhead
  have hk : ∀ i, i < n → k.fst_key (sk i) < k.range := fun i hi => hrange _ (hskp.1 i hi)
  obtain ⟨hplace, _⟩ := keySort_spec n k.range k.fst_key sk k.bucket k.suffix hk
  have esfx : (doublingStep n j k).suffix
      = (keySort n k.range k.fst_key sk k.bucket k.suffix).2 := by
    show (keySort n k.range k.fst_key (fillSnd n j k.suffix k.snd_key).1 k.bucket k.suffix).2
      = _
    rw [hsk]
  obtain ⟨_, hord⟩ := placed_perm n (fun i => k.fst_key (sk i)) sk
    (keySort n k.range k.fst_key sk k.bucket k.suffix).2 hskp hplace
  refine ⟨hhead, ?_, ?_⟩
  · intro q hq1 hq2
    have h1 := hskp.1 q hq2
    by_contra hcon
    have h2 := hhead (sk q - (n - j)) (by omega)
    have h3 : sk (sk q - (n - j)) = sk q := by rw [h2]; omega
    have := hskp.2 _ q (by omega) hq2 h3
    omega
  · intro x y hxy hy
    rw [esfx]
    exact hord x y hxy hy

/-- C25: in a pass of the doubling loop with step `j` (the loop invariant holds and
`p < len`), the offsets with `offset + j >= len` are `snd_key[0..j)`, every later entry
of `snd_key` has a second key, the bucket sort orders `suffix` by the first key and keeps
the order of `snd_key` among equal first keys, and so among offsets with equal first key
those without a second key come before all others in the new `suffix`. -/
theorem no_second_key_first (str : Arr) (n j : Nat) (k : Keys) (h : DInv str n j k)
    (hp : k.p < n) :
    (∀ q, q < j → (fillSnd n j k.suffix k.snd_key).1 q = n - j + q) ∧
    (∀ q, j ≤ q → q < n → (fillSnd n j k.suffix k.snd_key).1 q + j < n) ∧
    (∀ x y, x < y → y < n → ∃ i i', i < n ∧ i' < n ∧
      (doublingStep n j k).suffix x = (fillSnd n j k.suffix k.snd_key).1 i ∧
      (doublingStep n j k).suffix y = (fillSnd n j k.suffix k.snd_key).1 i' ∧
      (k.fst_key ((fillSnd n j k.suffix k.snd_key).1 i)
          < k.fst_key ((fillSnd n j k.suffix k.snd_key).1 i') ∨
        (k.fst_key ((fillSnd n j k.suffix k.snd_key).1 i)
          = k.fst_key ((fillSnd n j k.suffix k.snd_key).1 i') ∧ i < i'))) ∧
    (∀ x y, x < n → y < n →
      k.fst_key ((doublingStep n j k).suffix x) = k.fst_key ((doublingStep n j k).suffix y) →
      n ≤ (doublingStep n j k).suffix x + j → (doublingStep n j k).suffix y + j < n →
      x < y) := by
  obtain ⟨h1, h2, h3⟩ := round_order str n j k h hp
  refine ⟨h1, h2, h3, ?_⟩
  intro x y hx hy ekey hxj hyj
  by_contra hcon
  have hne : x ≠ y := by
    intro e
    rw [e] at hxj
    omega
  obtain ⟨i, i', hi, hi', e, e', hor⟩ := h3 y x (by omega) hx
  rw [e, e'] at ekey
  rw [e'] at hxj
  rw [e] at hyj
  have hi'j : i' < j := by
    by_contra hc
    have := h2 i' (by omega) hi'
    omega
  rcases hor with h4 | ⟨_, h4⟩
  · omega
  · have := h1 i (by omega)
    omega

theorem no_second_key_first_witness :
    (DInv (ofList [2, 1, 2, 0]) 4 1
        { suffix := (firstSort (ofList [2, 1, 2, 0]) 4 127 zeroMem.fst_buf zeroMem.bucket
            zeroMem.suffix).2.2,
          bucket := (firstSort (ofList [2, 1, 2, 0]) 4 127 zeroMem.fst_buf zeroMem.bucket
            zeroMem.suffix).2.1,
          fst_key := (firstSort (ofList [2, 1, 2, 0]) 4 127 zeroMem.fst_buf zeroMem.bucket
            zeroMem.suffix).1,
          snd_key := zeroMem.snd_buf, swapped := false, p := 1, range := 127 } ∧
      (1 : Nat) < 4) ∧
    ∀ x y, x < 4 → y < 4 →
      (firstSort (ofList [2, 1, 2, 0]) 4 127 zeroMem.fst_buf zeroMem.bucket zeroMem.suffix).1
          ((doublingStep 4 1
            { suffix := (firstSort (ofList [2, 1, 2, 0]) 4 127 zeroMem.fst_buf zeroMem.bucket
                zeroMem.suffix).2.2,
              bucket := (firstSort (ofList [2, 1, 2, 0]) 4 127 zeroMem.fst_buf zeroMem.bucket
                zeroMem.suffix).2.1,
              fst_key := (firstSort (ofList [2, 1, 2, 0]) 4 127 zeroMem.fst_buf
                zeroMem.bucket zeroMem.suffix).1,
              snd_key := zeroMem.snd_buf, swapped := false, p := 1, range := 127 }).suffix x)
        = (firstSort (ofList [2, 1, 2, 0]) 4 127 zeroMem.fst_buf zeroMem.bucket
            zeroMem.suffix).1
          ((doublingStep 4 1
            { suffix := (firstSort (ofList [2, 1, 2, 0]) 4 127 zeroMem.fst_buf zeroMem.bucket
                zeroMem.suffix).2.2,
              bucket := (firstSort (ofList [2, 1, 2, 0]) 4 127 zeroMem.fst_buf zeroMem.bucket
                zeroMem.suffix).2.1,
              fst_key := (firstSort (ofList [2, 1, 2, 0]) 4 127 zeroMem.fst_buf
                zeroMem.bucket zeroMem.suffix).1,
              snd_key := zeroMem.snd_buf, swapped := false, p := 1, range := 127 }).suffix y) →
      4 ≤ (doublingStep 4 1
            { suffix := (firstSort (ofList [2, 1, 2, 0]) 4 127 zeroMem.fst_buf zeroMem.bucket
                zeroMem.suffix).2.2,
              bucket := (firstSort (ofList [2, 1, 2, 0]) 4 127 zeroMem.fst_buf zeroMem.bucket
                zeroMem.suffix).2.1,
              fst_key := (firstSort (ofList [2, 1, 2, 0]) 4 127 zeroMem.fst_buf
                zeroMem.bucket zeroMem.suffix).1,
              snd_key := zeroMem.snd_buf, swapped := false, p := 1, range := 127 }).suffix x
          + 1 →
      (doublingStep 4 1
            { suffix := (firstSort (ofList [2, 1, 2, 0]) 4 127 zeroMem.fst_buf zeroMem.bucket
                zeroMem.suffix).2.2,
              bucket := (firstSort (ofList [2, 1, 2, 0]) 4 127 zeroMem.fst_buf zeroMem.bucket
                zeroMem.suffix).2.1,
              fst_key := (firstSort (ofList [2, 1, 2, 0]) 4 127 zeroMem.fst_buf
                zeroMem.bucket zeroMem.suffix).1,
              snd_key := zeroMem.snd_buf, swapped := false, p := 1, range := 127 }).suffix y
          + 1 < 4 →
      x < y :=
  ⟨⟨firstSort_inv (ofList [2, 1, 2, 0]) 4 127 zeroMem.fst_buf zeroMem.bucket zeroMem.suffix
      zeroMem.snd_buf false (by decide), by decide⟩,
    (no_second_key_first (ofList [2, 1, 2, 0]) 4 1 _
      (firstSort_inv (ofList [2, 1, 2, 0]) 4 127 zeroMem.fst_buf zeroMem.bucket zeroMem.suffix
        zeroMem.snd_buf false (by decide)) (by decide)).2.2.2⟩

namespace P3294

/-- Two offsets whose suffixes agree on `len` characters give the same line. -/
theorem line_of_common (g : Prog) (len p q : Nat) (h : Common g.str g.str_len len p q) :
    line g len p = line g len q := by
  unfold line
  apply List.map_congr_left
  intro k hk
  rw [(h k (List.mem_range.1 hk)).2.2]

/-- C28: on every valid input, for every `len` and whatever `match_base` held, `print(len)`
writes one line for every index `c` at which a qualifying stretch ends, and that line, which
the code reads at the offset `suffix[c - 1]` of the last suffix of the stretch, is the
string of length `len` at the offset `suffix[s - 1]` of its first suffix, for every index
`s` from which the heights up to `c - 1` are at least `len`. -/
theorem print_run_start (strs : List (List Nat)) (g0 : Prog) (hv : Valid strs) :
    ∃ g, load strs g0 = some g ∧ ∀ len mb0,
      ∃ cs : List Nat,
        print g len mb0 = cs.map (fun c => line g len (g.mem.suffix (c - 1))) ∧
        (∀ c, c ∈ cs ↔ (2 ≤ c ∧ c ≤ g.str_len ∧ Closes g len 2 c)) ∧
        ∀ c, c ∈ cs → ∀ s, 2 ≤ s → s < c → (∀ t, s ≤ t → t < c → len ≤ g.mem.height t) →
          line g len (g.mem.suffix (c - 1)) = line g len (g.mem.suffix (s - 1)) := by
  obtain ⟨g, e, hl⟩ := load_spec strs g0 hv
  refine ⟨g, e, ?_⟩
  intro len mb0
  obtain ⟨hN, _⟩ := hl.len_ge hv
  obtain ⟨cs, ecs, _, hmem⟩ := printLoop_spec g len (g.str_len - 1) 2 (fun _ => 0, 0) mb0 []
    2 (Nat.le_refl 2) (Nat.le_refl 2) (by intro t h1 h2; omega) (by
      have e2 : owners g 2 2 = ∅ := by
        unfold owners
        rw [if_neg (Nat.lt_irrefl _)]
      rw [e2]
      exact marks_empty) (fun hlt => absurd hlt (Nat.lt_irrefl _))
  have hmem' : ∀ c, c ∈ cs ↔ (2 ≤ c ∧ c ≤ g.str_len ∧ Closes g len 2 c) := by
    intro c
    rw [hmem c]
    constructor
    · rintro ⟨h1, h2, h3⟩
      exact ⟨h1, by omega, h3⟩
    · rintro ⟨h1, h2, h3⟩
      exact ⟨h1, by omega, h3⟩
  refine ⟨cs, ?_, hmem', ?_⟩
  · unfold print
    rw [ecs, List.nil_append]
  · intro c hc s hs1 hs2 hrun
    obtain ⟨_, hc2, _⟩ := (hmem' c).1 hc
    have hcom := common_of_heights g.str g.str_len len g.mem.suffix g.mem.height hl.height
      (s - 1) (c - 1) (by omega) (by omega) (fun t h1 h2 => hrun t (by omega) (by omega))
      (c - 1) (by omega) (Nat.le_refl _)
    exact (line_of_common g len _ _ hcom).symm

theorem print_run_start_witness :
    Valid [[97, 98], [98]] ∧
    ∃ g, load [[97, 98], [98]] start = some g ∧ ∀ len mb0,
      ∃ cs : List Nat,
        print g len mb0 = cs.map (fun c => line g len (g.mem.suffix (c - 1))) ∧
        (∀ c, c ∈ cs ↔ (2 ≤ c ∧ c ≤ g.str_len ∧ Closes g len 2 c)) ∧
        ∀ c, c ∈ cs → ∀ s, 2 ≤ s → s < c → (∀ t, s ≤ t → t < c → len ≤ g.mem.height t) →
          line g len (g.mem.suffix (c - 1)) = line g len (g.mem.suffix (s - 1)) :=
  ⟨by decide, print_run_start [[97, 98], [98]] start (by decide)⟩

/-- After a valid input of at least two strings is loaded, `print(len)` writes a line for
`len >= 1` exactly when `check(len)` returns 1. -/
theorem Loaded.print_iff_check {strs : List (List Nat)} {g : Prog} (h : Loaded strs g)
    (hv : Valid strs) (hn : 2 ≤ strs.length) (len mb0 : Nat) (hlen : 1 ≤ len) :
    print g len mb0 ≠ [] ↔ check g len = 1 := by
  obtain ⟨_, hmem⟩ := h.print_spec hv hn len mb0 hlen
  rw [h.check_spec hv hn len hlen]
  constructor
  · intro hne
    obtain ⟨w, hw⟩ := List.exists_mem_of_ne_nil _ hne
    exact ⟨w, (hmem w).1 hw⟩
  · rintro ⟨w, hw⟩ hnil
    have := (hmem w).2 hw
    rw [hnil] at this
    exact absurd this (List.not_mem_nil w)

end P3294

/-- The inner loop of line 159 never returns less than it starts from. -/
theorem matchLen_ge (str : Arr) (i j : Nat) :
    ∀ fuel p p', matchLen str i j fuel p = some p' → p ≤ p' := by
  intro fuel
  induction fuel with
  | zero =>
    intro p p' h
    simp [matchLen] at h
  | succ fuel ih =>
    intro p p' h
    unfold matchLen at h
    by_cases e : str (i + p) = str (j + p)
    · rw [if_pos e] at h
      have := ih (p + 1) p' h
      omega
    · rw [if_neg e] at h
      have : p = p' := Option.some.inj h
      omega

/-- When the inner loop of line 159 stops at a place inside the text for both suffixes,
every one of its reads was inside the text. -/
theorem matchLenIn_of (str : Arr) (len i j : Nat) :
    ∀ fuel p p', matchLen str i j fuel p = some p' → i + p' < len → j + p' < len →
      matchLenIn str len i j fuel p = some p' := by
  intro fuel
  induction fuel with
  | zero =>
    intro p p' h
    simp [matchLen] at h
  | succ fuel ih =>
    intro p p' h hi hj
    have hge := matchLen_ge str i j _ p p' h
    unfold matchLen at h
    unfold matchLenIn
    rw [if_pos ⟨by omega, by omega⟩]
    by_cases e : str (i + p) = str (j + p)
    · rw [if_pos e] at h ⊢
      exact ih (p + 1) p' h hi hj
    · rw [if_neg e] at h ⊢
      exact h

/-- On a sorted text whose last character is the smallest, the height loop with checked
reads runs exactly as the loop of lines 156-160. -/
theorem heightLoopIn_eq (cap : Nat) (str : Arr) (n J : Nat) (sfx rank h0 : Arr)
    (hcap : n ≤ cap) (hperm : PermOn n sfx) (hstrict : StrictBy str n J sfx)
    (hs0 : sfx 0 = n - 1) (hrank : ∀ i, 1 ≤ i → i < n → rank (sfx i) = i)
    (hU : ∀ i, i + 1 < n → str (n - 1) < str i) :
    heightLoopIn cap str sfx rank n h0 = heightLoop cap str sfx rank n h0 := by
  have hraw : ∀ a b q, a < n → b < n → a ≠ b → keyOf str n q a = keyOf str n q b →
      (str (a + q) = str (b + q) ↔ ext str n (a + q) = ext str n (b + q)) := by
    intro a b q ha hb hab e
    have h1 := keyOf_eq_inside str n q a b hU ha hb hab e
    have h2 := keyOf_eq_inside str n q b a hU hb ha (Ne.symm hab) e.symm
    rw [ext_inside str n _ h1, ext_inside str n _ h2]
    omega
  have hF := rank_of_offset n sfx rank hperm hs0 hrank
  have main : ∀ K, K ≤ n - 1 →
      forUp 0 K (fun i st =>
        st.bind (fun (hp : Arr × Nat) =>
          if rank i = 0 then none
          else (matchLenIn str n i (sfx (rank i - 1)) cap (hp.2 - 1)).map
            (fun p => (setAt hp.1 (rank i) p, p)))) (some (h0, 0))
      = forUp 0 K (fun i st =>
        st.bind (fun (hp : Arr × Nat) =>
          if rank i = 0 then none
          else (matchLen str i (sfx (rank i - 1)) cap (hp.2 - 1)).map
            (fun p => (setAt hp.1 (rank i) p, p)))) (some (h0, 0)) := by
    intro K
    induction K with
    | zero => intro _; rfl
    | succ K ih =>
      intro hK
      rw [forUp_succ, forUp_succ, ih (by omega)]
      obtain ⟨h, p, e, _, hB, _⟩ := heightLoop_inv cap str n J sfx rank h0 hcap hperm hstrict
        hs0 hrank hraw K (by omega)
      rw [e]
      simp only [Nat.zero_add, Option.some_bind]
      obtain ⟨hk1, hk2, hk3⟩ := hF K (by omega)
      rw [if_neg (show ¬ rank K = 0 by omega), if_neg (show ¬ rank K = 0 by omega)]
      have hbn : sfx (rank K - 1) < n := hperm.1 _ (by omega)
      have hbk : K ≠ sfx (rank K - 1) := by
        intro e'
        rw [← hk3] at e'
        have := hperm.2 (rank K) (rank (sfx (rank K)) - 1) hk2 (by rw [hk3]; omega) e'
        rw [hk3] at this
        omega
      obtain ⟨p', e1, e2, _⟩ := matchLen_spec str n K (sfx (rank K - 1)) (by omega) hbn hbk
        (fun q hq => hraw _ _ q (by omega) hbn hbk hq) cap (p - 1) (hB (by omega)) (by omega)
      have i1 := keyOf_eq_inside str n p' K _ hU (by omega) hbn hbk e2
      have i2 := keyOf_eq_inside str n p' _ K hU hbn (by omega) (Ne.symm hbk) e2.symm
      rw [e1, matchLenIn_of str n K _ cap (p - 1) p' e1 i1 i2]
  exact main (n - 1) (Nat.le_refl _)

/-- On a non-empty text whose last character is strictly below every other, every offset
but the last gets an index from 1 on in `rank`, and the height loop reads `str` only
inside the text. -/
theorem init_reads_inside (cap : Nat) (str : Arr) (n range : Nat) (m : Mem) (hn : 0 < n)
    (hcap : n ≤ cap) (hr : ∀ i, i < n → str i < range)
    (hU : ∀ i, i < n - 1 → str (n - 1) < str i) :
    ∃ m', init_suffix_array cap str n range m = some m' ∧
      (∀ i, i + 1 < n → 1 ≤ m'.rank i) ∧
      ∃ p, heightLoopIn cap str m'.suffix m'.rank n m.height = some (m'.height, p) := by
  have hU' : ∀ i, i + 1 < n → str (n - 1) < str i := fun i hi => hU i (by omega)
  have hinv := firstSort_inv str n range m.fst_buf m.bucket m.suffix m.snd_buf false hr
  obtain ⟨k, ek, hperm, J, hstrict⟩ := doubling_spec str n n 1 _ hinv (by omega)
    (fun J a b _ ha hb hab e => keyOf_eq_inside str n J a b hU' ha hb hab e)
  have hs0 := first_is_last str n J k.suffix hn hU hperm hstrict
  obtain ⟨hr1, _⟩ := rankLoop_spec n k.suffix m.rank hperm
  have heq := heightLoopIn_eq cap str n J k.suffix
    (forUp 1 (n - 1) (fun i r => setAt r (k.suffix i) i) m.rank) m.height hcap hperm hstrict
    hs0 hr1 hU'
  obtain ⟨h, p, eh, _, _⟩ := heightLoop_spec cap str n J k.suffix
    (forUp 1 (n - 1) (fun i r => setAt r (k.suffix i) i) m.rank) m.height hcap hperm hstrict
    hs0 hr1 (by
      intro a b q ha hb hab e
      have h1 := keyOf_eq_inside str n q a b hU' ha hb hab e
      have h2 := keyOf_eq_inside str n q b a hU' hb ha (Ne.symm hab) e.symm
      rw [ext_inside str n _ h1, ext_inside str n _ h2]
      omega)
  refine ⟨{ suffix := k.suffix,
             rank := forUp 1 (n - 1) (fun i r => setAt r (k.suffix i) i) m.rank,
             height := h,
             fst_buf := if k.swapped then k.snd_key else k.fst_key,
             snd_buf := if k.swapped then k.fst_key else k.snd_key,
             bucket := k.bucket }, ?_, ?_, ?_⟩
  · unfold init_suffix_array
    simp only [ek, Option.some_bind, eh, Option.map_some']
  · intro i hi
    exact (rank_of_offset n k.suffix _ hperm hs0 hr1 i hi).1
  · exact ⟨p, by rw [heq]; exact eh⟩

/-- C24, with the last element strictly below every other: `init_suffix_array` returns,
`rank[i] >= 1` for every offset `i <= len - 2` (so `suffix[rank[i] - 1]` is never
`suffix[-1]`), and the height loop run with every read of `str` checked against `len`
produces the same `height`: the comparison loop stops on a mismatch inside the text. -/
theorem height_loop_in_bounds (cap : Nat) (str : Arr) (len range : Nat) (m : Mem)
    (hlen : 0 < len) (hcap : len ≤ cap) (hrange : ∀ i, i < len → str i < range)
    (hlast : ∀ i, i < len - 1 → str (len - 1) < str i) :
    ∃ m', init_suffix_array cap str len range m = some m' ∧
      (∀ i, i + 1 < len → 1 ≤ m'.rank i) ∧
      ∃ p, heightLoopIn cap str m'.suffix m'.rank len m.height = some (m'.height, p) :=
  init_reads_inside cap str len range m hlen hcap hrange hlast

theorem height_loop_in_bounds_witness :
    (0 < 4 ∧ ∀ i, i < 4 - 1 → ofList [2, 1, 2, 0] (4 - 1) < ofList [2, 1, 2, 0] i) ∧
    ∃ m', init_suffix_array 101101 (ofList [2, 1, 2, 0]) 4 127 zeroMem = some m' ∧
      (∀ i, i + 1 < 4 → 1 ≤ m'.rank i) ∧
      ∃ p, heightLoopIn 101101 (ofList [2, 1, 2, 0]) m'.suffix m'.rank 4 zeroMem.height
        = some (m'.height, p) :=
  ⟨⟨by decide, by decide⟩,
    height_loop_in_bounds 101101 (ofList [2, 1, 2, 0]) 4 127 zeroMem (by decide) (by decide)
      (by decide) (by decide)⟩

namespace P3294

/-- The loop of `check` reads `height` only at the indices it passes. -/
theorem checkLoop_heights (g : Prog) (h' : Arr) (len : Nat) :
    ∀ k i vm, (∀ t, i ≤ t → t < i + k → h' t = g.mem.height t) →
      checkLoop { g with mem := { g.mem with height := h' } } len k i vm
        = checkLoop g len k i vm := by
  intro k
  induction k with
  | zero => intro i vm _; rfl
  | succ k ih =>
    intro i vm hh
    have e0 : checkLoop { g with mem := { g.mem with height := h' } } len (k + 1) i vm
        = if len ≤ h' i
          then checkLoop { g with mem := { g.mem with height := h' } } len k (i + 1)
            (visit g i vm)
          else if g.n / 2 < vm.2 then 1
          else checkLoop { g with mem := { g.mem with height := h' } } len k (i + 1)
            (fun _ => 0, 0) := rfl
    have e1 : checkLoop g len (k + 1) i vm
        = if len ≤ g.mem.height i then checkLoop g len k (i + 1) (visit g i vm)
          else if g.n / 2 < vm.2 then 1
          else checkLoop g len k (i + 1) (fun _ => 0, 0) := rfl
    rw [e0, e1, hh i (Nat.le_refl _) (by omega), ih (i + 1) _ (fun t h1 h2 => hh t (by omega)
      (by omega)), ih (i + 1) _ (fun t h1 h2 => hh t (by omega) (by omega))]

/-- The loop of `print` reads `height` only at the indices it passes. -/
theorem printLoop_heights (g : Prog) (h' : Arr) (len : Nat) :
    ∀ k i vm mb out, (∀ t, i ≤ t → t < i + k → h' t = g.mem.height t) →
      printLoop { g with mem := { g.mem with height := h' } } len k i vm mb out
        = printLoop g len k i vm mb out := by
  intro k
  induction k with
  | zero => intro i vm mb out _; rfl
  | succ k ih =>
    intro i vm mb out hh
    have e0 : printLoop { g with mem := { g.mem with height := h' } } len (k + 1) i vm mb out
        = if len ≤ h' i
          then printLoop { g with mem := { g.mem with height := h' } } len k (i + 1)
            (visit g i vm) (g.mem.suffix i) out
          else printLoop { g with mem := { g.mem with height := h' } } len k (i + 1)
            (fun _ => 0, 0) mb
            (if g.n / 2 < vm.2 then out ++ [line g len mb] else out) := rfl
    have e1 : printLoop g len (k + 1) i vm mb out
        = if len ≤ g.mem.height i
          then printLoop g len k (i + 1) (visit g i vm) (g.mem.suffix i) out
          else printLoop g len k (i + 1) (fun _ => 0, 0) mb
            (if g.n / 2 < vm.2 then out ++ [line g len mb] else out) := rfl
    rw [e0, e1, hh i (Nat.le_refl _) (by omega),
      ih (i + 1) _ _ _ (fun t h1 h2 => hh t (by omega) (by omega)),
      ih (i + 1) _ _ _ (fun t h1 h2 => hh t (by omega) (by omega))]

/-- The function `check` reads `height` only at the indices `2, ..., str_len - 1`. -/
theorem check_heights (g : Prog) (h' : Arr) (len : Nat)
    (hh : ∀ t, 2 ≤ t → t < g.str_len → h' t = g.mem.height t) :
    check { g with mem := { g.mem with height := h' } } len = check g len :=
  checkLoop_heights g h' len (g.str_len - 2) 2 (fun _ => 0, 0)
    (fun t h1 h2 => hh t h1 (by omega))

/-- The function `print` reads `height` only at the indices `2, ..., str_len`. -/
theorem print_heights (g : Prog) (h' : Arr) (len mb0 : Nat)
    (hh : ∀ t, 2 ≤ t → t ≤ g.str_len → h' t = g.mem.height t) :
    print { g with mem := { g.mem with height := h' } } len mb0 = print g len mb0 :=
  printLoop_heights g h' len (g.str_len - 1) 2 (fun _ => 0, 0) mb0 []
    (fun t h1 h2 => hh t h1 (by omega))

/-- For an input of at least two strings: after `main` has loaded it, `print(len)` writes at
least one line exactly when `check(len)` returns 1, for every `len >= 1`; `check` depends
on `height` only at the indices `2, ..., str_len - 1`, and `print` only at the indices
`2, ..., str_len`. -/
theorem print_same_scan (strs : List (List Nat)) (g0 : Prog) (hv : Valid strs)
    (hn : 2 ≤ strs.length) :
    ∃ g, load strs g0 = some g ∧ ∀ len mb0, 1 ≤ len →
      (print g len mb0 ≠ [] ↔ check g len = 1) ∧
      (∀ h' : Arr, (∀ t, 2 ≤ t → t < g.str_len → h' t = g.mem.height t) →
        check { g with mem := { g.mem with height := h' } } len = check g len) ∧
      (∀ h' : Arr, (∀ t, 2 ≤ t → t ≤ g.str_len → h' t = g.mem.height t) →
        print { g with mem := { g.mem with height := h' } } len mb0 = print g len mb0) := by
  obtain ⟨g, e, hl⟩ := load_spec strs g0 hv
  exact ⟨g, e, fun len mb0 hlen => ⟨hl.print_iff_check hv hn len mb0 hlen,
    fun h' hh => check_heights g h' len hh, fun h' hh => print_heights g h' len mb0 hh⟩⟩

end P3294

/-- A sum over the indices below `x`, as a sum over a longer range. -/
theorem sum_range_lt (F : Nat → Int) (n x : Nat) (hx : x ≤ n) :
    (∑ y in Finset.range n, if y < x then F y else 0) = ∑ y in Finset.range x, F y := by
  rw [← Finset.sum_filter]
  apply Finset.sum_congr _ (fun _ _ => rfl)
  ext y
  simp only [Finset.mem_filter, Finset.mem_range]
  omega

namespace P3415

/-- The term of an index pair `y < x` whose later suffix lies in the first string. -/
theorem Built.cross_later {a b : List Nat} {g : Prog} (hb : Built a b g) (K x y : Nat)
    (hyx : y < x) (hx : x < g.str_len) :
    cross g K x y
      = if inB g (g.mem.suffix y) ∧ inA g (g.mem.suffix x) then span g K y x else 0 := by
  have el := hb.lowest_eq y (x - y - 1) (by omega)
  have e1 : y + (x - y - 1) + 1 = x := by omega
  rw [e1] at el
  unfold cross crossPos span pairVal inA inB
  rw [el, lcp_comm]
  by_cases h : (1 ≤ g.mem.suffix x ∧ g.mem.suffix x ≤ g.len_of_A) ∧
      (g.len_of_A + 2 ≤ g.mem.suffix y ∧ g.mem.suffix y + 1 < g.str_len)
  · rw [if_pos h, if_pos ⟨h.2, h.1⟩]
  · rw [if_neg h, if_neg (fun hh => h ⟨hh.2, hh.1⟩)]

/-- The term of an index pair `y < x` whose earlier suffix lies in the first string. -/
theorem Built.cross_earlier {a b : List Nat} {g : Prog} (hb : Built a b g) (K x y : Nat)
    (hyx : y < x) (hx : x < g.str_len) :
    cross g K y x
      = if inA g (g.mem.suffix y) ∧ inB g (g.mem.suffix x) then span g K y x else 0 := by
  have el := hb.lowest_eq y (x - y - 1) (by omega)
  have e1 : y + (x - y - 1) + 1 = x := by omega
  rw [e1] at el
  unfold cross crossPos span pairVal inA inB
  rw [el]

/-- The sum of the terms `G x y` over the index pairs `y < x`, as the loops of `solve`
run through them. -/
theorem sum_pairs_below (G H : Nat → Nat → Int) (n : Nat) (hn : 3 ≤ n)
    (hz1 : ∀ x y, x < 3 → G x y = 0) (hz2 : ∀ x y, y < 2 → G x y = 0)
    (hGH : ∀ x y, y < x → x < n → G x y = H x y) :
    (∑ d in Finset.range (n - 3), ∑ t in Finset.range (d + 1), G (d + 3) (t + 2))
      = ∑ x in Finset.range n, ∑ y in Finset.range x, H x y := by
  rw [← sum_below G n hn hz1 hz2]
  apply Finset.sum_congr rfl
  intro x hx
  have hx' := Finset.mem_range.1 hx
  rw [← sum_range_lt (fun y => H x y) n x (Nat.le_of_lt hx')]
  apply Finset.sum_congr rfl
  intro y _
  by_cases h : y < x
  · rw [if_pos h, if_pos h, hGH x y h hx']
  · rw [if_neg h, if_neg h]

/-- After the first test case the first loop of `solve` adds the terms of the index pairs
whose earlier suffix lies in the second string and whose later suffix lies in the first;
the second loop adds those of the pairs the other way round. -/
theorem Built.two_passes {a b : List Nat} {g : Prog} (hv : Valid a b) (hb : Built a b g)
    (K : Nat) :
    (forUp 3 (g.str_len - 3)
        (solveStep g K (fun x => decide (g.len_of_A + 1 < x))
          (fun x => decide (x ≤ g.len_of_A))) ([], 0, 0)).2.2
      = (∑ x in Finset.range g.str_len, ∑ y in Finset.range x,
          if inB g (g.mem.suffix y) ∧ inA g (g.mem.suffix x) then span g K y x else 0) ∧
    solve g K
      = (forUp 3 (g.str_len - 3)
          (solveStep g K (fun x => decide (g.len_of_A + 1 < x))
            (fun x => decide (x ≤ g.len_of_A))) ([], 0, 0)).2.2
        + ∑ x in Finset.range g.str_len, ∑ y in Finset.range x,
          if inA g (g.mem.suffix y) ∧ inB g (g.mem.suffix x) then span g K y x else 0 := by
  have hn := hb.len_eq
  constructor
  · rw [pass_spec, zero_add,
      ← sum_pairs_below (cross g K) _ g.str_len (by omega)
        (fun x y hx => (hb.cross_low hv K x y hx).1)
        (fun x y hy => (hb.cross_low hv K y x (by omega)).2)
        (fun x y hyx hx => hb.cross_later K x y hyx hx)]
    apply Finset.sum_congr rfl
    intro d hd
    exact hb.pass1 hv K d (by have := Finset.mem_range.1 hd; omega)
  · unfold solve
    simp only
    rw [pass_spec g K _ _ _ (g.str_len - 3)]
    congr 1
    rw [← sum_pairs_below (fun x y => cross g K y x) _ g.str_len (by omega)
        (fun x y hx => (hb.cross_low hv K x y hx).2)
        (fun x y hy => (hb.cross_low hv K y x (by omega)).1)
        (fun x y hyx hx => hb.cross_earlier K x y hyx hx)]
    apply Finset.sum_congr rfl
    intro d hd
    exact hb.pass2 hv K d (by have := Finset.mem_range.1 hd; omega)

/-- After the first test case an offset of the first string and an offset of the second
have one index each in the sorted order, and the two indices differ. -/
theorem Built.pair_index {a b : List Nat} {g : Prog} (hb : Built a b g) (p q : Nat)
    (hp : inA g p) (hq : inB g q) :
    ∃ x y, x < g.str_len ∧ y < g.str_len ∧ g.mem.suffix x = p ∧ g.mem.suffix y = q ∧
      x ≠ y ∧ (∀ z, z < g.str_len → g.mem.suffix z = p → z = x) ∧
      (∀ z, z < g.str_len → g.mem.suffix z = q → z = y) := by
  unfold inA at hp
  unfold inB at hq
  obtain ⟨x, hx, ex⟩ := hb.perm.surj p (by omega)
  obtain ⟨y, hy, ey⟩ := hb.perm.surj q (by omega)
  refine ⟨x, y, hx, hy, ex, ey, ?_, ?_, ?_⟩
  · intro e
    rw [e, ey] at ex
    omega
  · intro z hz ez
    exact hb.perm.2 z x hz hx (by rw [ez, ex])
  · intro z hz ez
    exact hb.perm.2 z y hz hy (by rw [ez, ey])

/-- C26, on the first test case: for all valid strings `a`, `b` and every `K`, the first
loop of `solve(K)` adds exactly `max(0, m - K + 1)` over the index pairs `y < x` of the
sorted order with `suffix[y]` inside `B` and `suffix[x]` inside `A`, the second loop adds
to it the same sum over the pairs with `suffix[y]` inside `A` and `suffix[x]` inside `B`,
where `m` is the least of `height[y + 1], ..., height[x]`; every offset of `A` and every
offset of `B` have one index each and the two differ, so a pair is in exactly one sum. -/
theorem solve_two_directions (a b : List Nat) (K : Nat) (h : Valid a b) :
    ∃ g, load a b start = some g ∧
      (forUp 3 (g.str_len - 3)
          (solveStep g K (fun x => decide (g.len_of_A + 1 < x))
            (fun x => decide (x ≤ g.len_of_A))) ([], 0, 0)).2.2
        = (∑ x in Finset.range g.str_len, ∑ y in Finset.range x,
            if inB g (g.mem.suffix y) ∧ inA g (g.mem.suffix x) then span g K y x else 0) ∧
      solve g K
        = (forUp 3 (g.str_len - 3)
            (solveStep g K (fun x => decide (g.len_of_A + 1 < x))
              (fun x => decide (x ≤ g.len_of_A))) ([], 0, 0)).2.2
          + (∑ x in Finset.range g.str_len, ∑ y in Finset.range x,
            if inA g (g.mem.suffix y) ∧ inB g (g.mem.suffix x) then span g K y x else 0) ∧
      ∀ p q, inA g p → inB g q →
        ∃ x y, x < g.str_len ∧ y < g.str_len ∧ g.mem.suffix x = p ∧ g.mem.suffix y = q ∧
          x ≠ y ∧ (∀ z, z < g.str_len → g.mem.suffix z = p → z = x) ∧
          (∀ z, z < g.str_len → g.mem.suffix z = q → z = y) := by
  obtain ⟨g, e, hb⟩ := load_built a b h
  exact ⟨g, e, (hb.two_passes h K).1, (hb.two_passes h K).2, hb.pair_index⟩

theorem solve_two_directions_witness :
    Valid [97, 98] [98, 97] ∧
    ∃ g, load [97, 98] [98, 97] start = some g ∧
      (forUp 3 (g.str_len - 3)
          (solveStep g 1 (fun x => decide (g.len_of_A + 1 < x))
            (fun x => decide (x ≤ g.len_of_A))) ([], 0, 0)).2.2
        = (∑ x in Finset.range g.str_len, ∑ y in Finset.range x,
            if inB g (g.mem.suffix y) ∧ inA g (g.mem.suffix x) then span g 1 y x else 0) ∧
      solve g 1
        = (forUp 3 (g.str_len - 3)
            (solveStep g 1 (fun x => decide (g.len_of_A + 1 < x))
              (fun x => decide (x ≤ g.len_of_A))) ([], 0, 0)).2.2
          + (∑ x in Finset.range g.str_len, ∑ y in Finset.range x,
            if inA g (g.mem.suffix y) ∧ inB g (g.mem.suffix x) then span g 1 y x else 0) ∧
      ∀ p q, inA g p → inB g q →
        ∃ x y, x < g.str_len ∧ y < g.str_len ∧ g.mem.suffix x = p ∧ g.mem.suffix y = q ∧
          x ≠ y ∧ (∀ z, z < g.str_len → g.mem.suffix z = p → z = x) ∧
          (∀ z, z < g.str_len → g.mem.suffix z = q → z = y) :=
  ⟨by decide, solve_two_directions [97, 98] [98, 97] 1 (by decide)⟩

end P3415

namespace P3415

/-- The count over a block is the sum of the counts over its two parts. -/
theorem opened_split (g : Prog) (opens : Nat → Bool) (lo mid e : Nat) (h1 : lo ≤ mid)
    (h2 : mid ≤ e) : opened g opens lo mid + opened g opens mid e = opened g opens lo e := by
  unfold opened
  rw [← Finset.card_union_of_disjoint, ← Finset.filter_union,
    Finset.Ico_union_Ico_eq_Ico h1 h2]
  exact Finset.disjoint_filter_filter (Finset.Ico_disjoint_Ico_consecutive lo mid e)

theorem opened_single (g : Prog) (opens : Nat → Bool) (e : Nat) :
    opened g opens (e + 1) (e + 2) = if opens (g.mem.suffix e) = true then 1 else 0 := by
  unfold opened
  have e1 : Finset.Ico (e + 1) (e + 2) = {e + 1} := by
    ext x
    simp only [Finset.mem_Ico, Finset.mem_singleton]
    omega
  rw [e1, Finset.filter_singleton]
  by_cases h : opens (g.mem.suffix e) = true
  · rw [if_pos (by simpa using h), if_pos h, Finset.card_singleton]
  · rw [if_neg (by simpa using h), if_neg h, Finset.card_empty]

theorem opened_self (g : Prog) (opens : Nat → Bool) (e : Nat) : opened g opens e e = 0 := by
  unfold opened
  rw [Finset.Ico_self, Finset.filter_empty, Finset.card_empty]

/-- The blocks of a stack start at `s` or later. -/
theorem Layered.start_le (g : Prog) (opens : Nat → Bool) (i s : Nat) :
    ∀ (st : List (Nat × Nat)) (e : Nat), Layered g opens i s e st → s ≤ e := by
  intro st
  cases st with
  | nil =>
    intro e h
    exact Nat.le_of_eq h.symm
  | cons top rest =>
    rintro e ⟨lo, h1, h2, _⟩
    omega

/-- The counts of the layers add up to the count over all the indices of the blocks. -/
theorem Layered.total (g : Prog) (opens : Nat → Bool) (i s : Nat) :
    ∀ (st : List (Nat × Nat)) (e : Nat), Layered g opens i s e st →
      (st.map Prod.fst).sum = opened g opens s e := by
  intro st
  induction st with
  | nil =>
    intro e h
    have h' : e = s := h
    rw [h', opened_self]
    rfl
  | cons top rest ih =>
    rintro e ⟨lo, h1, h2, h3, h4, _⟩
    rw [List.map_cons, List.sum_cons, ih lo h3, h4, Nat.add_comm,
      opened_split g opens s lo e h1 (Nat.le_of_lt h2)]

/-- Layers lower than the next height keep their least height when the next index is
passed. -/
theorem Layered.step (g : Prog) (opens : Nat → Bool) (i s : Nat) (hs : 1 ≤ s) :
    ∀ (st : List (Nat × Nat)) (e : Nat), Layered g opens i s e st → e ≤ i + 1 →
      (∀ fr ∈ st, fr.2 ≤ g.mem.height (i + 1)) → Layered g opens (i + 1) s e st := by
  intro st
  induction st with
  | nil =>
    intro e h _ _
    exact h
  | cons top rest ih =>
    rintro e ⟨lo, h1, h2, h3, h4, h5⟩ he hall
    refine ⟨lo, h1, h2, ih lo h3 (by omega) (fun fr hfr => hall fr (List.mem_cons_of_mem _ hfr)),
      h4, ?_⟩
    have e1 : i + 1 - lo = (i - lo) + 1 := by omega
    have e2 : lo - 1 + (i - lo) + 2 = i + 1 := by omega
    have e3 : lowest g.mem.height (lo - 1) ((i - lo) + 1)
        = min (lowest g.mem.height (lo - 1) (i - lo)) (g.mem.height (lo - 1 + (i - lo) + 2)) :=
      rfl
    rw [e1, e3, e2, ← h5]
    exact (Nat.min_eq_left (hall top (List.mem_cons_self _ _))).symm

/-- The loop of lines 210-216 pops whole blocks: what is left covers the indices up to
some `lo`, and `layer_num` counts the indices from `lo` on. -/
theorem popLayers_layered (g : Prog) (opens : Nat → Bool) (i s h : Nat) :
    ∀ (st : List (Nat × Nat)) (e : Nat) (sub : Int) (ln : Nat),
      Layered g opens i s e st → e ≤ i + 1 → ln = opened g opens e (i + 2) →
      (e ≤ i → h ≤ lowest g.mem.height (e - 1) (i - e)) →
      ∃ lo, s ≤ lo ∧ lo ≤ e ∧ Layered g opens i s lo (popLayers h st (sub, ln)).1 ∧
        (popLayers h st (sub, ln)).2.2 = opened g opens lo (i + 2) ∧
        (lo ≤ i → h ≤ lowest g.mem.height (lo - 1) (i - lo)) := by
  intro st
  induction st with
  | nil =>
    intro e sub ln hl he hln hlow
    exact ⟨e, Nat.le_of_eq (Eq.symm hl), Nat.le_refl _, hl, hln, hlow⟩
  | cons top rest ih =>
    intro e sub ln hl he hln hlow
    obtain ⟨lo1, h1, h2, h3, h4, h5⟩ := hl
    by_cases hc : h ≤ top.2
    · have ep : popLayers h (top :: rest) (sub, ln)
          = popLayers h rest (sub - (top.1 : Int) * ((top.2 : Int) - (h : Int)), ln + top.1) := by
        show (if h ≤ top.2 then _ else _) = _
        rw [if_pos hc]
      rw [ep]
      obtain ⟨lo, i1, i2, i3, i4, i5⟩ := ih lo1 (sub - (top.1 : Int) * ((top.2 : Int) - (h : Int)))
        (ln + top.1) h3 (by omega)
        (by rw [hln, h4, Nat.add_comm]; exact opened_split g opens lo1 e (i + 2)
              (Nat.le_of_lt h2) (by omega))
        (fun _ => by rw [← h5]; exact hc)
      exact ⟨lo, i1, by omega, i3, i4, i5⟩
    · have ep : popLayers h (top :: rest) (sub, ln) = (top :: rest, sub, ln) := by
        show (if h ≤ top.2 then _ else _) = _
        rw [if_neg hc]
      rw [ep]
      exact ⟨e, by omega, Nat.le_refl _, ⟨lo1, h1, h2, h3, h4, h5⟩, hln, hlow⟩

/-- What the stack holds after `cnt` passes of a loop of `solve`: its layers split the
run of heights of at least `K` that ends at the last index passed. -/
theorem pass_layered (g : Prog) (K : Nat) (opens counts : Nat → Bool) (ans0 : Int)
    (cnt : Nat) :
    ∃ s, 3 ≤ s ∧ s ≤ cnt + 3 ∧ (∀ t, s ≤ t → t < cnt + 3 → K ≤ g.mem.height t) ∧
      (s = 3 ∨ g.mem.height (s - 1) < K) ∧
      Layered g opens (cnt + 2) s (cnt + 3)
        (forUp 3 cnt (solveStep g K opens counts) ([], 0, ans0)).1 := by
  have main := forUp_inv (fun k (st : List (Nat × Nat) × Int × Int) =>
      Falling st.1 ∧
      ∃ s, 3 ≤ s ∧ s ≤ k + 3 ∧ (∀ t, s ≤ t → t < k + 3 → K ≤ g.mem.height t) ∧
        (s = 3 ∨ g.mem.height (s - 1) < K) ∧ Layered g opens (k + 2) s (k + 3) st.1)
    3 cnt (solveStep g K opens counts) ([], 0, ans0)
    ⟨List.Pairwise.nil, 3, Nat.le_refl _, Nat.le_refl _, fun t h1 h2 => by omega,
      Or.inl rfl, rfl⟩ ?_
  · exact main.2
  · rintro k ⟨st, sub, ans⟩ _ ⟨hF, s, h1, h2, h3, h4, h5⟩
    simp only at hF h5
    have e3 : 3 + k = k + 3 := Nat.add_comm 3 k
    rw [e3]
    by_cases hK : K ≤ g.mem.height (k + 3)
    · have estep : solveStep g K opens counts (k + 3) (st, sub, ans)
          = (((popLayers (g.mem.height (k + 3)) st
                (if opens (g.mem.suffix (k + 2)) = true
                  then sub + ((g.mem.height (k + 3) : Int) - (K : Int) + 1) else sub,
                 if opens (g.mem.suffix (k + 2)) = true then 1 else 0)).2.2,
              g.mem.height (k + 3)) ::
              (popLayers (g.mem.height (k + 3)) st
                (if opens (g.mem.suffix (k + 2)) = true
                  then sub + ((g.mem.height (k + 3) : Int) - (K : Int) + 1) else sub,
                 if opens (g.mem.suffix (k + 2)) = true then 1 else 0)).1,
             (popLayers (g.mem.height (k + 3)) st
                (if opens (g.mem.suffix (k + 2)) = true
                  then sub + ((g.mem.height (k + 3) : Int) - (K : Int) + 1) else sub,
                 if opens (g.mem.suffix (k + 2)) = true then 1 else 0)).2.1,
             if counts (g.mem.suffix (k + 3)) = true
             then ans + (popLayers (g.mem.height (k + 3)) st
                (if opens (g.mem.suffix (k + 2)) = true
                  then sub + ((g.mem.height (k + 3) : Int) - (K : Int) + 1) else sub,
                 if opens (g.mem.suffix (k + 2)) = true then 1 else 0)).2.1
             else ans) := by
        unfold solveStep
        rw [if_pos hK]
        have e2 : k + 3 - 1 = k + 2 := by omega
        simp only [e2]
        by_cases ho : opens (g.mem.suffix (k + 2)) = true
        · simp only [ho, if_true]
        · simp only [ho, if_false]
          rfl
      rw [estep]
      obtain ⟨j1, _, _⟩ := popLayers_spec (g.mem.height (k + 3)) st
        (if opens (g.mem.suffix (k + 2)) = true
          then sub + ((g.mem.height (k + 3) : Int) - (K : Int) + 1) else sub)
        (if opens (g.mem.suffix (k + 2)) = true then 1 else 0) hF
      obtain ⟨lo, i1, i2, i3, i4, i5⟩ := popLayers_layered g opens (k + 2) s
        (g.mem.height (k + 3)) st (k + 3)
        (if opens (g.mem.suffix (k + 2)) = true
          then sub + ((g.mem.height (k + 3) : Int) - (K : Int) + 1) else sub)
        (if opens (g.mem.suffix (k + 2)) = true then 1 else 0) h5 (Nat.le_refl _)
        (opened_single g opens (k + 2)).symm (fun hh => by omega)
      refine ⟨j1, s, h1, by omega, ?_, h4, ?_⟩
      · intro t ht1 ht2
        by_cases e : t = k + 3
        · rw [e]; exact hK
        · exact h3 t ht1 (by omega)
      · refine ⟨lo, i1, by omega, ?_, i4, ?_⟩
        · apply Layered.step g opens (k + 2) s (by omega) _ lo i3 (by omega)
          intro fr hfr
          exact Nat.le_of_lt ((List.pairwise_cons.1 j1).1 fr hfr)
        · by_cases hlo : lo ≤ k + 2
          · have e1 : k + 2 + 1 - lo = (k + 2 - lo) + 1 := by omega
            have e2 : lo - 1 + (k + 2 - lo) + 2 = k + 3 := by omega
            have e4 : lowest g.mem.height (lo - 1) ((k + 2 - lo) + 1)
                = min (lowest g.mem.height (lo - 1) (k + 2 - lo))
                    (g.mem.height (lo - 1 + (k + 2 - lo) + 2)) := rfl
            rw [e1, e4, e2]
            exact (Nat.min_eq_right (i5 hlo)).symm
          · have e1 : lo = k + 3 := by omega
            rw [e1]
            have e2 : k + 2 + 1 - (k + 3) = 0 := by omega
            rw [e2]
            rfl
    · have estep : solveStep g K opens counts (k + 3) (st, sub, ans) = ([], 0, ans) := by
        unfold solveStep
        rw [if_neg hK]
      rw [estep]
      exact ⟨List.Pairwise.nil, k + 4, by omega, Nat.le_refl _, fun t ht1 ht2 => by omega,
        Or.inr (by
          have e : k + 4 - 1 = k + 3 := by omega
          rw [e]; omega), rfl⟩

/-- C27: after `cnt` passes of a loop of `solve` (the first loop has `opens` the test
`suffix[i-1] > len_of_A + 1`, the second the test `suffix[i-1] <= len_of_A`), with `s` the
start of the run of heights of at least `K` that ends at the last index `cnt + 2` passed,
the layers of the stack split the indices `s, ..., cnt + 2` into consecutive blocks; each
layer holds in `height` the least height from the first index of its block up to the index
`cnt + 2`, and in `cnt` the number of the indices of its block whose predecessor passes the
test; so the counts of all layers add up to the number of the indices `t` of the run with
`suffix[t - 1]` passing the test. -/
theorem stack_frames_cover (g : Prog) (K : Nat) (opens counts : Nat → Bool) (ans0 : Int)
    (cnt : Nat) :
    ∃ s, 3 ≤ s ∧ s ≤ cnt + 3 ∧ (∀ t, s ≤ t → t < cnt + 3 → K ≤ g.mem.height t) ∧
      (s = 3 ∨ g.mem.height (s - 1) < K) ∧
      Layered g opens (cnt + 2) s (cnt + 3)
        (forUp 3 cnt (solveStep g K opens counts) ([], 0, ans0)).1 ∧
      ((forUp 3 cnt (solveStep g K opens counts) ([], 0, ans0)).1.map Prod.fst).sum
        = opened g opens s (cnt + 3) := by
  obtain ⟨s, h1, h2, h3, h4, h5⟩ := pass_layered g K opens counts ans0 cnt
  exact ⟨s, h1, h2, h3, h4, h5, Layered.total g opens (cnt + 2) s _ (cnt + 3) h5⟩

end P3415

namespace P3321

theorem land_lnot_self (k : Int) : Int.land k (-k - 1) = 0 := by
  have hz : ∀ n : Nat, Nat.ldiff n n = 0 := by
    intro n
    apply Nat.eq_of_testBit_eq
    intro i
    rw [Nat.testBit_ldiff, Nat.zero_testBit]
    cases Nat.testBit n i <;> rfl
  cases k with
  | ofNat n =>
    have e : -(Int.ofNat n) - 1 = Int.negSucc n := by
      rw [Int.negSucc_eq]
      simp only [Int.ofNat_eq_coe]
      omega
    rw [e]
    show ((Nat.ldiff n n : Nat) : Int) = 0
    rw [hz n]
    rfl
  | negSucc n =>
    have e : -(Int.negSucc n) - 1 = Int.ofNat n := by
      rw [Int.negSucc_eq]
      simp only [Int.ofNat_eq_coe]
      omega
    rw [e]
    show ((Nat.ldiff n n : Nat) : Int) = 0
    rw [hz n]
    rfl

/-- The lowest set bit of an even number is twice that of its half. -/
theorem LST_double (k : Int) : LST (2 * k) = 2 * LST k := by
  unfold LST
  have e1 : 2 * k = Int.bit false k := by rw [Int.bit_val]; simp
  have e2 : -(2 * k) = Int.bit false (-k) := by rw [Int.bit_val]; simp
  rw [e2, e1, Int.land_bit, Int.bit_val]
  simp

/-- The lowest set bit of an odd number is 1. -/
theorem LST_double_succ (k : Int) : LST (2 * k + 1) = 1 := by
  unfold LST
  have e1 : 2 * k + 1 = Int.bit true k := by rw [Int.bit_val]; simp
  have e2 : -(2 * k + 1) = Int.bit true (-k - 1) := by
    rw [Int.bit_val]
    simp only [cond_true]
    omega
  rw [e2, e1, Int.land_bit, Int.bit_val, land_lnot_self]
  simp

/-- The lowest set bit of a positive number lies between 1 and the number. -/
theorem LST_bounds : ∀ (n : Nat) (p : Int), p.toNat = n → 1 ≤ p → 1 ≤ LST p ∧ LST p ≤ p := by
  intro n
  induction n using Nat.strong_induction_on with
  | _ n ih =>
    intro p hp h1
    rcases Int.emod_two_eq_zero_or_one p with h | h
    · have e : p = 2 * (p / 2) := by omega
      have := ih (p / 2).toNat (by omega) (p / 2) rfl (by omega)
      rw [e, LST_double]
      omega
    · have e : p = 2 * (p / 2) + 1 := by omega
      rw [e, LST_double_succ]
      omega

theorem LST_pos (p : Int) (h : 1 ≤ p) : 1 ≤ LST p := (LST_bounds _ p rfl h).1

theorem LST_le (p : Int) (h : 1 ≤ p) : LST p ≤ p := (LST_bounds _ p rfl h).2

/-- The cell `q` covers the position `p < q` exactly when it covers the next position
`p + LST(p)` of the update loop. -/
theorem LST_chain : ∀ (n : Nat) (p q : Int), q.toNat = n → 1 ≤ p → p < q →
    (q - LST q < p ↔ (p + LST p ≤ q ∧ q - LST q < p + LST p)) := by
  intro n
  induction n using Nat.strong_induction_on with
  | _ n ih =>
    intro p q hq h1 hpq
    rcases Int.emod_two_eq_zero_or_one q with h | h
    · have eq : q = 2 * (q / 2) := by omega
      have hq2 := LST_double (q / 2)
      rw [← eq] at hq2
      rcases Int.emod_two_eq_zero_or_one p with h' | h'
      · have ep : p = 2 * (p / 2) := by omega
        have hp2 := LST_double (p / 2)
        rw [← ep] at hp2
        have := ih (q / 2).toNat (by omega) (p / 2) (q / 2) rfl (by omega) (by omega)
        rw [hq2, hp2]
        omega
      · have ep : p = 2 * (p / 2) + 1 := by omega
        have hp2 := LST_double_succ (p / 2)
        rw [← ep] at hp2
        rw [hq2, hp2]
        omega
    · have eq : q = 2 * (q / 2) + 1 := by omega
      have hq2 := LST_double_succ (q / 2)
      rw [← eq] at hq2
      rw [hq2]
      rcases Int.emod_two_eq_zero_or_one p with h' | h'
      · have ep : p = 2 * (p / 2) := by omega
        have hp2 := LST_double (p / 2)
        rw [← ep] at hp2
        rw [hp2]
        omega
      · have ep : p = 2 * (p / 2) + 1 := by omega
        have hp2 := LST_double_succ (p / 2)
        rw [← ep] at hp2
        rw [hp2]
        omega

theorem rangeSum_nil (lo hi : Int) : rangeSum [] lo hi = 0 := rfl

theorem rangeSum_cons (u : Int × Int) (us : List (Int × Int)) (lo hi : Int) :
    rangeSum (u :: us) lo hi
      = (if lo < u.1 ∧ u.1 ≤ hi then u.2 else 0) + rangeSum us lo hi := by
  unfold rangeSum
  by_cases h : lo < u.1 ∧ u.1 ≤ hi
  · rw [List.filter_cons_of_pos (by simpa using h), List.map_cons, List.sum_cons, if_pos h]
  · rw [List.filter_cons_of_neg (by simpa using h), if_neg h, zero_add]

theorem rangeSum_append (us vs : List (Int × Int)) (lo hi : Int) :
    rangeSum (us ++ vs) lo hi = rangeSum us lo hi + rangeSum vs lo hi := by
  unfold rangeSum
  rw [List.filter_append, List.map_append, List.sum_append]

/-- The sum over two adjacent stretches of positions is the sum over their union. -/
theorem rangeSum_split (us : List (Int × Int)) (lo mid hi : Int) (h1 : lo ≤ mid)
    (h2 : mid ≤ hi) : rangeSum us lo mid + rangeSum us mid hi = rangeSum us lo hi := by
  induction us with
  | nil => rfl
  | cons u us ih =>
    rw [rangeSum_cons, rangeSum_cons, rangeSum_cons, ← ih]
    by_cases a : lo < u.1 ∧ u.1 ≤ mid
    · rw [if_pos a, if_neg (by omega), if_pos (by omega)]
      ring
    · by_cases b : mid < u.1 ∧ u.1 ≤ hi
      · rw [if_neg a, if_pos b, if_pos (by omega)]
        ring
      · rw [if_neg a, if_neg b, if_neg (by omega)]
        ring

theorem rangeSum_self (us : List (Int × Int)) (p : Int) : rangeSum us p p = 0 := by
  induction us with
  | nil => rfl
  | cons u us ih => rw [rangeSum_cons, ih, if_neg (by omega), zero_add]

theorem totalSize_append (us vs : List (Int × Int)) :
    totalSize (us ++ vs) = totalSize us + totalSize vs := by
  unfold totalSize
  rw [List.map_append, List.sum_append]

/-- A sum over a stretch of positions is at most the sum of the sizes. -/
theorem rangeSum_size (us : List (Int × Int)) (lo hi : Int) :
    (rangeSum us lo hi).natAbs ≤ totalSize us := by
  induction us with
  | nil => exact Nat.le_refl _
  | cons u us ih =>
    have e : totalSize (u :: us) = u.2.natAbs + totalSize us := by
      unfold totalSize
      rw [List.map_cons, List.sum_cons]
    rw [rangeSum_cons, e]
    by_cases a : lo < u.1 ∧ u.1 ≤ hi
    · rw [if_pos a]
      omega
    · rw [if_neg a]
      omega

/-- A value bounded in size by `INT_MAX` is a value of `int`. -/
theorem inInt_of_size (v : Int) (h : v.natAbs ≤ 2147483647) : inInt v := by
  unfold inInt
  omega

/-- When all positions are positive, the sum over the positions up to `hi` is the sum
over the stretch from 0. -/
theorem rangeSum_from_zero (us : List (Int × Int)) (hi : Int) (h : ∀ u ∈ us, 1 ≤ u.1) :
    rangeSum us 0 hi = sumUpTo us hi := by
  induction us with
  | nil => rfl
  | cons u us ih =>
    have h1 := h u (List.mem_cons_self _ _)
    rw [rangeSum_cons, ih (fun v hv => h v (List.mem_cons_of_mem _ hv))]
    unfold sumUpTo
    by_cases a : u.1 ≤ hi
    · rw [if_pos ⟨by omega, a⟩, List.filter_cons_of_pos (by simpa using a), List.map_cons,
        List.sum_cons]
    · rw [if_neg (fun hh => a hh.2), List.filter_cons_of_neg (by simpa using a), zero_add]

/-- The loop of `bit_update` from the position `p` on ends and adds `x` to exactly the
cells `q` of `[p, N]` that cover `p`, when no cell leaves the range of `int`. -/
theorem bit_update_spec (N x : Int) (hN : N < MAX_N) :
    ∀ (fuel : Nat) (p : Int) (tree : Int → Int), 1 ≤ p → (N + 1 - p).toNat ≤ fuel →
      (∀ q, p ≤ q → q ≤ N → inInt (tree q + x)) →
      ∃ tree', bit_update fuel p N x tree = some tree' ∧
        ∀ q, tree' q = tree q + (if p ≤ q ∧ q ≤ N ∧ q - LST q < p then x else 0) := by
  unfold MAX_N at hN
  intro fuel
  induction fuel with
  | zero =>
    intro p tree h1 hf _
    refine ⟨tree, ?_, ?_⟩
    · show (if p ≤ N then none else some tree) = some tree
      rw [if_neg (by omega)]
    · intro q
      rw [if_neg (by omega), add_zero]
  | succ fuel ih =>
    intro p tree h1 hf hin
    have hl1 := LST_pos p h1
    have hl2 := LST_le p h1
    by_cases hp : p ≤ N
    · have ec : (0 ≤ p ∧ p < MAX_N) ∧ inInt (tree p + x) ∧ inInt (p + LST p) := by
        refine ⟨⟨by omega, by unfold MAX_N; omega⟩, hin p (Int.le_refl _) hp, ?_⟩
        unfold inInt
        omega
      have e0 : bit_update (fuel + 1) p N x tree
          = bit_update fuel (p + LST p) N x
              (fun q => if q = p then tree p + x else tree q) := by
        show (if p ≤ N then
            (if (0 ≤ p ∧ p < MAX_N) ∧ inInt (tree p + x) ∧ inInt (p + LST p) then _ else none)
          else some tree) = _
        rw [if_pos hp, if_pos ec]
      obtain ⟨tree', e1, e2⟩ := ih (p + LST p) (fun q => if q = p then tree p + x else tree q)
        (by omega) (by omega) (by
          intro q hq1 hq2
          show inInt ((if q = p then tree p + x else tree q) + x)
          rw [if_neg (by omega)]
          exact hin q (by omega) hq2)
      refine ⟨tree', by rw [e0, e1], ?_⟩
      intro q
      rw [e2 q]
      show (if q = p then tree p + x else tree q) + _ = _
      by_cases hq : q = p
      · rw [if_pos hq, if_neg (by omega), hq, if_pos ⟨Int.le_refl _, hp, by omega⟩, add_zero]
      · rw [if_neg hq]
        congr 1
        have hiff : (p + LST p ≤ q ∧ q ≤ N ∧ q - LST q < p + LST p)
            ↔ (p ≤ q ∧ q ≤ N ∧ q - LST q < p) := by
          by_cases hlt : p < q
          · have hc := LST_chain _ p q rfl h1 hlt
            constructor
            · rintro ⟨a, b, c⟩
              exact ⟨by omega, b, hc.2 ⟨a, c⟩⟩
            · rintro ⟨_, b, c⟩
              exact ⟨(hc.1 c).1, b, (hc.1 c).2⟩
          · constructor
            · rintro ⟨a, _, _⟩
              omega
            · rintro ⟨a, _, _⟩
              omega
        exact if_congr hiff rfl rfl
    · refine ⟨tree, ?_, ?_⟩
      · show (if p ≤ N then _ else some tree) = some tree
        rw [if_neg hp]
      · intro q
        rw [if_neg (by omega), add_zero]

/-- A sequence of calls of `bit_update` keeps every cell `q` of `[1, N]` equal to the sum
of the values added at the positions `q - LST(q) + 1, ..., q`. -/
theorem updateAll_spec (N : Int) (fuel : Nat) (hN : N < MAX_N) (hfuel : N.toNat ≤ fuel) :
    ∀ (us done : List (Int × Int)) (tree : Int → Int),
      (∀ u ∈ us, 1 ≤ u.1 ∧ u.1 ≤ N) → totalSize (done ++ us) ≤ 2147483647 →
      (∀ q, 1 ≤ q → q ≤ N → tree q = rangeSum done (q - LST q) q) →
      ∃ tree', updateAll fuel N us tree = some tree' ∧
        ∀ q, 1 ≤ q → q ≤ N → tree' q = rangeSum (done ++ us) (q - LST q) q := by
  intro us
  induction us with
  | nil =>
    intro done tree _ _ hinv
    exact ⟨tree, rfl, by rw [List.append_nil]; exact hinv⟩
  | cons u us ih =>
    intro done tree hpos hsize hinv
    have hu := hpos u (List.mem_cons_self _ _)
    have hs1 : totalSize (done ++ u :: us) = totalSize done + (u.2.natAbs + totalSize us) := by
      rw [totalSize_append]
      unfold totalSize
      rw [List.map_cons, List.sum_cons]
    obtain ⟨t1, e1, h1⟩ := bit_update_spec N u.2 hN fuel u.1 tree hu.1 (by omega) (by
      intro q hq1 hq2
      rw [hinv q (by omega) hq2]
      apply inInt_of_size
      have := rangeSum_size done (q - LST q) q
      omega)
    have hs2 : totalSize ((done ++ [u]) ++ us) ≤ 2147483647 := by
      rw [List.append_assoc]
      exact hsize
    obtain ⟨t2, e2, h2⟩ := ih (done ++ [u]) t1
      (fun v hv => hpos v (List.mem_cons_of_mem _ hv)) hs2 (by
        intro q hq1 hq2
        rw [h1 q, hinv q hq1 hq2, rangeSum_append, rangeSum_cons, rangeSum_nil, add_zero]
        congr 1
        by_cases a : q - LST q < u.1 ∧ u.1 ≤ q
        · rw [if_pos a, if_pos ⟨a.2, hq2, a.1⟩]
        · rw [if_neg a, if_neg (fun hh => a ⟨hh.2.2, hh.1⟩)])
    refine ⟨t2, ?_, ?_⟩
    · show (bit_update fuel u.1 N u.2 tree).bind (updateAll fuel N us) = some t2
      rw [e1, Option.some_bind, e2]
    · intro q hq1 hq2
      rw [h2 q hq1 hq2, List.append_assoc]
      rfl

/-- The loop of `bit_query` from the position `p` on ends and adds the sum of the values
at the positions `1, ..., p`. -/
theorem queryLoop_spec (N : Int) (hN : N < MAX_N) (us : List (Int × Int))
    (tree : Int → Int) (hsize : totalSize us ≤ 2147483647)
    (hinv : ∀ q, 1 ≤ q → q ≤ N → tree q = rangeSum us (q - LST q) q) (P : Int) (hP : P ≤ N) :
    ∀ (fuel : Nat) (p : Int), 0 ≤ p → p ≤ P → p.toNat ≤ fuel →
      queryLoop tree fuel p (rangeSum us p P) = some (rangeSum us 0 P) := by
  unfold MAX_N at hN
  intro fuel
  induction fuel with
  | zero =>
    intro p h0 _ hf
    have e : p = 0 := by omega
    rw [e]
    show (if (0 : Int) < 0 then none else some (rangeSum us 0 P)) = _
    rw [if_neg (by omega)]
  | succ fuel ih =>
    intro p h0 hpP hf
    by_cases hp : 0 < p
    · have hl1 := LST_pos p (by omega)
      have hl2 := LST_le p (by omega)
      have es : rangeSum us p P + tree p = rangeSum us (p - LST p) P := by
        rw [hinv p (by omega) (by omega), add_comm]
        exact rangeSum_split us (p - LST p) p P (by omega) hpP
      have ec : p < MAX_N ∧ inInt (rangeSum us p P + tree p) ∧ inInt (p - LST p) := by
        refine ⟨by unfold MAX_N; omega, ?_, ?_⟩
        · rw [es]
          apply inInt_of_size
          have := rangeSum_size us (p - LST p) P
          omega
        · unfold inInt
          omega
      have e0 : queryLoop tree (fuel + 1) p (rangeSum us p P)
          = queryLoop tree fuel (p - LST p) (rangeSum us p P + tree p) := by
        show (if 0 < p then
            (if p < MAX_N ∧ inInt (rangeSum us p P + tree p) ∧ inInt (p - LST p) then _
              else none)
          else some (rangeSum us p P)) = _
        rw [if_pos hp, if_pos ec]
      rw [e0, es]
      exact ih (p - LST p) (by omega) (by omega) (by omega)
    · have e : p = 0 := by omega
      rw [e]
      show (if (0 : Int) < 0 then none else some (rangeSum us 0 P)) = _
      rw [if_neg (by omega)]

/-- On a tree of `N` cells that starts all zero, a sequence of updates at positions of
`[1, N]` whose sizes add up to `INT_MAX` at most ends, and `bit_query(pos)` then returns
the sum of the values added at the positions up to `pos`. -/
theorem fenwick_spec (N : Int) (us : List (Int × Int)) (fuel : Nat) (hN : N < MAX_N)
    (hfuel : N.toNat ≤ fuel) (hpos : ∀ u ∈ us, 1 ≤ u.1 ∧ u.1 ≤ N)
    (hsize : totalSize us ≤ 2147483647) :
    ∃ tree, updateAll fuel N us (fun _ => 0) = some tree ∧
      ∀ pos, 0 ≤ pos → pos ≤ N → bit_query tree fuel pos = some (sumUpTo us pos) := by
  obtain ⟨tree, e, hinv⟩ := updateAll_spec N fuel hN hfuel us [] (fun _ => 0) hpos
    (by rw [List.nil_append]; exact hsize) (fun q _ _ => (rangeSum_nil _ _).symm)
  rw [List.nil_append] at hinv
  refine ⟨tree, e, ?_⟩
  intro pos h0 hle
  have := queryLoop_spec N hN us tree hsize hinv pos hle fuel pos h0 (Int.le_refl _) (by omega)
  rw [rangeSum_self, rangeSum_from_zero us pos (fun u hu => (hpos u hu).1)] at this
  exact this

/-- C30, with the bounds that keep the run inside the array and inside `int`: for
`N < MAX_N`, starting from an all-zero tree, every sequence of calls
`bit_update(pos_k, N, x_k)` with `1 <= pos_k <= N` and `|x_1| + ... + |x_m| <= INT_MAX`
ends, and then `bit_query(pos)` ends and returns the sum of the `x_k` with `pos_k <= pos`,
for every `pos` in `[0, N]`; `N` passes of each loop are enough. -/
theorem bit_query_sums (N : Int) (us : List (Int × Int)) (fuel : Nat) (hN : N < MAX_N)
    (hfuel : N.toNat ≤ fuel) (hpos : ∀ u ∈ us, 1 ≤ u.1 ∧ u.1 ≤ N)
    (hsize : totalSize us ≤ 2147483647) :
    ∃ tree, updateAll fuel N us (fun _ => 0) = some tree ∧
      ∀ pos, 0 ≤ pos → pos ≤ N → bit_query tree fuel pos = some (sumUpTo us pos) :=
  fenwick_spec N us fuel hN hfuel hpos hsize

theorem bit_query_sums_witness :
    ((3 : Int) < MAX_N ∧ (∀ u ∈ [((2 : Int), (1 : Int)), (3, -1), (1, 5)], 1 ≤ u.1 ∧ u.1 ≤ 3) ∧
      totalSize [(2, 1), (3, -1), (1, 5)] ≤ 2147483647) ∧
    ∃ tree, updateAll 3 3 [(2, 1), (3, -1), (1, 5)] (fun _ => 0) = some tree ∧
      ∀ pos, 0 ≤ pos → pos ≤ 3 →
        bit_query tree 3 pos = some (sumUpTo [(2, 1), (3, -1), (1, 5)] pos) :=
  ⟨⟨by decide, by decide, by decide⟩,
    bit_query_sums 3 [(2, 1), (3, -1), (1, 5)] 3 (by decide) (by decide) (by decide)
      (by decide)⟩

/-- C30 fails at `N = 1` with the calls `bit_update(1, 1, 2147483647)` and
`bit_update(1, 1, 1)`: the second call adds 1 to the cell that holds `INT_MAX`, which
leaves the range of `int`, and the sum 2147483648 is no value of `int`. -/
theorem bit_update_leaves_int :
    (∀ fuel, updateAll fuel 1 [(1, 2147483647), (1, 1)] (fun _ => 0) = none) ∧
    sumUpTo [(1, 2147483647), (1, 1)] 1 = 2147483648 ∧ ¬ inInt 2147483648 := by
  have hl : LST 1 = 1 := LST_double_succ 0
  refine ⟨?_, by decide, by decide⟩
  intro fuel
  cases fuel with
  | zero => rfl
  | succ fuel =>
    have a1 : bit_update (fuel + 1) 1 1 2147483647 (fun _ => 0)
        = bit_update fuel 2 1 2147483647
            (fun q => if q = 1 then (0 : Int) + 2147483647 else 0) := by
      show (if (1 : Int) ≤ 1 then
          (if (0 ≤ (1 : Int) ∧ (1 : Int) < MAX_N) ∧ inInt ((0 : Int) + 2147483647) ∧
              inInt (1 + LST 1) then
            bit_update fuel (1 + LST 1) 1 2147483647
              (fun q => if q = 1 then (0 : Int) + 2147483647 else 0)
            else none)
        else some (fun _ => 0)) = _
      rw [hl, if_pos (by decide), if_pos (by decide)]
      rfl
    have a2 : bit_update fuel 2 1 2147483647
          (fun q => if q = 1 then (0 : Int) + 2147483647 else 0)
        = some (fun q => if q = 1 then (0 : Int) + 2147483647 else 0) := by
      cases fuel with
      | zero => rfl
      | succ fuel => rfl
    have a3 : bit_update (fuel + 1) 1 1 1
          (fun q => if q = 1 then (0 : Int) + 2147483647 else 0) = none := by
      show (if (1 : Int) ≤ 1 then
          (if (0 ≤ (1 : Int) ∧ (1 : Int) < MAX_N) ∧
              inInt ((if (1 : Int) = 1 then (0 : Int) + 2147483647 else 0) + 1) ∧
              inInt (1 + LST 1) then _ else none)
        else some _) = none
      rw [if_pos (by decide), if_neg (by
        intro hh
        exact absurd hh.2.1 (by decide))]
    show (bit_update (fuel + 1) 1 1 2147483647 (fun _ => 0)).bind
      (updateAll (fuel + 1) 1 [(1, 1)]) = none
    rw [a1, a2, Option.some_bind]
    show (bit_update (fuel + 1) 1 1 1
      (fun q => if q = 1 then (0 : Int) + 2147483647 else 0)).bind
        (updateAll (fuel + 1) 1 []) = none
    rw [a3]
    rfl

end P3321

namespace P3415

/-- After a first test case the text that `main` passes to `init_suffix_array` starts
with the zero that `str[0]` holds and ends with the terminator. -/
theorem Built.ends_equal {a b : List Nat} {g : Prog} (hv : Valid a b) (hb : Built a b g) :
    0 < g.str_len - 1 ∧ g.str 0 = 0 ∧ g.str (g.str_len - 1) = 0 := by
  refine ⟨by rw [hb.len_eq]; omega, by rw [hb.str_eq]; rfl, ?_⟩
  rw [hb.str_eq, hb.len_eq]
  exact text_past a b hv _ (by omega)

/-- C38 fails on every first test case: for all valid strings `a` and `b`, `main` passes
to `init_suffix_array` a text of `str_len >= 2` places whose place 0, which `main` never
writes, holds the same value 0 as its last place, the terminator. -/
theorem text_starts_with_terminator (a b : List Nat) (h : Valid a b) :
    ∃ g, load a b start = some g ∧ 0 < g.str_len - 1 ∧
      g.str 0 = g.str (g.str_len - 1) := by
  obtain ⟨g, e, hb⟩ := load_built a b h
  obtain ⟨h1, h2, h3⟩ := hb.ends_equal h
  exact ⟨g, e, h1, by rw [h2, h3]⟩

theorem text_starts_with_terminator_witness :
    Valid [97] [97] ∧
    ∃ g, load [97] [97] start = some g ∧ 0 < g.str_len - 1 ∧
      g.str 0 = g.str (g.str_len - 1) :=
  ⟨by decide, text_starts_with_terminator [97] [97] (by decide)⟩

end P3415

namespace P1990

/-- C39 fails at `pos = MAX_N`, which the claim allows and which `main` passes to
`bit_query` at line 126: `bit_update(bit, MAX_N, MAX_N, x)` writes and `bit_query(bit,
MAX_N)` reads the cell `MAX_N`, one past the last cell of the array, so however many passes
the loops are given the run does not stay inside `[0, MAX_N)`. -/
theorem bit_cell_past_array (bit : Int → Int) (x : Int) (fuel : Nat) :
    bit_update fuel bit MAX_N MAX_N x = none ∧ bit_query fuel bit MAX_N = none := by
  constructor
  · cases fuel with
    | zero => rfl
    | succ fuel =>
      show (if MAX_N ≤ MAX_N then (if 0 ≤ MAX_N ∧ MAX_N < MAX_N then _ else none)
        else some bit) = none
      rw [if_pos (Int.le_refl _), if_neg (fun h => absurd h.2 (Int.lt_irrefl _))]
  · cases fuel with
    | zero => rfl
    | succ fuel =>
      show (if 0 < MAX_N then
          (if MAX_N < MAX_N then queryLoop bit fuel (MAX_N - LST MAX_N) (0 + bit MAX_N)
            else none)
        else some 0) = none
      rw [if_pos (by decide), if_neg (Int.lt_irrefl _)]

end P1990

/-- With a last character that occurs nowhere else, two distinct offsets whose keys of
length `j` agree both have a second key inside the text. -/
theorem keyOf_eq_inside_of_unique (str : Arr) (n j a b : Nat)
    (hU : ∀ i, i + 1 < n → str i ≠ str (n - 1)) (ha : a < n) (_ : b < n) (hab : a ≠ b)
    (h : keyOf str n j a = keyOf str n j b) : a + j < n := by
  by_contra hcon
  rw [keyOf_eq_iff] at h
  have hk := h (n - 1 - a) (by omega)
  have e1 : a + (n - 1 - a) = n - 1 := by omega
  rw [e1] at hk
  unfold ext at hk
  rw [if_pos (by omega)] at hk
  by_cases h2 : b + (n - 1 - a) < n
  · rw [if_pos h2] at hk
    have := hU (b + (n - 1 - a)) (by omega)
    omega
  · rw [if_neg h2] at hk
    omega

/-- The keys past the end of the text are all alike. -/
theorem keyOf_past_eq (str : Arr) (n J a b : Nat) (ha : n ≤ a) (hb : n ≤ b) :
    keyOf str n J a = keyOf str n J b := by
  rw [keyOf_eq_iff]
  intro k _
  rw [ext_past str n _ (by omega), ext_past str n _ (by omega)]

/-- The keys of length `J` compare as the first `J` characters of the suffixes do. -/
theorem keyOf_take (str : Arr) (n : Nat) :
    ∀ J a b,
      (keyOf str n J a < keyOf str n J b ↔
        (sufList str n a).take J < (sufList str n b).take J) ∧
      (keyOf str n J a = keyOf str n J b ↔
        (sufList str n a).take J = (sufList str n b).take J) := by
  intro J
  induction J with
  | zero =>
    intro a b
    simp [keyOf]
  | succ J ih =>
    intro a b
    have e : J + 1 = 1 + J := Nat.add_comm J 1
    rw [e, keyOf_one_add, keyOf_one_add, ← e]
    obtain ⟨i1, i2⟩ := ih (a + 1) (b + 1)
    by_cases ha : a < n
    · by_cases hb : b < n
      · rw [sufList_cons str n a ha, sufList_cons str n b hb, List.take_succ_cons,
          List.take_succ_cons, cons_lt_cons_iff, cons_lt_cons_iff, ext_inside str n a ha,
          ext_inside str n b hb, i1]
        constructor
        · constructor
          · rintro (h | ⟨h1, h2⟩)
            · exact Or.inl (by omega)
            · exact Or.inr ⟨by omega, h2⟩
          · rintro (h | ⟨h1, h2⟩)
            · exact Or.inl (by omega)
            · exact Or.inr ⟨by omega, h2⟩
        · constructor
          · intro h
            injection h with h1 h2
            rw [i2.1 h2]
            have : str a = str b := by omega
            rw [this]
          · intro h
            injection h with h1 h2
            rw [i2.2 h2, h1]
      · rw [sufList_cons str n a ha, sufList_nil str n b (by omega), List.take_succ_cons,
          List.take_nil, ext_inside str n a ha, ext_past str n b (by omega), cons_lt_cons_iff]
        constructor
        · constructor
          · rintro (h | ⟨h1, _⟩)
            · omega
            · omega
          · intro h
            exact absurd h (by simp)
        · constructor
          · intro h
            injection h with h1 h2
            omega
          · intro h
            exact absurd h (by simp)
    · by_cases hb : b < n
      · rw [sufList_nil str n a (by omega), sufList_cons str n b hb, List.take_succ_cons,
          List.take_nil, ext_past str n a (by omega), ext_inside str n b hb, cons_lt_cons_iff]
        constructor
        · constructor
          · intro _
            exact List.Lex.nil
          · intro _
            exact Or.inl (by omega)
        · constructor
          · intro h
            injection h with h1 h2
            omega
          · intro h
            exact absurd h (by simp)
      · rw [sufList_nil str n a (by omega), sufList_nil str n b (by omega), List.take_nil,
          ext_past str n a (by omega), ext_past str n b (by omega),
          keyOf_past_eq str n J (a + 1) (b + 1) (by omega) (by omega)]
        simp

/-- The states of the doubling loop keep its invariant while the passes run, when the
last character of the text occurs nowhere else. -/
theorem roundState_inv (str : Arr) (n range : Nat) (m : Mem)
    (hr : ∀ i, i < n → str i < range) (hU : ∀ i, i + 1 < n → str i ≠ str (n - 1)) :
    ∀ t, (∀ s, s < t → (roundState str n range m s).p < n) →
      DInv str n (2 ^ t) (roundState str n range m t) := by
  intro t
  induction t with
  | zero =>
    intro _
    exact firstSort_inv str n range m.fst_buf m.bucket m.suffix m.snd_buf false hr
  | succ t ih =>
    intro hrun
    have h := ih (fun s hs => hrun s (by omega))
    have e : 2 ^ (t + 1) = 2 * 2 ^ t := by rw [pow_succ, Nat.mul_comm]
    rw [e]
    exact doublingStep_inv str n (2 ^ t) _ h (hrun t (Nat.lt_succ_self t)) (by
      intro a b ha hb hab e
      have h1 := keyOf_eq_inside_of_unique str n _ a b hU ha hb hab e
      have h2 := keyOf_eq_inside_of_unique str n _ b a hU hb ha (Ne.symm hab) e.symm
      exact h.2.2.1.eq_iff _ _ h1 h2)

/-- The doubling loop runs through the states `roundState`: when it ends, it ends with
the first of them that has `p >= len`. -/
theorem doubling_states (str : Arr) (n range : Nat) (m : Mem) :
    ∀ fuel t k, doubling n fuel (2 ^ t) (roundState str n range m t) = some k →
      ∃ t', t ≤ t' ∧ k = roundState str n range m t' ∧
        (∀ s, t ≤ s → s < t' → (roundState str n range m s).p < n) ∧
        ¬ (roundState str n range m t').p < n := by
  intro fuel
  induction fuel with
  | zero =>
    intro t k h
    unfold doubling at h
    by_cases hp : (roundState str n range m t).p < n
    · rw [if_pos hp] at h
      exact absurd h (by simp)
    · rw [if_neg hp] at h
      exact ⟨t, Nat.le_refl _, (Option.some.inj h).symm, fun s h1 h2 => by omega, hp⟩
  | succ fuel ih =>
    intro t k h
    unfold doubling at h
    by_cases hp : (roundState str n range m t).p < n
    · rw [if_pos hp] at h
      by_cases hj : 2 ^ t ≤ n
      · rw [if_pos hj] at h
        have e : 2 * 2 ^ t = 2 ^ (t + 1) := by rw [pow_succ, Nat.mul_comm]
        rw [e] at h
        obtain ⟨t', h1, h2, h3, h4⟩ := ih (t + 1) k h
        refine ⟨t', by omega, h2, ?_, h4⟩
        intro s hs1 hs2
        by_cases e2 : s = t
        · rw [e2]; exact hp
        · exact h3 s (by omega) hs2
      · rw [if_neg hj] at h
        exact absurd h (by simp)
    · rw [if_neg hp] at h
      exact ⟨t, Nat.le_refl _, (Option.some.inj h).symm, fun s h1 h2 => by omega, hp⟩

/-- C35: for a text with values below `range` whose last character is strictly below every
other, at the end of every pass of the doubling loop that runs (pass `t`, with step
`j = 2 ^ t`), `suffix` lists the offsets in the order of the first `2 j` characters of
their suffixes, and for offsets `x`, `y` inside the text `fst_key[x] = fst_key[y]` exactly
when the two suffixes agree on their first `2 j` characters (on all of them when fewer are
left), and `fst_key[x] < fst_key[y]` exactly when the first `2 j` characters at `x` are
lexicographically smaller. -/
theorem doubling_round_order (str : Arr) (n range : Nat) (m : Mem)
    (hrange : ∀ i, i < n → str i < range)
    (hlast : ∀ i, i < n - 1 → str (n - 1) < str i) (t : Nat)
    (hrun : ∀ s, s ≤ t → (roundState str n range m s).p < n) :
    (∀ i i', i < i' → i' < n →
      (sufList str n ((roundState str n range m (t + 1)).suffix i)).take (2 * 2 ^ t)
        ≤ (sufList str n ((roundState str n range m (t + 1)).suffix i')).take (2 * 2 ^ t)) ∧
    ∀ x y, x < n → y < n →
      ((roundState str n range m (t + 1)).fst_key x
          = (roundState str n range m (t + 1)).fst_key y ↔
        (sufList str n x).take (2 * 2 ^ t) = (sufList str n y).take (2 * 2 ^ t)) ∧
      ((roundState str n range m (t + 1)).fst_key x
          < (roundState str n range m (t + 1)).fst_key y ↔
        (sufList str n x).take (2 * 2 ^ t) < (sufList str n y).take (2 * 2 ^ t)) := by
  have hU : ∀ i, i + 1 < n → str i ≠ str (n - 1) := by
    intro i hi
    have := hlast i (by omega)
    omega
  have h := roundState_inv str n range m hrange hU (t + 1) (fun s hs => hrun s (by omega))
  have e : 2 ^ (t + 1) = 2 * 2 ^ t := by rw [pow_succ, Nat.mul_comm]
  rw [e] at h
  obtain ⟨_, hsorted, hrank, _⟩ := h
  constructor
  · intro i i' h1 h2
    have := hsorted i i' h1 h2
    rcases lt_or_eq_of_le this with h3 | h3
    · exact le_of_lt ((keyOf_take str n _ _ _).1.1 h3)
    · exact le_of_eq ((keyOf_take str n _ _ _).2.1 h3)
  · intro x y hx hy
    constructor
    · rw [hrank.eq_iff x y hx hy]
      exact (keyOf_take str n _ _ _).2
    · rw [hrank x y hx hy]
      exact (keyOf_take str n _ _ _).1

theorem doubling_round_order_witness :
    ((∀ i, i < 4 → ofList [2, 1, 2, 0] i < 127) ∧
      (∀ i, i < 4 - 1 → ofList [2, 1, 2, 0] (4 - 1) < ofList [2, 1, 2, 0] i) ∧
      ∀ s, s ≤ 0 → (roundState (ofList [2, 1, 2, 0]) 4 127 zeroMem s).p < 4) ∧
    ((∀ i i', i < i' → i' < 4 →
      (sufList (ofList [2, 1, 2, 0]) 4
          ((roundState (ofList [2, 1, 2, 0]) 4 127 zeroMem (0 + 1)).suffix i)).take (2 * 2 ^ 0)
        ≤ (sufList (ofList [2, 1, 2, 0]) 4
          ((roundState (ofList [2, 1, 2, 0]) 4 127 zeroMem (0 + 1)).suffix i')).take
            (2 * 2 ^ 0)) ∧
    ∀ x y, x < 4 → y < 4 →
      ((roundState (ofList [2, 1, 2, 0]) 4 127 zeroMem (0 + 1)).fst_key x
          = (roundState (ofList [2, 1, 2, 0]) 4 127 zeroMem (0 + 1)).fst_key y ↔
        (sufList (ofList [2, 1, 2, 0]) 4 x).take (2 * 2 ^ 0)
          = (sufList (ofList [2, 1, 2, 0]) 4 y).take (2 * 2 ^ 0)) ∧
      ((roundState (ofList [2, 1, 2, 0]) 4 127 zeroMem (0 + 1)).fst_key x
          < (roundState (ofList [2, 1, 2, 0]) 4 127 zeroMem (0 + 1)).fst_key y ↔
        (sufList (ofList [2, 1, 2, 0]) 4 x).take (2 * 2 ^ 0)
          < (sufList (ofList [2, 1, 2, 0]) 4 y).take (2 * 2 ^ 0))) :=
  ⟨⟨by decide, by decide, by decide⟩,
    doubling_round_order (ofList [2, 1, 2, 0]) 4 127 zeroMem (by decide) (by decide) 0
      (by decide)⟩

/-- When equal first keys always come with second keys inside the text, the loop of lines
141-148 with checked reads runs exactly as the loop of the source. -/
theorem rerankIn_eq (n j : Nat) (sfx old new : Arr)
    (h : ∀ i, 1 ≤ i → i < n → old (sfx i) = old (sfx (i - 1)) →
      sfx i + j < n ∧ sfx (i - 1) + j < n) :
    rerankIn n j sfx old new = some (rerank n j sfx old new) := by
  have main : ∀ cnt, cnt ≤ n - 1 →
      forUp 1 cnt (fun i st =>
        st.bind (fun (fp : Arr × Nat) =>
          if old (sfx i) = old (sfx (i - 1)) then
            if sfx i + j < n ∧ sfx (i - 1) + j < n then
              (if old (sfx i + j) = old (sfx (i - 1) + j)
                then some (setAt fp.1 (sfx i) (fp.2 - 1), fp.2)
                else some (setAt fp.1 (sfx i) fp.2, fp.2 + 1))
            else none
          else some (setAt fp.1 (sfx i) fp.2, fp.2 + 1))) (some (setAt new (sfx 0) 0, 1))
      = some (forUp 1 cnt (fun i (fp : Arr × Nat) =>
          if old (sfx i) = old (sfx (i - 1)) ∧ old (sfx i + j) = old (sfx (i - 1) + j)
          then (setAt fp.1 (sfx i) (fp.2 - 1), fp.2)
          else (setAt fp.1 (sfx i) fp.2, fp.2 + 1)) (setAt new (sfx 0) 0, 1)) := by
    intro cnt
    induction cnt with
    | zero => intro _; rfl
    | succ cnt ih =>
      intro hc
      rw [forUp_succ, forUp_succ, ih (by omega), Option.some_bind]
      by_cases e1 : old (sfx (1 + cnt)) = old (sfx (1 + cnt - 1))
      · rw [if_pos e1, if_pos (h (1 + cnt) (by omega) (by omega) e1)]
        by_cases e2 : old (sfx (1 + cnt) + j) = old (sfx (1 + cnt - 1) + j)
        · rw [if_pos e2, if_pos ⟨e1, e2⟩]
        · rw [if_neg e2, if_neg (fun hh => e2 hh.2)]
      · rw [if_neg e1, if_neg (fun hh => e1 hh.1)]
  exact main (n - 1) (Nat.le_refl _)

/-- In a pass of the doubling loop, two neighbours of the new order with equal first keys
have their second keys inside the text, when the last character occurs nowhere else. -/
theorem round_keys_inside (str : Arr) (n range : Nat) (m : Mem)
    (hrange : ∀ i, i < n → str i < range)
    (huniq : ∀ i, i + 1 < n → str i ≠ str (n - 1)) (t : Nat)
    (hrun : ∀ s, s ≤ t → (roundState str n range m s).p < n) :
    ∀ i, 1 ≤ i → i < n →
      (roundState str n range m t).fst_key ((roundState str n range m (t + 1)).suffix i)
        = (roundState str n range m t).fst_key
            ((roundState str n range m (t + 1)).suffix (i - 1)) →
      (roundState str n range m (t + 1)).suffix i + 2 ^ t < n ∧
      (roundState str n range m (t + 1)).suffix (i - 1) + 2 ^ t < n := by
  have h0 := roundState_inv str n range m hrange huniq t (fun s hs => hrun s (by omega))
  have h1 := roundState_inv str n range m hrange huniq (t + 1) (fun s hs => hrun s (by omega))
  intro i hi1 hi2 e
  have hperm := h1.1
  have ha := hperm.1 i hi2
  have hb := hperm.1 (i - 1) (by omega)
  have hab : (roundState str n range m (t + 1)).suffix i
      ≠ (roundState str n range m (t + 1)).suffix (i - 1) := by
    intro e2
    have := hperm.2 i (i - 1) hi2 (by omega) e2
    omega
  have ek := (h0.2.2.1.eq_iff _ _ ha hb).1 e
  exact ⟨keyOf_eq_inside_of_unique str n _ _ _ huniq ha hb hab ek,
    keyOf_eq_inside_of_unique str n _ _ _ huniq hb ha (Ne.symm hab) ek.symm⟩

/-- C37: for a text with values below `range` whose last character occurs nowhere else, in
every pass of the doubling loop that runs (pass `t`, with step `j = 2 ^ t`), whenever the
first keys of `suffix[i]` and `suffix[i-1]` agree both offsets have `offset + j < len`, and
the re-ranking loop run with its reads of the keys at `suffix[i] + j` and `suffix[i-1] + j`
checked against `len` gives what the loop of the source gives: no key from `len` on is
read. -/
theorem rerank_reads_inside (str : Arr) (n range : Nat) (m : Mem)
    (hrange : ∀ i, i < n → str i < range)
    (huniq : ∀ i, i < n - 1 → str i ≠ str (n - 1)) (t : Nat)
    (hrun : ∀ s, s ≤ t → (roundState str n range m s).p < n) :
    (∀ i, 1 ≤ i → i < n →
      (roundState str n range m t).fst_key ((roundState str n range m (t + 1)).suffix i)
        = (roundState str n range m t).fst_key
            ((roundState str n range m (t + 1)).suffix (i - 1)) →
      (roundState str n range m (t + 1)).suffix i + 2 ^ t < n ∧
      (roundState str n range m (t + 1)).suffix (i - 1) + 2 ^ t < n) ∧
    rerankIn n (2 ^ t) (roundState str n range m (t + 1)).suffix
        (roundState str n range m t).fst_key
        (fillSnd n (2 ^ t) (roundState str n range m t).suffix
          (roundState str n range m t).snd_key).1
      = some ((roundState str n range m (t + 1)).fst_key,
          (roundState str n range m (t + 1)).p) :=
  ⟨round_keys_inside str n range m hrange (fun i hi => huniq i (by omega)) t hrun,
    rerankIn_eq n (2 ^ t) _ _ _
      (round_keys_inside str n range m hrange (fun i hi => huniq i (by omega)) t hrun)⟩

theorem rerank_reads_inside_witness :
    ((∀ i, i < 4 → ofList [1, 2, 1, 3] i < 127) ∧
      (∀ i, i < 4 - 1 → ofList [1, 2, 1, 3] i ≠ ofList [1, 2, 1, 3] (4 - 1)) ∧
      ∀ s, s ≤ 0 → (roundState (ofList [1, 2, 1, 3]) 4 127 zeroMem s).p < 4) ∧
    ((∀ i, 1 ≤ i → i < 4 →
      (roundState (ofList [1, 2, 1, 3]) 4 127 zeroMem 0).fst_key
          ((roundState (ofList [1, 2, 1, 3]) 4 127 zeroMem (0 + 1)).suffix i)
        = (roundState (ofList [1, 2, 1, 3]) 4 127 zeroMem 0).fst_key
            ((roundState (ofList [1, 2, 1, 3]) 4 127 zeroMem (0 + 1)).suffix (i - 1)) →
      (roundState (ofList [1, 2, 1, 3]) 4 127 zeroMem (0 + 1)).suffix i + 2 ^ 0 < 4 ∧
      (roundState (ofList [1, 2, 1, 3]) 4 127 zeroMem (0 + 1)).suffix (i - 1) + 2 ^ 0 < 4) ∧
    rerankIn 4 (2 ^ 0) (roundState (ofList [1, 2, 1, 3]) 4 127 zeroMem (0 + 1)).suffix
        (roundState (ofList [1, 2, 1, 3]) 4 127 zeroMem 0).fst_key
        (fillSnd 4 (2 ^ 0) (roundState (ofList [1, 2, 1, 3]) 4 127 zeroMem 0).suffix
          (roundState (ofList [1, 2, 1, 3]) 4 127 zeroMem 0).snd_key).1
      = some ((roundState (ofList [1, 2, 1, 3]) 4 127 zeroMem (0 + 1)).fst_key,
          (roundState (ofList [1, 2, 1, 3]) 4 127 zeroMem (0 + 1)).p)) :=
  ⟨⟨by decide, by decide, by decide⟩,
    rerank_reads_inside (ofList [1, 2, 1, 3]) 4 127 zeroMem (by decide) (by decide) 0
      (by decide)⟩

namespace P3294

theorem line_succ (g : Prog) (len p : Nat) :
    line g (len + 1) p = (g.str p + 97 - 1) :: line g len (p + 1) := by
  unfold line
  rw [List.range_succ_eq_map, List.map_cons, List.map_map]
  congr 1
  apply List.map_congr_left
  intro k _
  show g.str (p + (k + 1)) + 97 - 1 = g.str (p + 1 + k) + 97 - 1
  rw [Nat.add_assoc, Nat.add_comm 1 k]

/-- Of two offsets with `len` characters each, the one with the smaller suffix has the
smaller line, unless the suffixes agree on the `len` characters. -/
theorem line_lt (g : Prog) :
    ∀ len p q, (∀ k, k < len → p + k < g.str_len ∧ q + k < g.str_len) →
      sufList g.str g.str_len p < sufList g.str g.str_len q →
      ¬ Common g.str g.str_len len p q → line g len p < line g len q := by
  intro len
  induction len with
  | zero =>
    intro p q _ _ hc
    exact absurd (fun k hk => absurd hk (Nat.not_lt_zero k)) hc
  | succ len ih =>
    intro p q hin hlt hc
    obtain ⟨hp, hq⟩ := hin 0 (Nat.succ_pos len)
    rw [Nat.add_zero] at hp hq
    rw [sufList_cons _ _ _ hp, sufList_cons _ _ _ hq, cons_lt_cons_iff] at hlt
    rw [line_succ, line_succ, cons_lt_cons_iff]
    rcases hlt with h1 | ⟨h1, h2⟩
    · exact Or.inl (by omega)
    · refine Or.inr ⟨by rw [h1], ?_⟩
      apply ih (p + 1) (q + 1) _ h2
      · intro hc'
        apply hc
        intro k hk
        cases k with
        | zero => exact ⟨hp, hq, h1⟩
        | succ k =>
          obtain ⟨a1, a2, a3⟩ := hc' k (by omega)
          have e1 : p + (k + 1) = p + 1 + k := by omega
          have e2 : q + (k + 1) = q + 1 + k := by omega
          rw [e1, e2]
          exact ⟨a1, a2, a3⟩
      · intro k hk
        obtain ⟨a1, a2⟩ := hin (k + 1) (by omega)
        have e1 : p + (k + 1) = p + 1 + k := by omega
        have e2 : q + (k + 1) = q + 1 + k := by omega
        rw [e1] at a1
        rw [e2] at a2
        exact ⟨a1, a2⟩

/-- After a valid input of at least two strings is loaded, the lines of `print(len)` for
`len >= 1` come in strictly increasing lexicographic order, have `len` characters each and
are made of lowercase letters. -/
theorem Loaded.print_sorted {strs : List (List Nat)} {g : Prog} (h : Loaded strs g)
    (hv : Valid strs) (hn : 2 ≤ strs.length) (len mb0 : Nat) (hlen : 1 ≤ len) :
    (print g len mb0).Pairwise (fun w w' => w < w') ∧
    ∀ w, w ∈ print g len mb0 → w.length = len ∧ ∀ c, c ∈ w → 97 ≤ c ∧ c ≤ 122 := by
  obtain ⟨hN, _⟩ := h.len_ge hv
  obtain ⟨J, hs⟩ := h.strict
  have hlast := h.last_height hv hn
  obtain ⟨cs, ecs, hord, hmem⟩ := printLoop_order g len (g.str_len - 1) 2 (fun _ => 0, 0) mb0 []
    2 (Nat.le_refl 2) (Nat.le_refl 2) (by intro t h1 h2; omega) (by
      have e2 : owners g 2 2 = ∅ := by
        unfold owners
        rw [if_neg (Nat.lt_irrefl _)]
      rw [e2]
      exact marks_empty) (fun hlt => absurd hlt (Nat.lt_irrefl _))
  have hprint : print g len mb0 = cs.map (fun c => line g len (g.mem.suffix (c - 1))) := by
    unfold print
    rw [ecs, List.nil_append]
  have hcl : ∀ c, c ∈ cs → 2 ≤ c ∧ c < g.str_len ∧ Closes g len 2 c := by
    intro c hc
    obtain ⟨h1, h2, h3⟩ := (hmem c).1 hc
    refine ⟨h1, ?_, h3⟩
    by_contra hcon
    have e2 : c = g.str_len := by omega
    obtain ⟨_, i0, h4, h5, h6, _⟩ := h3
    have := h6 (g.str_len - 1) (by omega) (by omega)
    rw [hlast] at this
    omega
  have hword : ∀ c, c ∈ cs →
      (line g len (g.mem.suffix (c - 1))).length = len ∧
      strs.length / 2 < occurrences strs (line g len (g.mem.suffix (c - 1))) ∧
      Spells g (line g len (g.mem.suffix (c - 1))) (g.mem.suffix (c - 1)) := by
    intro c hc
    obtain ⟨h1, h2, _, i0, h4, h5, h6, h7⟩ := hcl c hc
    exact run_word strs g hv h len i0 c hlen h4 h5 (by omega) h6 h7
  constructor
  · rw [hprint, List.pairwise_map]
    apply hord.imp_of_mem
    intro c c' hc hc' hlt
    obtain ⟨l1, _, sp1⟩ := hword c hc
    obtain ⟨l2, _, sp2⟩ := hword c' hc'
    obtain ⟨a1, a2, a3, _⟩ := hcl c hc
    obtain ⟨b1, b2, _, _⟩ := hcl c' hc'
    apply line_lt g len _ _ _ (hs.sufList_lt (c - 1) (c' - 1) (by omega) (by omega))
    · intro hcom
      have := heights_of_common g.str g.str_len J len g.mem.suffix g.mem.height hs h.height
        (c - 1) (c' - 1) (by omega) hcom c (by omega) (by omega)
      omega
    · intro k hk
      exact ⟨(sp1 k (by rw [l1]; exact hk)).1, (sp2 k (by rw [l2]; exact hk)).1⟩
  · intro w hw
    obtain ⟨e1, e2⟩ := ((h.print_spec hv hn len mb0 hlen).2 w).1 hw
    refine ⟨e1, ?_⟩
    intro c hc
    have hpos : 0 < occurrences strs w := Nat.lt_of_le_of_lt (Nat.zero_le _) e2
    unfold occurrences at hpos
    obtain ⟨s, hs1, hs2⟩ := List.countP_pos_iff.1 hpos
    have hw' : w <:+: s := of_decide_eq_true hs2
    exact (hv.2.2 s hs1).2.2 c (hw'.subset hc)

/-- C40: for every valid input of at least two strings, whatever the globals held before,
and every `len >= 1`, the lines that `print(len)` writes are in strictly increasing
lexicographic order, each has exactly `len` characters, and each consists of lowercase
letters only. -/
theorem print_lines_increasing (strs : List (List Nat)) (g0 : Prog) (hv : Valid strs)
    (hn : 2 ≤ strs.length) :
    ∃ g, load strs g0 = some g ∧ ∀ len mb0, 1 ≤ len →
      (print g len mb0).Pairwise (fun w w' => w < w') ∧
      ∀ w, w ∈ print g len mb0 → w.length = len ∧ ∀ c, c ∈ w → 97 ≤ c ∧ c ≤ 122 := by
  obtain ⟨g, e, hl⟩ := load_spec strs g0 hv
  exact ⟨g, e, fun len mb0 hlen => hl.print_sorted hv hn len mb0 hlen⟩

theorem print_lines_increasing_witness :
    (Valid [[98, 97], [97, 98]] ∧ 2 ≤ [[98, 97], [97, 98]].length) ∧
    ∃ g, load [[98, 97], [97, 98]] start = some g ∧ ∀ len mb0, 1 ≤ len →
      (print g len mb0).Pairwise (fun w w' => w < w') ∧
      ∀ w, w ∈ print g len mb0 → w.length = len ∧ ∀ c, c ∈ w → 97 ≤ c ∧ c ≤ 122 :=
  ⟨⟨by decide, by decide⟩,
    print_lines_increasing [[98, 97], [97, 98]] start (by decide) (by decide)⟩

end P3294

namespace P3277

theorem slice_self (a : Nat → Int) (first : Nat) : slice a first first = [] := by
  unfold slice
  rw [Nat.sub_self]
  rfl

theorem slice_cons (a : Nat → Int) (first last : Nat) (h : first < last) :
    slice a first last = a first :: slice a (first + 1) last := by
  unfold slice
  have e : last - first = (last - (first + 1)) + 1 := by omega
  rw [e, List.range_succ_eq_map, List.map_cons, List.map_map]
  congr 1
  apply List.map_congr_left
  intro k _
  show a (first + (k + 1)) = a (first + 1 + k)
  rw [Nat.add_assoc, Nat.add_comm 1 k]

theorem slice_snoc (a : Nat → Int) (first r : Nat) (h : first ≤ r) :
    slice a first (r + 1) = slice a first r ++ [a r] := by
  unfold slice
  have e : r + 1 - first = (r - first) + 1 := by omega
  rw [e, List.range_succ, List.map_append, List.map_singleton]
  have e2 : first + (r - first) = r := by omega
  rw [e2]

theorem slice_congr (a b : Nat → Int) (first last : Nat)
    (h : ∀ t, first ≤ t → t < last → a t = b t) : slice a first last = slice b first last := by
  unfold slice
  apply List.map_congr_left
  intro k hk
  have := List.mem_range.1 hk
  exact h _ (by omega) (by omega)

/-- What the loop of `unique` has done after `k` passes: the cells before `result` and the
element at `result`, followed by what is left of the input, hold the input without its
repetitions. -/
theorem unique_loop (a : Nat → Int) (first last : Nat) (k : Nat)
    (hk : k ≤ last - first - 1) (hfl : first < last) :
    first ≤ (forUp (first + 1) k (fun i (s : (Nat → Int) × Nat) =>
        if s.1 s.2 = s.1 i then s
        else (fun t => if t = s.2 + 1 then s.1 i else s.1 t, s.2 + 1)) (a, first)).2 ∧
    (forUp (first + 1) k (fun i (s : (Nat → Int) × Nat) =>
        if s.1 s.2 = s.1 i then s
        else (fun t => if t = s.2 + 1 then s.1 i else s.1 t, s.2 + 1)) (a, first)).2
      ≤ first + k ∧
    (∀ t, (t < first ∨ first + k < t) →
      (forUp (first + 1) k (fun i (s : (Nat → Int) × Nat) =>
        if s.1 s.2 = s.1 i then s
        else (fun t => if t = s.2 + 1 then s.1 i else s.1 t, s.2 + 1)) (a, first)).1 t = a t) ∧
    (slice a first last).destutter (fun x y => x ≠ y)
      = slice (forUp (first + 1) k (fun i (s : (Nat → Int) × Nat) =>
          if s.1 s.2 = s.1 i then s
          else (fun t => if t = s.2 + 1 then s.1 i else s.1 t, s.2 + 1)) (a, first)).1 first
          (forUp (first + 1) k (fun i (s : (Nat → Int) × Nat) =>
            if s.1 s.2 = s.1 i then s
            else (fun t => if t = s.2 + 1 then s.1 i else s.1 t, s.2 + 1)) (a, first)).2
        ++ List.destutter' (fun x y => x ≠ y)
          ((forUp (first + 1) k (fun i (s : (Nat → Int) × Nat) =>
            if s.1 s.2 = s.1 i then s
            else (fun t => if t = s.2 + 1 then s.1 i else s.1 t, s.2 + 1)) (a, first)).1
            (forUp (first + 1) k (fun i (s : (Nat → Int) × Nat) =>
              if s.1 s.2 = s.1 i then s
              else (fun t => if t = s.2 + 1 then s.1 i else s.1 t, s.2 + 1)) (a, first)).2)
          (slice a (first + 1 + k) last) := by
  refine forUp_inv (fun k (s : (Nat → Int) × Nat) =>
      first ≤ s.2 ∧ s.2 ≤ first + k ∧ (∀ t, (t < first ∨ first + k < t) → s.1 t = a t) ∧
      (slice a first last).destutter (fun x y => x ≠ y)
        = slice s.1 first s.2
          ++ List.destutter' (fun x y => x ≠ y) (s.1 s.2) (slice a (first + 1 + k) last))
    (first + 1) k _ (a, first) ?_ ?_
  · refine ⟨Nat.le_refl _, Nat.le_refl _, fun _ _ => rfl, ?_⟩
    show _ = slice a first first ++ _
    rw [slice_self, List.nil_append, slice_cons a first last hfl]
    rfl
  · rintro j ⟨a', res⟩ hj ⟨h1, h2, h3, h4⟩
    simp only at h1 h2 h3 h4 ⊢
    have hi : first + 1 + j < last := by omega
    have ei : a' (first + 1 + j) = a (first + 1 + j) := h3 _ (Or.inr (by omega))
    rw [slice_cons a (first + 1 + j) last hi] at h4
    by_cases e : a' res = a' (first + 1 + j)
    · rw [if_pos e]
      refine ⟨h1, by omega, fun t ht => h3 t (by omega), ?_⟩
      rw [h4, List.destutter'_cons_neg _ (by rw [← ei]; exact fun hh => hh e)]
      rfl
    · rw [if_neg e]
      refine ⟨by omega, by omega, ?_, ?_⟩
      · intro t ht
        show (if t = res + 1 then a' (first + 1 + j) else a' t) = a t
        rw [if_neg (by omega)]
        exact h3 t (by omega)
      · show _ = slice (fun t => if t = res + 1 then a' (first + 1 + j) else a' t) first (res + 1)
          ++ List.destutter' (fun x y => x ≠ y)
            (if res + 1 = res + 1 then a' (first + 1 + j) else a' (res + 1))
            (slice a (first + 1 + j + 1) last)
        rw [h4, List.destutter'_cons_pos _ (by rw [← ei]; exact e), if_pos rfl,
          slice_snoc _ first res h1, if_neg (by omega), ei,
          slice_congr (fun t => if t = res + 1 then a (first + 1 + j) else a' t) a' first res
            (fun t _ ht => by
              show (if t = res + 1 then a (first + 1 + j) else a' t) = a' t
              rw [if_neg (by omega)])]
        simp

/-- A list in non-decreasing order without equal neighbours is in increasing order. -/
theorem pairwise_lt_of_chain : ∀ l : List Int, l.Pairwise (fun x y => x ≤ y) →
    l.Chain' (fun x y => x ≠ y) → l.Pairwise (fun x y => x < y) := by
  intro l
  induction l with
  | nil => intro _ _; exact List.Pairwise.nil
  | cons x l ih =>
    intro hp hc
    rw [List.pairwise_cons] at hp ⊢
    have hl := ih hp.2 (List.Chain'.tail hc)
    refine ⟨?_, hl⟩
    cases l with
    | nil => intro y hy; simp at hy
    | cons z l' =>
      have hxz : x ≠ z := (List.chain'_cons.1 hc).1
      have hxz' : x < z := lt_of_le_of_ne (hp.1 z (List.mem_cons_self _ _)) hxz
      intro y hy
      rcases List.mem_cons.1 hy with e | e
      · rw [e]; exact hxz'
      · exact lt_trans hxz' ((List.pairwise_cons.1 hl).1 y e)

/-- Every element of the input is left after the repetitions are removed. -/
theorem mem_destutter_of_mem : ∀ (l : List Int) (x v : Int), (v = x ∨ v ∈ l) →
    v ∈ List.destutter' (fun x y => x ≠ y) x l := by
  intro l
  induction l with
  | nil =>
    intro x v h
    rcases h with h | h
    · rw [h]; simp
    · simp at h
  | cons y l ih =>
    intro x v h
    by_cases e : x ≠ y
    · rw [List.destutter'_cons_pos _ e]
      rcases h with h | h
      · rw [h]; exact List.mem_cons_self _ _
      · exact List.mem_cons_of_mem _ (ih y v (by
          rcases List.mem_cons.1 h with h' | h'
          · exact Or.inl h'
          · exact Or.inr h'))
    · rw [List.destutter'_cons_neg _ e]
      have e' : x = y := not_not.1 e
      apply ih x v
      rcases h with h | h
      · exact Or.inl h
      · rcases List.mem_cons.1 h with h' | h'
        · exact Or.inl (by rw [h', e'])
        · exact Or.inr h'

/-- What `unique` returns for a range `[first, last)`. -/
theorem unique_result (a : Nat → Int) (first last : Nat) (h : first ≤ last) :
    ∃ a' r, unique a first last = some (a', r) ∧ first ≤ r ∧ r ≤ last ∧
      (∀ t, (t < first ∨ last ≤ t) → a' t = a t) ∧
      slice a' first r = (slice a first last).destutter (fun x y => x ≠ y) ∧
      (first = last → r = last) := by
  by_cases e : first = last
  · refine ⟨a, last, ?_, h, Nat.le_refl _, fun _ _ => rfl, ?_, fun _ => rfl⟩
    · unfold unique
      rw [if_pos e]
    · rw [e, slice_self]
      rfl
  · have hfl : first < last := by omega
    obtain ⟨h1, h2, h3, h4⟩ := unique_loop a first last (last - first - 1) (Nat.le_refl _) hfl
    have eu : unique a first last
        = some ((forUp (first + 1) (last - first - 1) (fun i (s : (Nat → Int) × Nat) =>
            if s.1 s.2 = s.1 i then s
            else (fun t => if t = s.2 + 1 then s.1 i else s.1 t, s.2 + 1)) (a, first)).1,
          (forUp (first + 1) (last - first - 1) (fun i (s : (Nat → Int) × Nat) =>
            if s.1 s.2 = s.1 i then s
            else (fun t => if t = s.2 + 1 then s.1 i else s.1 t, s.2 + 1)) (a, first)).2 + 1) := by
      unfold unique
      rw [if_neg e, if_neg (by omega)]
    generalize forUp (first + 1) (last - first - 1) (fun i (s : (Nat → Int) × Nat) =>
        if s.1 s.2 = s.1 i then s
        else (fun t => if t = s.2 + 1 then s.1 i else s.1 t, s.2 + 1)) (a, first) = S
      at eu h1 h2 h3 h4
    refine ⟨S.1, S.2 + 1, eu, by omega, by omega, fun t ht => h3 t (by omega), ?_,
      fun hh => absurd hh e⟩
    have e2 : first + 1 + (last - first - 1) = last := by omega
    rw [e2, slice_self, List.destutter'_nil] at h4
    rw [h4]
    exact slice_snoc _ first _ h1

/-- C34: for every array and every range `[first, last)` with `first <= last`, `unique`
returns a pointer `r` in `[first, last]` such that the cells `[first, r)` hold the input
range with every maximal block of equal adjacent elements replaced by its first element, in
the original order; the cells outside the range keep their values; on an empty range it
returns `last`; and when the input range is sorted, `[first, r)` is strictly increasing and
holds exactly the values of the input range. -/
theorem unique_blocks (a : Nat → Int) (first last : Nat) (h : first ≤ last) :
    ∃ a' r, unique a first last = some (a', r) ∧ first ≤ r ∧ r ≤ last ∧
      (∀ t, (t < first ∨ last ≤ t) → a' t = a t) ∧
      slice a' first r = (slice a first last).destutter (fun x y => x ≠ y) ∧
      (first = last → r = last) ∧
      ((slice a first last).Pairwise (fun x y => x ≤ y) →
        (slice a' first r).Pairwise (fun x y => x < y) ∧
        ∀ v, v ∈ slice a' first r ↔ v ∈ slice a first last) := by
  obtain ⟨a', r, e, h1, h2, h3, h4, h5⟩ := unique_result a first last h
  refine ⟨a', r, e, h1, h2, h3, h4, h5, ?_⟩
  intro hs
  rw [h4]
  constructor
  · exact pairwise_lt_of_chain _ (hs.sublist (List.destutter_sublist _ _))
      (List.destutter_is_chain' _ _)
  · intro v
    constructor
    · intro hv
      exact (List.destutter_sublist _ _).subset hv
    · intro hv
      cases hl : slice a first last with
      | nil => rw [hl] at hv; simp at hv
      | cons x l =>
        rw [hl] at hv
        show v ∈ List.destutter' (fun x y => x ≠ y) x l
        apply mem_destutter_of_mem
        rcases List.mem_cons.1 hv with h' | h'
        · exact Or.inl h'
        · exact Or.inr h'

theorem unique_blocks_witness :
    (1 : Nat) ≤ 5 ∧
    ∃ a' r, unique (fun i => ((i / 2 : Nat) : Int)) 1 5 = some (a', r) ∧ 1 ≤ r ∧ r ≤ 5 ∧
      (∀ t, (t < 1 ∨ 5 ≤ t) → a' t = (fun i => ((i / 2 : Nat) : Int)) t) ∧
      slice a' 1 r
        = (slice (fun i => ((i / 2 : Nat) : Int)) 1 5).destutter (fun x y => x ≠ y) ∧
      ((1 : Nat) = 5 → r = 5) ∧
      ((slice (fun i => ((i / 2 : Nat) : Int)) 1 5).Pairwise (fun x y => x ≤ y) →
        (slice a' 1 r).Pairwise (fun x y => x < y) ∧
        ∀ v, v ∈ slice a' 1 r ↔ v ∈ slice (fun i => ((i / 2 : Nat) : Int)) 1 5) :=
  ⟨by decide, unique_blocks (fun i => ((i / 2 : Nat) : Int)) 1 5 (by decide)⟩

end P3277

namespace P1182

theorem climb_add (p : Arr) : ∀ a b y, climb p (a + b) y = climb p b (climb p a y) := by
  intro a
  induction a with
  | zero => intro b y; rw [Nat.zero_add]; rfl
  | succ a ih =>
    intro b y
    have e : a + 1 + b = (a + b) + 1 := by omega
    rw [e]
    exact ih b (p y)

theorem climb_root (p : Arr) (q : Nat) (h : p q = q) : ∀ d, climb p d q = q := by
  intro d
  induction d with
  | zero => rfl
  | succ d ih =>
    show climb p d (p q) = q
    rw [h, ih]

theorem pathSum_add (s : Sets) : ∀ a b y,
    pathSum s (a + b) y = pathSum s a y + pathSum s b (climb s.parent a y) := by
  intro a
  induction a with
  | zero =>
    intro b y
    rw [Nat.zero_add]
    show _ = 0 + _
    rw [Int.zero_add]
    rfl
  | succ a ih =>
    intro b y
    have e : a + 1 + b = (a + b) + 1 := by omega
    rw [e]
    show s.relation_with_root y + pathSum s (a + b) (s.parent y)
      = s.relation_with_root y + pathSum s a (s.parent y) + pathSum s b (climb s.parent a (s.parent y))
    rw [ih b (s.parent y)]
    ring

theorem pathSum_root (s : Sets) (q : Nat) (hq : s.parent q = q)
    (h0 : s.relation_with_root q = 0) : ∀ d, pathSum s d q = 0 := by
  intro d
  induction d with
  | zero => rfl
  | succ d ih =>
    show s.relation_with_root q + pathSum s d (s.parent q) = 0
    rw [hq, ih, h0]
    rfl

theorem climb_lt (s : Sets) (hwf : WF s) : ∀ d y, y < MAXARRAY →
    climb s.parent d y < MAXARRAY := by
  intro d
  induction d with
  | zero => intro y hy; exact hy
  | succ d ih =>
    intro y hy
    exact ih (s.parent y) (hwf y hy).1

/-- A node has one root and one relation to it. -/
theorem Reach.unique {s : Sets} (hwf : WF s) {y q q' : Nat} {c c' : Int} (hy : y < MAXARRAY)
    (h : Reach s y q c) (h' : Reach s y q' c') : q = q' ∧ c = c' := by
  have key : ∀ d e (q q' : Nat) (c c' : Int), climb s.parent d y = q → s.parent q = q →
      pathSum s d y % 3 = c → climb s.parent (d + e) y = q' → pathSum s (d + e) y % 3 = c' →
      q = q' ∧ c = c' := by
    intro d e q q' c c' h1 h2 h3 h4 h5
    rw [climb_add, h1, climb_root s.parent q h2] at h4
    have hq : q < MAXARRAY := by rw [← h1]; exact climb_lt s hwf d y hy
    rw [pathSum_add, h1, pathSum_root s q h2 ((hwf q hq).2.2.1 h2)] at h5
    refine ⟨h4, ?_⟩
    omega
  obtain ⟨d, h1, h2, h3⟩ := h
  obtain ⟨d', h1', h2', h3'⟩ := h'
  rcases Nat.le_total d d' with hd | hd
  · obtain ⟨e, rfl⟩ := Nat.exists_eq_add_of_le hd
    exact key d e q q' c c' h1 h2 h3 h1' h3'
  · obtain ⟨e, rfl⟩ := Nat.exists_eq_add_of_le hd
    obtain ⟨a, b⟩ := key d' e q' q c' c h1' h2' h3' h1 h3
    exact ⟨a.symm, b.symm⟩

/-- The cell of a root or of a child of a root holds the relation of the node to the
root. -/
theorem rel_of_child {s : Sets} (hwf : WF s) {z q : Nat} {c : Int} (hz : z < MAXARRAY)
    (hp : s.parent z = q) (hq : s.parent q = q) (h : Reach s z q c) :
    s.relation_with_root z = c := by
  have h1 : Reach s z q (s.relation_with_root z % 3) := by
    refine ⟨1, ?_, hq, ?_⟩
    · show climb s.parent 0 (s.parent z) = q
      exact hp
    · show (s.relation_with_root z + 0) % 3 = _
      rw [Int.add_zero]
  have := (Reach.unique hwf hz h h1).2
  have hr := (hwf z hz).2.1
  omega

/-- Pointing a node that is not a root at its root, with its relation to the root, keeps
the forest, the root of every node and the relation of every node to its root. -/
theorem compress_one (s : Sets) (hwf : WF s) (x r : Nat) (c : Int) (hx : x < MAXARRAY)
    (hxn : s.parent x ≠ x) (hr : Reach s x r c) :
    WF (assign s x r c) ∧
    ∀ y q c', y < MAXARRAY → Reach s y q c' → Reach (assign s x r c) y q c' := by
  have hrr : s.parent r = r := by
    obtain ⟨_, _, h, _⟩ := hr
    exact h
  have hxr : x ≠ r := by
    intro e
    rw [e] at hxn
    exact hxn hrr
  have hrlt : r < MAXARRAY := by
    obtain ⟨d, h, _, _⟩ := hr
    rw [← h]
    exact climb_lt s hwf d x hx
  have hc : 0 ≤ c ∧ c ≤ 2 := by
    obtain ⟨d, _, _, h⟩ := hr
    omega
  have hpar : ∀ y, y ≠ x → (assign s x r c).parent y = s.parent y := by
    intro y hy
    show setAt s.parent x r y = s.parent y
    rw [setAt_other _ _ _ _ hy]
  have hrel : ∀ y, y ≠ x → (assign s x r c).relation_with_root y = s.relation_with_root y := by
    intro y hy
    show (if y = x then c else s.relation_with_root y) = _
    rw [if_neg hy]
  have hparx : (assign s x r c).parent x = r := by
    show setAt s.parent x r x = r
    rw [setAt_same]
  have hrelx : (assign s x r c).relation_with_root x = c := by
    show (if x = x then c else s.relation_with_root x) = c
    rw [if_pos rfl]
  have pres : ∀ d y q, y < MAXARRAY → climb s.parent d y = q → s.parent q = q →
      ∃ d', climb (assign s x r c).parent d' y = q ∧ (assign s x r c).parent q = q ∧
        pathSum (assign s x r c) d' y % 3 = pathSum s d y % 3 := by
    intro d
    induction d with
    | zero =>
      intro y q _ h1 h2
      have e : y = q := h1
      have hqx : q ≠ x := by
        intro e2
        rw [e2] at h2
        exact hxn h2
      refine ⟨0, h1, ?_, rfl⟩
      rw [hpar q hqx]
      exact h2
    | succ d ih =>
      intro y q hy h1 h2
      have hqx : q ≠ x := by
        intro e2
        rw [e2] at h2
        exact hxn h2
      by_cases e : y = x
      · rw [e] at h1 ⊢
        obtain ⟨a, b⟩ := Reach.unique hwf hx hr ⟨d + 1, h1, h2, rfl⟩
        refine ⟨1, ?_, ?_, ?_⟩
        · show climb (assign s x r c).parent 0 ((assign s x r c).parent x) = q
          rw [hparx]
          exact a
        · rw [hpar q hqx]
          exact h2
        · show ((assign s x r c).relation_with_root x + 0) % 3 = _
          rw [hrelx, Int.add_zero, ← b]
          omega
      · obtain ⟨d', i1, i2, i3⟩ := ih (s.parent y) q (hwf y hy).1 h1 h2
        refine ⟨d' + 1, ?_, i2, ?_⟩
        · show climb (assign s x r c).parent d' ((assign s x r c).parent y) = q
          rw [hpar y e]
          exact i1
        · show ((assign s x r c).relation_with_root y
            + pathSum (assign s x r c) d' ((assign s x r c).parent y)) % 3
            = (s.relation_with_root y + pathSum s d (s.parent y)) % 3
          rw [hpar y e, hrel y e]
          omega
  constructor
  · intro y hy
    obtain ⟨w1, w2, w3, d, w4⟩ := hwf y hy
    by_cases e : y = x
    · rw [e]
      refine ⟨by rw [hparx]; exact hrlt, by rw [hrelx]; exact hc, ?_, ?_⟩
      · intro h
        rw [hparx] at h
        exact absurd h.symm hxr
      · rw [e] at w4
        obtain ⟨d', i1, i2, _⟩ := pres d x _ hx rfl w4
        exact ⟨d', by rw [i1]; exact i2⟩
    · refine ⟨by rw [hpar y e]; exact w1, by rw [hrel y e]; exact w2, ?_, ?_⟩
      · intro h
        rw [hpar y e] at h
        rw [hrel y e]
        exact w3 h
      · obtain ⟨d', i1, i2, _⟩ := pres d y _ hy rfl w4
        exact ⟨d', by rw [i1]; exact i2⟩
  · rintro y q c' hy ⟨d, h1, h2, h3⟩
    obtain ⟨d', i1, i2, i3⟩ := pres d y q hy h1 h2
    exact ⟨d', i1, i2, by rw [i3]; exact h3⟩

/-- A node that is not a root is not met again on the path from its parent to the root. -/
theorem no_return (s : Sets) (x r : Nat) (d : Nat) (h : climb s.parent (d + 1) x = r)
    (hr : s.parent r = r) (hx : s.parent x ≠ x) :
    ∀ i, climb s.parent i (s.parent x) ≠ x := by
  intro i e
  have e1 : climb s.parent (i + 1) x = x := e
  have rep : ∀ k, climb s.parent (k * (i + 1)) x = x := by
    intro k
    induction k with
    | zero => rw [Nat.zero_mul]; rfl
    | succ k ih =>
      have e2 : (k + 1) * (i + 1) = k * (i + 1) + (i + 1) := by ring
      rw [e2, climb_add, ih, e1]
  have h2 := rep (d + 1)
  have e3 : (d + 1) * (i + 1) = (d + 1) + (d + 1) * i := by ring
  rw [e3, climb_add, h, climb_root s.parent r hr] at h2
  rw [← h2] at hx
  exact hx hr

/-- What `find_update(x)` does for a node `x` at `d` steps from its root `r`. -/
theorem find_update_spec (s : Sets) (hwf : WF s) :
    ∀ d x r, x < MAXARRAY → climb s.parent d x = r → s.parent r = r →
      (∀ i, i < d → s.parent (climb s.parent i x) ≠ climb s.parent i x) →
      ∃ s', (∀ fuel, d < fuel → find_update fuel x s = some (r, s')) ∧ WF s' ∧
        (∀ y q c, y < MAXARRAY → Reach s y q c → Reach s' y q c) ∧
        s'.parent x = r ∧ s'.relation_with_root x = pathSum s d x % 3 ∧
        (∀ z, (∀ i, i < d → climb s.parent i x ≠ z) →
          s'.parent z = s.parent z ∧ s'.relation_with_root z = s.relation_with_root z) ∧
        (∀ i, i < d → s'.parent (climb s.parent i x) = r) := by
  intro d
  induction d with
  | zero =>
    intro x r hx h1 h2 _
    have e : x = r := h1
    refine ⟨s, ?_, hwf, fun y q c _ h => h, by rw [e]; exact h2, ?_, fun z _ => ⟨rfl, rfl⟩,
      fun i hi => absurd hi (Nat.not_lt_zero i)⟩
    · intro fuel hf
      obtain ⟨f, rfl⟩ : ∃ f, fuel = f + 1 := ⟨fuel - 1, by omega⟩
      show (if MAXARRAY ≤ x then none
        else if x = s.parent x then some (x, s) else _) = some (r, s)
      rw [if_neg (by omega), if_pos (by rw [e]; exact h2.symm), e]
    · rw [e, (hwf r (by rw [← e]; exact hx)).2.2.1 h2]
      rfl
  | succ d ih =>
    intro x r hx h1 h2 hmin
    have hxn : s.parent x ≠ x := hmin 0 (Nat.succ_pos d)
    have hpx : s.parent x < MAXARRAY := (hwf x hx).1
    obtain ⟨s1, j1, j2, j3, j4, j5, j6, j7⟩ := ih (s.parent x) r hpx h1 h2
      (fun i hi => hmin (i + 1) (by omega))
    have hnr := no_return s x r d h1 h2 hxn
    obtain ⟨k1, k2⟩ := j6 x (fun i _ => hnr i)
    have hw1x := (j2 x hx).2.1
    have hw1p := (j2 (s.parent x) hpx).2.1
    have hrr1 : s1.parent r = r := by
      have hrl : r < MAXARRAY := by rw [← h1]; exact climb_lt s hwf d _ hpx
      obtain ⟨_, _, h, _⟩ := j3 r r 0 hrl ⟨0, rfl, h2, rfl⟩
      exact h
    have hreach : Reach s1 x r
        ((s1.relation_with_root x + s1.relation_with_root (s.parent x)) % 3) := by
      refine ⟨2, ?_, hrr1, ?_⟩
      · show climb s1.parent 0 (s1.parent (s1.parent x)) = r
        rw [k1, j4]
        rfl
      · show (s1.relation_with_root x + (s1.relation_with_root (s1.parent x) + 0)) % 3 = _
        rw [k1, Int.add_zero]
    obtain ⟨c1, c2⟩ := compress_one s1 j2 x r _ hx (by rw [k1]; exact hxn) hreach
    have etm : Int.tmod (s1.relation_with_root x + s1.relation_with_root (s.parent x)) 3
        = (s1.relation_with_root x + s1.relation_with_root (s.parent x)) % 3 :=
      Int.tmod_eq_emod (by omega) (by decide)
    refine ⟨assign s1 x r
        ((s1.relation_with_root x + s1.relation_with_root (s.parent x)) % 3), ?_, c1,
      fun y q c hy h => c2 y q c hy (j3 y q c hy h), ?_, ?_, ?_, ?_⟩
    · intro fuel hf
      obtain ⟨f, rfl⟩ : ∃ f, fuel = f + 1 := ⟨fuel - 1, by omega⟩
      show (if MAXARRAY ≤ x then none
        else if x = s.parent x then some (x, s)
        else (find_update f (s.parent x) s).bind _) = _
      rw [if_neg (by omega), if_neg (fun h => hxn h.symm), j1 f (by omega), Option.some_bind]
      show (if inInt (s1.relation_with_root x + s1.relation_with_root (s.parent x)) then
          some (r, assign s1 x r
            (Int.tmod (s1.relation_with_root x + s1.relation_with_root (s.parent x)) 3))
        else none) = _
      rw [if_pos (by unfold inInt; omega), etm]
    · show setAt s1.parent x r x = r
      rw [setAt_same]
    · show (if x = x then _ else _) = _
      rw [if_pos rfl, k2, j5]
      show _ = (s.relation_with_root x + pathSum s d (s.parent x)) % 3
      omega
    · intro z hz
      have hzx : z ≠ x := fun e => hz 0 (Nat.succ_pos d) e.symm
      obtain ⟨a, b⟩ := j6 z (fun i hi => hz (i + 1) (by omega))
      constructor
      · show setAt s1.parent x r z = s.parent z
        rw [setAt_other _ _ _ _ hzx, a]
      · show (if z = x then _ else s1.relation_with_root z) = s.relation_with_root z
        rw [if_neg hzx, b]
    · intro i hi
      show setAt s1.parent x r (climb s.parent i x) = r
      by_cases e : climb s.parent i x = x
      · rw [e, setAt_same]
      · rw [setAt_other _ _ _ _ e]
        cases i with
        | zero => exact absurd rfl e
        | succ i => exact j7 i (by omega)

/-- Every node of a forest has a first root on its path. -/
theorem WF.depth {s : Sets} (hwf : WF s) (x : Nat) (hx : x < MAXARRAY) :
    ∃ d, s.parent (climb s.parent d x) = climb s.parent d x ∧
      ∀ i, i < d → s.parent (climb s.parent i x) ≠ climb s.parent i x := by
  obtain ⟨_, _, _, hex⟩ := hwf x hx
  classical
  exact ⟨Nat.find hex, Nat.find_spec hex, fun i hi => Nat.find_min hex hi⟩

/-- C31, for a forest with relations as `main` keeps them (every relation value is 0, 1 or
2 and every root has the value 0): `find_update(x)` returns, with `d + 1` nested calls for
a node at `d` steps from its root, the root `r` of the tree of `x`; afterwards `r` is still
a root, `parent[x]` is `r` and `relation_with_root[x]` is the sum modulo 3 of the relation
values along the former path from `x` to the root; and every node has the same root and the
same relation to its root, composed along its path, as before; the forest is kept. -/
theorem find_update_compresses (s : Sets) (x : Nat) (hwf : WF s) (hx : x < MAXARRAY) :
    ∃ d r s', climb s.parent d x = r ∧ s.parent r = r ∧
      (∀ fuel, d < fuel → find_update fuel x s = some (r, s')) ∧
      s'.parent r = r ∧ s'.parent x = r ∧
      s'.relation_with_root x = pathSum s d x % 3 ∧
      (∀ y q c, y < MAXARRAY → Reach s y q c → Reach s' y q c) ∧ WF s' := by
  obtain ⟨d, h1, h2⟩ := hwf.depth x hx
  obtain ⟨s', j1, j2, j3, j4, j5, _, _⟩ := find_update_spec s hwf d x _ hx rfl h1 h2
  have hrl : climb s.parent d x < MAXARRAY := climb_lt s hwf d x hx
  obtain ⟨_, _, h, _⟩ := j3 _ _ 0 hrl ⟨0, rfl, h1, rfl⟩
  exact ⟨d, _, s', rfl, h1, j1, h, j4, j5, j3, j2⟩

/-- The state that `main` starts from, after lines 85-88, is such a forest. -/
theorem init_wf (N : Nat) : WF (init N start) := by
  have main : (∀ k, (init N start).parent k = if k < N then k else 0) ∧
      ∀ k, (init N start).relation_with_root k = 0 := by
    unfold init
    refine forUp_inv (fun n (t : Sets) =>
      (∀ k, t.parent k = if k < n then k else 0) ∧ ∀ k, t.relation_with_root k = 0)
      0 N _ start ⟨fun k => ?_, fun k => rfl⟩ ?_
    · rw [if_neg (Nat.not_lt_zero k)]
      rfl
    · rintro n t _ ⟨h1, h2⟩
      rw [Nat.zero_add]
      constructor
      · intro k
        show setAt t.parent n n k = _
        by_cases e : k = n
        · rw [e, setAt_same, if_pos (Nat.lt_succ_self n)]
        · rw [setAt_other _ _ _ _ e, h1 k]
          by_cases e2 : k < n
          · rw [if_pos e2, if_pos (by omega)]
          · rw [if_neg e2, if_neg (by omega)]
      · intro k
        show (if k = n then 0 else t.relation_with_root k) = 0
        by_cases e : k = n
        · rw [if_pos e]
        · rw [if_neg e, h2 k]
  obtain ⟨hp, hr⟩ := main
  intro y hy
  refine ⟨?_, by rw [hr y]; omega, fun _ => hr y, ?_⟩
  · rw [hp y]
    by_cases e : y < N
    · rw [if_pos e]; exact hy
    · rw [if_neg e]; unfold MAXARRAY; omega
  · by_cases e : y < N
    · refine ⟨0, ?_⟩
      show (init N start).parent y = y
      rw [hp y, if_pos e]
    · refine ⟨1, ?_⟩
      show (init N start).parent ((init N start).parent y) = (init N start).parent y
      rw [hp y, if_neg e, hp 0]
      by_cases e2 : 0 < N
      · rw [if_pos e2]
      · rw [if_neg e2]

/-- The chain 2, 1, 0 is a forest with relations as `main` keeps them. -/
theorem chainOfThree_wf : WF chainOfThree := by
  intro y hy
  by_cases h2 : y = 2
  · subst h2
    refine ⟨by decide, by decide, fun h => absurd h (by decide), 2, ?_⟩
    decide
  · by_cases h1 : y = 1
    · subst h1
      refine ⟨by decide, by decide, fun h => absurd h (by decide), 1, ?_⟩
      decide
    · have ep : chainOfThree.parent y = y := by
        show (if y = 2 then 1 else if y = 1 then 0 else y) = y
        rw [if_neg h2, if_neg h1]
      have er : chainOfThree.relation_with_root y = 0 := by
        show (if y = 2 then (1 : Int) else if y = 1 then 2 else 0) = 0
        rw [if_neg h2, if_neg h1]
      refine ⟨by rw [ep]; exact hy, by rw [er]; decide, fun _ => er, 0, ?_⟩
      exact ep

theorem find_update_compresses_witness :
    (WF chainOfThree ∧ 2 < MAXARRAY) ∧
    ∃ d r s', climb chainOfThree.parent d 2 = r ∧ chainOfThree.parent r = r ∧
      (∀ fuel, d < fuel → find_update fuel 2 chainOfThree = some (r, s')) ∧
      s'.parent r = r ∧ s'.parent 2 = r ∧
      s'.relation_with_root 2 = pathSum chainOfThree d 2 % 3 ∧
      (∀ y q c, y < MAXARRAY → Reach chainOfThree y q c → Reach s' y q c) ∧ WF s' :=
  ⟨⟨chainOfThree_wf, by decide⟩,
    find_update_compresses chainOfThree 2 chainOfThree_wf (by decide)⟩

set_option maxRecDepth 100000 in
/-- On the chain 2, 1, 0 the call `find_update(2)` returns the root 0 and leaves
`parent[2] = 0` and `relation_with_root[2] = (1 + 2) % 3 = 0`; node 1 keeps its parent 0
and its relation 2. -/
theorem find_update_chain :
    (find_update 3 2 chainOfThree).map (fun p =>
      (p.1, p.2.parent 2, p.2.relation_with_root 2, p.2.parent 1, p.2.relation_with_root 1))
      = some (0, 0, 0, 0, 2) := by
  decide

/-- C31 fails for a forest whose root does not hold the relation 0: with `parent[1] = 0`,
`parent[0] = 0`, `relation_with_root[0] = 1` and `relation_with_root[1] = 0`,
`find_update(1)` returns the root 0 and leaves 1 in `relation_with_root[1]`, so the relation
of node 1 composed along its path changes from 0 to 1 (from 1 to 2 when the value at the
root is counted). -/
theorem find_update_changes_relation :
    (find_update 2 1 ⟨fun _ => 0, fun k => if k = 0 then 1 else 0⟩).map (fun p =>
      (p.1, p.2.parent 1, p.2.relation_with_root 1, p.2.relation_with_root 0,
        pathSum p.2 1 1 % 3, (pathSum p.2 1 1 + p.2.relation_with_root 0) % 3))
      = some (0, 0, 1, 1, 1, 2) ∧
    pathSum ⟨fun _ => 0, fun k => if k = 0 then 1 else 0⟩ 1 1 % 3 = 0 ∧
    (pathSum ⟨fun _ => 0, fun k => if k = 0 then 1 else 0⟩ 1 1
      + (if (0 : Nat) = 0 then (1 : Int) else 0)) % 3 = 1 := by
  decide

end P1182

namespace P1182

/-- Making the root `ry` a child of another root `rx`, with the relation `w`, keeps the
forest; the nodes of the tree of `ry` get the root `rx` and their relation grows by `w`,
the other nodes keep their root and relation. -/
theorem link_roots (s : Sets) (hwf : WF s) (rx ry : Nat) (w : Int) (hrx : rx < MAXARRAY)
    (h1 : s.parent rx = rx) (h2 : s.parent ry = ry) (hne : rx ≠ ry)
    (hw : 0 ≤ w ∧ w ≤ 2) (hry : ry < MAXARRAY) :
    WF (assign s ry rx w) ∧
    ∀ y q c, y < MAXARRAY → Reach s y q c →
      Reach (assign s ry rx w) y (if q = ry then rx else q)
        (if q = ry then (c + w) % 3 else c) := by
  have hpar : ∀ y, y ≠ ry → (assign s ry rx w).parent y = s.parent y := by
    intro y hy
    show setAt s.parent ry rx y = s.parent y
    rw [setAt_other _ _ _ _ hy]
  have hrel : ∀ y, y ≠ ry →
      (assign s ry rx w).relation_with_root y = s.relation_with_root y := by
    intro y hy
    show (if y = ry then w else s.relation_with_root y) = _
    rw [if_neg hy]
  have hpary : (assign s ry rx w).parent ry = rx := by
    show setAt s.parent ry rx ry = rx
    rw [setAt_same]
  have hrely : (assign s ry rx w).relation_with_root ry = w := by
    show (if ry = ry then w else s.relation_with_root ry) = w
    rw [if_pos rfl]
  have hrxr : (assign s ry rx w).parent rx = rx := by rw [hpar rx hne]; exact h1
  have atroot : ∃ d', climb (assign s ry rx w).parent d' ry = rx ∧
      pathSum (assign s ry rx w) d' ry % 3 = (0 + w) % 3 := by
    refine ⟨1, ?_, ?_⟩
    · show climb (assign s ry rx w).parent 0 ((assign s ry rx w).parent ry) = rx
      rw [hpary]
      rfl
    · show ((assign s ry rx w).relation_with_root ry + 0) % 3 = _
      rw [hrely, Int.add_zero, Int.zero_add]
  have pres : ∀ d y q, y < MAXARRAY → climb s.parent d y = q → s.parent q = q →
      ∃ d', climb (assign s ry rx w).parent d' y = (if q = ry then rx else q) ∧
        (assign s ry rx w).parent (if q = ry then rx else q) = (if q = ry then rx else q) ∧
        pathSum (assign s ry rx w) d' y % 3
          = (if q = ry then (pathSum s d y + w) % 3 else pathSum s d y % 3) := by
    intro d
    induction d with
    | zero =>
      intro y q _ e1 e2
      have e : y = q := e1
      by_cases hq : q = ry
      · rw [if_pos hq, if_pos hq, e, hq]
        obtain ⟨d', a1, a2⟩ := atroot
        exact ⟨d', a1, hrxr, a2⟩
      · rw [if_neg hq, if_neg hq]
        refine ⟨0, e1, ?_, rfl⟩
        rw [hpar q hq]
        exact e2
    | succ d ih =>
      intro y q hy e1 e2
      by_cases hyr : y = ry
      · have eq : q = ry := by
          rw [← e1, hyr]
          exact climb_root s.parent ry h2 (d + 1)
        have es : pathSum s (d + 1) y = 0 := by
          rw [hyr]
          exact pathSum_root s ry h2 ((hwf ry hry).2.2.1 h2) (d + 1)
        rw [if_pos eq, if_pos eq, es, hyr]
        obtain ⟨d', a1, a2⟩ := atroot
        exact ⟨d', a1, hrxr, a2⟩
      · obtain ⟨d', i1, i2, i3⟩ := ih (s.parent y) q (hwf y hy).1 e1 e2
        refine ⟨d' + 1, ?_, i2, ?_⟩
        · show climb (assign s ry rx w).parent d' ((assign s ry rx w).parent y) = _
          rw [hpar y hyr]
          exact i1
        · show ((assign s ry rx w).relation_with_root y
            + pathSum (assign s ry rx w) d' ((assign s ry rx w).parent y)) % 3 = _
          rw [hpar y hyr, hrel y hyr]
          show _ = (if q = ry then (s.relation_with_root y + pathSum s d (s.parent y) + w) % 3
            else (s.relation_with_root y + pathSum s d (s.parent y)) % 3)
          by_cases hq : q = ry
          · rw [if_pos hq] at i3 ⊢
            omega
          · rw [if_neg hq] at i3 ⊢
            omega
  constructor
  · intro y hy
    obtain ⟨w1, w2, w3, d, w4⟩ := hwf y hy
    obtain ⟨d', i1, i2, _⟩ := pres d y _ hy rfl w4
    by_cases e : y = ry
    · rw [e]
      refine ⟨by rw [hpary]; exact hrx, by rw [hrely]; exact hw, ?_, ?_⟩
      · intro h
        rw [hpary] at h
        exact absurd h hne
      · rw [e] at i1 i2
        exact ⟨d', by rw [i1]; exact i2⟩
    · refine ⟨by rw [hpar y e]; exact w1, by rw [hrel y e]; exact w2, ?_, ?_⟩
      · intro h
        rw [hpar y e] at h
        rw [hrel y e]
        exact w3 h
      · exact ⟨d', by rw [i1]; exact i2⟩
  · rintro y q c hy ⟨d, e1, e2, e3⟩
    obtain ⟨d', i1, i2, i3⟩ := pres d y q hy e1 e2
    refine ⟨d', i1, i2, ?_⟩
    rw [i3]
    by_cases hq : q = ry
    · rw [if_pos hq, if_pos hq]
      omega
    · rw [if_neg hq, if_neg hq]
      exact e3

/-- What `find_update(x)` does in a forest, with the facts that the merge step needs. -/
theorem find_update_full (s : Sets) (x : Nat) (hwf : WF s) (hx : x < MAXARRAY) :
    ∃ d r c s', (∀ fuel, d < fuel → find_update fuel x s = some (r, s')) ∧
      Reach s x r c ∧ WF s' ∧ r < MAXARRAY ∧
      (∀ y q c', y < MAXARRAY → Reach s y q c' → Reach s' y q c') ∧
      s'.parent x = r ∧ s'.parent r = r ∧ s'.relation_with_root x = c ∧
      ∀ z, s'.parent z = s.parent z ∨ (s'.parent z = r ∧ ∃ c', Reach s z r c') := by
  obtain ⟨d, h1, h2⟩ := hwf.depth x hx
  obtain ⟨s', j1, j2, j3, j4, j5, j6, j7⟩ := find_update_spec s hwf d x _ hx rfl h1 h2
  have hrl : climb s.parent d x < MAXARRAY := climb_lt s hwf d x hx
  obtain ⟨_, _, h, _⟩ := j3 _ _ 0 hrl ⟨0, rfl, h1, rfl⟩
  refine ⟨d, _, _, s', j1, ⟨d, rfl, h1, rfl⟩, j2, hrl, j3, j4, h, j5, ?_⟩
  intro z
  by_cases hz : ∃ i, i < d ∧ climb s.parent i x = z
  · obtain ⟨i, hi, e⟩ := hz
    refine Or.inr ⟨by rw [← e]; exact j7 i hi, ⟨_, d - i, ?_, h1, rfl⟩⟩
    rw [← e, ← climb_add]
    have e2 : i + (d - i) = d := by omega
    rw [e2]
  · exact Or.inl (j6 z (fun i hi e => hz ⟨i, hi, e⟩)).1

/-- C32: in a forest with relations as `main` keeps them, when a statement `(ope, x, y)`
with `ope` 1 or 2 concerns nodes of two different sets, lines 109-141 take it for true (no
lie is counted) after `merge` and the update of `relation_with_root[root_y]`; a following
`find_update(x)` and `find_update(y)` return the same root, and then
`relation_with_root[x] = relation_with_root[y]` if `ope = 1` and `is_predator(x, y)` holds
if `ope = 2`; and two nodes that were in one set before are in one set after, with the
same relation between them (the difference modulo 3 of their relations to the root). -/
theorem merge_step (s : Sets) (ope : Int) (x y : Nat) (hwf : WF s) (hx : x < MAXARRAY)
    (hy : y < MAXARRAY) (hope : ope = 1 ∨ ope = 2)
    (hdiff : ∀ q q' c c', Reach s x q c → Reach s y q' c' → q ≠ q') :
    ∃ F r s3 s4 s5,
      (∀ fuel, F ≤ fuel → statement fuel ope x y s = some (s3, 0) ∧
        find_update fuel x s3 = some (r, s4) ∧ find_update fuel y s4 = some (r, s5)) ∧
      WF s3 ∧ WF s5 ∧
      (ope = 1 → s5.relation_with_root x = s5.relation_with_root y) ∧
      (ope = 2 → is_predator s5 x y = true) ∧
      ∀ u v q cu cv, u < MAXARRAY → v < MAXARRAY → Reach s u q cu → Reach s v q cv →
        ∃ q' cu' cv', Reach s5 u q' cu' ∧ Reach s5 v q' cv' ∧
          (cu' - cv') % 3 = (cu - cv) % 3 := by
  obtain ⟨d1, rx, cx, s1, a1, a2, a3, a4, a5, a6, a7, a8, _⟩ := find_update_full s x hwf hx
  obtain ⟨d2, ry, cy, s2, b1, b2, b3, b4, b5, b6, b7, b8, b9⟩ := find_update_full s1 y a3 hy
  -- the two roots differ
  have hne : rx ≠ ry := by
    obtain ⟨_, _, _, dy, hdy⟩ := hwf y hy
    have hr : Reach s y _ _ := ⟨dy, rfl, hdy, rfl⟩
    have := (Reach.unique a3 hy (a5 y _ _ hy hr) b2).1
    rw [← this]
    exact hdiff _ _ _ _ a2 hr
  have hx1 : Reach s1 x rx cx := a5 x rx cx hx a2
  have hx2 : Reach s2 x rx cx := b5 x rx cx hx hx1
  have hrx2 : s2.parent rx = rx := by
    obtain ⟨_, _, h, _⟩ := b5 rx rx 0 a4 ⟨0, rfl, a7, rfl⟩
    exact h
  have hpx2 : s2.parent x = rx := by
    rcases b9 x with h | ⟨_, c', h⟩
    · rw [h, a6]
    · exact absurd (Reach.unique a3 hx hx1 h).1 hne
  have hvx2 : s2.relation_with_root x = cx := rel_of_child b3 hx hpx2 hrx2 hx2
  have hcx : 0 ≤ cx ∧ cx ≤ 2 := by rw [← hvx2]; exact (b3 x hx).2.1
  have hcy : 0 ≤ cy ∧ cy ≤ 2 := by rw [← b8]; exact (b3 y hy).2.1
  have hy2 : Reach s2 y ry cy := by
    refine ⟨1, ?_, b7, ?_⟩
    · show climb s2.parent 0 (s2.parent y) = ry
      rw [b6]
      rfl
    · show (s2.relation_with_root y + 0) % 3 = cy
      rw [b8, Int.add_zero]
      omega
  have etm : Int.tmod (s2.relation_with_root x - s2.relation_with_root y + ope + 2) 3
      = (cx - cy + ope + 2) % 3 := by
    rw [hvx2, b8]
    exact Int.tmod_eq_emod (by rcases hope with h | h <;> omega) (by decide)
  obtain ⟨l1, l2⟩ := link_roots s2 b3 rx ry ((cx - cy + ope + 2) % 3) a4 hrx2 b7 hne
    (by omega) b4
  obtain ⟨d4, r4, c4, s4, e1, e2, e3, _, e5, e6, e7, e8, _⟩ :=
    find_update_full _ x l1 hx
  have hx3 := l2 x rx cx hx hx2
  rw [if_neg hne, if_neg hne] at hx3
  obtain ⟨u1, u2⟩ := Reach.unique l1 hx e2 hx3
  obtain ⟨d5, r5, c5, s5, f1, f2, f3, _, f5, f6, f7, f8, f9⟩ :=
    find_update_full s4 y e3 hy
  have hy3 := l2 y ry cy hy hy2
  rw [if_pos rfl, if_pos rfl] at hy3
  have hy4 := e5 y _ _ hy hy3
  obtain ⟨v1, v2⟩ := Reach.unique e3 hy f2 hy4
  have hx4 : Reach s4 x rx cx := e5 x rx cx hx hx3
  have hx5 : Reach s5 x rx cx := f5 x rx cx hx hx4
  have hpx5 : s5.parent x = rx := by
    rcases f9 x with h | ⟨h, _⟩
    · rw [h, e6, u1]
    · rw [h, v1]
  have hrx5 : s5.parent rx = rx := by rw [← v1]; exact f7
  have hvx5 : s5.relation_with_root x = cx := rel_of_child f3 hx hpx5 hrx5 hx5
  refine ⟨d1 + d2 + d4 + d5 + 1, rx, _, s4, s5, ?_, l1, f3, ?_, ?_, ?_⟩
  · intro fuel hf
    refine ⟨?_, ?_, ?_⟩
    · show (find_update fuel x s).bind _ = _
      rw [a1 fuel (by omega), Option.some_bind]
      show (find_update fuel y s1).bind _ = _
      rw [b1 fuel (by omega), Option.some_bind]
      show (if rx = ry then _ else some (assign s2 ry rx
        (Int.tmod (s2.relation_with_root x - s2.relation_with_root y + ope + 2) 3), 0)) = _
      rw [if_neg hne, etm]
    · rw [e1 fuel (by omega), u1]
    · rw [f1 fuel (by omega), v1]
  · intro h1
    rw [hvx5, f8, v2, h1]
    omega
  · intro h2
    unfold is_predator
    rw [hvx5, f8, v2, h2, Int.tmod_eq_emod (by omega) (by decide)]
    apply decide_eq_true
    omega
  · intro u v q cu cv hu hv ru rv
    have ru2 := b5 u q cu hu (a5 u q cu hu ru)
    have rv2 := b5 v q cv hv (a5 v q cv hv rv)
    have ru5 := f5 u _ _ hu (e5 u _ _ hu (l2 u q cu hu ru2))
    have rv5 := f5 v _ _ hv (e5 v _ _ hv (l2 v q cv hv rv2))
    refine ⟨_, _, _, ru5, rv5, ?_⟩
    by_cases hq : q = ry
    · rw [if_pos hq, if_pos hq]
      omega
    · rw [if_neg hq, if_neg hq]

theorem merge_step_witness :
    (WF (init 3 start) ∧ 1 < MAXARRAY ∧ 2 < MAXARRAY ∧ ((2 : Int) = 1 ∨ (2 : Int) = 2) ∧
      ∀ q q' c c', Reach (init 3 start) 1 q c → Reach (init 3 start) 2 q' c' → q ≠ q') ∧
    ∃ F r s3 s4 s5,
      (∀ fuel, F ≤ fuel → statement fuel 2 1 2 (init 3 start) = some (s3, 0) ∧
        find_update fuel 1 s3 = some (r, s4) ∧ find_update fuel 2 s4 = some (r, s5)) ∧
      WF s3 ∧ WF s5 ∧
      ((2 : Int) = 1 → s5.relation_with_root 1 = s5.relation_with_root 2) ∧
      ((2 : Int) = 2 → is_predator s5 1 2 = true) ∧
      ∀ u v q cu cv, u < MAXARRAY → v < MAXARRAY → Reach (init 3 start) u q cu →
        Reach (init 3 start) v q cv →
        ∃ q' cu' cv', Reach s5 u q' cu' ∧ Reach s5 v q' cv' ∧
          (cu' - cv') % 3 = (cu - cv) % 3 :=
  ⟨⟨init_wf 3, by decide, by decide, by decide, by
      rintro q q' c c' ⟨d, h1, _, _⟩ ⟨d', h2, _, _⟩
      rw [climb_root _ 1 (by decide)] at h1
      rw [climb_root _ 2 (by decide)] at h2
      omega⟩,
    merge_step (init 3 start) 2 1 2 (init_wf 3) (by decide) (by decide) (by decide) (by
      rintro q q' c c' ⟨d, h1, _, _⟩ ⟨d', h2, _, _⟩
      rw [climb_root _ 1 (by decide)] at h1
      rw [climb_root _ 2 (by decide)] at h2
      omega)⟩

end P1182

namespace P2777

theorem desc_refl (i : Nat) : desc i i := ⟨0, by simp⟩

theorem desc_left (i : Nat) : desc i (i * 2) := ⟨1, by simp⟩

theorem desc_right (i : Nat) : desc i (i * 2 + 1) := ⟨1, by simp; omega⟩

theorem desc_trans {i j k : Nat} (h1 : desc i j) (h2 : desc j k) : desc i k := by
  obtain ⟨a, ha⟩ := h1
  obtain ⟨b, hb⟩ := h2
  refine ⟨b + a, ?_⟩
  rw [pow_add, ← Nat.div_div_eq_div_mul, hb, ha]

theorem desc_le {i j : Nat} (h : desc i j) : i ≤ j := by
  obtain ⟨a, ha⟩ := h
  rw [← ha]
  exact Nat.div_le_self _ _

theorem div_pow_le_half (p c : Nat) (hc : 1 ≤ c) : p / 2 ^ c ≤ p / 2 := by
  apply Nat.div_le_div_left _ (by decide)
  calc 2 = 2 ^ 1 := by norm_num
    _ ≤ 2 ^ c := Nat.pow_le_pow_right (by decide) hc

theorem desc_chain {j a b p q : Nat} (ha : j / 2 ^ a = p) (hb : j / 2 ^ b = q) (hab : a ≤ b) :
    q = p / 2 ^ (b - a) := by
  rw [← ha, ← hb, Nat.div_div_eq_div_mul, ← pow_add]
  congr 2
  omega

theorem desc_disjoint {i j : Nat} (hi : 1 ≤ i) (h1 : desc (i * 2) j) : ¬ desc (i * 2 + 1) j := by
  intro h2
  obtain ⟨a, ha⟩ := h1
  obtain ⟨b, hb⟩ := h2
  rcases Nat.lt_trichotomy a b with h | h | h
  · have e := desc_chain ha hb (Nat.le_of_lt h)
    have := div_pow_le_half (i * 2) (b - a) (by omega)
    omega
  · subst h
    omega
  · have e := desc_chain hb ha (Nat.le_of_lt h)
    have := div_pow_le_half (i * 2 + 1) (a - b) (by omega)
    omega

theorem orFrom_add (col : Nat → Nat) (l a b : Nat) :
    orFrom col l (a + b) = orFrom col l a ||| orFrom col (l + a) b := by
  induction b with
  | zero => simp [orFrom]
  | succ b ih =>
    show orFrom col l (a + b) ||| col (l + (a + b)) = _
    rw [ih]
    show _ = orFrom col l a ||| (orFrom col (l + a) b ||| col (l + a + b))
    rw [Nat.lor_assoc, Nat.add_assoc]

theorem orFrom_congr (col col' : Nat → Nat) (l n : Nat)
    (h : ∀ k, k < n → col' (l + k) = col (l + k)) : orFrom col' l n = orFrom col l n := by
  induction n with
  | zero => rfl
  | succ n ih =>
    show orFrom col' l n ||| col' (l + n) = orFrom col l n ||| col (l + n)
    rw [ih (fun k hk => h k (by omega)), h n (by omega)]

theorem orFrom_const (col : Nat → Nat) (l n v : Nat) (hn : 0 < n)
    (h : ∀ k, k < n → col (l + k) = v) : orFrom col l n = v := by
  induction n with
  | zero => omega
  | succ n ih =>
    show orFrom col l n ||| col (l + n) = v
    rw [h n (by omega)]
    rcases Nat.eq_zero_or_pos n with h0 | h0
    · subst h0
      simp [orFrom]
    · rw [ih h0 (fun k hk => h k (by omega))]
      exact Nat.or_self v

theorem orRange_single (col : Nat → Nat) (l : Nat) : orRange col l l = col l := by
  have e : l + 1 - l = 1 := by omega
  simp [orRange, e, orFrom]

theorem orRange_split (col : Nat → Nat) (l m r : Nat) (h1 : l ≤ m) (h2 : m < r) :
    orRange col l m ||| orRange col (m + 1) r = orRange col l r := by
  unfold orRange
  have e : r + 1 - l = (m + 1 - l) + (r + 1 - (m + 1)) := by omega
  have e2 : l + (m + 1 - l) = m + 1 := by omega
  rw [e, orFrom_add, e2]

theorem orRange_congr (col col' : Nat → Nat) (l r : Nat)
    (h : ∀ x, l ≤ x → x ≤ r → col' x = col x) : orRange col' l r = orRange col l r :=
  orFrom_congr col col' l _ (fun k hk => h _ (by omega) (by omega))

theorem orRange_const (col : Nat → Nat) (l r v : Nat) (hlr : l ≤ r)
    (h : ∀ x, l ≤ x → x ≤ r → col x = v) : orRange col l r = v :=
  orFrom_const col l _ v (by omega) (fun k hk => h _ (by omega) (by omega))

theorem Rep.le {t : Tree} {col : Nat → Nat} {i l r : Nat} (h : Rep t col i l r) : l ≤ r := by
  cases h with
  | pending _ _ _ h _ _ _ => exact h
  | leaf _ _ _ _ => exact Nat.le_refl _
  | node _ _ _ h _ _ _ _ => exact Nat.le_of_lt h

theorem Rep.frame {t t' : Tree} {col : Nat → Nat} {i l r : Nat} (h : Rep t col i l r)
    (hf : ∀ j, desc i j → t'.seg_tree j = t.seg_tree j ∧ t'.dirty j = t.dirty j) :
    Rep t' col i l r := by
  induction h with
  | pending i l r hlr hd hs hc =>
    obtain ⟨e1, e2⟩ := hf i (desc_refl i)
    exact Rep.pending i l r hlr (by rw [e2]; exact hd) (by rw [e1, e2]; exact hs)
      (fun x h1 h2 => by rw [e2]; exact hc x h1 h2)
  | leaf i l hd hs =>
    obtain ⟨e1, e2⟩ := hf i (desc_refl i)
    exact Rep.leaf i l (by rw [e2]; exact hd) (by rw [e1]; exact hs)
  | node i l r hlr hd _ _ hs ih1 ih2 =>
    obtain ⟨e1, e2⟩ := hf i (desc_refl i)
    refine Rep.node i l r hlr (by rw [e2]; exact hd)
      (ih1 (fun j hj => hf j (desc_trans (desc_left i) hj)))
      (ih2 (fun j hj => hf j (desc_trans (desc_right i) hj))) ?_
    rw [e1, (hf _ (desc_left i)).1, (hf _ (desc_right i)).1]
    exact hs

theorem Rep.congr {t : Tree} {col col' : Nat → Nat} {i l r : Nat} (h : Rep t col i l r)
    (hc : ∀ x, l ≤ x → x ≤ r → col' x = col x) : Rep t col' i l r := by
  induction h with
  | pending i l r hlr hd hs hcol =>
    exact Rep.pending i l r hlr hd hs (fun x h1 h2 => by rw [hc x h1 h2]; exact hcol x h1 h2)
  | leaf i l hd hs =>
    exact Rep.leaf i l hd (by rw [hc l (Nat.le_refl _) (Nat.le_refl _)]; exact hs)
  | node i l r hlr hd _ _ hs ih1 ih2 =>
    exact Rep.node i l r hlr hd
      (ih1 (fun x h1 h2 => hc x h1 (by omega)))
      (ih2 (fun x h1 h2 => hc x (by omega) h2)) hs

theorem Rep.seg {t : Tree} {col : Nat → Nat} {i l r : Nat} (h : Rep t col i l r) :
    t.seg_tree i = orRange col l r := by
  induction h with
  | pending i l r hlr hd hs hcol =>
    rw [hs, orRange_const col l r _ hlr hcol]
  | leaf i l hd hs => rw [hs, orRange_single]
  | node i l r hlr hd _ _ hs ih1 ih2 =>
    rw [hs, ih1, ih2]
    exact orRange_split col l _ r (by omega) (by omega)

theorem Fits.left {i l r : Nat} (h : Fits i l r) (hlr : l < r) :
    Fits (i * 2) l ((l + r) / 2) := by
  obtain ⟨h1, h2⟩ := h
  have hM : MAX_N = 100002 := rfl
  rw [hM] at h1 h2
  have hd : 1 ≤ r - l := by omega
  have hi : i + 1 ≤ (r - l) * (i + 1) := Nat.le_mul_of_pos_left _ (by omega)
  refine ⟨by rw [hM]; omega, ?_⟩
  rw [hM]
  have h3 : ((l + r) / 2 - l) * (i * 2 + 1) ≤ ((l + r) / 2 - l) * ((i + 1) * 2) :=
    Nat.mul_le_mul_left _ (by omega)
  have h4 : ((l + r) / 2 - l) * ((i + 1) * 2) = (((l + r) / 2 - l) * 2) * (i + 1) := by ring
  have h5 : (((l + r) / 2 - l) * 2) * (i + 1) ≤ (r - l) * (i + 1) :=
    Nat.mul_le_mul_right _ (by omega)
  omega

theorem Fits.right {i l r : Nat} (h : Fits i l r) (hlr : l < r) :
    Fits (i * 2 + 1) ((l + r) / 2 + 1) r := by
  obtain ⟨h1, h2⟩ := h
  have hM : MAX_N = 100002 := rfl
  rw [hM] at h1 h2
  have hd : 1 ≤ r - l := by omega
  have hi : i + 1 ≤ (r - l) * (i + 1) := Nat.le_mul_of_pos_left _ (by omega)
  refine ⟨by rw [hM]; omega, ?_⟩
  rw [hM]
  have h4 : (r - ((l + r) / 2 + 1)) * (i * 2 + 1 + 1)
      = ((r - ((l + r) / 2 + 1)) * 2) * (i + 1) := by ring
  have h5 : ((r - ((l + r) / 2 + 1)) * 2) * (i + 1) ≤ (r - l) * (i + 1) :=
    Nat.mul_le_mul_right _ (by omega)
  omega

theorem Fits.child {i l r : Nat} (h : Fits i l r) (hlr : l < r) : i * 2 + 1 < MAX_N * 4 :=
  (Fits.right h hlr).1

/-- What `push_down` does at an inner node that represents its segment: the node is
clean afterwards, both children represent their halves, and only the node and its two
children are written. -/
theorem push_down_spec {t : Tree} {col : Nat → Nat} {i l r : Nat} (h : Rep t col i l r)
    (hi : 1 ≤ i) (hlr : l < r) (hfit : Fits i l r) :
    ∃ t1, push_down i t = some t1 ∧ t1.dirty i = 0 ∧ t1.seg_tree i = t.seg_tree i ∧
      Rep t1 col (i * 2) l ((l + r) / 2) ∧ Rep t1 col (i * 2 + 1) ((l + r) / 2 + 1) r ∧
      ∀ j, ¬ desc i j → t1.seg_tree j = t.seg_tree j ∧ t1.dirty j = t.dirty j := by
  have hb1 : ¬ MAX_N * 4 ≤ i := Nat.not_le.mpr hfit.1
  have hb2 : ¬ MAX_N * 4 ≤ i * 2 + 1 := Nat.not_le.mpr (Fits.child hfit hlr)
  cases h with
  | pending _ _ _ hle hd hs hcol =>
    refine ⟨_, by simp only [push_down, if_neg hb1, if_pos hd, if_neg hb2]; rfl, ?_, ?_, ?_, ?_, ?_⟩
    · simp [setAt]
    · have e1 : i ≠ i * 2 := by omega
      have e2 : i ≠ i * 2 + 1 := by omega
      simp only [setAt, if_neg e1, if_neg e2]
    · have e1 : i * 2 ≠ i := by omega
      refine Rep.pending _ _ _ (by omega) ?_ ?_ ?_
      · simp only [setAt, if_neg e1, if_true]
        exact hd
      · simp only [setAt, if_neg e1, if_true]
      · intro x h1 h2
        simp only [setAt, if_neg e1, if_true]
        exact hcol x h1 (by omega)
    · have e1 : i * 2 + 1 ≠ i := by omega
      have e2 : i * 2 + 1 ≠ i * 2 := by omega
      refine Rep.pending _ _ _ (by omega) ?_ ?_ ?_
      · simp only [setAt, if_neg e1, if_neg e2, if_true]
        exact hd
      · simp only [setAt, if_neg e1, if_neg e2, if_true]
      · intro x h1 h2
        simp only [setAt, if_neg e1, if_neg e2, if_true]
        exact hcol x (by omega) h2
    · intro j hj
      have e0 : j ≠ i := fun e => hj (e ▸ desc_refl i)
      have e1 : j ≠ i * 2 := fun e => hj (e ▸ desc_left i)
      have e2 : j ≠ i * 2 + 1 := fun e => hj (e ▸ desc_right i)
      simp only [setAt, if_neg e0, if_neg e1, if_neg e2, and_self]
  | leaf _ _ hd hs => omega
  | node _ _ _ _ hd hl hr hs =>
    have hd2 : ¬ t.dirty i ≠ 0 := fun h => h hd
    exact ⟨t, by simp only [push_down, if_neg hb1, if_neg hd2], hd, rfl, hl, hr,
      fun j _ => ⟨rfl, rfl⟩⟩

/-- The function `init_tree` returns with every cell holding the value `1<<1`. -/
theorem init_tree_spec (fuel : Nat) : ∀ (i l r : Nat) (t : Tree), r - l < fuel → 1 ≤ i →
    l ≤ r → Fits i l r →
    ∃ t1, init_tree fuel i l r t = some t1 ∧ Rep t1 (fun _ => 2) i l r ∧
      ∀ j, ¬ desc i j → t1.seg_tree j = t.seg_tree j ∧ t1.dirty j = t.dirty j := by
  induction fuel with
  | zero => intro i l r t h; omega
  | succ fuel ih =>
    intro i l r t hfuel hi hlr hfit
    have hb1 : ¬ MAX_N * 4 ≤ i := Nat.not_le.mpr hfit.1
    by_cases heq : l = r
    · subst heq
      refine ⟨_, by simp only [init_tree, if_neg hb1, if_true]; rfl, ?_, ?_⟩
      · exact Rep.leaf _ _ (by simp [setAt]) (by simp [setAt])
      · intro j hj
        have e0 : j ≠ i := fun e => hj (e ▸ desc_refl i)
        simp only [setAt, if_neg e0, and_self]
    · have hlt : l < r := by omega
      have hb2 : ¬ MAX_N * 4 ≤ i * 2 + 1 := Nat.not_le.mpr (Fits.child hfit hlt)
      obtain ⟨t1, e1, r1, f1⟩ := ih (i * 2) l ((l + r) / 2)
        { seg_tree := t.seg_tree, dirty := setAt t.dirty i 0 } (by omega) (by omega) (by omega)
        (Fits.left hfit hlt)
      obtain ⟨t2, e2, r2, f2⟩ := ih (i * 2 + 1) ((l + r) / 2 + 1) r t1 (by omega) (by omega)
        (by omega) (Fits.right hfit hlt)
      have nl : ¬ desc (i * 2) i := fun h => by have := desc_le h; omega
      have nr : ¬ desc (i * 2 + 1) i := fun h => by have := desc_le h; omega
      have el : i * 2 ≠ i := by omega
      have er : i * 2 + 1 ≠ i := by omega
      refine ⟨_, by simp only [init_tree, if_neg hb1, if_neg heq, e1, e2, Option.some_bind,
        if_neg hb2]; rfl, ?_, ?_⟩
      · refine Rep.node _ _ _ hlt ?_ ?_ ?_ ?_
        · show t2.dirty i = 0
          rw [(f2 i nr).2, (f1 i nl).2]
          simp [setAt]
        · refine Rep.frame (t := t2) ?_ ?_
          · exact Rep.frame r1 (fun j hj => f2 j (fun h => desc_disjoint hi hj h))
          · intro j hj
            have e0 : j ≠ i := fun e => nl (e ▸ hj)
            simp only [setAt, if_neg e0, and_self]
        · refine Rep.frame r2 ?_
          intro j hj
          have e0 : j ≠ i := fun e => nr (e ▸ hj)
          simp only [setAt, if_neg e0, and_self]
        · simp only [setAt, if_neg el, if_neg er, if_true, merge]
      · intro j hj
        have e0 : j ≠ i := fun e => hj (e ▸ desc_refl i)
        have n1 : ¬ desc (i * 2) j := fun h => hj (desc_trans (desc_left i) h)
        have n2 : ¬ desc (i * 2 + 1) j := fun h => hj (desc_trans (desc_right i) h)
        simp only [setAt, if_neg e0]
        rw [(f2 j n2).1, (f1 j n1).1, (f2 j n2).2, (f1 j n1).2]
        simp only [setAt, if_neg e0, and_self]

/-- The function `update_tree` returns, and the tree then represents the painted cells. -/
theorem update_tree_spec (lu ru val : Nat) (hval : val ≠ 0) (fuel : Nat) :
    ∀ (i l r : Nat) (t : Tree) (col : Nat → Nat), r - l < fuel → 1 ≤ i → Fits i l r →
      Rep t col i l r → lu ≤ r → l ≤ ru →
      ∃ t1, update_tree fuel lu ru l r i val t = some t1 ∧
        Rep t1 (paint col lu ru val) i l r ∧
        ∀ j, ¬ desc i j → t1.seg_tree j = t.seg_tree j ∧ t1.dirty j = t.dirty j := by
  induction fuel with
  | zero => intro i l r t col h; omega
  | succ fuel ih =>
    intro i l r t col hfuel hi hfit hrep h1 h2
    have hb1 : ¬ MAX_N * 4 ≤ i := Nat.not_le.mpr hfit.1
    have hle := hrep.le
    by_cases hcov : lu ≤ l ∧ r ≤ ru
    · refine ⟨_, by simp only [update_tree, if_neg hb1, if_pos hcov]; rfl, ?_, ?_⟩
      · refine Rep.pending _ _ _ hle ?_ ?_ ?_
        · simp only [setAt, if_true]
          exact hval
        · simp only [setAt, if_true]
        · intro x hx1 hx2
          have hc : lu ≤ x ∧ x ≤ ru := ⟨by omega, by omega⟩
          simp only [paint, if_pos hc, setAt, if_true]
      · intro j hj
        have e0 : j ≠ i := fun e => hj (e ▸ desc_refl i)
        simp only [setAt, if_neg e0, and_self]
    · have hlt : l < r := by omega
      have hb2 : ¬ MAX_N * 4 ≤ i * 2 + 1 := Nat.not_le.mpr (Fits.child hfit hlt)
      obtain ⟨t1, e1, d1, _, rl, rr, f1⟩ := push_down_spec hrep hi hlt hfit
      have nl : ¬ desc (i * 2) i := fun h => by have := desc_le h; omega
      have nr : ¬ desc (i * 2 + 1) i := fun h => by have := desc_le h; omega
      have el : i * 2 ≠ i := by omega
      have er : i * 2 + 1 ≠ i := by omega
      have L : ∃ t2, (if lu ≤ (l + r) / 2
            then update_tree fuel lu ru l ((l + r) / 2) (i * 2) val t1 else some t1) = some t2 ∧
          Rep t2 (paint col lu ru val) (i * 2) l ((l + r) / 2) ∧
          ∀ j, ¬ desc (i * 2) j → t2.seg_tree j = t1.seg_tree j ∧ t2.dirty j = t1.dirty j := by
        by_cases hc : lu ≤ (l + r) / 2
        · obtain ⟨t2, e2, r2, f2⟩ := ih (i * 2) l ((l + r) / 2) t1 col (by omega) (by omega)
            (Fits.left hfit hlt) rl hc h2
          exact ⟨t2, by rw [if_pos hc]; exact e2, r2, f2⟩
        · refine ⟨t1, by rw [if_neg hc], Rep.congr rl ?_, fun j _ => ⟨rfl, rfl⟩⟩
          intro x hx1 hx2
          have hn : ¬ (lu ≤ x ∧ x ≤ ru) := by omega
          simp only [paint, if_neg hn]
      obtain ⟨t2, e2, r2, f2⟩ := L
      have rr2 : Rep t2 col (i * 2 + 1) ((l + r) / 2 + 1) r :=
        Rep.frame rr (fun j hj => f2 j (fun h => desc_disjoint hi h hj))
      have R : ∃ t3, (if (l + r) / 2 < ru
            then update_tree fuel lu ru ((l + r) / 2 + 1) r (i * 2 + 1) val t2 else some t2)
            = some t3 ∧
          Rep t3 (paint col lu ru val) (i * 2 + 1) ((l + r) / 2 + 1) r ∧
          ∀ j, ¬ desc (i * 2 + 1) j → t3.seg_tree j = t2.seg_tree j ∧ t3.dirty j = t2.dirty j := by
        by_cases hc : (l + r) / 2 < ru
        · obtain ⟨t3, e3, r3, f3⟩ := ih (i * 2 + 1) ((l + r) / 2 + 1) r t2 col (by omega)
            (by omega) (Fits.right hfit hlt) rr2 h1 (by omega)
          exact ⟨t3, by rw [if_pos hc]; exact e3, r3, f3⟩
        · refine ⟨t2, by rw [if_neg hc], Rep.congr rr2 ?_, fun j _ => ⟨rfl, rfl⟩⟩
          intro x hx1 hx2
          have hn : ¬ (lu ≤ x ∧ x ≤ ru) := by omega
          simp only [paint, if_neg hn]
      obtain ⟨t3, e3, r3, f3⟩ := R
      have rl3 : Rep t3 (paint col lu ru val) (i * 2) l ((l + r) / 2) :=
        Rep.frame r2 (fun j hj => f3 j (fun h => desc_disjoint hi hj h))
      refine ⟨_, by simp only [update_tree, if_neg hb1, if_neg hcov, e1, Option.some_bind, e2,
        e3, if_neg hb2]; rfl, ?_, ?_⟩
      · refine Rep.node _ _ _ hlt ?_ ?_ ?_ ?_
        · show t3.dirty i = 0
          rw [(f3 i nr).2, (f2 i nl).2]
          exact d1
        · refine Rep.frame rl3 ?_
          intro j hj
          have e0 : j ≠ i := fun e => nl (e ▸ hj)
          simp only [setAt, if_neg e0, and_self]
        · refine Rep.frame r3 ?_
          intro j hj
          have e0 : j ≠ i := fun e => nr (e ▸ hj)
          simp only [setAt, if_neg e0, and_self]
        · simp only [setAt, if_neg el, if_neg er, if_true, merge]
      · intro j hj
        have e0 : j ≠ i := fun e => hj (e ▸ desc_refl i)
        have n1 : ¬ desc (i * 2) j := fun h => hj (desc_trans (desc_left i) h)
        have n2 : ¬ desc (i * 2 + 1) j := fun h => hj (desc_trans (desc_right i) h)
        simp only [setAt, if_neg e0]
        rw [(f3 j n2).1, (f2 j n1).1, (f3 j n2).2, (f2 j n1).2]
        exact f1 j hj

/-- The function `query_tree` returns the OR of the cell values over the part of the
query range inside the node, and the tree represents the same cells afterwards. -/
theorem query_tree_spec (lq rq : Nat) (hq : lq ≤ rq) (fuel : Nat) :
    ∀ (i l r : Nat) (t : Tree) (col : Nat → Nat), r - l < fuel → 1 ≤ i → Fits i l r →
      Rep t col i l r → lq ≤ r → l ≤ rq →
      ∃ t1, query_tree fuel lq rq l r i t = some (orRange col (max l lq) (min r rq), t1) ∧
        Rep t1 col i l r ∧
        ∀ j, ¬ desc i j → t1.seg_tree j = t.seg_tree j ∧ t1.dirty j = t.dirty j := by
  induction fuel with
  | zero => intro i l r t col h; omega
  | succ fuel ih =>
    intro i l r t col hfuel hi hfit hrep h1 h2
    have hb1 : ¬ MAX_N * 4 ≤ i := Nat.not_le.mpr hfit.1
    have hle := hrep.le
    by_cases hcov : lq ≤ l ∧ r ≤ rq
    · have em1 : max l lq = l := by omega
      have em2 : min r rq = r := by omega
      refine ⟨t, ?_, hrep, fun j _ => ⟨rfl, rfl⟩⟩
      simp only [query_tree, if_neg hb1, if_pos hcov, em1, em2, hrep.seg]
    · have hlt : l < r := by omega
      obtain ⟨t1, e1, d1, s1, rl, rr, f1⟩ := push_down_spec hrep hi hlt hfit
      have nl : ¬ desc (i * 2) i := fun h => by have := desc_le h; omega
      have nr : ¬ desc (i * 2 + 1) i := fun h => by have := desc_le h; omega
      have L : ∃ t2, (if lq ≤ (l + r) / 2
            then (query_tree fuel lq rq l ((l + r) / 2) (i * 2) t1).map
              (fun p => (merge 0 p.1, p.2))
            else some (0, t1))
            = some (if lq ≤ (l + r) / 2 then orRange col (max l lq) (min ((l + r) / 2) rq)
                else 0, t2) ∧
          Rep t2 col (i * 2) l ((l + r) / 2) ∧
          ∀ j, ¬ desc (i * 2) j → t2.seg_tree j = t1.seg_tree j ∧ t2.dirty j = t1.dirty j := by
        by_cases hc : lq ≤ (l + r) / 2
        · obtain ⟨t2, e2, r2, f2⟩ := ih (i * 2) l ((l + r) / 2) t1 col (by omega) (by omega)
            (Fits.left hfit hlt) rl hc h2
          refine ⟨t2, ?_, r2, f2⟩
          simp only [if_pos hc, e2, Option.map_some', merge, Nat.zero_or]
        · exact ⟨t1, by simp only [if_neg hc], rl, fun j _ => ⟨rfl, rfl⟩⟩
      obtain ⟨t2, e2, r2, f2⟩ := L
      have rr2 : Rep t2 col (i * 2 + 1) ((l + r) / 2 + 1) r :=
        Rep.frame rr (fun j hj => f2 j (fun h => desc_disjoint hi h hj))
      have R : ∃ t3, (if (l + r) / 2 < rq
            then (query_tree fuel lq rq ((l + r) / 2 + 1) r (i * 2 + 1) t2).map
              (fun p => (merge (if lq ≤ (l + r) / 2
                then orRange col (max l lq) (min ((l + r) / 2) rq) else 0) p.1, p.2))
            else some (if lq ≤ (l + r) / 2
                then orRange col (max l lq) (min ((l + r) / 2) rq) else 0, t2))
            = some (orRange col (max l lq) (min r rq), t3) ∧
          Rep t3 col (i * 2 + 1) ((l + r) / 2 + 1) r ∧
          ∀ j, ¬ desc (i * 2 + 1) j → t3.seg_tree j = t2.seg_tree j ∧ t3.dirty j = t2.dirty j := by
        by_cases hc : (l + r) / 2 < rq
        · obtain ⟨t3, e3, r3, f3⟩ := ih (i * 2 + 1) ((l + r) / 2 + 1) r t2 col (by omega)
            (by omega) (Fits.right hfit hlt) rr2 h1 (by omega)
          refine ⟨t3, ?_, r3, f3⟩
          simp only [if_pos hc, e3, Option.map_some', merge]
          by_cases hc2 : lq ≤ (l + r) / 2
          · have em1 : min ((l + r) / 2) rq = (l + r) / 2 := by omega
            have em2 : max ((l + r) / 2 + 1) lq = (l + r) / 2 + 1 := by omega
            rw [if_pos hc2, em1, em2, orRange_split col _ _ _ (by omega) (by omega)]
          · have em2 : max ((l + r) / 2 + 1) lq = max l lq := by omega
            rw [if_neg hc2, em2, Nat.zero_or]
        · have hc2 : lq ≤ (l + r) / 2 := by omega
          have em1 : min ((l + r) / 2) rq = min r rq := by omega
          exact ⟨t2, by simp only [if_neg hc, if_pos hc2, em1], rr2, fun j _ => ⟨rfl, rfl⟩⟩
      obtain ⟨t3, e3, r3, f3⟩ := R
      have rl3 : Rep t3 col (i * 2) l ((l + r) / 2) :=
        Rep.frame r2 (fun j hj => f3 j (fun h => desc_disjoint hi hj h))
      refine ⟨t3, ?_, ?_, ?_⟩
      · simp only [query_tree, if_neg hb1, if_neg hcov, e1, Option.some_bind, e2]
        exact e3
      · refine Rep.node _ _ _ hlt ?_ rl3 r3 ?_
        · rw [(f3 i nr).2, (f2 i nl).2]
          exact d1
        · rw [(f3 i nr).1, (f2 i nl).1, s1, hrep.seg, rl3.seg, r3.seg]
          exact (orRange_split col l _ r (by omega) (by omega)).symm
      · intro j hj
        have n1 : ¬ desc (i * 2) j := fun h => hj (desc_trans (desc_left i) h)
        have n2 : ¬ desc (i * 2 + 1) j := fun h => hj (desc_trans (desc_right i) h)
        rw [(f3 j n2).1, (f2 j n1).1, (f3 j n2).2, (f2 j n1).2]
        exact f1 j hj

end P2777

namespace P2777

theorem bitsBelow_zero (n : Nat) : bitsBelow n 0 = 0 := by
  simp [bitsBelow]

theorem bitsBelow_succ (n x : Nat) :
    bitsBelow (n + 1) x = (if x % 2 = 1 then 1 else 0) + bitsBelow n (x / 2) := by
  unfold bitsBelow
  rw [Finset.card_filter, Finset.card_filter, Finset.sum_range_succ']
  simp only [Nat.testBit_succ, Nat.testBit_zero, decide_eq_true_eq]
  omega

theorem bitcntLoop_spec (fuel : Nat) : ∀ x c, x < 2 ^ fuel →
    bitcntLoop fuel x c = some (c + bitsBelow fuel x) := by
  induction fuel with
  | zero =>
    intro x c h
    have h0 : x = 0 := by simpa using h
    subst h0
    simp [bitcntLoop, bitsBelow]
  | succ fuel ih =>
    intro x c h
    by_cases h0 : x = 0
    · subst h0
      simp [bitcntLoop, bitsBelow_zero]
    · have hx : x >>> 1 < 2 ^ fuel := by
        rw [Nat.shiftRight_eq_div_pow, pow_one]
        rw [pow_succ] at h
        omega
      have e : x >>> 1 = x / 2 := by rw [Nat.shiftRight_eq_div_pow, pow_one]
      simp only [bitcntLoop, ne_eq, h0, not_false_eq_true, if_true]
      rw [ih _ _ hx, bitsBelow_succ, e, Nat.and_one_is_mod]
      rcases Nat.mod_two_eq_zero_or_one x with h2 | h2
      · simp [h2]
      · simp [h2]
        omega

theorem testBit_orFrom (col : Nat → Nat) (l k : Nat) : ∀ n,
    ((orFrom col l n).testBit k = true ↔ ∃ j, j < n ∧ (col (l + j)).testBit k = true) := by
  intro n
  induction n with
  | zero => simp [orFrom]
  | succ n ih =>
    show (orFrom col l n ||| col (l + n)).testBit k = true ↔ _
    rw [Nat.testBit_or, Bool.or_eq_true, ih]
    constructor
    · rintro (⟨j, hj, h⟩ | h)
      · exact ⟨j, by omega, h⟩
      · exact ⟨n, by omega, h⟩
    · rintro ⟨j, hj, h⟩
      by_cases e : j = n
      · subst e
        exact Or.inr h
      · exact Or.inl ⟨j, by omega, h⟩

theorem orFrom_lt (col : Nat → Nat) (l m : Nat) : ∀ n, (∀ j, j < n → col (l + j) < 2 ^ m) →
    orFrom col l n < 2 ^ m := by
  intro n
  induction n with
  | zero =>
    intro _
    exact Nat.pow_pos (by decide)
  | succ n ih =>
    intro h
    exact Nat.or_lt_two_pow (ih (fun j hj => h j (by omega))) (h n (by omega))

/-- The function `bitcnt` counts the distinct colours of a range from the OR of their
bits. -/
theorem bitcnt_orRange (c : Nat → Nat) (hc : ∀ x, c x ≤ 30) (fuel l r : Nat)
    (hf : 31 ≤ fuel) :
    bitcnt fuel (orRange (fun x => 2 ^ c x) l r) = some (distinct c l r) := by
  have hlt : orRange (fun x => 2 ^ c x) l r < 2 ^ fuel := by
    apply orFrom_lt
    intro j _
    exact Nat.pow_lt_pow_right (by decide) (by have := hc (l + j); omega)
  unfold bitcnt
  rw [bitcntLoop_spec fuel _ _ hlt, Nat.zero_add]
  congr 1
  unfold bitsBelow distinct
  congr 1
  ext k
  simp only [Finset.mem_filter, Finset.mem_range, Finset.mem_image, Finset.mem_Icc]
  unfold orRange
  rw [testBit_orFrom]
  constructor
  · rintro ⟨_, j, hj, h⟩
    rw [Nat.testBit_two_pow] at h
    exact ⟨l + j, ⟨by omega, by omega⟩, by simpa using h⟩
  · rintro ⟨y, ⟨h1, h2⟩, h⟩
    refine ⟨by have := hc y; omega, y - l, by omega, ?_⟩
    have e : l + (y - l) = y := by omega
    rw [e, Nat.testBit_two_pow]
    simpa using h

theorem fits_root (L : Nat) (hL : L ≤ MAX_N) : Fits 1 1 L := by
  have hM : MAX_N = 100002 := rfl
  rw [hM] at hL
  refine ⟨by rw [hM]; omega, ?_⟩
  rw [hM]
  omega

/-- The loop of `main` keeps the tree a representation of the colours painted so far and
prints the number of distinct colours at every query. -/
theorem operations_spec (L fuel : Nat) (h1 : 1 ≤ L) (hL : L ≤ MAX_N) (hf : L ≤ fuel)
    (hf2 : 31 ≤ fuel) : ∀ (ops : List (Bool × Nat × Nat × Nat)) (t : Tree) (c : Nat → Nat),
    Rep t (fun x => 2 ^ c x) 1 1 L → (∀ x, c x ≤ 30) →
    (∀ op, op ∈ ops → 1 ≤ op.2.1 ∧ op.2.1 ≤ L ∧ 1 ≤ op.2.2.1 ∧ op.2.2.1 ≤ L ∧
      (op.1 = false → op.2.2.2 ≤ 30)) →
    ∃ t1, operations fuel L ops t = some (answers ops c, t1) ∧
      Rep t1 (fun x => 2 ^ colourAfter ops c x) 1 1 L ∧ ∀ x, colourAfter ops c x ≤ 30 := by
  intro ops
  induction ops with
  | nil =>
    intro t c hrep hc _
    exact ⟨t, rfl, hrep, hc⟩
  | cons op ops ih =>
    intro t c hrep hc hops
    obtain ⟨ha, hb, hc1, hd, he⟩ := hops op (List.mem_cons_self _ _)
    have hrest := fun o (ho : o ∈ ops) => hops o (List.mem_cons_of_mem _ ho)
    obtain ⟨isP, l, r, k⟩ := op
    simp only at ha hb hc1 hd he
    cases isP with
    | true =>
      have hq : (if r < l then r else l) ≤ (if r < l then l else r) := by split <;> omega
      obtain ⟨t1, e1, r1, _⟩ := query_tree_spec _ _ hq fuel 1 1 L t _ (by omega)
        (Nat.le_refl 1) (fits_root L hL) hrep (by split <;> omega) (by split <;> omega)
      have em1 : max 1 (if r < l then r else l) = min l r := by split <;> omega
      have em2 : min L (if r < l then l else r) = max l r := by split <;> omega
      rw [em1, em2] at e1
      obtain ⟨t2, e2, r2, c2⟩ := ih t1 c r1 hc hrest
      refine ⟨t2, ?_, r2, c2⟩
      simp only [operations, operation, if_true, e1, Option.some_bind,
        bitcnt_orRange c hc fuel _ _ hf2, Option.map_some', e2, answers]
      rfl
    | false =>
      have hk : k ≤ 30 := he rfl
      have hk2 : ¬ 30 < k := by omega
      have hval : 1 <<< k ≠ 0 := by
        rw [Nat.one_shiftLeft]
        exact Nat.pos_iff_ne_zero.mp (Nat.pow_pos (by decide))
      obtain ⟨t1, e1, r1, _⟩ := update_tree_spec (if r < l then r else l)
        (if r < l then l else r) (1 <<< k) hval fuel 1 1 L t _ (by omega)
        (Nat.le_refl 1) (fits_root L hL) hrep (by split <;> omega) (by split <;> omega)
      have hc3 : ∀ x, (if (l ≤ x ∧ x ≤ r) ∨ (r ≤ x ∧ x ≤ l) then k else c x) ≤ 30 := by
        intro x
        split
        · exact hk
        · exact hc x
      have r1b : Rep t1 (fun x => 2 ^ (if (l ≤ x ∧ x ≤ r) ∨ (r ≤ x ∧ x ≤ l) then k else c x))
          1 1 L := by
        refine Rep.congr r1 ?_
        intro x _ _
        simp only [paint, Nat.one_shiftLeft]
        by_cases hrl : r < l
        · simp only [if_pos hrl]
          by_cases hx : r ≤ x ∧ x ≤ l
          · have hx2 : (l ≤ x ∧ x ≤ r) ∨ (r ≤ x ∧ x ≤ l) := Or.inr hx
            rw [if_pos hx, if_pos hx2]
          · have hx2 : ¬ ((l ≤ x ∧ x ≤ r) ∨ (r ≤ x ∧ x ≤ l)) := by omega
            rw [if_neg hx, if_neg hx2]
        · simp only [if_neg hrl]
          by_cases hx : l ≤ x ∧ x ≤ r
          · have hx2 : (l ≤ x ∧ x ≤ r) ∨ (r ≤ x ∧ x ≤ l) := Or.inl hx
            rw [if_pos hx, if_pos hx2]
          · have hx2 : ¬ ((l ≤ x ∧ x ≤ r) ∨ (r ≤ x ∧ x ≤ l)) := by omega
            rw [if_neg hx, if_neg hx2]
      obtain ⟨t2, e2, r2, c2⟩ := ih t1 _ r1b hc3 hrest
      refine ⟨t2, ?_, r2, c2⟩
      simp only [operations, operation, Bool.false_eq_true, if_false, if_neg hk2, e1,
        Option.map_some', Option.some_bind, e2, answers]
      rfl

/-- Claim C33: for `1 <= L <= MAX_N`, after `init_tree(1, 1, L)` and any sequence of
operations of `main` with bounds in `[1, L]` and paint colours up to 30, `main` has printed
at every query the number of distinct colours in its range, and a query
`query_tree(l, r, 1, L, 1)` with `1 <= l <= r <= L` returns the OR of `1<<colour` over the
cells of `[l, r]`, where a cell's colour is that of the last paint covering it and 1 if
never painted; `bitcnt` of that value is the number of distinct colours in the range. -/
theorem lazy_tree_counts_colours (L : Nat) (ops : List (Bool × Nat × Nat × Nat)) (fuel : Nat)
    (h1 : 1 ≤ L) (hL : L ≤ MAX_N) (hf : L ≤ fuel) (hf2 : 31 ≤ fuel)
    (hops : ∀ op, op ∈ ops → 1 ≤ op.2.1 ∧ op.2.1 ≤ L ∧ 1 ≤ op.2.2.1 ∧ op.2.2.1 ≤ L ∧
      (op.1 = false → op.2.2.2 ≤ 30)) :
    ∃ t, main fuel L ops = some (answers ops (fun _ => 1), t) ∧
      ∀ l r, 1 ≤ l → l ≤ r → r ≤ L →
        ∃ t1, query_tree fuel l r 1 L 1 t
            = some (orRange (fun x => 1 <<< colourAfter ops (fun _ => 1) x) l r, t1) ∧
          bitcnt fuel (orRange (fun x => 1 <<< colourAfter ops (fun _ => 1) x) l r)
            = some (distinct (colourAfter ops (fun _ => 1)) l r) := by
  obtain ⟨t0, e0, r0, _⟩ := init_tree_spec fuel 1 1 L start (by omega) (Nat.le_refl 1) h1
    (fits_root L hL)
  have r0b : Rep t0 (fun x => 2 ^ (fun _ => 1 : Nat → Nat) x) 1 1 L :=
    Rep.congr r0 (fun _ _ _ => rfl)
  obtain ⟨t, e, r, hc⟩ := operations_spec L fuel h1 hL hf hf2 ops t0 (fun _ => 1) r0b
    (fun _ => (by decide : 1 ≤ 30)) hops
  refine ⟨t, by simp only [main, e0, Option.some_bind, e], ?_⟩
  intro l r2 hl hlr hr
  have efun : (fun x => 1 <<< colourAfter ops (fun _ => 1) x)
      = (fun x => 2 ^ colourAfter ops (fun _ => 1) x) := by
    funext x
    exact Nat.one_shiftLeft _
  rw [efun]
  obtain ⟨t1, e1, _, _⟩ := query_tree_spec l r2 hlr fuel 1 1 L t _ (by omega)
    (Nat.le_refl 1) (fits_root L hL) r (by omega) (by omega)
  have em1 : max 1 l = l := by omega
  have em2 : min L r2 = r2 := by omega
  rw [em1, em2] at e1
  exact ⟨t1, e1, bitcnt_orRange _ hc fuel l r2 hf2⟩

/-- Claim C33, witness: five cells, one paint of cells 2 to 3 with colour 4, one query. -/
theorem lazy_tree_counts_colours_witness :
    (1 ≤ 5 ∧ 5 ≤ MAX_N ∧ 5 ≤ 31 ∧ 31 ≤ 31 ∧
      ∀ op, op ∈ [(false, 2, 3, 4), (true, 1, 5, 0)] →
        1 ≤ op.2.1 ∧ op.2.1 ≤ 5 ∧ 1 ≤ op.2.2.1 ∧ op.2.2.1 ≤ 5 ∧
        (op.1 = false → op.2.2.2 ≤ 30)) ∧
    ∃ t, main 31 5 [(false, 2, 3, 4), (true, 1, 5, 0)]
        = some (answers [(false, 2, 3, 4), (true, 1, 5, 0)] (fun _ => 1), t) ∧
      ∀ l r, 1 ≤ l → l ≤ r → r ≤ 5 →
        ∃ t1, query_tree 31 l r 1 5 1 t
            = some (orRange (fun x => 1 <<<
                colourAfter [(false, 2, 3, 4), (true, 1, 5, 0)] (fun _ => 1) x) l r, t1) ∧
          bitcnt 31 (orRange (fun x => 1 <<<
                colourAfter [(false, 2, 3, 4), (true, 1, 5, 0)] (fun _ => 1) x) l r)
            = some (distinct (colourAfter [(false, 2, 3, 4), (true, 1, 5, 0)] (fun _ => 1))
                l r) :=
  ⟨⟨by decide, by decide, by decide, by decide, by decide⟩,
    lazy_tree_counts_colours 5 [(false, 2, 3, 4), (true, 1, 5, 0)] 31 (by decide) (by decide)
      (by decide) (by decide) (by decide)⟩

set_option maxRecDepth 1000000 in
/-- A run of `main` of 2777.c on five cells: paint 2 to 3 with colour 4, query 1 to 5, paint
5 to 1 with colour 7, query 4 to 2; the numbers printed are 2 and 1. -/
theorem main_prints_example :
    (main 31 5 [(false, 2, 3, 4), (true, 1, 5, 0), (false, 5, 1, 7), (true, 4, 2, 0)]).map
      (fun p => p.1) = some [2, 1] := by
  decide

end P2777

namespace P3415

/-- Every layer of such a stack is the layer of a block. -/
theorem Tight.mem (g : Prog) (opens : Nat → Bool) (i s : Nat) :
    ∀ (st : List (Nat × Nat)) (e : Nat), Tight g opens i s e st → ∀ fr, fr ∈ st →
      ∃ lo e1, s ≤ lo ∧ lo < e1 ∧ e1 ≤ e ∧ fr.1 = opened g opens lo e1 ∧
        fr.2 = lowest g.mem.height (lo - 1) (i - lo) ∧ fr.2 = g.mem.height (e1 - 1) := by
  intro st
  induction st with
  | nil =>
    intro e _ fr hfr
    exact absurd hfr (List.not_mem_nil fr)
  | cons top rest ih =>
    rintro e ⟨lo, h1, h2, h3, h4, h5, h6⟩ fr hfr
    rcases List.mem_cons.1 hfr with e1 | e1
    · rw [e1]
      exact ⟨lo, e, h1, h2, Nat.le_refl _, h4, h5, h6⟩
    · obtain ⟨lo2, e2, a1, a2, a3, a4, a5, a6⟩ := ih lo h3 fr e1
      exact ⟨lo2, e2, a1, a2, by omega, a4, a5, a6⟩

end P3415

namespace P3415

end P3415

namespace P3294

/-- C13, amended: `init_suffix_array` does not check its input and has no error to fail
with; that every element of the sequence is below the range is left to the caller, and
`main` of 3294.c keeps it: for every valid input, whatever the globals held before, `main`
calls `init_suffix_array(str, str_len, 127)` on a text whose `str_len` elements are all
below 127, and the call returns with the arrays. -/
theorem init_input_below_range (strs : List (List Nat)) (g0 : Prog) (hv : Valid strs) :
    ∃ g, load strs g0 = some g ∧
      init_suffix_array ARR_SIZE g.str g.str_len 127 g0.mem = some g.mem ∧
      ∀ p, p < g.str_len → g.str p < 127 := by
  obtain ⟨g, e, hl⟩ := load_spec strs g0 hv
  refine ⟨g, e, ?_, ?_⟩
  · unfold load at e
    simp only at e
    cases hm : init_suffix_array ARR_SIZE
        (setAt (readStrings 0 strs (g0.belong, g0.str, 0)).2.1
          ((readStrings 0 strs (g0.belong, g0.str, 0)).2.2 - 1) 0)
        (readStrings 0 strs (g0.belong, g0.str, 0)).2.2 127 g0.mem with
    | none =>
      rw [hm] at e
      exact absurd e (by simp)
    | some m =>
      rw [hm, Option.map_some'] at e
      have e1 := Option.some.inj e
      rw [← e1]
      exact hm
  · intro p hp
    have hN : strs.length ≤ 101 := hv.2.1
    rcases hl.value hv p hp with ⟨_, _, _, _, _, _, h1, _⟩ | ⟨t, h1, _, h2⟩ | ⟨_, h1⟩
    · omega
    · omega
    · omega

theorem init_input_below_range_witness :
    Valid [[97], [97]] ∧
    ∃ g, load [[97], [97]] start = some g ∧
      init_suffix_array ARR_SIZE g.str g.str_len 127 start.mem = some g.mem ∧
      ∀ p, p < g.str_len → g.str p < 127 :=
  ⟨by decide, init_input_below_range [[97], [97]] start (by decide)⟩

end P3294

set_option maxRecDepth 1000000 in
/-- C3, at the second test case of the input `2 ab b 2 a a 0`: the text has length 4,
`suffix[0]` is 3 and `rank[3]` still holds the 2 that the first test case wrote, so
`rank[suffix[0]]` is not 0. -/
theorem rank_stale_at_first :
    ((P3294.load [[97, 98], [98]] P3294.start).bind (P3294.load [[97], [97]])).map
      (fun g => (g.str_len, g.mem.suffix 0, g.mem.rank (g.mem.suffix 0))) = some (4, 3, 2) := by
  decide!

set_option maxRecDepth 1000000 in
/-- C5, at the second test case of the input `1 aaa b 1 b a 0`: `solve(1)` is 1, although
`b` and `a` have no common substring and the brute-force sum is 0. -/
theorem solve_second_case :
    ((P3415.load [97, 97, 97] [98] P3415.start).bind (P3415.load [98] [97])).map
      (fun g => P3415.solve g 1) = some 1 ∧ lengthSum [98] [97] 1 = 0 := by
  decide!

set_option maxRecDepth 1000000 in
/-- C6 fails at `A = B = aa`, `K = 1`, on a program that has just started: `solve(1)` is
5, the number of pairs whose common prefix has length at least 1 is 4. -/
theorem solve_counts_lengths :
    (P3415.load [97, 97] [97, 97] P3415.start).map (fun g => P3415.solve g 1) = some 5 ∧
      pairCount [97, 97] [97, 97] 1 = 4 := by
  decide!

set_option maxRecDepth 1000000 in
/-- C9 fails at the input `2 a a` with `L = 1` and `L' = 0`: `check(1)` is 1 and
`check(0)` is 0. -/
theorem check_zero_fails :
    (P3294.load [[97], [97]] P3294.start).map (fun g => (P3294.check g 1, P3294.check g 0))
      = some (1, 0) := by
  decide!

set_option maxRecDepth 1000000 in
/-- C13 fails at the call `init_suffix_array({5, 0}, 2, 3)` on zeroed buffers, whose first
element is not below the range 3: the function returns and leaves the arrays
`suffix = {1, 0}` and `height[1] = 0`; it has no error to fail with. -/
theorem init_takes_any_value :
    (init_suffix_array P3294.ARR_SIZE (ofList [5, 0]) 2 3 zeroMem).map
      (fun m => (m.suffix 0, m.suffix 1, m.height 1)) = some (1, 0, 0) := by
  decide!

set_option maxRecDepth 1000000 in
/-- C16 fails at the input `3 xy yz zx` on a program that has just started: `check(1)` is
1 and the binary search ends with the length 1, not 0. -/
theorem check_xy_yz_zx :
    (P3294.load [[120, 121], [121, 122], [122, 120]] P3294.start).map
      (fun g => (P3294.check g 1, P3294.longest g)) = some (1, some 1) := by
  decide!

set_option maxRecDepth 1000000 in
/-- C17 fails at the second test case of the input `1 aaaaa a 2 a a 0`: with
`A = B = a` and `K = 2`, beyond the length 1 of the string, `solve(2)` is 4. -/
theorem solve_stale_beyond_length :
    ((P3415.load [97, 97, 97, 97, 97] [97] P3415.start).bind (P3415.load [97] [97])).map
      (fun g => P3415.solve g 2) = some 4 := by
  decide!

set_option maxRecDepth 1000000 in
/-- C19 fails at the input `2 a a`: the text has 4 places, the first string is ended by
27 at place 1 and the last string by 0 at place 3, which is not above the characters. -/
theorem last_sentinel_zero :
    (P3294.load [[97], [97]] P3294.start).map (fun g => (g.str_len, g.str 1, g.str 3))
      = some (4, 27, 0) := by
  decide!

set_option maxRecDepth 1000000 in
/-- C24 fails at the text `1, 2`, whose last element occurs once but is not the smallest:
the sorted order is `suffix = [0, 1]`, the loop of line 155 writes `rank[1]` only, so on a
program that has just started `rank[0]` is 0 and the height loop reads `suffix[-1]`. -/
theorem rank_zero_unique_last :
    (let f := firstSort (ofList [1, 2]) 2 127 zeroMem.fst_buf zeroMem.bucket zeroMem.suffix
     (doubling 2 2 1
        { suffix := f.2.2, bucket := f.2.1, fst_key := f.1, snd_key := zeroMem.snd_buf,
          swapped := false, p := 1, range := 127 }).map (fun k =>
        (k.suffix 0, k.suffix 1,
          forUp 1 (2 - 1) (fun i r => setAt r (k.suffix i) i) zeroMem.rank 0)))
      = some (0, 1, 0) ∧
    (init_suffix_array P3294.ARR_SIZE (ofList [1, 2]) 2 127 zeroMem).isSome = false := by
  decide!

set_option maxRecDepth 1000000 in
/-- C29 fails, since `print` also reads `height[str_len]`, which `init_suffix_array` does not
write. At the input `1 aa` on a program that has just started the text has 3 places,
`check(1)` returns 0 while `print(1)` writes the line `a`, and `print(1)` writes nothing
once `height[3]` holds 1. At the input `1 aaaaa 1 aabb 0` the first test case leaves 4 in
`height[5]`, and the second test case, whose text has 5 places, writes the line `a` only,
while the same test case on a program that has just started writes the lines `a` and `b`. -/
theorem print_reads_past_end :
    (P3294.load [[97, 97]] P3294.start).map (fun g =>
      (g.str_len, P3294.check g 1, P3294.print g 1 0,
        P3294.print { g with mem := { g.mem with height := setAt g.mem.height 3 1 } } 1 0))
      = some (3, 0, [[97]], []) ∧
    (P3294.load [[97, 97, 98, 98]] P3294.start).bind (fun g => P3294.report g 0)
      = some [[97], [98], []] ∧
    ((P3294.load [[97, 97, 97, 97, 97]] P3294.start).bind
        (P3294.load [[97, 97, 98, 98]])).bind (fun g => P3294.report g 0)
      = some [[97], []] := by
  decide!

end Poj
